import Mathlib

/-!
# EbsdLib orientation transformations: a verification development

The conversion routines of `Source/EbsdLib/Core/OrientationTransformation.hpp`
are embedded as functions on real numbers.  Every function below is a line by
line transcription of the C++ template of the same name, read with exact real
arithmetic in place of the binary floating-point type: rounding is not part of
the model, `+infinity` is kept only where the code produces or tests it (the
fourth Rodrigues component, an extended real), and NaN does not occur.

Library functions used by the code are read as their mathematical counterparts
(`cos`, `sin`, `tan`, `atan`, `acos`, `sqrt`, `fabs`), `atan2` as the principal
argument and `fmod` as the truncated remainder.  The rotation convention
constant `epsijk` is fixed to `+1` (passive), as the header does.  A decimal
constant of the code is read as the number it writes, except with the suffix
`f`, where it is the single-precision number that the literal denotes.

The second part embeds, in the same reading, the operator tables, the accessors, the
cubic misorientation, the fundamental zone of misorientations and the histogram bins of
the classes under `Source/EbsdLib/LaueOps` (`CubicOps`, `CubicLowOps`, `TetragonalOps`,
`OrthoRhombicOps`).  The third part embeds the batch conversion of
`Source/EbsdLib/OrientationMath/OrientationConverter.hpp` on arrays held in memory.
-/

namespace OrientationTransformation

/-! ## Data model -/

/-- Memory layout of a quaternion (`Quaternion<T>::Order`). -/
inductive Order where
  | ScalarVector
  | VectorScalar

/-- A three component array (Euler angles, homochoric, cubochoric). -/
structure Vec3 where
  a0 : ℝ
  a1 : ℝ
  a2 : ℝ

/-- A four component array (quaternion, axis-angle pair). -/
structure Vec4 where
  a0 : ℝ
  a1 : ℝ
  a2 : ℝ
  a3 : ℝ

/-- A Rodrigues vector: three axis components and a length that may be infinite. -/
structure Rod where
  r0 : ℝ
  r1 : ℝ
  r2 : ℝ
  r3 : EReal

/-- A row-major 3x3 matrix stored as nine values `o0 .. o8`. -/
structure Mat9 where
  o0 : ℝ
  o1 : ℝ
  o2 : ℝ
  o3 : ℝ
  o4 : ℝ
  o5 : ℝ
  o6 : ℝ
  o7 : ℝ
  o8 : ℝ

/-! ## Constants and library functions -/

/-- The constant `EbsdLib::Constants::k_PiD`. -/
noncomputable def k_PiD : ℝ := Real.pi

/-- The constant `EbsdLib::Constants::k_2PiD`. -/
noncomputable def k_2PiD : ℝ := 2 * Real.pi

/-- The constant `EbsdLib::Constants::k_PiOver2D`. -/
noncomputable def k_PiOver2D : ℝ := Real.pi / 2

/-- The constant `Rotations::Constants::epsijk` (`DREAM3D_PASSIVE_ROTATION`). -/
def epsijk : ℝ := 1

/-- Modelled from the spec: `EbsdLibMath::closeEnough(a, b, epsilon)` is declared in
`EbsdLib/Math/EbsdLibMath.h`, which is not among the sources; it is the tolerance
comparison `epsilon > fabs(a - b)` behind every "approximately equal" branch. -/
noncomputable def closeEnough (a b epsilon : ℝ) : Bool := decide (|a - b| < epsilon)

/-- The C library function `atan2(y, x)`: the angle in `(-pi, pi]` of the point `(x, y)`,
and `0` at the origin. -/
noncomputable def atan2 (y x : ℝ) : ℝ := Complex.arg ⟨x, y⟩

/-- The C library function `fmod(x, y)`: `x - n * y` with `n` the quotient `x / y`
truncated towards zero. -/
noncomputable def fmod (x y : ℝ) : ℝ :=
  x - y * (if 0 ≤ x / y then ((⌊x / y⌋ : ℤ) : ℝ) else ((⌈x / y⌉ : ℤ) : ℝ))

/-- The C library function `atan` on a value that may be infinite. -/
noncomputable def atanE (x : EReal) : ℝ :=
  if x = ⊤ then Real.pi / 2 else if x = ⊥ then -(Real.pi / 2) else Real.arctan x.toReal

/-! ## Quaternion component access -/

/-- The scalar component `q[w]`: index 3 for vector-scalar, index 0 for scalar-vector. -/
def qW (layout : Order) (q : Vec4) : ℝ :=
  match layout with
  | Order.VectorScalar => q.a3
  | Order.ScalarVector => q.a0

/-- The component `q[x]`: index 0 for vector-scalar, index 1 for scalar-vector. -/
def qX (layout : Order) (q : Vec4) : ℝ :=
  match layout with
  | Order.VectorScalar => q.a0
  | Order.ScalarVector => q.a1

/-- The component `q[y]`: index 1 for vector-scalar, index 2 for scalar-vector. -/
def qY (layout : Order) (q : Vec4) : ℝ :=
  match layout with
  | Order.VectorScalar => q.a1
  | Order.ScalarVector => q.a2

/-- The component `q[z]`: index 2 for vector-scalar, index 3 for scalar-vector. -/
def qZ (layout : Order) (q : Vec4) : ℝ :=
  match layout with
  | Order.VectorScalar => q.a2
  | Order.ScalarVector => q.a3

/-- The array written by `res[w] = w; res[x] = x; res[y] = y; res[z] = z`. -/
def mkQuat (layout : Order) (w x y z : ℝ) : Vec4 :=
  match layout with
  | Order.VectorScalar => ⟨x, y, z, w⟩
  | Order.ScalarVector => ⟨w, x, y, z⟩

/-! ## Conversions -/

/-- The body of the clean-up loop of `eu2om`: `if(fabs(om[i]) < eps) om[i] = 0.0`. -/
noncomputable def chop (eps v : ℝ) : ℝ := if |v| < eps then 0 else v

/-- Euler angles to orientation matrix (`eu2om`).  The threshold is written `1.0E-7f` in
the source: it is the single-precision number nearest to `1e-7`, which is
`14073749 * 2^-47`, about `1.0000000117e-7`. -/
noncomputable def eu2om (e : Vec3) : Mat9 :=
  let eps : ℝ := 14073749.0 / 140737488355328.0
  let c1 := Real.cos e.a0
  let c := Real.cos e.a1
  let c2 := Real.cos e.a2
  let s1 := Real.sin e.a0
  let s := Real.sin e.a1
  let s2 := Real.sin e.a2
  { o0 := chop eps (c1 * c2 - s1 * s2 * c)
    o1 := chop eps (s1 * c2 + c1 * s2 * c)
    o2 := chop eps (s2 * s)
    o3 := chop eps (-c1 * s2 - s1 * c2 * c)
    o4 := chop eps (-s1 * s2 + c1 * c2 * c)
    o5 := chop eps (c2 * s)
    o6 := chop eps (s1 * s)
    o7 := chop eps (-c1 * s)
    o8 := chop eps c }

/-- Euler angles to quaternion (`eu2qu`). -/
noncomputable def eu2qu (e : Vec3) (layout : Order) : Vec4 :=
  let ee0 := 0.5 * e.a0
  let ee1 := 0.5 * e.a1
  let ee2 := 0.5 * e.a2
  let cPhi := Real.cos ee1
  let sPhi := Real.sin ee1
  let cm := Real.cos (ee0 - ee2)
  let sm := Real.sin (ee0 - ee2)
  let cp := Real.cos (ee0 + ee2)
  let sp := Real.sin (ee0 + ee2)
  let w := cPhi * cp
  let x := -epsijk * sPhi * cm
  let y := -epsijk * sPhi * sm
  let z := -epsijk * cPhi * sp
  if w < 0 then mkQuat layout (-w) (-x) (-y) (-z) else mkQuat layout w x y z

/-- Quaternion to orientation matrix (`qu2om`); the transposition branch is dead
because `epsijk` is `1`. -/
noncomputable def qu2om (r : Vec4) (layout : Order) : Mat9 :=
  let w := qW layout r
  let x := qX layout r
  let y := qY layout r
  let z := qZ layout r
  let qq := w * w - (x * x + y * y + z * z)
  { o0 := qq + 2.0 * x * x
    o4 := qq + 2.0 * y * y
    o8 := qq + 2.0 * z * z
    o1 := 2.0 * (x * y - w * z)
    o5 := 2.0 * (y * z - w * x)
    o6 := 2.0 * (z * x - w * y)
    o3 := 2.0 * (y * x + w * z)
    o7 := 2.0 * (z * y + w * x)
    o2 := 2.0 * (x * z + w * y) }

/-- Euler angles to axis-angle pair (`eu2ax`). -/
noncomputable def eu2ax (e : Vec3) : Vec4 :=
  let thr : ℝ := 1.0e-6
  let t := Real.tan (e.a1 * 0.5)
  let sig := 0.5 * (e.a0 + e.a2)
  let del := 0.5 * (e.a0 - e.a2)
  let tau := Real.sqrt (t * t + Real.sin sig * Real.sin sig)
  let alpha :=
    if closeEnough sig k_PiOver2D 1.0e-6 then k_PiD
    else 2.0 * Real.arctan (tau / Real.cos sig)
  if |alpha| < thr then ⟨0, 0, 1, 0⟩
  else
    let r0 := -epsijk * t * Real.cos del / tau
    let r1 := -epsijk * t * Real.sin del / tau
    let r2 := -epsijk * Real.sin sig / tau
    if alpha < 0 then ⟨-r0, -r1, -r2, -alpha⟩ else ⟨r0, r1, r2, alpha⟩

/-- Euler angles to Rodrigues vector (`eu2ro`).  The threshold is written `1.0E-6f` in
the source: it is the single-precision number nearest to `1e-6`, which is
`8796093 * 2^-43`, about `9.99999997e-7`. -/
noncomputable def eu2ro (e : Vec3) : Rod :=
  let thr : ℝ := 8796093.0 / 8796093022208.0
  let res := eu2ax e
  let t := res.a3
  if |t - k_PiD| < thr then ⟨res.a0, res.a1, res.a2, ⊤⟩
  else if t = 0 then ⟨0, 0, 0, 0⟩
  else ⟨res.a0, res.a1, res.a2, ((Real.tan (t * 0.5) : ℝ) : EReal)⟩

/-- The common tail of `om2eu` and `qu2eu`: a negative angle is shifted by `100 * pi`
and reduced with `fmod` by its domain width. -/
noncomputable def wrapEuler (res : Vec3) : Vec3 :=
  { a0 := if res.a0 < 0 then fmod (res.a0 + 100.0 * k_PiD) k_2PiD else res.a0
    a1 := if res.a1 < 0 then fmod (res.a1 + 100.0 * k_PiD) k_PiD else res.a1
    a2 := if res.a2 < 0 then fmod (res.a2 + 100.0 * k_PiD) k_2PiD else res.a2 }

/-- Orientation matrix to Euler angles (`om2eu`). -/
noncomputable def om2eu (o : Mat9) : Vec3 :=
  wrapEuler
    (if closeEnough |o.o8| 1.0 1.0e-6 = false then
      let zeta := 1.0 / Real.sqrt (1.0 - o.o8 * o.o8)
      { a1 := Real.arccos o.o8
        a0 := atan2 (o.o6 * zeta) (-o.o7 * zeta)
        a2 := atan2 (o.o2 * zeta) (o.o5 * zeta) }
    else if closeEnough o.o8 1.0 1.0e-6 then
      { a0 := atan2 o.o1 o.o0, a1 := 0.0, a2 := 0.0 }
    else
      { a0 := -atan2 (-o.o1) o.o0, a1 := k_PiD, a2 := 0.0 })

/-- Quaternion to Euler angles (`qu2eu`).  The code reads its argument through the
accessors `x()`, `y()`, `z()`, `w()` of the `Quaternion` class, which address the
stored components 0, 1, 2, 3; the index variables set from `layout` are never used.
Only the `epsijk == 1` branches are live. -/
noncomputable def qu2eu (q : Vec4) (_layout : Order) : Vec3 :=
  let qx := q.a0
  let qy := q.a1
  let qz := q.a2
  let qw := q.a3
  let q03 := qw * qw + qz * qz
  let q12 := qx * qx + qy * qy
  let chi := Real.sqrt (q03 * q12)
  wrapEuler
    (if chi = 0 then
      if q12 = 0 then
        { a1 := 0.0, a2 := 0.0, a0 := atan2 (-2.0 * qw * qz) (qw * qw - qz * qz) }
      else
        { a1 := k_PiD, a2 := 0.0, a0 := atan2 (2.0 * qx * qy) (qx * qx - qy * qy) }
    else
      let chi1 := 1.0 / chi
      { a1 := atan2 (2.0 * chi) (q03 - q12)
        a0 := atan2 ((-qw * qy + qx * qz) * chi1) ((-qw * qx - qy * qz) * chi1)
        a2 := atan2 ((qw * qy + qx * qz) * chi1) ((-qw * qx + qy * qz) * chi1) })

/-- Quaternion to axis-angle pair (`qu2ax`). -/
noncomputable def qu2ax (q : Vec4) (layout : Order) : Vec4 :=
  let sign : ℝ := if qW layout q < 0 then -1.0 else 1.0
  let qow := sign * qW layout q
  let eps : ℝ := 1.0e-12
  let omega := 2.0 * Real.arccos qow
  if omega < eps then ⟨0, 0, 1.0 * epsijk, 0⟩
  else
    let x := qX layout q
    let y := qY layout q
    let z := qZ layout q
    let mag := 1.0 / Real.sqrt (x * x + y * y + z * z)
    ⟨x * mag, y * mag, z * mag, omega⟩

/-- Rodrigues vector to axis-angle pair (`ro2ax`). -/
noncomputable def ro2ax (r : Rod) : Vec4 :=
  if r.r3 = 0 then ⟨0, 0, 1, 0⟩
  else if r.r3 = ⊤ then ⟨r.r0, r.r1, r.r2, k_PiD⟩
  else
    let angle := 2.0 * atanE r.r3
    let ta := 1.0 / Real.sqrt (r.r0 * r.r0 + r.r1 * r.r1 + r.r2 * r.r2)
    ⟨r.r0 * ta, r.r1 * ta, r.r2 * ta, angle⟩

/-- Axis-angle pair to Rodrigues vector (`ax2ro`).  The threshold is written `1.0E-7f` in
the source: it is the single-precision number nearest to `1e-7`, which is
`14073749 * 2^-47`, about `1.0000000117e-7`. -/
noncomputable def ax2ro (ax : Vec4) : Rod :=
  let thr : ℝ := 14073749.0 / 140737488355328.0
  if ax.a3 = 0 then ⟨0, 0, 0, 0⟩
  else if |ax.a3 - k_PiD| < thr then ⟨ax.a0, ax.a1, ax.a2, ⊤⟩
  else ⟨ax.a0, ax.a1, ax.a2, ((Real.tan (ax.a3 * 0.5) : ℝ) : EReal)⟩

/-- Modelled from the spec: `EbsdMatrixMath::Magnitude3x1` is declared in
`EbsdLib/Math/EbsdMatrixMath.h`, which is not among the sources; it is the Euclidean
length of a three component array. -/
noncomputable def Magnitude3x1 (a b c : ℝ) : ℝ := Real.sqrt (a * a + b * b + c * c)

/-- Quaternion to Rodrigues vector (`qu2ro`). -/
noncomputable def qu2ro (q : Vec4) (layout : Order) : Rod :=
  let thr : ℝ := 1.0e-8
  let r0 := qX layout q
  let r1 := qY layout q
  let r2 := qZ layout q
  if qW layout q < thr then ⟨r0, r1, r2, ⊤⟩
  else
    let s := Magnitude3x1 r0 r1 r2
    if s < thr then ⟨0, 0, 0, 0⟩
    else ⟨r0 / s, r1 / s, r2 / s, ((Real.tan (Real.arccos (qW layout q)) : ℝ) : EReal)⟩

/-- Modelled from the spec: `EbsdMatrixMath::Magnitude4x1` is declared in
`EbsdLib/Math/EbsdMatrixMath.h`, which is not among the sources; it is the Euclidean
length of a four component array. -/
noncomputable def Magnitude4x1 (a b c d : ℝ) : ℝ := Real.sqrt (a * a + b * b + c * c + d * d)

/-- Orientation matrix to quaternion (`om2qu`) on `double` input, for which `thr` is
`1.0E-10` (`1.0E-6` on `float` input).  Each of the four sums `s` goes through
`if(closeEnough(fabs(s), 0.0, thr)) s = 0.0; s = sqrt(s);`.
`EbsdMatrixMath::Divide4x1withConstant`, declared in the same header as `Magnitude4x1`,
divides each of the four components by the constant.  The result is stored according to
`layout`. -/
noncomputable def om2qu (om : Mat9) (layout : Order) : Vec4 :=
  let thr : ℝ := 1.0e-10
  let s := Real.sqrt (if closeEnough |om.o0 + om.o4 + om.o8 + 1.0| 0.0 thr then 0.0
    else om.o0 + om.o4 + om.o8 + 1.0)
  let s1 := Real.sqrt (if closeEnough |om.o0 - om.o4 - om.o8 + 1.0| 0.0 thr then 0.0
    else om.o0 - om.o4 - om.o8 + 1.0)
  let s2 := Real.sqrt (if closeEnough |-om.o0 + om.o4 - om.o8 + 1.0| 0.0 thr then 0.0
    else -om.o0 + om.o4 - om.o8 + 1.0)
  let s3 := Real.sqrt (if closeEnough |-om.o0 - om.o4 + om.o8 + 1.0| 0.0 thr then 0.0
    else -om.o0 - om.o4 + om.o8 + 1.0)
  let w0 := s * 0.5
  let x0 := s1 * 0.5
  let y0 := s2 * 0.5
  let z0 := s3 * 0.5
  let x1 := if om.o7 < om.o5 then -epsijk * x0 else x0
  let y1 := if om.o2 < om.o6 then -epsijk * y0 else y0
  let z1 := if om.o3 < om.o1 then -epsijk * z0 else z0
  let m := Magnitude4x1 (mkQuat layout w0 x1 y1 z1).a0 (mkQuat layout w0 x1 y1 z1).a1
    (mkQuat layout w0 x1 y1 z1).a2 (mkQuat layout w0 x1 y1 z1).a3
  let w2 := if m ≠ 0.0 then w0 / m else w0
  let x2 := if m ≠ 0.0 then x1 / m else x1
  let y2 := if m ≠ 0.0 then y1 / m else y1
  let z2 := if m ≠ 0.0 then z1 / m else z1
  let oax := eu2ax (om2eu om)
  let x3 := if oax.a0 * x2 < 0.0 then -x2 else x2
  let y3 := if oax.a1 * y2 < 0.0 then -y2 else y2
  let z3 := if oax.a2 * z2 < 0.0 then -z2 else z2
  mkQuat layout w2 x3 y3 z3

/-! ## Matrix algebra used to state the invariants -/

/-- The product `A * B` of two row-major 3x3 matrices. -/
def Mat9.mul (a b : Mat9) : Mat9 :=
  { o0 := a.o0 * b.o0 + a.o1 * b.o3 + a.o2 * b.o6
    o1 := a.o0 * b.o1 + a.o1 * b.o4 + a.o2 * b.o7
    o2 := a.o0 * b.o2 + a.o1 * b.o5 + a.o2 * b.o8
    o3 := a.o3 * b.o0 + a.o4 * b.o3 + a.o5 * b.o6
    o4 := a.o3 * b.o1 + a.o4 * b.o4 + a.o5 * b.o7
    o5 := a.o3 * b.o2 + a.o4 * b.o5 + a.o5 * b.o8
    o6 := a.o6 * b.o0 + a.o7 * b.o3 + a.o8 * b.o6
    o7 := a.o6 * b.o1 + a.o7 * b.o4 + a.o8 * b.o7
    o8 := a.o6 * b.o2 + a.o7 * b.o5 + a.o8 * b.o8 }

/-- The transpose of a row-major 3x3 matrix. -/
def Mat9.transpose (a : Mat9) : Mat9 :=
  { o0 := a.o0, o1 := a.o3, o2 := a.o6
    o3 := a.o1, o4 := a.o4, o5 := a.o7
    o6 := a.o2, o7 := a.o5, o8 := a.o8 }

/-- The determinant of a row-major 3x3 matrix. -/
def Mat9.det (a : Mat9) : ℝ :=
  a.o0 * (a.o4 * a.o8 - a.o5 * a.o7) - a.o1 * (a.o3 * a.o8 - a.o5 * a.o6)
    + a.o2 * (a.o3 * a.o7 - a.o4 * a.o6)

/-- The identity matrix. -/
def Mat9.one : Mat9 := ⟨1, 0, 0, 0, 1, 0, 0, 0, 1⟩

/-- The squared Euclidean norm of a four component array. -/
def Vec4.normSq (q : Vec4) : ℝ := q.a0 * q.a0 + q.a1 * q.a1 + q.a2 * q.a2 + q.a3 * q.a3

/-- The nine entries of the matrix written in the documentation block of `eu2om`,
before the clean-up loop. -/
noncomputable def eulerMatrix (e : Vec3) : Mat9 :=
  let c1 := Real.cos e.a0
  let c := Real.cos e.a1
  let c2 := Real.cos e.a2
  let s1 := Real.sin e.a0
  let s := Real.sin e.a1
  let s2 := Real.sin e.a2
  ⟨c1 * c2 - s1 * s2 * c, s1 * c2 + c1 * s2 * c, s2 * s,
   -c1 * s2 - s1 * c2 * c, -s1 * s2 + c1 * c2 * c, c2 * s,
   s1 * s, -c1 * s, c⟩

/-- Entry `i` of a row-major 3x3 matrix, `i = 0 .. 8`. -/
def Mat9.get (m : Mat9) (i : Fin 9) : ℝ :=
  match i with
  | 0 => m.o0
  | 1 => m.o1
  | 2 => m.o2
  | 3 => m.o3
  | 4 => m.o4
  | 5 => m.o5
  | 6 => m.o6
  | 7 => m.o7
  | 8 => m.o8

/-- The Euler triples the round-trip property is stated for: `phi1, phi2 ∈ [0, 2 pi)`
and `Phi ∈ (0, pi)`. -/
def inRoundTripDomain (e : Vec3) : Prop :=
  (0 ≤ e.a0 ∧ e.a0 < 2 * Real.pi) ∧ (0 < e.a1 ∧ e.a1 < Real.pi) ∧
    (0 ≤ e.a2 ∧ e.a2 < 2 * Real.pi)

/-- The round trip `om2eu (eu2om e)` reproduces each of the three angles within `tol`. -/
def roundTripWithin (tol : ℝ) (e : Vec3) : Prop :=
  |(om2eu (eu2om e)).a0 - e.a0| ≤ tol ∧ |(om2eu (eu2om e)).a1 - e.a1| ≤ tol ∧
    |(om2eu (eu2om e)).a2 - e.a2| ≤ tol

/-! ## Validity checks -/

/-- The value `std::numeric_limits<double>::epsilon()`, which is `2^-52`. -/
noncomputable def epsilonD : ℝ := 1 / 4503599627370496.0

/-- The check `qu_check`; the value is the field `result` of the `ResultType` it returns. -/
noncomputable def qu_check (qu : Vec4) (layout : Order) : Int :=
  if qW layout qu < 0.0 then -1
  else
    let eps := epsilonD
    let r := Real.sqrt (qX layout qu * qX layout qu + qY layout qu * qY layout qu
      + qZ layout qu * qZ layout qu + qW layout qu * qW layout qu)
    if |r - 1.0| > eps then -2 else 1

/-- The inner loop `for(int rIndex = 0; r < 3; r++)` of `om_check` for one column `c`.  The
variable it tests and increments is the floating-point `r`, so `rIndex` stays `0` and every
pass reads `identity(0, c)`, given here as `identity0c`.  The state is the pair of `r` and
`res.result`; the natural number bounds the passes. -/
noncomputable def om_check_loop (identity0c threshold : ℝ) : Nat → ℝ × Int → ℝ × Int
  | 0, s => s
  | n + 1, s =>
    if s.1 < 3.0 then
      om_check_loop identity0c threshold n
        (s.1 + 1.0, if identity0c > threshold then -3 else s.2)
    else s

/-- The check `om_check`; the value is the field `result` of the `ResultType` it returns.
`identity(rIndex, c)` is entry `3 * rIndex + c` of the row-major matrix.  Each of the three
inner loops is given `⌈3 - r⌉` passes, which is the number it makes. -/
noncomputable def om_check (om : Mat9) : Int :=
  let threshold : ℝ := 1.0e-5
  let det := om.det
  if det < 0.0 then -1
  else
    let r := |det - 1.0|
    if !closeEnough r 0.0 threshold then -2
    else
      let abv : Fin 9 → ℝ := fun i => |(om.mul om.transpose).get i|
      let identity : Fin 9 → ℝ := fun i => |Mat9.one.get i - abv i|
      let s0 := om_check_loop (identity 0) threshold ⌈3.0 - r⌉₊ (r, 1)
      let s1 := om_check_loop (identity 1) threshold ⌈3.0 - s0.1⌉₊ s0
      let s2 := om_check_loop (identity 2) threshold ⌈3.0 - s1.1⌉₊ s1
      s2.2

/-! ## Homochoric to axis-angle and Rodrigues -/

/-- Homochoric vector to axis-angle pair (`ho2ax`).  The fit coefficients `LPs::tfit` are
declared in a header that is not among the sources, so they are a parameter.  The loop over
`i = 2 .. 15` carries the pair of `hm` and `s`.  The threshold is written `1.0E-8f` in the
source: it is the single-precision number nearest to `1e-8`, which is `11258999 * 2^-50`,
about `9.99999994e-9`. -/
noncomputable def ho2ax (tfit : Nat → ℝ) (h : Vec3) : Vec4 :=
  let thr : ℝ := 11258999.0 / 1125899906842624.0
  let hmag := h.a0 * h.a0 + h.a1 * h.a1 + h.a2 * h.a2
  if hmag = 0.0 then ⟨0.0, 0.0, 1.0, 0.0⟩
  else
    let sqrRtHMag := 1.0 / Real.sqrt hmag
    let st : ℝ × ℝ := (List.range' 2 14).foldl
      (fun p i => (p.1 * hmag, p.2 + tfit i * (p.1 * hmag))) (hmag, tfit 0 + tfit 1 * hmag)
    let s := 2.0 * Real.arccos st.2
    let delta := |s - k_PiD|
    ⟨h.a0 * sqrRtHMag, h.a1 * sqrRtHMag, h.a2 * sqrRtHMag, if delta < thr then k_PiD else s⟩

/-- Homochoric vector to Rodrigues vector (`ho2ro`). -/
noncomputable def ho2ro (tfit : Nat → ℝ) (ho : Vec3) : Rod := ax2ro (ho2ax tfit ho)

/-! ## Axis-angle, homochoric and cubochoric conversions -/

/-- Axis-angle pair to orientation matrix (`ax2om`).  Since `epsijk` is `1` the index pairs
are the transposed ones: `_01 = 3`, `_10 = 1`, `_12 = 7`, `_21 = 5`, `_02 = 6`, `_20 = 2`. -/
noncomputable def ax2om (a : Vec4) : Mat9 :=
  let c := Real.cos a.a3
  let s := Real.sin a.a3
  let omc := 1.0 - c
  { o0 := a.a0 * a.a0 * omc + c
    o4 := a.a1 * a.a1 * omc + c
    o8 := a.a2 * a.a2 * omc + c
    o3 := omc * a.a0 * a.a1 + s * a.a2
    o1 := omc * a.a0 * a.a1 - s * a.a2
    o7 := omc * a.a1 * a.a2 + s * a.a0
    o5 := omc * a.a1 * a.a2 - s * a.a0
    o6 := omc * a.a2 * a.a0 - s * a.a1
    o2 := omc * a.a2 * a.a0 + s * a.a1 }

/-- Axis-angle pair to homochoric vector (`ax2ho`).  `pow(f, 1.0 / 3.0)` is the real power;
for negative `f`, where the C function has no real value, nothing is claimed. -/
noncomputable def ax2ho (a : Vec4) : Vec3 :=
  let f := (0.75 * (a.a3 - Real.sin a.a3)) ^ ((1.0 : ℝ) / 3.0)
  ⟨a.a0 * f, a.a1 * f, a.a2 * f⟩

/-- Axis-angle pair to quaternion (`ax2qu`), stored according to `layout`. -/
noncomputable def ax2qu (r : Vec4) (layout : Order) : Vec4 :=
  if r.a3 = 0.0 then mkQuat layout 1.0 0.0 0.0 0.0
  else
    let c := Real.cos (r.a3 * 0.5)
    let s := Real.sin (r.a3 * 0.5)
    mkQuat layout c (r.a0 * s) (r.a1 * s) (r.a2 * s)

/-- Orientation matrix to axis-angle pair (`om2ax`): `om2qu` followed by `qu2ax`, both with
the default vector-scalar layout. -/
noncomputable def om2ax (om : Mat9) : Vec4 :=
  qu2ax (om2qu om Order.VectorScalar) Order.VectorScalar

/-- Rodrigues vector to homochoric vector (`ro2ho`).  `ArrayHelpers::sumofSquares`, declared
in a header that is not among the sources, adds the squares of the four stored values, the
fourth of which may be infinite. -/
noncomputable def ro2ho (r : Rod) : Vec3 :=
  let rv : EReal := ((r.r0 * r.r0 + r.r1 * r.r1 + r.r2 * r.r2 : ℝ) : EReal) + r.r3 * r.r3
  if rv = 0 then ⟨0.0, 0.0, 0.0⟩
  else
    let f0 : ℝ :=
      if r.r3 = ⊤ then 0.75 * k_PiD
      else 0.75 * (2.0 * atanE r.r3 - Real.sin (2.0 * atanE r.r3))
    let f := f0 ^ ((1.0 : ℝ) / 3.0)
    ⟨r.r0 * f, r.r1 * f, r.r2 * f⟩

/-- Quaternion to homochoric vector (`qu2ho`).  `ArrayHelpers::scalarMultiply` multiplies
every component by the given value. -/
noncomputable def qu2ho (q : Vec4) (layout : Order) : Vec3 :=
  let omega := 2.0 * Real.arccos (qW layout q)
  if omega = 0.0 then ⟨0.0, 0.0, 0.0⟩
  else
    let s := 1.0 / Real.sqrt (qX layout q * qX layout q + qY layout q * qY layout q
      + qZ layout q * qZ layout q)
    let f := (0.75 * (omega - Real.sin omega)) ^ ((1.0 : ℝ) / 3.0)
    ⟨qX layout q * s * f, qY layout q * s * f, qZ layout q * s * f⟩

/-- Homochoric to cubochoric (`ho2cu`).  `ModifiedLambertProjection3D::LambertBallToCube` is
declared in a header that is not among the sources, so it is a parameter. -/
def ho2cu (LambertBallToCube : Vec3 → Vec3) (q : Vec3) : Vec3 := LambertBallToCube q

/-- Cubochoric to homochoric (`cu2ho`).  `ModifiedLambertProjection3D::LambertCubeToBall` is
declared in a header that is not among the sources, so it is a parameter. -/
def cu2ho (LambertCubeToBall : Vec3 → Vec3) (cu : Vec3) : Vec3 := LambertCubeToBall cu

/-- Rodrigues vector to orientation matrix (`ro2om`). -/
noncomputable def ro2om (ro : Rod) : Mat9 := ax2om (ro2ax ro)

/-- Rodrigues vector to Euler angles (`ro2eu`). -/
noncomputable def ro2eu (ro : Rod) : Vec3 := om2eu (ro2om ro)

/-- Euler angles to homochoric vector (`eu2ho`). -/
noncomputable def eu2ho (eu : Vec3) : Vec3 := ax2ho (eu2ax eu)

/-- Orientation matrix to Rodrigues vector (`om2ro`). -/
noncomputable def om2ro (om : Mat9) : Rod := eu2ro (om2eu om)

/-- Orientation matrix to homochoric vector (`om2ho`). -/
noncomputable def om2ho (om : Mat9) : Vec3 := ax2ho (om2ax om)

/-- Axis-angle pair to Euler angles (`ax2eu`). -/
noncomputable def ax2eu (ax : Vec4) : Vec3 := om2eu (ax2om ax)

/-- Rodrigues vector to quaternion (`ro2qu`). -/
noncomputable def ro2qu (ro : Rod) (layout : Order) : Vec4 := ax2qu (ro2ax ro) layout

/-- Homochoric vector to Euler angles (`ho2eu`). -/
noncomputable def ho2eu (tfit : Nat → ℝ) (ho : Vec3) : Vec3 := ax2eu (ho2ax tfit ho)

/-- Homochoric vector to orientation matrix (`ho2om`). -/
noncomputable def ho2om (tfit : Nat → ℝ) (ho : Vec3) : Mat9 := ax2om (ho2ax tfit ho)

/-- Homochoric vector to quaternion (`ho2qu`). -/
noncomputable def ho2qu (tfit : Nat → ℝ) (ho : Vec3) (layout : Order) : Vec4 :=
  ax2qu (ho2ax tfit ho) layout

/-- Euler angles to cubochoric (`eu2cu`). -/
noncomputable def eu2cu (LambertBallToCube : Vec3 → Vec3) (eu : Vec3) : Vec3 :=
  ho2cu LambertBallToCube (eu2ho eu)

/-- Orientation matrix to cubochoric (`om2cu`). -/
noncomputable def om2cu (LambertBallToCube : Vec3 → Vec3) (om : Mat9) : Vec3 :=
  ho2cu LambertBallToCube (om2ho om)

/-- Axis-angle pair to cubochoric (`ax2cu`). -/
noncomputable def ax2cu (LambertBallToCube : Vec3 → Vec3) (ax : Vec4) : Vec3 :=
  ho2cu LambertBallToCube (ax2ho ax)

/-- Rodrigues vector to cubochoric (`ro2cu`). -/
noncomputable def ro2cu (LambertBallToCube : Vec3 → Vec3) (ro : Rod) : Vec3 :=
  ho2cu LambertBallToCube (ro2ho ro)

/-- Quaternion to cubochoric (`qu2cu`). -/
noncomputable def qu2cu (LambertBallToCube : Vec3 → Vec3) (qu : Vec4) (layout : Order) : Vec3 :=
  ho2cu LambertBallToCube (qu2ho qu layout)

/-- Cubochoric to Euler angles (`cu2eu`). -/
noncomputable def cu2eu (LambertCubeToBall : Vec3 → Vec3) (tfit : Nat → ℝ) (cu : Vec3) : Vec3 :=
  ho2eu tfit (cu2ho LambertCubeToBall cu)

/-- Cubochoric to orientation matrix (`cu2om`). -/
noncomputable def cu2om (LambertCubeToBall : Vec3 → Vec3) (tfit : Nat → ℝ) (cu : Vec3) : Mat9 :=
  ho2om tfit (cu2ho LambertCubeToBall cu)

/-- Cubochoric to axis-angle pair (`cu2ax`). -/
noncomputable def cu2ax (LambertCubeToBall : Vec3 → Vec3) (tfit : Nat → ℝ) (cu : Vec3) : Vec4 :=
  ho2ax tfit (cu2ho LambertCubeToBall cu)

/-- Cubochoric to Rodrigues vector (`cu2ro`). -/
noncomputable def cu2ro (LambertCubeToBall : Vec3 → Vec3) (tfit : Nat → ℝ) (cu : Vec3) : Rod :=
  ho2ro tfit (cu2ho LambertCubeToBall cu)

/-- Cubochoric to quaternion (`cu2qu`).  The body is `ho = cu2ho(cu); return ho2qu(ho);`:
the call of `ho2qu` has no layout argument, so it runs with that function's default,
vector-scalar, and the parameter `layout` is not used. -/
noncomputable def cu2qu (LambertCubeToBall : Vec3 → Vec3) (tfit : Nat → ℝ) (cu : Vec3)
    (_layout : Order) : Vec4 :=
  ho2qu tfit (cu2ho LambertCubeToBall cu) Order.VectorScalar

end OrientationTransformation

/-! ## Crystal symmetry: quaternion arithmetic and operator tables

The definitions of this part come from `Source/EbsdLib/LaueOps`.  A `QuatD` is stored as
`(x, y, z, w)`, the vector-scalar layout, in a `Vec4`. -/

open OrientationTransformation

/-- The constant `EbsdLib::Constants::k_1OverRoot2D`. -/
noncomputable def k_1OverRoot2D : ℝ := 1 / Real.sqrt 2.0

/-- The constant `EbsdLib::Constants::k_Sqrt2D`. -/
noncomputable def k_Sqrt2D : ℝ := Real.sqrt 2.0

/-- The constant `EbsdLib::Constants::k_ACosNeg1D`, the arc cosine of `-1`. -/
noncomputable def k_ACosNeg1D : ℝ := Real.pi

/-- The constant `EbsdLib::Constants::k_ACos1D`, the arc cosine of `1`. -/
def k_ACos1D : ℝ := 0

namespace QuatD

/-- Modelled from the spec: `Quaternion<T>::operator*` is declared in
`EbsdLib/Core/Quaternion.hpp`, which is not among the sources; it is the Hamilton product
of two quaternions stored as `(x, y, z, w)`. -/
def mul (p q : Vec4) : Vec4 :=
  { a0 := q.a0 * p.a3 + q.a3 * p.a0 + q.a2 * p.a1 - q.a1 * p.a2
    a1 := q.a1 * p.a3 + q.a3 * p.a1 + q.a0 * p.a2 - q.a2 * p.a0
    a2 := q.a2 * p.a3 + q.a3 * p.a2 + q.a1 * p.a0 - q.a0 * p.a1
    a3 := q.a3 * p.a3 - q.a0 * p.a0 - q.a1 * p.a1 - q.a2 * p.a2 }

/-- Modelled from the spec: `Quaternion<T>::conjugate` (same header): the vector part is
negated, the scalar part kept. -/
def conjugate (q : Vec4) : Vec4 := ⟨-q.a0, -q.a1, -q.a2, q.a3⟩

/-- Modelled from the spec: `Quaternion<T>::elementWiseAbs` (same header): every component
is replaced by its absolute value. -/
def elementWiseAbs (q : Vec4) : Vec4 := ⟨|q.a0|, |q.a1|, |q.a2|, |q.a3|⟩

end QuatD

namespace CubicHigh

/-- The operator count `CubicHigh::k_SymOpsCount` of the Cubic m3m class. -/
def k_SymOpsCount : Nat := 24

/-- The quaternion operators `CubicHigh::QuatSym`, each written `(x, y, z, w)`. -/
noncomputable def QuatSym : List Vec4 :=
  [⟨0, 0, 0, 1⟩,
   ⟨1, 0, 0, 0⟩,
   ⟨0, 1, 0, 0⟩,
   ⟨0, 0, 1, 0⟩,
   ⟨k_1OverRoot2D, 0, 0, k_1OverRoot2D⟩,
   ⟨0, k_1OverRoot2D, 0, k_1OverRoot2D⟩,
   ⟨0, 0, k_1OverRoot2D, k_1OverRoot2D⟩,
   ⟨-k_1OverRoot2D, 0, 0, k_1OverRoot2D⟩,
   ⟨0, -k_1OverRoot2D, 0, k_1OverRoot2D⟩,
   ⟨0, 0, -k_1OverRoot2D, k_1OverRoot2D⟩,
   ⟨k_1OverRoot2D, k_1OverRoot2D, 0, 0⟩,
   ⟨-k_1OverRoot2D, k_1OverRoot2D, 0, 0⟩,
   ⟨0, k_1OverRoot2D, k_1OverRoot2D, 0⟩,
   ⟨0, -k_1OverRoot2D, k_1OverRoot2D, 0⟩,
   ⟨k_1OverRoot2D, 0, k_1OverRoot2D, 0⟩,
   ⟨-k_1OverRoot2D, 0, k_1OverRoot2D, 0⟩,
   ⟨0.5, 0.5, 0.5, 0.5⟩,
   ⟨-0.5, -0.5, -0.5, 0.5⟩,
   ⟨0.5, -0.5, 0.5, 0.5⟩,
   ⟨-0.5, 0.5, -0.5, 0.5⟩,
   ⟨-0.5, 0.5, 0.5, 0.5⟩,
   ⟨0.5, -0.5, -0.5, 0.5⟩,
   ⟨-0.5, -0.5, 0.5, 0.5⟩,
   ⟨0.5, 0.5, -0.5, 0.5⟩]

/-- The Rodrigues operators `CubicHigh::RodSym`. -/
def RodSym : List Vec3 :=
  [⟨0, 0, 0⟩,
   ⟨10000000000.0, 0, 0⟩,
   ⟨0, 10000000000.0, 0⟩,
   ⟨0, 0, 10000000000.0⟩,
   ⟨1, 0, 0⟩,
   ⟨0, 1, 0⟩,
   ⟨0, 0, 1⟩,
   ⟨-1, 0, 0⟩,
   ⟨0, -1, 0⟩,
   ⟨0, 0, -1⟩,
   ⟨10000000000.0, 10000000000.0, 0⟩,
   ⟨-10000000000.0, 10000000000.0, 0⟩,
   ⟨0, 10000000000.0, 10000000000.0⟩,
   ⟨0, -10000000000.0, 10000000000.0⟩,
   ⟨10000000000.0, 0, 10000000000.0⟩,
   ⟨-10000000000.0, 0, 10000000000.0⟩,
   ⟨1, 1, 1⟩,
   ⟨-1, -1, -1⟩,
   ⟨1, -1, 1⟩,
   ⟨-1, 1, -1⟩,
   ⟨-1, 1, 1⟩,
   ⟨1, -1, -1⟩,
   ⟨-1, -1, 1⟩,
   ⟨1, 1, -1⟩]

/-- The matrix operators `CubicHigh::MatSym`, each 3x3 block written row by row. -/
def MatSym : List Mat9 :=
  [⟨1, 0, 0, 0, 1, 0, 0, 0, 1⟩,
   ⟨1, 0, 0, 0, 0, -1, 0, 1, 0⟩,
   ⟨1, 0, 0, 0, -1, 0, 0, 0, -1⟩,
   ⟨1, 0, 0, 0, 0, 1, 0, -1, 0⟩,
   ⟨0, 0, -1, 0, 1, 0, 1, 0, 0⟩,
   ⟨0, 0, 1, 0, 1, 0, -1, 0, 0⟩,
   ⟨-1, 0, 0, 0, 1, 0, 0, 0, -1⟩,
   ⟨-1, 0, 0, 0, -1, 0, 0, 0, 1⟩,
   ⟨0, 1, 0, -1, 0, 0, 0, 0, 1⟩,
   ⟨0, -1, 0, 1, 0, 0, 0, 0, 1⟩,
   ⟨0, -1, 0, 0, 0, 1, -1, 0, 0⟩,
   ⟨0, 0, 1, -1, 0, 0, 0, -1, 0⟩,
   ⟨0, -1, 0, 0, 0, -1, 1, 0, 0⟩,
   ⟨0, 0, -1, 1, 0, 0, 0, -1, 0⟩,
   ⟨0, 1, 0, 0, 0, -1, -1, 0, 0⟩,
   ⟨0, 0, -1, -1, 0, 0, 0, 1, 0⟩,
   ⟨0, 1, 0, 0, 0, 1, 1, 0, 0⟩,
   ⟨0, 0, 1, 1, 0, 0, 0, 1, 0⟩,
   ⟨0, 1, 0, 1, 0, 0, 0, 0, -1⟩,
   ⟨-1, 0, 0, 0, 0, 1, 0, 1, 0⟩,
   ⟨0, 0, 1, 0, -1, 0, 1, 0, 0⟩,
   ⟨-1, 0, 0, 0, 0, -1, 0, -1, 0⟩,
   ⟨0, 0, -1, 0, -1, 0, -1, 0, 0⟩,
   ⟨0, -1, 0, -1, 0, 0, 0, 0, -1⟩]

end CubicHigh

namespace CubicLow

/-- The operator count `CubicLow::k_SymOpsCount` of the Cubic m3 class. -/
def k_SymOpsCount : Nat := 12

/-- The quaternion operators `CubicLow::QuatSym`, each written `(x, y, z, w)`. -/
noncomputable def QuatSym : List Vec4 :=
  [⟨0, 0, 0, 1⟩,
   ⟨1, 0, 0, 0⟩,
   ⟨0, 1, 0, 0⟩,
   ⟨0, 0, 1, 0⟩,
   ⟨0.5, 0.5, 0.5, 0.5⟩,
   ⟨-0.5, -0.5, -0.5, 0.5⟩,
   ⟨0.5, -0.5, 0.5, 0.5⟩,
   ⟨-0.5, 0.5, -0.5, 0.5⟩,
   ⟨-0.5, 0.5, 0.5, 0.5⟩,
   ⟨0.5, -0.5, -0.5, 0.5⟩,
   ⟨-0.5, -0.5, 0.5, 0.5⟩,
   ⟨0.5, 0.5, -0.5, 0.5⟩]

/-- The Rodrigues operators `CubicLow::RodSym`. -/
def RodSym : List Vec3 :=
  [⟨0, 0, 0⟩,
   ⟨10000000000.0, 0, 0⟩,
   ⟨0, 10000000000.0, 0⟩,
   ⟨0, 0, 10000000000.0⟩,
   ⟨1, 1, 1⟩,
   ⟨-1, -1, -1⟩,
   ⟨1, -1, 1⟩,
   ⟨-1, 1, -1⟩,
   ⟨-1, 1, 1⟩,
   ⟨1, -1, -1⟩,
   ⟨-1, -1, 1⟩,
   ⟨1, 1, -1⟩]

/-- The matrix operators `CubicLow::MatSym`, each 3x3 block written row by row. -/
def MatSym : List Mat9 :=
  [⟨1, 0, 0, 0, 1, 0, 0, 0, 1⟩,
   ⟨1, 0, 0, 0, -1, 0, 0, 0, -1⟩,
   ⟨-1, 0, 0, 0, 1, 0, 0, 0, -1⟩,
   ⟨-1, 0, 0, 0, -1, 0, 0, 0, 1⟩,
   ⟨0, -1, 0, 0, 0, 1, -1, 0, 0⟩,
   ⟨0, 0, 1, -1, 0, 0, 0, -1, 0⟩,
   ⟨0, -1, 0, 0, 0, -1, 1, 0, 0⟩,
   ⟨0, 0, -1, 1, 0, 0, 0, -1, 0⟩,
   ⟨0, 1, 0, 0, 0, -1, -1, 0, 0⟩,
   ⟨0, 0, -1, -1, 0, 0, 0, 1, 0⟩,
   ⟨0, 1, 0, 0, 0, 1, 1, 0, 0⟩,
   ⟨0, 0, 1, 1, 0, 0, 0, 1, 0⟩]

end CubicLow

namespace TetragonalHigh

/-- The operator count `TetragonalHigh::k_SymOpsCount` of the Tetragonal 4/mmm class. -/
def k_SymOpsCount : Nat := 8

/-- The quaternion operators `TetragonalHigh::QuatSym`, each written `(x, y, z, w)`. -/
noncomputable def QuatSym : List Vec4 :=
  [⟨0, 0, 0, 1⟩,
   ⟨1, 0, 0, 0⟩,
   ⟨0, 1, 0, 0⟩,
   ⟨0, 0, 1, 0⟩,
   ⟨0, 0, k_1OverRoot2D, -k_1OverRoot2D⟩,
   ⟨0, 0, k_1OverRoot2D, k_1OverRoot2D⟩,
   ⟨k_1OverRoot2D, k_1OverRoot2D, 0, 0⟩,
   ⟨-k_1OverRoot2D, k_1OverRoot2D, 0, 0⟩]

/-- The Rodrigues operators `TetragonalHigh::RodSym`. -/
def RodSym : List Vec3 :=
  [⟨0, 0, 0⟩,
   ⟨10000000000.0, 0, 0⟩,
   ⟨0, 10000000000.0, 0⟩,
   ⟨0, 0, 10000000000.0⟩,
   ⟨0, 0, -1⟩,
   ⟨0, 0, 1⟩,
   ⟨10000000000.0, 10000000000.0, 0⟩,
   ⟨-10000000000.0, 10000000000.0, 0⟩]

/-- The matrix operators `TetragonalHigh::MatSym`, each 3x3 block written row by row. -/
def MatSym : List Mat9 :=
  [⟨1, 0, 0, 0, 1, 0, 0, 0, 1⟩,
   ⟨1, 0, 0, 0, -1, 0, 0, 0, -1⟩,
   ⟨-1, 0, 0, 0, 1, 0, 0, 0, -1⟩,
   ⟨-1, 0, 0, 0, -1, 0, 0, 0, 1⟩,
   ⟨0, 1, 0, -1, 0, 0, 0, 0, 1⟩,
   ⟨0, -1, 0, 1, 0, 0, 0, 0, 1⟩,
   ⟨0, 1, 0, 1, 0, 0, 0, 0, -1⟩,
   ⟨0, -1, 0, -1, 0, 0, 0, 0, -1⟩]

end TetragonalHigh

namespace OrthoRhombic

/-- The operator count `OrthoRhombic::k_SymOpsCount` of the OrthoRhombic mmm class. -/
def k_SymOpsCount : Nat := 4

/-- The quaternion operators `OrthoRhombic::QuatSym`, each written `(x, y, z, w)`. -/
noncomputable def QuatSym : List Vec4 :=
  [⟨0, 0, 0, 1⟩,
   ⟨1, 0, 0, 0⟩,
   ⟨0, 1, 0, 0⟩,
   ⟨0, 0, 1, 0⟩]

/-- The Rodrigues operators `OrthoRhombic::RodSym`. -/
def RodSym : List Vec3 :=
  [⟨0, 0, 0⟩,
   ⟨10000000000.0, 0, 0⟩,
   ⟨0, 10000000000.0, 0⟩,
   ⟨0, 0, 10000000000.0⟩]

/-- The matrix operators `OrthoRhombic::MatSym`, each 3x3 block written row by row. -/
def MatSym : List Mat9 :=
  [⟨1, 0, 0, 0, 1, 0, 0, 0, 1⟩,
   ⟨1, 0, 0, 0, -1, 0, 0, 0, -1⟩,
   ⟨-1, 0, 0, 0, 1, 0, 0, 0, -1⟩,
   ⟨-1, 0, 0, 0, -1, 0, 0, 0, 1⟩]

end OrthoRhombic

/-- The classes derived from `LaueOps` whose sources are present. -/
inductive LaueOps where
  | CubicOps
  | CubicLowOps
  | TetragonalOps
  | OrthoRhombicOps

namespace LaueOps

/-- The method `getNumSymOps`: each class returns its `k_SymOpsCount`. -/
def getNumSymOps : LaueOps → Nat
  | CubicOps => CubicHigh.k_SymOpsCount
  | CubicLowOps => CubicLow.k_SymOpsCount
  | TetragonalOps => TetragonalHigh.k_SymOpsCount
  | OrthoRhombicOps => OrthoRhombic.k_SymOpsCount

/-- The method `getQuatSymOp(i)`: entry `i` of the class's `QuatSym`, defined when `i` is
in bounds. -/
noncomputable def getQuatSymOp : LaueOps → Nat → Option Vec4
  | CubicOps, i => CubicHigh.QuatSym[i]?
  | CubicLowOps, i => CubicLow.QuatSym[i]?
  | TetragonalOps, i => TetragonalHigh.QuatSym[i]?
  | OrthoRhombicOps, i => OrthoRhombic.QuatSym[i]?

/-- The method `getRodSymOp(i, r)`: entry `i` of the class's `RodSym`, defined when `i` is
in bounds. -/
noncomputable def getRodSymOp : LaueOps → Nat → Option Vec3
  | CubicOps, i => CubicHigh.RodSym[i]?
  | CubicLowOps, i => CubicLow.RodSym[i]?
  | TetragonalOps, i => TetragonalHigh.RodSym[i]?
  | OrthoRhombicOps, i => OrthoRhombic.RodSym[i]?

/-- The method `getMatSymOp(i, g)`: entry `i` of the class's `MatSym`, defined when `i` is
in bounds. -/
noncomputable def getMatSymOp : LaueOps → Nat → Option Mat9
  | CubicOps, i => CubicHigh.MatSym[i]?
  | CubicLowOps, i => CubicLow.MatSym[i]?
  | TetragonalOps, i => TetragonalHigh.MatSym[i]?
  | OrthoRhombicOps, i => OrthoRhombic.MatSym[i]?

end LaueOps

/-- The Rodrigues operator that, in the words of the specification, belongs to a quaternion
operator `(x, y, z, w)`: `(x / w, y / w, z / w)` when `w ≠ 0`, and
`10^10 * (sign x, sign y, sign z)`, the finite stand-in for an infinite vector along the
same axis, when `w = 0`. -/
noncomputable def specRodOfQuat (q : Vec4) : Vec3 :=
  if q.a3 ≠ 0 then ⟨q.a0 / q.a3, q.a1 / q.a3, q.a2 / q.a3⟩
  else ⟨10000000000.0 * Real.sign q.a0, 10000000000.0 * Real.sign q.a1,
    10000000000.0 * Real.sign q.a2⟩

namespace CubicOps

/-- The nested comparison tree of `CubicOps::calculateMisorientationInternal` that fills
`qco` from the four components of `qc`. -/
noncomputable def sortedQco (qc : Vec4) : Vec4 :=
  if qc.a0 ≤ qc.a1 ∧ qc.a0 ≤ qc.a2 ∧ qc.a0 ≤ qc.a3 then
    if qc.a1 ≤ qc.a2 ∧ qc.a1 ≤ qc.a3 then
      if qc.a2 ≤ qc.a3 then ⟨qc.a0, qc.a1, qc.a2, qc.a3⟩ else ⟨qc.a0, qc.a1, qc.a3, qc.a2⟩
    else if qc.a2 ≤ qc.a1 ∧ qc.a2 ≤ qc.a3 then
      if qc.a1 ≤ qc.a3 then ⟨qc.a0, qc.a2, qc.a1, qc.a3⟩ else ⟨qc.a0, qc.a2, qc.a3, qc.a1⟩
    else
      if qc.a1 ≤ qc.a2 then ⟨qc.a0, qc.a3, qc.a1, qc.a2⟩ else ⟨qc.a0, qc.a3, qc.a2, qc.a1⟩
  else if qc.a1 ≤ qc.a0 ∧ qc.a1 ≤ qc.a2 ∧ qc.a1 ≤ qc.a3 then
    if qc.a0 ≤ qc.a2 ∧ qc.a0 ≤ qc.a3 then
      if qc.a2 ≤ qc.a3 then ⟨qc.a1, qc.a0, qc.a2, qc.a3⟩ else ⟨qc.a1, qc.a0, qc.a3, qc.a2⟩
    else if qc.a2 ≤ qc.a0 ∧ qc.a2 ≤ qc.a3 then
      if qc.a0 ≤ qc.a3 then ⟨qc.a1, qc.a2, qc.a0, qc.a3⟩ else ⟨qc.a1, qc.a2, qc.a3, qc.a0⟩
    else
      if qc.a0 ≤ qc.a2 then ⟨qc.a1, qc.a3, qc.a0, qc.a2⟩ else ⟨qc.a1, qc.a3, qc.a2, qc.a0⟩
  else if qc.a2 ≤ qc.a0 ∧ qc.a2 ≤ qc.a1 ∧ qc.a2 ≤ qc.a3 then
    if qc.a0 ≤ qc.a1 ∧ qc.a0 ≤ qc.a3 then
      if qc.a1 ≤ qc.a3 then ⟨qc.a2, qc.a0, qc.a1, qc.a3⟩ else ⟨qc.a2, qc.a0, qc.a3, qc.a1⟩
    else if qc.a1 ≤ qc.a0 ∧ qc.a1 ≤ qc.a3 then
      if qc.a0 ≤ qc.a3 then ⟨qc.a2, qc.a1, qc.a0, qc.a3⟩ else ⟨qc.a2, qc.a1, qc.a3, qc.a0⟩
    else
      if qc.a0 ≤ qc.a1 then ⟨qc.a2, qc.a3, qc.a0, qc.a1⟩ else ⟨qc.a2, qc.a3, qc.a1, qc.a0⟩
  else
    if qc.a0 ≤ qc.a1 ∧ qc.a0 ≤ qc.a2 then
      if qc.a1 ≤ qc.a2 then ⟨qc.a3, qc.a0, qc.a1, qc.a2⟩ else ⟨qc.a3, qc.a0, qc.a2, qc.a1⟩
    else if qc.a1 ≤ qc.a0 ∧ qc.a1 ≤ qc.a2 then
      if qc.a0 ≤ qc.a2 then ⟨qc.a3, qc.a1, qc.a0, qc.a2⟩ else ⟨qc.a3, qc.a1, qc.a2, qc.a0⟩
    else
      if qc.a0 ≤ qc.a1 then ⟨qc.a3, qc.a2, qc.a0, qc.a1⟩ else ⟨qc.a3, qc.a2, qc.a1, qc.a0⟩

/-- The two updates of `wmin` and `type` that follow the comparison tree: the pair starts
as `(qco.w, 1)`, becomes `((qco.z + qco.w) / sqrt 2, 2)` if that value is larger, and then
`((qco.x + qco.y + qco.z + qco.w) / 2, 3)` if that value is larger still. -/
noncomputable def wminAndType (qco : Vec4) : ℝ × Nat :=
  let s0 : ℝ × Nat := (qco.a3, 1)
  let s1 : ℝ × Nat :=
    if (qco.a2 + qco.a3) / k_Sqrt2D > s0.1 then ((qco.a2 + qco.a3) / k_Sqrt2D, 2) else s0
  if (qco.a0 + qco.a1 + qco.a2 + qco.a3) / 2.0 > s1.1 then
    ((qco.a0 + qco.a1 + qco.a2 + qco.a3) / 2.0, 3)
  else s1

/-- The method `CubicOps::calculateMisorientationInternal`; the result is the axis-angle
pair `(n1, n2, n3, wmin)`.  The operator table it is passed is not read. -/
noncomputable def calculateMisorientationInternal (_quatsym : List Vec4) (q1 q2 : Vec4) : Vec4 :=
  let qc := QuatD.elementWiseAbs (QuatD.mul q1 (QuatD.conjugate q2))
  let qco := sortedQco qc
  let type := (wminAndType qco).2
  let wmin :=
    if (wminAndType qco).1 < -1.0 then k_ACosNeg1D
    else if (wminAndType qco).1 > 1.0 then k_ACos1D
    else Real.arccos (wminAndType qco).1
  let sin_wmin_over_2 := Real.sin wmin
  let n : Vec3 :=
    if type = 1 then
      ⟨qco.a0 / sin_wmin_over_2, qco.a1 / sin_wmin_over_2, qco.a2 / sin_wmin_over_2⟩
    else if type = 2 then
      ⟨((qco.a0 - qco.a1) / k_Sqrt2D) / sin_wmin_over_2,
       ((qco.a0 + qco.a1) / k_Sqrt2D) / sin_wmin_over_2,
       ((qco.a2 - qco.a3) / k_Sqrt2D) / sin_wmin_over_2⟩
    else if type = 3 then
      ⟨((qco.a0 - qco.a1 + qco.a2 - qco.a3) / 2.0) / sin_wmin_over_2,
       ((qco.a0 + qco.a1 - qco.a2 - qco.a3) / 2.0) / sin_wmin_over_2,
       ((-qco.a0 + qco.a1 + qco.a2 - qco.a3) / 2.0) / sin_wmin_over_2⟩
    else ⟨0.0, 0.0, 0.0⟩
  let denom := Real.sqrt (n.a0 * n.a0 + n.a1 * n.a1 + n.a2 * n.a2)
  let m : Vec3 := ⟨n.a0 / denom, n.a1 / denom, n.a2 / denom⟩
  let m1 : Vec3 := if denom = 0 then ⟨0.0, 0.0, 1.0⟩ else m
  let m2 : Vec3 := if wmin = 0 then ⟨0.0, 0.0, 1.0⟩ else m1
  ⟨m2.a0, m2.a1, m2.a2, 2.0 * wmin⟩

/-- The method `CubicOps::calculateMisorientation` on double precision quaternions. -/
noncomputable def calculateMisorientation (q1 q2 : Vec4) : Vec4 :=
  calculateMisorientationInternal CubicHigh.QuatSym q1 q2

end CubicOps

/-- The shape shared by the four inner trees of `CubicOps.sortedQco`: the smallest of
three values first, then the other two in order. -/
noncomputable def sortRest (u v t : ℝ) : ℝ × ℝ × ℝ :=
  if u ≤ v ∧ u ≤ t then (if v ≤ t then (u, v, t) else (u, t, v))
  else if v ≤ u ∧ v ≤ t then (if u ≤ t then (v, u, t) else (v, t, u))
  else (if u ≤ v then (t, u, v) else (t, v, u))

/-- The brute-force enumeration in the words of the specification: the rotation angles
`2 * arccos |scalar part of s * qc|`, one for each operator `s` of a quaternion table, where
`qc = q1 * conjugate q2`. -/
noncomputable def specBruteForceAngles (quatsym : List Vec4) (q1 q2 : Vec4) : List ℝ :=
  quatsym.map fun s =>
    2.0 * Real.arccos |(QuatD.mul s (QuatD.mul q1 (QuatD.conjugate q2))).a3|

/-- A quaternion `(x, y, z, w)` whose components are numbers `a + b * √2` with integer `a`
and `b`, each held as the pair `(a, b)`: every entry of the operator tables, doubled, is of
this form, so that products of operators can be computed exactly. -/
abbrev QuatZ : Type := (ℤ × ℤ) × (ℤ × ℤ) × (ℤ × ℤ) × (ℤ × ℤ)

/-- The Hamilton product on `QuatZ`, component by component as in `QuatD.mul`. -/
def QuatZ.mul (p q : QuatZ) : QuatZ :=
  let m : ℤ × ℤ → ℤ × ℤ → ℤ × ℤ :=
    fun a b => (a.1 * b.1 + 2 * a.2 * b.2, a.1 * b.2 + a.2 * b.1)
  (m q.1 p.2.2.2 + m q.2.2.2 p.1 + m q.2.2.1 p.2.1 - m q.2.1 p.2.2.1,
   m q.2.1 p.2.2.2 + m q.2.2.2 p.2.1 + m q.1 p.2.2.1 - m q.2.2.1 p.1,
   m q.2.2.1 p.2.2.2 + m q.2.2.2 p.2.2.1 + m q.2.1 p.1 - m q.1 p.2.1,
   m q.2.2.2 p.2.2.2 - m q.1 p.1 - m q.2.1 p.2.1 - m q.2.2.1 p.2.2.1)

/-- The real quaternion of which `p` is the double. -/
noncomputable def QuatZ.toVec4 (p : QuatZ) : Vec4 :=
  ⟨((p.1.1 : ℝ) + (p.1.2 : ℝ) * Real.sqrt 2.0) / 2.0,
   ((p.2.1.1 : ℝ) + (p.2.1.2 : ℝ) * Real.sqrt 2.0) / 2.0,
   ((p.2.2.1.1 : ℝ) + (p.2.2.1.2 : ℝ) * Real.sqrt 2.0) / 2.0,
   ((p.2.2.2.1 : ℝ) + (p.2.2.2.2 : ℝ) * Real.sqrt 2.0) / 2.0⟩

/-- The entries of `CubicHigh::QuatSym`, doubled, in the same order: `1` becomes `2`, `0.5`
becomes `1` and `1/√2` becomes `√2`. -/
def CubicHigh.QuatSymZ : List QuatZ :=
  [((0, 0), (0, 0), (0, 0), (2, 0)),
   ((2, 0), (0, 0), (0, 0), (0, 0)),
   ((0, 0), (2, 0), (0, 0), (0, 0)),
   ((0, 0), (0, 0), (2, 0), (0, 0)),
   ((0, 1), (0, 0), (0, 0), (0, 1)),
   ((0, 0), (0, 1), (0, 0), (0, 1)),
   ((0, 0), (0, 0), (0, 1), (0, 1)),
   ((0, -1), (0, 0), (0, 0), (0, 1)),
   ((0, 0), (0, -1), (0, 0), (0, 1)),
   ((0, 0), (0, 0), (0, -1), (0, 1)),
   ((0, 1), (0, 1), (0, 0), (0, 0)),
   ((0, -1), (0, 1), (0, 0), (0, 0)),
   ((0, 0), (0, 1), (0, 1), (0, 0)),
   ((0, 0), (0, -1), (0, 1), (0, 0)),
   ((0, 1), (0, 0), (0, 1), (0, 0)),
   ((0, -1), (0, 0), (0, 1), (0, 0)),
   ((1, 0), (1, 0), (1, 0), (1, 0)),
   ((-1, 0), (-1, 0), (-1, 0), (1, 0)),
   ((1, 0), (-1, 0), (1, 0), (1, 0)),
   ((-1, 0), (1, 0), (-1, 0), (1, 0)),
   ((-1, 0), (1, 0), (1, 0), (1, 0)),
   ((1, 0), (-1, 0), (-1, 0), (1, 0)),
   ((-1, 0), (-1, 0), (1, 0), (1, 0)),
   ((1, 0), (1, 0), (-1, 0), (1, 0))]

/-! ## Fundamental zone of misorientations and histogram bins -/

namespace CubicOps

/-- The method `CubicOps::getMDFFZRod`.  The helper `_calcRodNearestOrigin` is defined in
`LaueOps.cpp`, which is not among the sources, so it is a parameter. -/
noncomputable def getMDFFZRod (calcRodNearestOrigin : List Vec3 → Rod → Rod) (inRod : Rod) : Rod :=
  let rod := calcRodNearestOrigin CubicHigh.RodSym inRod
  let ax := ro2ax rod
  let FZw := ax.a3
  let n1 := |ax.a0|
  let n2 := |ax.a1|
  let n3 := |ax.a2|
  let FZ : Vec3 :=
    if n1 > n2 then
      if n1 > n3 then
        if n2 > n3 then ⟨n1, n2, n3⟩ else ⟨n1, n3, n2⟩
      else ⟨n3, n1, n2⟩
    else
      if n2 > n3 then
        if n1 > n3 then ⟨n2, n1, n3⟩ else ⟨n2, n3, n1⟩
      else ⟨n3, n2, n1⟩
  ax2ro ⟨FZ.a0, FZ.a1, FZ.a2, FZw⟩

end CubicOps

namespace CubicLowOps

/-- The method `CubicLowOps::getMDFFZRod`, with `_calcRodNearestOrigin` as a parameter. -/
noncomputable def getMDFFZRod (calcRodNearestOrigin : List Vec3 → Rod → Rod) (inRod : Rod) : Rod :=
  let rod := calcRodNearestOrigin CubicLow.RodSym inRod
  let ax := ro2ax rod
  let FZw := ax.a3
  let n1 := |ax.a0|
  let n2 := |ax.a1|
  let n3 := |ax.a2|
  let FZ : Vec3 :=
    if n1 > n2 then
      if n1 > n3 then
        if n2 > n3 then ⟨n1, n2, n3⟩ else ⟨n1, n3, n2⟩
      else ⟨n3, n1, n2⟩
    else
      if n2 > n3 then
        if n1 > n3 then ⟨n2, n1, n3⟩ else ⟨n2, n3, n1⟩
      else ⟨n3, n2, n1⟩
  ax2ro ⟨FZ.a0, FZ.a1, FZ.a2, FZw⟩

end CubicLowOps

namespace TetragonalOps

/-- The method `TetragonalOps::getMDFFZRod`, with `_calcRodNearestOrigin` as a parameter. -/
noncomputable def getMDFFZRod (calcRodNearestOrigin : List Vec3 → Rod → Rod) (inRod : Rod) : Rod :=
  let rod := calcRodNearestOrigin TetragonalHigh.RodSym inRod
  let ax := ro2ax rod
  ax2ro ⟨|ax.a0|, |ax.a1|, |ax.a2|, ax.a3⟩

end TetragonalOps

namespace LaueOps

/-- The bin counts `OdfNumBins` of each class, returned by `getOdfNumBins`. -/
def getOdfNumBins : LaueOps → Nat × Nat × Nat
  | CubicOps => (18, 18, 18)
  | CubicLowOps => (36, 36, 36)
  | TetragonalOps => (36, 36, 18)
  | OrthoRhombicOps => (36, 36, 36)

/-- The method `getODFSize`: each class returns its `k_OdfSize`. -/
def getODFSize : LaueOps → Int
  | CubicOps => 5832
  | CubicLowOps => 46656
  | TetragonalOps => 23328
  | OrthoRhombicOps => 46656

/-- The method `getMDFSize`: each class returns its `k_MdfSize`. -/
def getMDFSize : LaueOps → Int
  | CubicOps => 5832
  | CubicLowOps => 46656
  | TetragonalOps => 23328
  | OrthoRhombicOps => 46656

/-- The half-widths `OdfDimInitValue` of each class: `(0.75 * (a - sin a))^(1/3)` with
`a = pi / 4` on every axis of Cubic m3m and on the third axis of Tetragonal 4/mmm, and
`a = pi / 2` elsewhere. -/
noncomputable def OdfDimInitValue : LaueOps → ℝ × ℝ × ℝ
  | CubicOps =>
    ((0.75 * (Real.pi / 4.0 - Real.sin (Real.pi / 4.0))) ^ ((1.0 : ℝ) / 3.0),
     (0.75 * (Real.pi / 4.0 - Real.sin (Real.pi / 4.0))) ^ ((1.0 : ℝ) / 3.0),
     (0.75 * (Real.pi / 4.0 - Real.sin (Real.pi / 4.0))) ^ ((1.0 : ℝ) / 3.0))
  | TetragonalOps =>
    ((0.75 * (k_PiOver2D - Real.sin k_PiOver2D)) ^ ((1.0 : ℝ) / 3.0),
     (0.75 * (k_PiOver2D - Real.sin k_PiOver2D)) ^ ((1.0 : ℝ) / 3.0),
     (0.75 * (Real.pi / 4.0 - Real.sin (Real.pi / 4.0))) ^ ((1.0 : ℝ) / 3.0))
  | _ =>
    ((0.75 * (k_PiOver2D - Real.sin k_PiOver2D)) ^ ((1.0 : ℝ) / 3.0),
     (0.75 * (k_PiOver2D - Real.sin k_PiOver2D)) ^ ((1.0 : ℝ) / 3.0),
     (0.75 * (k_PiOver2D - Real.sin k_PiOver2D)) ^ ((1.0 : ℝ) / 3.0))

/-- The steps `OdfDimStepValue` of each class: the half-width over half the bin count, the
half taken in integer arithmetic. -/
noncomputable def OdfDimStepValue (c : LaueOps) : ℝ × ℝ × ℝ :=
  ((OdfDimInitValue c).1 / (((getOdfNumBins c).1 / 2 : Nat) : ℝ),
   (OdfDimInitValue c).2.1 / (((getOdfNumBins c).2.1 / 2 : Nat) : ℝ),
   (OdfDimInitValue c).2.2 / (((getOdfNumBins c).2.2 / 2 : Nat) : ℝ))

/-- The three bin indices `phi[0]`, `phi[1]`, `phi[2]` that `determineEulerAngles` and
`determineRodriguesVector` of each class compute from the `int` argument `choose` and the
`OdfNumBins` of the class.  The bin counts are `size_t` values, so `choose` is first
converted to `size_t` (its residue modulo `2^64`) and `%` and `/` are those of unsigned
integers; each result is then cast to `int32_t` (the residue modulo `2^32` that lies in
`[-2^31, 2^31)`). -/
def determineEulerAnglesPhi (c : LaueOps) (choose : Int) : Int × Int × Int :=
  let u : Nat := (choose % 18446744073709551616).toNat
  (Int.bmod ((u % (getOdfNumBins c).1 : Nat) : Int) 4294967296,
   Int.bmod (((u / (getOdfNumBins c).1) % (getOdfNumBins c).2.1 : Nat) : Int) 4294967296,
   Int.bmod ((u / ((getOdfNumBins c).1 * (getOdfNumBins c).2.1) : Nat) : Int) 4294967296)

end LaueOps

/-- Modelled from the spec: `LaueOps::_calcODFBin` is defined in `LaueOps.cpp`, which is not
among the sources.  For each axis it takes the floor of `(value + halfWidth) / step`,
clamps it to `[0, binCount - 1]`, and combines the three as `ix + iy * Nx + iz * Nx * Ny`. -/
noncomputable def calcODFBin (dim : ℝ × ℝ × ℝ) (bins : Nat × Nat × Nat) (step : ℝ × ℝ × ℝ)
    (ho : Vec3) : Int :=
  let ix : Int := max 0 (min ((bins.1 : Int) - 1) ⌊(ho.a0 + dim.1) / step.1⌋)
  let iy : Int := max 0 (min ((bins.2.1 : Int) - 1) ⌊(ho.a1 + dim.2.1) / step.2.1⌋)
  let iz : Int := max 0 (min ((bins.2.2 : Int) - 1) ⌊(ho.a2 + dim.2.2) / step.2.2⌋)
  ix + iy * bins.1 + iz * bins.1 * bins.2.1

namespace OrthoRhombicOps

/-- The method `OrthoRhombicOps::getMDFFZRod`: its first statement throws
`EbsdLib::method_not_implemented`, so no input reaches the code after it.  The error value
is the name of the exception class. -/
def getMDFFZRod (_inRod : Rod) : Except String Rod :=
  throw "method_not_implemented"

/-- The method `OrthoRhombicOps::determineRodriguesVector`.  The helper
`_calcDetermineHomochoricValues` is defined in `LaueOps.cpp`, which is not among the
sources, so it is a parameter, as are the fit coefficients of `ho2ro`.  The bin number
`choose` is taken non-negative. -/
noncomputable def determineRodriguesVector (tfit : Nat → ℝ)
    (calcDetermineHomochoricValues :
      ℝ × ℝ × ℝ → ℝ × ℝ × ℝ → ℝ × ℝ × ℝ → Nat × Nat × Nat → Vec3)
    (random : ℝ × ℝ × ℝ) (choose : Nat) : Except String Rod :=
  let init := LaueOps.OdfDimInitValue LaueOps.OrthoRhombicOps
  let step := LaueOps.OdfDimStepValue LaueOps.OrthoRhombicOps
  let bins := LaueOps.getOdfNumBins LaueOps.OrthoRhombicOps
  let phi : Nat × Nat × Nat :=
    (choose % bins.1, (choose / bins.1) % bins.2.1, choose / (bins.1 * bins.2.1))
  let ho := calcDetermineHomochoricValues random init step phi
  let ro := ho2ro tfit ho
  getMDFFZRod ro

end OrthoRhombicOps

/-! ## Batch conversion of orientation arrays

The definitions of this part come from
`Source/EbsdLib/OrientationMath/OrientationConverter.hpp`.  The memory reached through a raw
pointer `T*` is a function from offsets to values, and a pointer into it is an offset.  A
data array, whose class is a template parameter of the converters, is the triple of its
number of tuples, its number of components per tuple and its memory. -/

/-- Modelled from the spec: the enumeration `OrientationRepresentation::Type` is declared
in a header that is not among the sources; these are the members the sources name. -/
inductive OrientationRepresentation where
  | Euler
  | OrientationMatrix
  | Quaternion
  | AxisAngle
  | Rodrigues
  | Homochoric
  | Cubochoric
  | Unknown
  deriving DecidableEq

namespace OrientationConverter

/-- The static method `OrientationConverter::GetComponentCounts`. -/
def GetComponentCounts : List Nat := [3, 9, 4, 4, 4, 3, 3]

/-- The static method `OrientationConverter::GetOrientationTypes`. -/
def GetOrientationTypes : List OrientationRepresentation :=
  [.Euler, .OrientationMatrix, .Quaternion, .AxisAngle, .Rodrigues, .Homochoric, .Cubochoric]

end OrientationConverter

/-- The call operator of the class that
`OC_CONVERTOR_FUNCTOR(CLASSNAME, INSTRIDE, OUTSTRIDE, CONVERSION_METHOD)` generates: it wraps
the `INSTRIDE` values at `input` as an orientation, converts it, and assigns the result to
the `OUTSTRIDE` values at `output`.  The value is the output memory after the call; the
conversion is given on lists of components. -/
def OC_CONVERTOR_FUNCTOR (INSTRIDE OUTSTRIDE : Nat) (method : List ℝ → List ℝ)
    (inMem : Nat → ℝ) (input : Nat) (outMem : Nat → ℝ) (output : Nat) : Nat → ℝ :=
  fun p =>
    if output ≤ p ∧ p < output + OUTSTRIDE then
      (method ((List.range INSTRIDE).map fun k => inMem (input + k))).getD (p - output) 0
    else outMem p

namespace Convertors

/-- The 42 functor classes of the namespace `Convertors`, in the order of the source: the
class name, the representations it converts from and to, and the `INSTRIDE` and `OUTSTRIDE`
of its declaration. -/
def functors :
    List (String × OrientationRepresentation × OrientationRepresentation × Nat × Nat) :=
  [("Eu2Om", .Euler, .OrientationMatrix, 3, 9), ("Eu2Qu", .Euler, .Quaternion, 3, 4),
   ("Eu2Ax", .Euler, .AxisAngle, 3, 4), ("Eu2Ro", .Euler, .Rodrigues, 3, 4),
   ("Eu2Ho", .Euler, .Homochoric, 3, 3), ("Eu2Cu", .Euler, .Cubochoric, 3, 3),
   ("Om2Eu", .OrientationMatrix, .Euler, 9, 3), ("Om2Qu", .OrientationMatrix, .Quaternion, 9, 4),
   ("Om2Ax", .OrientationMatrix, .AxisAngle, 9, 4),
   ("Om2Ro", .OrientationMatrix, .Rodrigues, 9, 4),
   ("Om2Ho", .OrientationMatrix, .Homochoric, 9, 3),
   ("Om2Cu", .OrientationMatrix, .Cubochoric, 9, 3),
   ("Qu2Eu", .Quaternion, .Euler, 4, 3), ("Qu2Om", .Quaternion, .OrientationMatrix, 4, 9),
   ("Qu2Ax", .Quaternion, .AxisAngle, 4, 4), ("Qu2Ro", .Quaternion, .Rodrigues, 4, 4),
   ("Qu2Ho", .Quaternion, .Homochoric, 4, 3), ("Qu2Cu", .Quaternion, .Cubochoric, 4, 3),
   ("Ax2Eu", .AxisAngle, .Euler, 4, 3), ("Ax2Om", .AxisAngle, .OrientationMatrix, 4, 9),
   ("Ax2Qu", .AxisAngle, .Quaternion, 4, 4), ("Ax2Ro", .AxisAngle, .Rodrigues, 4, 4),
   ("Ax2Ho", .AxisAngle, .Homochoric, 4, 3), ("Ax2Cu", .AxisAngle, .Cubochoric, 4, 3),
   ("Ro2Eu", .Rodrigues, .Euler, 4, 3), ("Ro2Om", .Rodrigues, .OrientationMatrix, 4, 9),
   ("Ro2Qu", .Rodrigues, .Quaternion, 4, 4), ("Ro2Ax", .Rodrigues, .AxisAngle, 4, 4),
   ("Ro2Ho", .Rodrigues, .Homochoric, 4, 3), ("Ro2Cu", .Rodrigues, .Cubochoric, 4, 3),
   ("Ho2Eu", .Homochoric, .Euler, 3, 3), ("Ho2Om", .Homochoric, .OrientationMatrix, 3, 9),
   ("Ho2Qu", .Homochoric, .Quaternion, 3, 4), ("Ho2Ax", .Homochoric, .AxisAngle, 3, 4),
   ("Ho2Ro", .Homochoric, .Rodrigues, 3, 4), ("Ho2Cu", .Homochoric, .Cubochoric, 3, 3),
   ("Cu2Eu", .Cubochoric, .Euler, 3, 3), ("Cu2Om", .Cubochoric, .OrientationMatrix, 3, 9),
   ("Cu2Qu", .Cubochoric, .Quaternion, 3, 4), ("Cu2Ax", .Cubochoric, .AxisAngle, 3, 4),
   ("Cu2Ro", .Cubochoric, .Rodrigues, 3, 4), ("Cu2Ho", .Cubochoric, .Homochoric, 3, 3)]

/-- The functor `Convertors::Eu2Om`, declared `OC_CONVERTOR_FUNCTOR(Eu2Om, 3, 9, eu2om)`. -/
noncomputable def Eu2Om : (Nat → ℝ) → Nat → (Nat → ℝ) → Nat → (Nat → ℝ) :=
  OC_CONVERTOR_FUNCTOR 3 9 fun e =>
    (List.finRange 9).map (eu2om ⟨e.getD 0 0, e.getD 1 0, e.getD 2 0⟩).get

end Convertors

namespace ConvertRepresentation

/-- The loop of `ConvertRepresentation::convert`: the first argument counts the passes left,
`input` and `output` are the two running pointers, and each pass calls the functor and
advances the pointers by the strides. -/
def loop (conv : (Nat → ℝ) → Nat → (Nat → ℝ) → Nat → (Nat → ℝ)) (inMem : Nat → ℝ)
    (inStride outStride : Nat) : Nat → Nat → Nat → (Nat → ℝ) → (Nat → ℝ)
  | 0, _, _, outMem => outMem
  | n + 1, input, output, outMem =>
    loop conv inMem inStride outStride n (input + inStride) (output + outStride)
      (conv inMem input outMem output)

/-- The method `ConvertRepresentation::convert(start, end)`; `m_InPtr` and `m_OutPtr` are the
offsets `0` of the two memories, and the value is the output memory after the call. -/
def convert (conv : (Nat → ℝ) → Nat → (Nat → ℝ) → Nat → (Nat → ℝ)) (inMem : Nat → ℝ)
    (inStride outStride start stop : Nat) (outMem : Nat → ℝ) : Nat → ℝ :=
  loop conv inMem inStride outStride (stop - start) (start * inStride) (start * outStride)
    outMem

end ConvertRepresentation

namespace EulerSanityCheck

/-- The loop of `EulerSanityCheck::sanityCheck`: the first argument counts the passes left
and `inPtr` is the running pointer; each pass rewrites the three values at `inPtr`. -/
noncomputable def loop (stride : Nat) : Nat → Nat → (Nat → ℝ) → (Nat → ℝ)
  | 0, _, mem => mem
  | n + 1, inPtr, mem =>
    let m1 := Function.update mem inPtr (fmod (mem inPtr) k_2PiD)
    let m2 := Function.update m1 (inPtr + 1) (fmod (m1 (inPtr + 1)) k_PiD)
    let m3 := Function.update m2 (inPtr + 2) (fmod (m2 (inPtr + 2)) k_2PiD)
    let m4 := if m3 inPtr < 0.0 then Function.update m3 inPtr (m3 inPtr * -1.0) else m3
    let m5 :=
      if m4 (inPtr + 1) < 0.0 then Function.update m4 (inPtr + 1) (m4 (inPtr + 1) * -1.0)
      else m4
    let m6 :=
      if m5 (inPtr + 2) < 0.0 then Function.update m5 (inPtr + 2) (m5 (inPtr + 2) * -1.0)
      else m5
    loop stride n (inPtr + stride) m6

/-- The method `EulerSanityCheck::sanityCheck(start, end)`; `m_Input` is the offset `0` of
the memory, and the value is the memory after the call. -/
noncomputable def sanityCheck (stride start stop : Nat) (mem : Nat → ℝ) : Nat → ℝ :=
  loop stride (stop - start) (start * stride) mem

end EulerSanityCheck

namespace EulerConverter

/-- The method `EulerConverter::sanityCheckInputData`, on its serial branch: the value is
the input data array after the call. -/
noncomputable def sanityCheckInputData (input : Nat × Nat × (Nat → ℝ)) :
    Nat × Nat × (Nat → ℝ) :=
  (input.1, input.2.1, EulerSanityCheck.sanityCheck input.2.1 0 input.1 input.2.2)

/-- The body `OC_CONVERT_BODY(OUTSTRIDE, OUT_ARRAY_NAME, CONVERSION_METHOD, FUNCTOR)` of the
conversion methods of `EulerConverter`, on its serial branch: the value is the pair of the
input data array after the call and the output data array. -/
noncomputable def OC_CONVERT_BODY (OUTSTRIDE : Nat)
    (FUNCTOR : (Nat → ℝ) → Nat → (Nat → ℝ) → Nat → (Nat → ℝ))
    (inputData : Nat × Nat × (Nat → ℝ)) :
    (Nat × Nat × (Nat → ℝ)) × (Nat × Nat × (Nat → ℝ)) :=
  let input := sanityCheckInputData inputData
  let nTuples := input.1
  let inStride := input.2.1
  let outStride := OUTSTRIDE
  let output : Nat → ℝ := fun _ => 0.0
  (input, (nTuples, outStride,
    ConvertRepresentation.convert FUNCTOR input.2.2 inStride outStride 0 nTuples output))

/-- The method `EulerConverter::toOrientationMatrix`. -/
noncomputable def toOrientationMatrix (inputData : Nat × Nat × (Nat → ℝ)) :
    (Nat × Nat × (Nat → ℝ)) × (Nat × Nat × (Nat → ℝ)) :=
  OC_CONVERT_BODY 9 Convertors.Eu2Om inputData

end EulerConverter

namespace OrientationTransformation

/-! ## Theorems -/

/-! ### Auxiliary lemmas -/

theorem qu2om_mkQuat (layout : Order) (w x y z : ℝ) :
    qu2om (mkQuat layout w x y z) layout =
      ⟨w * w - (x * x + y * y + z * z) + 2 * x * x, 2 * (x * y - w * z), 2 * (x * z + w * y),
       2 * (y * x + w * z), w * w - (x * x + y * y + z * z) + 2 * y * y, 2 * (y * z - w * x),
       2 * (z * x - w * y), 2 * (z * y + w * x), w * w - (x * x + y * y + z * z) + 2 * z * z⟩ := by
  cases layout <;> simp only [qu2om, mkQuat, qW, qX, qY, qZ, Mat9.mk.injEq] <;> norm_num

theorem qu2om_mkQuat_neg (layout : Order) (w x y z : ℝ) :
    qu2om (mkQuat layout (-w) (-x) (-y) (-z)) layout = qu2om (mkQuat layout w x y z) layout := by
  rw [qu2om_mkQuat, qu2om_mkQuat]
  simp only [Mat9.mk.injEq]
  refine ⟨?_, ?_, ?_, ?_, ?_, ?_, ?_, ?_, ?_⟩ <;> ring

/-- The quaternion route reproduces the nine documented entries exactly. -/
theorem qu2om_eu2qu (e : Vec3) (layout : Order) :
    qu2om (eu2qu e layout) layout = eulerMatrix e := by
  have key : qu2om (mkQuat layout
      (Real.cos (0.5 * e.a1) * Real.cos (0.5 * e.a0 + 0.5 * e.a2))
      (-epsijk * Real.sin (0.5 * e.a1) * Real.cos (0.5 * e.a0 - 0.5 * e.a2))
      (-epsijk * Real.sin (0.5 * e.a1) * Real.sin (0.5 * e.a0 - 0.5 * e.a2))
      (-epsijk * Real.cos (0.5 * e.a1) * Real.sin (0.5 * e.a0 + 0.5 * e.a2))) layout
      = eulerMatrix e := by
    rw [qu2om_mkQuat]
    have h0 : e.a0 = 2 * (0.5 * e.a0) := by ring
    have h1 : e.a1 = 2 * (0.5 * e.a1) := by ring
    have h2 : e.a2 = 2 * (0.5 * e.a2) := by ring
    have ha := Real.cos_sq_add_sin_sq (0.5 * e.a0)
    have hb := Real.cos_sq_add_sin_sq (0.5 * e.a1)
    have hc := Real.cos_sq_add_sin_sq (0.5 * e.a2)
    have c0 : Real.cos e.a0 = 2 * Real.cos (0.5 * e.a0) ^ 2 - 1 := by
      rw [← Real.cos_two_mul, ← h0]
    have c1 : Real.cos e.a1 = 2 * Real.cos (0.5 * e.a1) ^ 2 - 1 := by
      rw [← Real.cos_two_mul, ← h1]
    have c2 : Real.cos e.a2 = 2 * Real.cos (0.5 * e.a2) ^ 2 - 1 := by
      rw [← Real.cos_two_mul, ← h2]
    have s0 : Real.sin e.a0 = 2 * Real.sin (0.5 * e.a0) * Real.cos (0.5 * e.a0) := by
      rw [← Real.sin_two_mul, ← h0]
    have s1 : Real.sin e.a1 = 2 * Real.sin (0.5 * e.a1) * Real.cos (0.5 * e.a1) := by
      rw [← Real.sin_two_mul, ← h1]
    have s2 : Real.sin e.a2 = 2 * Real.sin (0.5 * e.a2) * Real.cos (0.5 * e.a2) := by
      rw [← Real.sin_two_mul, ← h2]
    simp only [eulerMatrix, c0, c1, c2, s0, s1, s2, Real.cos_add, Real.cos_sub, Real.sin_add,
      Real.sin_sub, epsijk, Mat9.mk.injEq]
    generalize Real.cos (0.5 * e.a0) = ca at *
    generalize Real.sin (0.5 * e.a0) = sa at *
    generalize Real.cos (0.5 * e.a1) = cb at *
    generalize Real.sin (0.5 * e.a1) = sb at *
    generalize Real.cos (0.5 * e.a2) = cc at *
    generalize Real.sin (0.5 * e.a2) = sc at *
    refine ⟨?_, ?_, ?_, ?_, ?_, ?_, ?_, ?_, ?_⟩
    · linear_combination (sb^2 * sc^2 - sb^2 * cc^2 + cb^2 * sc^2 - cb^2 * cc^2) * ha
        + (sc^2 - cc^2 + 4 * ca * sa * cc * sc - 2 * ca^2 * sc^2 + 2 * ca^2 * cc^2) * hb
        + (1 - 2 * ca^2) * hc
    · linear_combination (2 * sb^2 * cc * sc - 2 * cb^2 * cc * sc) * ha
        + (2 * cc * sc - 2 * ca * sa * sc^2 + 2 * ca * sa * cc^2 - 4 * ca^2 * cc * sc) * hb
        + (-2 * ca * sa) * hc
    · linear_combination (4 * cb * sb * cc * sc) * ha
    · linear_combination (2 * sb^2 * cc * sc + 2 * cb^2 * cc * sc) * ha
        + (2 * cc * sc - 2 * ca * sa * sc^2 + 2 * ca * sa * cc^2 - 4 * ca^2 * cc * sc) * hb
        + (-2 * ca * sa + 4 * ca * sa * cb^2) * hc
    · linear_combination (-(sb^2 * sc^2) + sb^2 * cc^2 + cb^2 * sc^2 - cb^2 * cc^2) * ha
        + (-(sc^2) + cc^2 - 4 * ca * sa * cc * sc + 2 * ca^2 * sc^2 - 2 * ca^2 * cc^2) * hb
        + (-1 + 2 * cb^2 + 2 * ca^2 - 4 * ca^2 * cb^2) * hc
    · linear_combination (-2 * cb * sb * sc^2 + 2 * cb * sb * cc^2) * ha + (-2 * cb * sb) * hc
    · linear_combination (4 * ca * sa * cb * sb) * hc
    · linear_combination (2 * cb * sb * sc^2 + 2 * cb * sb * cc^2) * ha
        + (2 * cb * sb - 4 * ca^2 * cb * sb) * hc
    · linear_combination (-(sb^2 * sc^2) - sb^2 * cc^2 + cb^2 * sc^2 + cb^2 * cc^2) * ha
        + (-(sc^2) - cc^2) * hb + (-1 + 2 * cb^2) * hc
  unfold eu2qu
  simp only []
  split_ifs
  · rw [qu2om_mkQuat_neg]
    exact key
  · exact key

theorem abs_sub_chop_le (eps v : ℝ) (h : 0 ≤ eps) : |v - chop eps v| ≤ eps := by
  unfold chop
  split_ifs with hv
  · simpa using hv.le
  · simpa using h

theorem eu2ax_zero : eu2ax ⟨0, 0, 0⟩ = ⟨0, 0, 1, 0⟩ := by
  have hne : ¬ |(0.5 : ℝ) * (0 + 0) - Real.pi / 2| < 1.0e-6 := by
    have := Real.pi_gt_three
    rw [abs_lt]
    intro h
    norm_num at h
    linarith [h.1]
  unfold eu2ax
  simp only [closeEnough, k_PiOver2D, k_PiD, decide_eq_true_eq]
  rw [if_neg hne]
  norm_num

theorem eu2ro_zero : eu2ro ⟨0, 0, 0⟩ = ⟨0, 0, 0, 0⟩ := by
  rw [eu2ro, eu2ax_zero]
  have hne : ¬ |(0 : ℝ) - Real.pi| < (8796093.0 / 8796093022208.0) := by
    have := Real.pi_gt_three
    rw [abs_lt]
    intro h
    norm_num at h
    linarith [h.1]
  simp only [k_PiD]
  rw [if_neg hne]
  simp

theorem rod_zero_ne_sentinel : (⟨0, 0, 0, 0⟩ : Rod) ≠ ⟨0, 0, 1, 0⟩ := by
  simp

/-! ### The library functions `fmod` and `atan2` -/

theorem fmod_of_nonneg {x y : ℝ} (hx : 0 ≤ x) (hy : 0 < y) :
    fmod x y = x - y * ((⌊x / y⌋ : ℤ) : ℝ) := by
  unfold fmod
  rw [if_pos (div_nonneg hx hy.le)]

theorem fmod_nonneg {x y : ℝ} (hx : 0 ≤ x) (hy : 0 < y) : 0 ≤ fmod x y := by
  rw [fmod_of_nonneg hx hy]
  have h := Int.floor_le (x / y)
  have h2 : ((⌊x / y⌋ : ℤ) : ℝ) * y ≤ x := (le_div_iff₀ hy).mp h
  linarith

theorem fmod_lt {x y : ℝ} (hx : 0 ≤ x) (hy : 0 < y) : fmod x y < y := by
  rw [fmod_of_nonneg hx hy]
  have h := Int.lt_floor_add_one (x / y)
  have h2 : x < (((⌊x / y⌋ : ℤ) : ℝ) + 1) * y := (div_lt_iff₀ hy).mp h
  linarith

theorem neg_pi_lt_atan2 (y x : ℝ) : -Real.pi < atan2 y x := Complex.neg_pi_lt_arg _

theorem atan2_le_pi (y x : ℝ) : atan2 y x ≤ Real.pi := Complex.arg_le_pi _

theorem atan2_nonneg {y : ℝ} (x : ℝ) (hy : 0 ≤ y) : 0 ≤ atan2 y x :=
  Complex.arg_nonneg_iff.mpr hy

/-- The wrap applied to `phi1` and `phi2` lands in `[0, 2 pi)` for every angle in
`[-pi, pi]`. -/
theorem wrap_two_pi_range {r : ℝ} (h1 : -Real.pi ≤ r) (h2 : r ≤ Real.pi) :
    0 ≤ (if r < 0 then fmod (r + 100.0 * k_PiD) k_2PiD else r) ∧
    (if r < 0 then fmod (r + 100.0 * k_PiD) k_2PiD else r) < 2 * Real.pi := by
  have hpi := Real.pi_pos
  have hx : 0 ≤ r + 100.0 * k_PiD := by
    simp only [k_PiD]
    norm_num
    linarith
  have hy : 0 < k_2PiD := by
    simp only [k_2PiD]
    linarith
  split_ifs with hr
  · exact ⟨fmod_nonneg hx hy, by simpa [k_2PiD] using fmod_lt hx hy⟩
  · exact ⟨not_lt.mp hr, by linarith⟩

/-- The wrap applied to `Phi` leaves an angle of `[0, pi]` unchanged. -/
theorem wrap_pi_of_nonneg {r : ℝ} (h1 : 0 ≤ r) :
    (if r < 0 then fmod (r + 100.0 * k_PiD) k_PiD else r) = r :=
  if_neg (not_lt.mpr h1)

theorem wrapEuler_range (r : Vec3) (h0 : -Real.pi ≤ r.a0 ∧ r.a0 ≤ Real.pi)
    (h1 : 0 ≤ r.a1 ∧ r.a1 ≤ Real.pi) (h2 : -Real.pi ≤ r.a2 ∧ r.a2 ≤ Real.pi) :
    0 ≤ (wrapEuler r).a0 ∧ (wrapEuler r).a0 < 2 * Real.pi ∧
    0 ≤ (wrapEuler r).a1 ∧ (wrapEuler r).a1 ≤ Real.pi ∧
    0 ≤ (wrapEuler r).a2 ∧ (wrapEuler r).a2 < 2 * Real.pi := by
  obtain ⟨a, b⟩ := wrap_two_pi_range h0.1 h0.2
  obtain ⟨c, d⟩ := wrap_two_pi_range h2.1 h2.2
  have e := wrap_pi_of_nonneg h1.1
  unfold wrapEuler
  simp only []
  rw [e]
  exact ⟨a, b, h1.1, h1.2, c, d⟩

/-- An angle with positive cosine and small sine is close to a multiple of `2 pi`. -/
theorem near_multiple_of_two_pi {d t : ℝ} (hc : 0 < Real.cos d) (hs : |Real.sin d| ≤ t) :
    ∃ k : ℤ, |d - 2 * Real.pi * k| ≤ Real.pi / 2 * t := by
  have hpi := Real.pi_pos
  have h2pi : 0 < 2 * Real.pi := by linarith
  refine ⟨⌊(d + Real.pi) / (2 * Real.pi)⌋, ?_⟩
  set k : ℤ := ⌊(d + Real.pi) / (2 * Real.pi)⌋ with hk
  have e : d - 2 * Real.pi * k = d - k * (2 * Real.pi) := by ring
  rw [e]
  set d' : ℝ := d - k * (2 * Real.pi) with hd'
  have hcos : Real.cos d' = Real.cos d := Real.cos_sub_int_mul_two_pi d k
  have hsin : Real.sin d' = Real.sin d := Real.sin_sub_int_mul_two_pi d k
  have hlo : -Real.pi ≤ d' := by
    have h := Int.floor_le ((d + Real.pi) / (2 * Real.pi))
    have h' : (k : ℝ) * (2 * Real.pi) ≤ d + Real.pi := (le_div_iff₀ h2pi).mp h
    linarith
  have hhi : d' < Real.pi := by
    have h := Int.lt_floor_add_one ((d + Real.pi) / (2 * Real.pi))
    have h' : d + Real.pi < ((k : ℝ) + 1) * (2 * Real.pi) := (div_lt_iff₀ h2pi).mp h
    linarith
  have habs : |d'| ≤ Real.pi / 2 := by
    rw [abs_le]
    constructor
    · by_contra hcon
      push_neg at hcon
      have h1 : Real.cos (-d') ≤ 0 :=
        Real.cos_nonpos_of_pi_div_two_le_of_le (by linarith) (by linarith)
      rw [Real.cos_neg, hcos] at h1
      linarith
    · by_contra hcon
      push_neg at hcon
      have h1 : Real.cos d' ≤ 0 :=
        Real.cos_nonpos_of_pi_div_two_le_of_le hcon.le (by linarith)
      rw [hcos] at h1
      linarith
  have hj := Real.mul_abs_le_abs_sin habs
  rw [hsin] at hj
  have hj2 : 2 / Real.pi * |d'| ≤ t := le_trans hj hs
  have hj3 : |d'| = Real.pi / 2 * (2 / Real.pi * |d'|) := by
    field_simp
    ring
  rw [hj3]
  exact mul_le_mul_of_nonneg_left hj2 (by positivity)

theorem atan2_zero_of_pos {x : ℝ} (hx : 0 < x) : atan2 0 x = 0 := by
  unfold atan2
  exact Complex.arg_eq_zero_iff.mpr ⟨hx.le, rfl⟩

theorem atan2_zero_of_neg {x : ℝ} (hx : x < 0) : atan2 0 x = Real.pi := by
  unfold atan2
  exact Complex.arg_eq_pi_iff.mpr ⟨hx, rfl⟩

theorem atan2_pos_zero {y : ℝ} (hy : 0 < y) : atan2 y 0 = Real.pi / 2 := by
  unfold atan2
  exact Complex.arg_eq_pi_div_two_iff.mpr ⟨rfl, hy⟩

theorem atan2_neg_zero {y : ℝ} (hy : y < 0) : atan2 y 0 = -(Real.pi / 2) := by
  unfold atan2
  exact Complex.arg_eq_neg_pi_div_two_iff.mpr ⟨rfl, hy⟩

/-- On a point of the circle of radius `r`, `atan2` returns the polar angle up to a
multiple of `2 pi`. -/
theorem atan2_polar {r : ℝ} (hr : 0 < r) (θ : ℝ) :
    atan2 (r * Real.sin θ) (r * Real.cos θ) - θ
      = 2 * Real.pi * ⌊(Real.pi - θ) / (2 * Real.pi)⌋ := by
  have e : (⟨r * Real.cos θ, r * Real.sin θ⟩ : ℂ)
      = (r : ℂ) * (Complex.cos θ + Complex.sin θ * Complex.I) := by
    apply Complex.ext <;>
      simp [Complex.cos_ofReal_re, Complex.sin_ofReal_re, Complex.cos_ofReal_im,
        Complex.sin_ofReal_im]
  unfold atan2
  rw [e]
  exact Complex.arg_mul_cos_add_sin_mul_I_sub hr θ

/-- Positive scaling of both arguments does not change `atan2`. -/
theorem atan2_scale {z : ℝ} (hz : 0 < z) (y x : ℝ) : atan2 (y * z) (x * z) = atan2 y x := by
  have e : (⟨x * z, y * z⟩ : ℂ) = (z : ℂ) * (⟨x, y⟩ : ℂ) := by
    apply Complex.ext <;> simp [mul_comm]
  unfold atan2
  rw [e]
  exact Complex.arg_real_mul _ hz

/-- The angle `atan2` finds after the clean-up loop has been applied to a point of the
circle of radius `r` is within `pi / 2 * (eps / r)` of the polar angle, modulo `2 pi`. -/
theorem atan2_chop_near {r eps θ : ℝ} (hr : 0 < r) (he : 0 < eps) (hre : 2 * eps ^ 2 ≤ r ^ 2) :
    ∃ k : ℤ, |atan2 (chop eps (r * Real.sin θ)) (chop eps (r * Real.cos θ)) - θ
      - 2 * Real.pi * k| ≤ Real.pi / 2 * (eps / r) := by
  have hpi := Real.pi_pos
  have hb : 0 ≤ Real.pi / 2 * (eps / r) := by positivity
  have small : ∀ v : ℝ, |r * v| < eps → |v| ≤ eps / r := by
    intro v hv
    rw [abs_mul, abs_of_pos hr] at hv
    rw [le_div_iff₀ hr]
    linarith
  unfold chop
  by_cases hy : |r * Real.sin θ| < eps <;> by_cases hx : |r * Real.cos θ| < eps
  · exfalso
    have h5 := Real.cos_sq_add_sin_sq θ
    have hy2 : (r * Real.sin θ) ^ 2 < eps ^ 2 :=
      sq_lt_sq' (abs_lt.mp hy).1 (abs_lt.mp hy).2
    have hx2 : (r * Real.cos θ) ^ 2 < eps ^ 2 :=
      sq_lt_sq' (abs_lt.mp hx).1 (abs_lt.mp hx).2
    have h6 : r ^ 2 = (r * Real.cos θ) ^ 2 + (r * Real.sin θ) ^ 2 := by
      linear_combination (r ^ 2) * h5.symm
    linarith
  · rw [if_pos hy, if_neg hx]
    have hs := small _ hy
    rcases lt_trichotomy (Real.cos θ) 0 with hc | hc | hc
    · have hxneg : r * Real.cos θ < 0 := mul_neg_of_pos_of_neg hr hc
      rw [atan2_zero_of_neg hxneg]
      have hc' : 0 < Real.cos (Real.pi - θ) := by
        rw [Real.cos_pi_sub]
        linarith
      have hs' : |Real.sin (Real.pi - θ)| ≤ eps / r := by
        rw [Real.sin_pi_sub]
        exact hs
      exact near_multiple_of_two_pi hc' hs'
    · exfalso
      rw [hc, mul_zero, abs_zero] at hx
      exact hx he
    · have hxpos : 0 < r * Real.cos θ := mul_pos hr hc
      rw [atan2_zero_of_pos hxpos]
      have hc' : 0 < Real.cos (0 - θ) := by
        rw [zero_sub, Real.cos_neg]
        exact hc
      have hs' : |Real.sin (0 - θ)| ≤ eps / r := by
        rw [zero_sub, Real.sin_neg, abs_neg]
        exact hs
      exact near_multiple_of_two_pi hc' hs'
  · rw [if_neg hy, if_pos hx]
    have hs := small _ hx
    rcases lt_trichotomy (Real.sin θ) 0 with hc | hc | hc
    · have hyneg : r * Real.sin θ < 0 := mul_neg_of_pos_of_neg hr hc
      rw [atan2_neg_zero hyneg]
      have hc' : 0 < Real.cos (-(Real.pi / 2) - θ) := by
        have : -(Real.pi / 2) - θ = -(θ + Real.pi / 2) := by ring
        rw [this, Real.cos_neg, Real.cos_add_pi_div_two]
        linarith
      have hs' : |Real.sin (-(Real.pi / 2) - θ)| ≤ eps / r := by
        have : -(Real.pi / 2) - θ = -(θ + Real.pi / 2) := by ring
        rw [this, Real.sin_neg, Real.sin_add_pi_div_two, abs_neg]
        exact hs
      exact near_multiple_of_two_pi hc' hs'
    · exfalso
      rw [hc, mul_zero, abs_zero] at hy
      exact hy he
    · have hypos : 0 < r * Real.sin θ := mul_pos hr hc
      rw [atan2_pos_zero hypos]
      have hc' : 0 < Real.cos (Real.pi / 2 - θ) := by
        rw [Real.cos_pi_div_two_sub]
        exact hc
      have hs' : |Real.sin (Real.pi / 2 - θ)| ≤ eps / r := by
        rw [Real.sin_pi_div_two_sub]
        exact hs
      exact near_multiple_of_two_pi hc' hs'
  · rw [if_neg hy, if_neg hx]
    refine ⟨⌊(Real.pi - θ) / (2 * Real.pi)⌋, ?_⟩
    rw [atan2_polar hr θ, sub_self, abs_zero]
    exact hb

theorem chop_neg (eps v : ℝ) : chop eps (-v) = -chop eps v := by
  unfold chop
  rw [abs_neg]
  split_ifs <;> simp

/-- The wrap of `om2eu` and `qu2eu` changes `phi1` and `phi2` by a multiple of `2 pi`. -/
theorem wrap_two_pi_congr (r : ℝ) :
    ∃ m : ℤ, (if r < 0 then fmod (r + 100.0 * k_PiD) k_2PiD else r) = r + 2 * Real.pi * m := by
  split_ifs with h
  · unfold fmod
    simp only [k_PiD, k_2PiD]
    split_ifs
    · refine ⟨50 - ⌊(r + 100.0 * Real.pi) / (2 * Real.pi)⌋, ?_⟩
      push_cast
      ring
    · refine ⟨50 - ⌈(r + 100.0 * Real.pi) / (2 * Real.pi)⌉, ?_⟩
      push_cast
      ring
  · exact ⟨0, by simp⟩

theorem om2eu_of_o8_one (o : Mat9) (h : o.o8 = 1) :
    om2eu o = wrapEuler ⟨atan2 o.o1 o.o0, 0.0, 0.0⟩ := by
  unfold om2eu
  have c1 : closeEnough |o.o8| 1.0 1.0e-6 = true := by
    simp only [closeEnough, h, decide_eq_true_eq]
    norm_num
  have c2 : closeEnough o.o8 1.0 1.0e-6 = true := by
    simp only [closeEnough, h, decide_eq_true_eq]
    norm_num
  rw [if_neg (by simp [c1]), if_pos c2]

theorem om2eu_of_o8_neg_one (o : Mat9) (h : o.o8 = -1) :
    om2eu o = wrapEuler ⟨-atan2 (-o.o1) o.o0, k_PiD, 0.0⟩ := by
  unfold om2eu
  have c1 : closeEnough |o.o8| 1.0 1.0e-6 = true := by
    simp only [closeEnough, h, decide_eq_true_eq]
    norm_num
  have c2 : ¬ closeEnough o.o8 1.0 1.0e-6 = true := by
    simp only [closeEnough, h, decide_eq_true_eq]
    norm_num
  rw [if_neg (by simp [c1]), if_neg c2]

theorem chop_one : chop (14073749.0 / 140737488355328.0) 1 = 1 := by
  unfold chop
  norm_num

theorem chop_neg_one : chop (14073749.0 / 140737488355328.0) (-1) = -1 := by
  unfold chop
  norm_num

/-- The `phi1` delivered through `atan2`, the clean-up loop and the final wrap agrees
with the angle `θ` of the unit vector `(cos θ, sin θ)` within `1e-6` modulo `2 pi`. -/
theorem wrap_atan2_chop_unit (θ : ℝ) :
    ∃ k : ℤ, |(wrapEuler ⟨atan2 (chop (14073749.0 / 140737488355328.0) (Real.sin θ)) (chop (14073749.0 / 140737488355328.0) (Real.cos θ)),
      0.0, 0.0⟩).a0 - θ - 2 * Real.pi * k| ≤ 1.0e-6 := by
  obtain ⟨k, hk⟩ := @atan2_chop_near 1 (14073749.0 / 140737488355328.0) θ one_pos (by norm_num) (by norm_num)
  rw [one_mul, one_mul] at hk
  obtain ⟨m, hm⟩ := wrap_two_pi_congr
    (atan2 (chop (14073749.0 / 140737488355328.0) (Real.sin θ)) (chop (14073749.0 / 140737488355328.0) (Real.cos θ)))
  refine ⟨k + m, ?_⟩
  unfold wrapEuler
  simp only []
  rw [hm]
  have hb : Real.pi / 2 * ((14073749.0 / 140737488355328.0) / 1) ≤ 1.0e-6 := by
    have := Real.pi_lt_d2
    norm_num
    linarith
  refine le_trans (le_of_eq ?_) (le_trans hk hb)
  congr 1
  push_cast
  ring

theorem om2eu_of_close_one (o : Mat9) (h : |o.o8 - 1| < 1.0e-6) :
    om2eu o = wrapEuler ⟨atan2 o.o1 o.o0, 0.0, 0.0⟩ := by
  unfold om2eu
  have hpos : 0 < o.o8 := by
    have := (abs_lt.mp h).1
    norm_num at this
    linarith
  have c1 : closeEnough |o.o8| 1.0 1.0e-6 = true := by
    simp only [closeEnough, decide_eq_true_eq]
    rw [abs_of_pos hpos]
    norm_num
    norm_num at h
    exact h
  have c2 : closeEnough o.o8 1.0 1.0e-6 = true := by
    simp only [closeEnough, decide_eq_true_eq]
    norm_num
    norm_num at h
    exact h
  rw [if_neg (by simp [c1]), if_pos c2]

theorem om2eu_of_not_close (o : Mat9) (h : |o.o8| ≤ 1 - 1.0e-6) :
    om2eu o = wrapEuler ⟨atan2 o.o6 (-o.o7), Real.arccos o.o8, atan2 o.o2 o.o5⟩ := by
  unfold om2eu
  have c1 : closeEnough |o.o8| 1.0 1.0e-6 = false := by
    simp only [closeEnough, decide_eq_false_iff_not, not_lt]
    have h0 : |o.o8| - 1.0 ≤ 0 := by
      norm_num at h ⊢
      linarith
    rw [abs_of_nonpos h0]
    norm_num at h ⊢
    linarith
  have hlt : o.o8 * o.o8 < 1 := by
    have h1 := abs_nonneg o.o8
    have h2 : |o.o8| < 1 := by
      norm_num at h
      linarith
    have h3 : |o.o8| * |o.o8| < 1 := by nlinarith
    rwa [abs_mul_abs_self] at h3
  have hz : 0 < 1.0 / Real.sqrt (1.0 - o.o8 * o.o8) := by
    apply div_pos (by norm_num)
    apply Real.sqrt_pos.mpr
    norm_num
    exact hlt
  rw [if_pos c1]
  simp only []
  rw [atan2_scale hz, atan2_scale hz]

theorem eu2om_o6 (e : Vec3) : (eu2om e).o6 = chop (14073749.0 / 140737488355328.0) (Real.sin e.a1 * Real.sin e.a0) := by
  simp only [eu2om, mul_comm]

theorem eu2om_neg_o7 (e : Vec3) :
    -(eu2om e).o7 = chop (14073749.0 / 140737488355328.0) (Real.sin e.a1 * Real.cos e.a0) := by
  simp only [eu2om]
  rw [← chop_neg]
  congr 1
  ring

/-- When the clean-up loop removes `sin Phi * sin phi1` and keeps a positive
`sin Phi * cos phi1`, the round trip returns `phi1 = 0`. -/
theorem roundtrip_phi1_zero (e : Vec3) (h8 : |chop (14073749.0 / 140737488355328.0) (Real.cos e.a1)| ≤ 1 - 1.0e-6)
    (h6 : |Real.sin e.a1 * Real.sin e.a0| < (14073749.0 / 140737488355328.0))
    (h7 : (14073749.0 / 140737488355328.0) ≤ Real.sin e.a1 * Real.cos e.a0) : (om2eu (eu2om e)).a0 = 0 := by
  have e8 : (eu2om e).o8 = chop (14073749.0 / 140737488355328.0) (Real.cos e.a1) := rfl
  rw [om2eu_of_not_close _ (by rw [e8]; exact h8), eu2om_o6, eu2om_neg_o7]
  have hpos : (0 : ℝ) < Real.sin e.a1 * Real.cos e.a0 := lt_of_lt_of_le (by norm_num) h7
  have c6 : chop (14073749.0 / 140737488355328.0) (Real.sin e.a1 * Real.sin e.a0) = 0 := by
    unfold chop
    rw [if_pos h6]
  have c7 : chop (14073749.0 / 140737488355328.0) (Real.sin e.a1 * Real.cos e.a0) = Real.sin e.a1 * Real.cos e.a0 := by
    unfold chop
    rw [if_neg]
    rw [abs_of_pos hpos]
    exact not_lt.mpr h7
  rw [c6, c7, atan2_zero_of_pos hpos]
  simp [wrapEuler]

/-! ### The conversion `om2qu` -/

/-- The nine entries of the matrix `qu2om` computes from a quaternion stored as
`(x, y, z, w)`. -/
theorem qu2om_entries (x y z w : ℝ) :
    (qu2om ⟨x, y, z, w⟩ Order.VectorScalar).o0 = w * w - (x * x + y * y + z * z) + 2 * x * x ∧
    (qu2om ⟨x, y, z, w⟩ Order.VectorScalar).o1 = 2 * (x * y - w * z) ∧
    (qu2om ⟨x, y, z, w⟩ Order.VectorScalar).o2 = 2 * (x * z + w * y) ∧
    (qu2om ⟨x, y, z, w⟩ Order.VectorScalar).o3 = 2 * (y * x + w * z) ∧
    (qu2om ⟨x, y, z, w⟩ Order.VectorScalar).o4 = w * w - (x * x + y * y + z * z) + 2 * y * y ∧
    (qu2om ⟨x, y, z, w⟩ Order.VectorScalar).o5 = 2 * (y * z - w * x) ∧
    (qu2om ⟨x, y, z, w⟩ Order.VectorScalar).o6 = 2 * (z * x - w * y) ∧
    (qu2om ⟨x, y, z, w⟩ Order.VectorScalar).o7 = 2 * (z * y + w * x) ∧
    (qu2om ⟨x, y, z, w⟩ Order.VectorScalar).o8 = w * w - (x * x + y * y + z * z) + 2 * z * z := by
  simp only [qu2om, qW, qX, qY, qZ]
  norm_num

set_option maxHeartbeats 800000 in
/-- On the matrix of a unit quaternion with positive scalar part, `om2qu` recovers the four
components up to the zeroing of the small ones, divides by their length, and then applies
the sign check against the axis-angle pair `oax`. -/
theorem om2qu_qu2om_of (layout : Order) {x y z w cx cy cz cw : ℝ} {oax : Vec4}
    (hn : x * x + y * y + z * z + w * w = 1) (hw : 0 < w)
    (hcx : cx = if 4 * (x * x) < 1.0e-10 then 0 else x)
    (hcy : cy = if 4 * (y * y) < 1.0e-10 then 0 else y)
    (hcz : cz = if 4 * (z * z) < 1.0e-10 then 0 else z)
    (hcw : cw = if 4 * (w * w) < 1.0e-10 then 0 else w)
    (hm : Real.sqrt (cw * cw + cx * cx + cy * cy + cz * cz) ≠ 0)
    (hoax : eu2ax (om2eu (qu2om ⟨x, y, z, w⟩ Order.VectorScalar)) = oax) :
    om2qu (qu2om ⟨x, y, z, w⟩ Order.VectorScalar) layout = mkQuat layout
      (cw / Real.sqrt (cw * cw + cx * cx + cy * cy + cz * cz))
      (if oax.a0 * (cx / Real.sqrt (cw * cw + cx * cx + cy * cy + cz * cz)) < 0 then
        -(cx / Real.sqrt (cw * cw + cx * cx + cy * cy + cz * cz))
        else cx / Real.sqrt (cw * cw + cx * cx + cy * cy + cz * cz))
      (if oax.a1 * (cy / Real.sqrt (cw * cw + cx * cx + cy * cy + cz * cz)) < 0 then
        -(cy / Real.sqrt (cw * cw + cx * cx + cy * cy + cz * cz))
        else cy / Real.sqrt (cw * cw + cx * cx + cy * cy + cz * cz))
      (if oax.a2 * (cz / Real.sqrt (cw * cw + cx * cx + cy * cy + cz * cz)) < 0 then
        -(cz / Real.sqrt (cw * cw + cx * cx + cy * cy + cz * cz))
        else cz / Real.sqrt (cw * cw + cx * cx + cy * cy + cz * cz)) := by
  obtain ⟨e0, e1, e2, e3, e4, e5, e6, e7, e8⟩ := qu2om_entries x y z w
  generalize qu2om ⟨x, y, z, w⟩ Order.VectorScalar = om at *
  have signed : ∀ v : ℝ, (if v < 0 then -epsijk * (if 4 * (v * v) < 1.0e-10 then 0 else |v|)
      else (if 4 * (v * v) < 1.0e-10 then 0 else |v|))
      = if 4 * (v * v) < 1.0e-10 then 0 else v := by
    intro v
    unfold epsijk
    split_ifs with h1 h2 h2
    · simp
    · rw [abs_of_neg h1]
      ring
    · rfl
    · exact abs_of_nonneg (not_lt.mp h1)
  have sq : ∀ v : ℝ,
      Real.sqrt (if closeEnough |4 * (v * v)| 0.0 1.0e-10 then 0.0 else 4 * (v * v)) * 0.5
        = if 4 * (v * v) < 1.0e-10 then 0 else |v| := by
    intro v
    unfold closeEnough
    have h0 : (0 : ℝ) ≤ 4 * (v * v) := by nlinarith [mul_self_nonneg v]
    simp only [decide_eq_true_eq]
    rw [show (0.0 : ℝ) = 0 by norm_num, sub_zero, abs_abs, abs_of_nonneg h0]
    split_ifs with h
    · simp
    · have : Real.sqrt (4 * (v * v)) = 2 * |v| := by
        rw [show 4 * (v * v) = (2 * |v|) * (2 * |v|) by
          have := abs_mul_abs_self v
          nlinarith]
        exact Real.sqrt_mul_self (by positivity)
      rw [this]
      ring
  have lt_iff : ∀ a b v : ℝ, b - a = -(4 * (w * v)) → ((a < b) = (v < 0)) := by
    intro a b v h
    apply propext
    constructor
    · intro hab
      by_contra hv
      have := mul_nonneg hw.le (not_lt.mp hv)
      linarith
    · intro hv
      have := mul_pos_of_neg_of_neg (neg_neg_of_pos hw) hv
      linarith
  have hmag : Magnitude4x1 (mkQuat layout cw cx cy cz).a0 (mkQuat layout cw cx cy cz).a1
      (mkQuat layout cw cx cy cz).a2 (mkQuat layout cw cx cy cz).a3
      = Real.sqrt (cw * cw + cx * cx + cy * cy + cz * cz) := by
    unfold Magnitude4x1
    cases layout <;> simp only [mkQuat]
    congr 1
    ring
  have h00 : (0.0 : ℝ) = 0 := by norm_num
  have hs0 : om.o0 + om.o4 + om.o8 + 1.0 = 4 * (w * w) := by
    rw [e0, e4, e8]
    norm_num
    linarith
  have hs1 : om.o0 - om.o4 - om.o8 + 1.0 = 4 * (x * x) := by
    rw [e0, e4, e8]
    norm_num
    linarith
  have hs2 : -om.o0 + om.o4 - om.o8 + 1.0 = 4 * (y * y) := by
    rw [e0, e4, e8]
    norm_num
    linarith
  have hs3 : -om.o0 - om.o4 + om.o8 + 1.0 = 4 * (z * z) := by
    rw [e0, e4, e8]
    norm_num
    linarith
  have hx7 : (om.o7 < om.o5) = (x < 0) := lt_iff _ _ x (by rw [e7, e5]; ring)
  have hy2 : (om.o2 < om.o6) = (y < 0) := lt_iff _ _ y (by rw [e2, e6]; ring)
  have hz3 : (om.o3 < om.o1) = (z < 0) := lt_iff _ _ z (by rw [e3, e1]; ring)
  unfold om2qu
  simp only []
  rw [hs0, hs1, hs2, hs3, sq, sq, sq, sq]
  simp only [hx7, hy2, hz3]
  rw [signed, signed, signed, abs_of_pos hw, ← hcw, ← hcx, ← hcy, ← hcz, hoax, hmag, h00,
    if_pos hm, if_pos hm, if_pos hm, if_pos hm]

/-- The angle that `om2eu` takes from `atan2` and then wraps lies in `[0, 2 pi)` and has
the sine and the cosine of the direction of `(x, y)`. -/
theorem wrap_atan2_spec (y x : ℝ) (h : 0 < x * x + y * y) :
    Real.sin (if atan2 y x < 0 then fmod (atan2 y x + 100.0 * k_PiD) k_2PiD else atan2 y x)
      * Real.sqrt (x * x + y * y) = y ∧
    Real.cos (if atan2 y x < 0 then fmod (atan2 y x + 100.0 * k_PiD) k_2PiD else atan2 y x)
      * Real.sqrt (x * x + y * y) = x ∧
    0 ≤ (if atan2 y x < 0 then fmod (atan2 y x + 100.0 * k_PiD) k_2PiD else atan2 y x) ∧
    (if atan2 y x < 0 then fmod (atan2 y x + 100.0 * k_PiD) k_2PiD else atan2 y x)
      < 2 * Real.pi := by
  obtain ⟨m, hm⟩ := wrap_two_pi_congr (atan2 y x)
  obtain ⟨r1, r2⟩ := wrap_two_pi_range (neg_pi_lt_atan2 y x).le (atan2_le_pi y x)
  refine ⟨?_, ?_, r1, r2⟩
  · rw [hm, show atan2 y x + 2 * Real.pi * m = atan2 y x + m * (2 * Real.pi) by ring,
      Real.sin_add_int_mul_two_pi]
    unfold atan2
    have hpos : 0 < Real.sqrt (x * x + y * y) := Real.sqrt_pos.mpr h
    rw [Complex.sin_arg, Complex.abs_apply, Complex.normSq_mk]
    field_simp
  · rw [hm, show atan2 y x + 2 * Real.pi * m = atan2 y x + m * (2 * Real.pi) by ring,
      Real.cos_add_int_mul_two_pi]
    unfold atan2
    have hpos : 0 < Real.sqrt (x * x + y * y) := Real.sqrt_pos.mpr h
    have hne : (⟨x, y⟩ : ℂ) ≠ 0 := by
      intro h0
      have hx : x = 0 := congrArg Complex.re h0
      have hy : y = 0 := congrArg Complex.im h0
      rw [hx, hy] at h
      simp at h
    rw [Complex.cos_arg hne, Complex.abs_apply, Complex.normSq_mk]
    field_simp

/-- The shape of the result of `eu2ax` away from the angle branch at `pi / 2`: either the
sentinel, in which case `tau` is tiny against the cosine of `sigma`, or a positive multiple
of `-cos sigma * (t * cos delta, t * sin delta, sin sigma)`. -/
theorem eu2ax_form (e : Vec3) (hc : 1.0e-6 ≤ |Real.cos (0.5 * (e.a0 + e.a2))|) :
    (eu2ax e = ⟨0, 0, 1, 0⟩ ∧
      Real.sqrt (Real.tan (e.a1 * 0.5) * Real.tan (e.a1 * 0.5)
        + Real.sin (0.5 * (e.a0 + e.a2)) * Real.sin (0.5 * (e.a0 + e.a2)))
        ≤ 1.0e-6 * |Real.cos (0.5 * (e.a0 + e.a2))|) ∨
    ∃ c : ℝ, 0 < c ∧
      (eu2ax e).a0 = -c * (Real.cos (0.5 * (e.a0 + e.a2))
        * (Real.tan (e.a1 * 0.5) * Real.cos (0.5 * (e.a0 - e.a2)))) ∧
      (eu2ax e).a1 = -c * (Real.cos (0.5 * (e.a0 + e.a2))
        * (Real.tan (e.a1 * 0.5) * Real.sin (0.5 * (e.a0 - e.a2)))) ∧
      (eu2ax e).a2 = -c * (Real.cos (0.5 * (e.a0 + e.a2)) * Real.sin (0.5 * (e.a0 + e.a2))) := by
  have arctan_small : ∀ {u : ℝ}, (|2.0 * Real.arctan u| < 1.0e-6) → |u| ≤ 1.0e-6 := by
    intro u h
    by_contra hu
    push_neg at hu
    have hpi := Real.pi_gt_three
    have htan : Real.tan 5.0e-7 ≤ 1.0e-6 := by
      rw [Real.tan_eq_sin_div_cos]
      have h1 : Real.sin 5.0e-7 ≤ 5.0e-7 := Real.sin_le (by norm_num)
      have h2 := @Real.one_sub_sq_div_two_le_cos 5.0e-7
      have h3 : (0 : ℝ) < Real.cos 5.0e-7 := by
        norm_num at h2 ⊢
        linarith
      rw [div_le_iff₀ h3]
      norm_num at h1 h2 ⊢
      linarith
    have hat : (5.0e-7 : ℝ) < Real.arctan |u| := by
      have h5 : Real.arctan (Real.tan 5.0e-7) = 5.0e-7 := by
        apply Real.arctan_tan <;> norm_num <;> linarith
      rw [← h5]
      exact Real.arctan_strictMono (lt_of_le_of_lt htan hu)
    have habs : Real.arctan |u| = |Real.arctan u| := by
      rcases le_total 0 u with h0 | h0
      · have : 0 ≤ Real.arctan u := by
          rw [← Real.arctan_zero]
          exact Real.arctan_strictMono.monotone h0
        rw [abs_of_nonneg h0, abs_of_nonneg this]
      · have : Real.arctan u ≤ 0 := by
          rw [← Real.arctan_zero]
          exact Real.arctan_strictMono.monotone h0
        rw [abs_of_nonpos h0, abs_of_nonpos this, Real.arctan_neg]
    rw [habs] at hat
    rw [abs_mul] at h
    norm_num at h hat
    linarith
  have hclose : closeEnough (0.5 * (e.a0 + e.a2)) k_PiOver2D 1.0e-6 = false := by
    simp only [closeEnough, k_PiOver2D, decide_eq_false_iff_not, not_lt]
    have h1 : |Real.sin (0.5 * (e.a0 + e.a2) - Real.pi / 2)|
        ≤ |0.5 * (e.a0 + e.a2) - Real.pi / 2| := Real.abs_sin_le_abs
    rw [Real.sin_sub_pi_div_two, abs_neg] at h1
    exact le_trans hc h1
  unfold eu2ax
  simp only []
  rw [hclose]
  simp only [Bool.false_eq_true, if_false]
  generalize Real.tan (e.a1 * 0.5) = t
  generalize hS : Real.sin (0.5 * (e.a0 + e.a2)) = S
  generalize hC : Real.cos (0.5 * (e.a0 + e.a2)) = C at hc ⊢
  generalize Real.cos (0.5 * (e.a0 - e.a2)) = Cd
  generalize Real.sin (0.5 * (e.a0 - e.a2)) = Sd
  have htau0 : 0 ≤ Real.sqrt (t * t + S * S) := Real.sqrt_nonneg _
  generalize Real.sqrt (t * t + S * S) = tau at htau0 ⊢
  have hC0 : C ≠ 0 := by
    intro h
    rw [h, abs_zero] at hc
    norm_num at hc
  have hCabs : 0 < |C| := abs_pos.mpr hC0
  by_cases hα : |2.0 * Real.arctan (tau / C)| < 1.0e-6
  · left
    rw [if_pos hα]
    refine ⟨rfl, ?_⟩
    have := arctan_small hα
    rw [abs_div, abs_of_nonneg htau0, div_le_iff₀ hCabs] at this
    exact this
  · right
    rw [if_neg hα]
    have htau : 0 < tau := by
      rcases htau0.lt_or_eq with h | h
      · exact h
      · exfalso
        apply hα
        rw [← h, zero_div, Real.arctan_zero]
        norm_num
    rcases lt_or_gt_of_ne hC0 with hneg | hpos
    · have hu : tau / C < 0 := div_neg_of_pos_of_neg htau hneg
      have ha : Real.arctan (tau / C) < 0 := by
        rw [← Real.arctan_zero]
        exact Real.arctan_strictMono hu
      have ha2 : 2.0 * Real.arctan (tau / C) < 0 := by
        norm_num
        linarith
      rw [if_pos ha2]
      refine ⟨1 / (tau * -C), by apply div_pos one_pos; nlinarith, ?_, ?_, ?_⟩ <;>
        simp only [epsijk] <;> field_simp <;> ring
    · have hu : 0 < tau / C := div_pos htau hpos
      have ha : 0 < Real.arctan (tau / C) := by
        rw [← Real.arctan_zero]
        exact Real.arctan_strictMono hu
      have ha2 : ¬ 2.0 * Real.arctan (tau / C) < 0 := by
        norm_num
        linarith
      rw [if_neg ha2]
      refine ⟨1 / (tau * C), by positivity, ?_, ?_, ?_⟩ <;>
        simp only [epsijk] <;> field_simp <;> ring

set_option maxHeartbeats 1600000 in
/-- The axis that the sign check of `om2qu` reads on the matrix of a unit quaternion with
scalar part at least `1e-3`: its first and second components do not oppose `x` and `y`, and
its third component does not oppose `z` unless `z` is small. -/
theorem axis_sign : ∀ x y z w : ℝ, x * x + y * y + z * z + w * w = 1 → 1.0e-3 ≤ w →
    0 ≤ (eu2ax (om2eu (qu2om ⟨x, y, z, w⟩ Order.VectorScalar))).a0 * x ∧
    0 ≤ (eu2ax (om2eu (qu2om ⟨x, y, z, w⟩ Order.VectorScalar))).a1 * y ∧
    (0 ≤ (eu2ax (om2eu (qu2om ⟨x, y, z, w⟩ Order.VectorScalar))).a2 * z ∨ |z| ≤ 4.0e-4) := by
  -- Sum-to-product identities for the half sum `sigma` and the half difference `delta` of two
  -- angles whose sines and cosines are known up to the common factor `ρ`.
  have half_angle_products : ∀ {p1 p2 ρ a b c d : ℝ}, (Real.sin p1 * ρ = a) → (Real.cos p1 * ρ =
      b) → (Real.sin p2 * ρ = c) → (Real.cos p2 * ρ = d) → 2 * (Real.cos (0.5 * (p1 + p2)) *
      Real.cos (0.5 * (p1 - p2))) * ρ = b + d ∧ 2 * (Real.sin (0.5 * (p1 - p2)) * Real.cos (0.5 *
      (p1 + p2))) * ρ = a - c ∧ 2 * (Real.sin (0.5 * (p1 + p2)) * Real.cos (0.5 * (p1 + p2))) * (ρ
      * ρ) = a * d + b * c ∧ (2 * (Real.cos (0.5 * (p1 + p2)) * Real.cos (0.5 * (p1 + p2))) - 1) *
      (ρ * ρ) = b * d - a * c := by
    intro p1 p2 ρ a b c d s1 c1 s2 c2
    have hsig : 0.5 * (p1 + p2) = (p1 + p2) / 2 := by ring
    have hdel : 0.5 * (p1 - p2) = (p1 - p2) / 2 := by ring
    rw [hsig, hdel]
    have i1 := Real.cos_add_cos p1 p2
    have i2 := Real.sin_sub_sin p1 p2
    have i3 := Real.sin_two_mul ((p1 + p2) / 2)
    have i4 := Real.cos_two_mul ((p1 + p2) / 2)
    rw [show 2 * ((p1 + p2) / 2) = p1 + p2 by ring] at i3 i4
    rw [Real.sin_add] at i3
    rw [Real.cos_add] at i4
    rw [← s1, ← c1, ← s2, ← c2]
    refine ⟨?_, ?_, ?_, ?_⟩
    · linear_combination (-ρ) * i1
    · linear_combination (-ρ) * i2
    · linear_combination (-(ρ * ρ)) * i3
    · linear_combination (-(ρ * ρ)) * i4
  -- The sign argument shared by the branches of the sign check: a positive multiple `c` of
  -- `-cos sigma * (t * cos delta, t * sin delta, sin sigma)` has, component by component, the
  -- sign of `(x, y, z)` once the three products with `cos sigma` are known.
  have axis_sign_core : ∀ {x y z w ρ C S Cd Sd t c n : ℝ}, (0 ≤ w) → (0 < ρ) → (0 ≤ t) → (0 < c) →
      (0 ≤ n) → (2 * (C * Cd) * ρ = -4 * w * x) → (2 * (Sd * C) * ρ = -4 * w * y) → (2 * (S * C) *
      (ρ * ρ) = -8 * w * z * n) → 0 ≤ -c * (C * (t * Cd)) * x ∧ 0 ≤ -c * (C * (t * Sd)) * y ∧ 0 ≤
      -c * (C * S) * z := by
    intro x y z w ρ C S Cd Sd t c n hw hρ ht hc hn k1 k2 k3
    have g1 : C * Cd * x ≤ 0 := by
      by_contra h
      push_neg at h
      have h1 := mul_pos h hρ
      have h2 : C * Cd * x * ρ = -2 * (w * (x * x)) := by linear_combination (x / 2) * k1
      have h3 := mul_nonneg hw (mul_self_nonneg x)
      linarith
    have g2 : Sd * C * y ≤ 0 := by
      by_contra h
      push_neg at h
      have h1 := mul_pos h hρ
      have h2 : Sd * C * y * ρ = -2 * (w * (y * y)) := by linear_combination (y / 2) * k2
      have h3 := mul_nonneg hw (mul_self_nonneg y)
      linarith
    have g3 : S * C * z ≤ 0 := by
      by_contra h
      push_neg at h
      have h1 := mul_pos h (mul_pos hρ hρ)
      have h2 : S * C * z * (ρ * ρ) = -4 * (w * ((z * z) * n)) := by
        linear_combination (z / 2) * k3
      have h3 := mul_nonneg hw (mul_nonneg (mul_self_nonneg z) hn)
      linarith
    refine ⟨?_, ?_, ?_⟩
    · have : -c * (C * (t * Cd)) * x = c * t * (-(C * Cd * x)) := by ring
      rw [this]
      exact mul_nonneg (mul_nonneg hc.le ht) (by linarith)
    · have : -c * (C * (t * Sd)) * y = c * t * (-(Sd * C * y)) := by ring
      rw [this]
      exact mul_nonneg (mul_nonneg hc.le ht) (by linarith)
    · have : -c * (C * S) * z = c * (-(S * C * z)) := by ring
      rw [this]
      exact mul_nonneg hc.le (by linarith)
  -- Half-angle identity behind `t = tan (Phi / 2)` in `eu2ax`, with `Phi = arccos c`.
  have tan_half_arccos : ∀ {c : ℝ}, (-1 < c) → (c ≤ 1) → 0 ≤ Real.tan (Real.arccos c * 0.5) ∧
      Real.tan (Real.arccos c * 0.5) * Real.tan (Real.arccos c * 0.5) * (1 + c) = 1 - c := by
    intro c h1 h2
    have hΦ0 := Real.arccos_nonneg c
    have hΦπ := Real.arccos_le_pi c
    have hcos : Real.cos (Real.arccos c) = c := Real.cos_arccos h1.le h2
    have h2h : Real.arccos c = 2 * (Real.arccos c * 0.5) := by ring
    have hc2 := Real.cos_two_mul (Real.arccos c * 0.5)
    rw [← h2h, hcos] at hc2
    have hsc := Real.sin_sq_add_cos_sq (Real.arccos c * 0.5)
    have hcpos : Real.cos (Real.arccos c * 0.5) ≠ 0 := by
      intro h0
      rw [h0] at hc2
      norm_num at hc2
      linarith
    constructor
    · apply Real.tan_nonneg_of_nonneg_of_le_pi_div_two <;> linarith
    · rw [Real.tan_eq_sin_div_cos]
      field_simp
      nlinarith
  -- Near the gimbal lock with the third Euler angle at zero, a third component that is not
  -- small dominates the off-diagonal entry `2 * (x * y - w * z)` of the matrix.
  have gimbal_offdiag : ∀ {x y z w : ℝ}, (x * x + y * y + z * z + w * w = 1) → (1.0e-3 ≤ w) → (x *
      x + y * y < 5.0e-7) → (4.0e-4 < |z|) → 2.7e-4 ≤ |x * y - w * z| ∧ 0 ≤ z * (w * z - x * y) :=
      by
    intro x y z w hn hw hP hz
    have hw0 : 0 < w := by
      norm_num at hw
      linarith
    have hz0 := abs_nonneg z
    have hzz := abs_mul_abs_self z
    have hxy : |x * y| ≤ 2.5e-7 := by
      rw [abs_mul]
      have h1 := abs_mul_abs_self x
      have h2 := abs_mul_abs_self y
      have h3 := mul_self_nonneg (|x| - |y|)
      norm_num at hP ⊢
      nlinarith
    have hwz : 2.8e-4 ≤ w * |z| := by
      by_cases hb : |z| ≤ 0.7
      · have hz2 : z * z ≤ 0.49 := by
          rw [← hzz]
          have := mul_le_mul hb hb hz0 (by norm_num)
          norm_num at this ⊢
          linarith
        have hww : 0.7 ≤ w := by
          by_contra hlt
          push_neg at hlt
          have := mul_lt_mul'' hlt hlt hw0.le hw0.le
          norm_num at this hz2 hP
          linarith
        have := mul_le_mul hww hz.le (by norm_num) hw0.le
        norm_num at this ⊢
        linarith
      · push_neg at hb
        have := mul_le_mul hw hb.le (by norm_num) hw0.le
        norm_num at this ⊢
        linarith
    constructor
    · have h1 := abs_sub_abs_le_abs_sub (w * z) (x * y)
      rw [abs_mul, abs_of_pos hw0, abs_sub_comm] at h1
      norm_num at hxy hwz ⊢
      linarith
    · have h1 : z * (w * z - x * y) = w * (|z| * |z|) - x * y * z := by
        rw [hzz]
        ring
      have h2 : x * y * z ≤ |x * y| * |z| := by
        rw [← abs_mul]
        exact le_abs_self _
      have h3 := mul_le_mul_of_nonneg_right hxy hz0
      have h4 := mul_le_mul_of_nonneg_right hwz hz0
      rw [h1]
      norm_num at h3 h4
      nlinarith
  -- Near the gimbal lock at `Phi = 0` the cosine of half the first Euler angle stays away from
  -- zero when the scalar part is at least `1e-3`.
  have gimbal_cos_sq : ∀ {x y z w r C o0 o1 : ℝ}, (x * x + y * y + z * z + w * w = 1) → (1.0e-3 ≤
      w) → (x * x + y * y < 5.0e-7) → (o0 = w * w - (x * x + y * y + z * z) + 2 * x * x) → (o1 = 2
      * (x * y - w * z)) → (0 < r) → (r ≤ 1) → (r * r = o0 * o0 + o1 * o1) → ((2 * (C * C) - 1) *
      r = o0) → 1.0e-6 ≤ |C| := by
    intro x y z w r C o0 o1 hn hw hP e0 e1 hr hr1 hr2 k4
    have hC2 : 0 ≤ C * C := mul_self_nonneg C
    have hw2 : 1.0e-6 ≤ w * w := by
      norm_num at hw ⊢
      nlinarith
    have key : 1.0e-12 ≤ C * C := by
      by_cases h0 : 0 ≤ o0
      · have h1 : 0 ≤ (2 * (C * C) - 1) * r := by rw [k4]; exact h0
        have h2 : 0 ≤ 2 * (C * C) - 1 := by
          by_contra hneg
          push_neg at hneg
          have := mul_neg_of_neg_of_pos hneg hr
          linarith
        norm_num
        linarith
      · push_neg at h0
        have hzbig : 4.0e-4 < |z| := by
          by_contra hle
          push_neg at hle
          have h1 := mul_le_mul hle hle (abs_nonneg z) (by norm_num)
          rw [abs_mul_abs_self] at h1
          rw [e0] at h0
          have := mul_self_nonneg x
          norm_num at h1 hw2 hP
          linarith
        obtain ⟨hoff, -⟩ := gimbal_offdiag hn hw hP hzbig
        have h1 : (2.7e-4 : ℝ) * 2.7e-4 ≤ |x * y - w * z| * |x * y - w * z| :=
          mul_le_mul hoff hoff (by norm_num) (abs_nonneg _)
        rw [abs_mul_abs_self] at h1
        have h2 : o1 * o1 = 4 * ((x * y - w * z) * (x * y - w * z)) := by
          rw [e1]
          ring
        have h3 : o1 * o1 = (r - o0) * (r + o0) := by linear_combination -hr2
        have h4 : r + o0 = 2 * (C * C) * r := by linear_combination -k4
        have h5 : r + o0 ≤ 2 * (C * C) := by
          rw [h4]
          have := mul_le_mul_of_nonneg_left hr1 (by linarith : 0 ≤ 2 * (C * C))
          linarith
        have h6 : 0 ≤ r + o0 := by
          rw [h4]
          exact mul_nonneg (by linarith) hr.le
        have h7 : r - o0 ≤ 2 := by linarith
        have h8 : 0 ≤ r - o0 := by linarith
        have h9 := mul_le_mul h7 h5 h6 (by norm_num)
        norm_num at h1 ⊢
        linarith
    by_contra hlt
    push_neg at hlt
    have h0 := abs_nonneg C
    have h1 := abs_mul_abs_self C
    have h2 := mul_lt_mul'' hlt hlt h0 h0
    norm_num at h2 key
    linarith
  -- When `eu2ax` returns the sentinel near the gimbal lock, the off-diagonal entry `2 * S * C *
  -- r` of the matrix is tiny.
  have gimbal_sentinel_small : ∀ {S C r : ℝ}, (0 ≤ S) → (|C| ≤ 1) → (0 < r) → (r ≤ 1) → (Real.sqrt
      (0 * 0 + S * S) ≤ 1.0e-6 * |C|) → |2 * (S * C) * r| ≤ 2.0e-6 := by
    intro S C r hS0 hCle hr hr1 hsmall
    have hnn : 0 ≤ (0 : ℝ) * 0 + S * S := by positivity
    have hsq := Real.mul_self_sqrt hnn
    have hs0 := Real.sqrt_nonneg ((0 : ℝ) * 0 + S * S)
    generalize Real.sqrt ((0 : ℝ) * 0 + S * S) = tau at hsmall hsq hs0
    have h1 : tau ≤ 1.0e-6 := by
      have := mul_le_mul_of_nonneg_left hCle (show (0 : ℝ) ≤ 1.0e-6 by norm_num)
      linarith
    have h2 : S ≤ 1.0e-6 := by
      by_contra hgt
      push_neg at hgt
      have h3 := mul_lt_mul'' hgt hgt (by norm_num) (by norm_num)
      have h4 := mul_le_mul h1 h1 hs0 (by norm_num)
      linarith
    rw [abs_mul, abs_mul, abs_mul, abs_of_pos hr, abs_of_nonneg hS0]
    have h6 : S * |C| ≤ 1.0e-6 * 1 := mul_le_mul h2 hCle (abs_nonneg C) (by norm_num)
    have h7 : S * |C| * r ≤ 1.0e-6 * 1 * 1 := mul_le_mul h6 hr1 hr.le (by norm_num)
    rw [abs_of_pos (by norm_num : (0 : ℝ) < 2)]
    norm_num at h7 ⊢
    linarith
  -- Away from the gimbal lock, the axis that the sign check of `om2qu` reads has, component by
  -- component, the sign of the vector part of the quaternion.
  have axis_sign_generic : ∀ (x y z w : ℝ), (x * x + y * y + z * z + w * w = 1) → (1.0e-3 ≤ w) →
      (5.0e-7 ≤ x * x + y * y) → 0 ≤ (eu2ax (om2eu (qu2om ⟨x, y, z, w⟩ Order.VectorScalar))).a0 *
      x ∧ 0 ≤ (eu2ax (om2eu (qu2om ⟨x, y, z, w⟩ Order.VectorScalar))).a1 * y ∧ 0 ≤ (eu2ax (om2eu
      (qu2om ⟨x, y, z, w⟩ Order.VectorScalar))).a2 * z := by
    intro x y z w hn hw hP
    obtain ⟨-, -, e2, -, -, e5, e6, e7, e8⟩ := qu2om_entries x y z w
    generalize qu2om ⟨x, y, z, w⟩ Order.VectorScalar = om at *
    have hw0 : 0 < w := by
      norm_num at hw
      linarith
    have hw2 : 1.0e-6 ≤ w * w := by
      norm_num at hw ⊢
      nlinarith
    have hx2 := mul_self_nonneg x
    have hy2 := mul_self_nonneg y
    have hz2 := mul_self_nonneg z
    have h8 : om.o8 = 1 - 2 * (x * x + y * y) := by
      rw [e8]
      linarith
    have habs : |om.o8| ≤ 1 - 1.0e-6 := by
      rw [abs_le, h8]
      constructor <;> norm_num at hw2 hP ⊢ <;> linarith
    rw [om2eu_of_not_close om habs]
    have hPpos : 0 < x * x + y * y := by
      norm_num at hP
      linarith
    have hQpos : 0 < z * z + w * w := by
      norm_num at hw2
      linarith
    have hR1 : -om.o7 * -om.o7 + om.o6 * om.o6 = 4 * (x * x + y * y) * (z * z + w * w) := by
      rw [e6, e7]
      ring
    have hR2 : om.o5 * om.o5 + om.o2 * om.o2 = 4 * (x * x + y * y) * (z * z + w * w) := by
      rw [e5, e2]
      ring
    have hRpos : 0 < 4 * (x * x + y * y) * (z * z + w * w) := by positivity
    obtain ⟨s1, c1, -, -⟩ := wrap_atan2_spec om.o6 (-om.o7) (by rw [hR1]; exact hRpos)
    obtain ⟨s2, c2, -, -⟩ := wrap_atan2_spec om.o2 om.o5 (by rw [hR2]; exact hRpos)
    rw [hR1] at s1 c1
    rw [hR2] at s2 c2
    have hρ : 0 < Real.sqrt (4 * (x * x + y * y) * (z * z + w * w)) := Real.sqrt_pos.mpr hRpos
    have hρ2 : Real.sqrt (4 * (x * x + y * y) * (z * z + w * w))
        * Real.sqrt (4 * (x * x + y * y) * (z * z + w * w))
        = 4 * (x * x + y * y) * (z * z + w * w) := Real.mul_self_sqrt hRpos.le
    generalize Real.sqrt (4 * (x * x + y * y) * (z * z + w * w)) = ρ at s1 c1 s2 c2 hρ hρ2
    have h8lo : -1 < om.o8 := by
      have := (abs_le.mp habs).1
      norm_num at this ⊢
      linarith
    have h8hi : om.o8 ≤ 1 - 1.0e-6 := (abs_le.mp habs).2
    obtain ⟨ht0, ht2⟩ := tan_half_arccos h8lo (by norm_num at h8hi ⊢; linarith)
    have htt : 5.0e-7 ≤ Real.tan (Real.arccos om.o8 * 0.5) * Real.tan (Real.arccos om.o8 * 0.5) := by
      have h1 : 1 + om.o8 ≤ 2 := by
        norm_num at h8hi
        linarith
      have := mul_le_mul_of_nonneg_left h1 (mul_self_nonneg (Real.tan (Real.arccos om.o8 * 0.5)))
      norm_num at h8hi ⊢
      linarith
    have ha1 : (wrapEuler ⟨atan2 om.o6 (-om.o7), Real.arccos om.o8, atan2 om.o2 om.o5⟩).a1
        = Real.arccos om.o8 := wrap_pi_of_nonneg (Real.arccos_nonneg om.o8)
    have ha0 : (wrapEuler ⟨atan2 om.o6 (-om.o7), Real.arccos om.o8, atan2 om.o2 om.o5⟩).a0
        = (if atan2 om.o6 (-om.o7) < 0 then fmod (atan2 om.o6 (-om.o7) + 100.0 * k_PiD) k_2PiD
          else atan2 om.o6 (-om.o7)) := rfl
    have ha2 : (wrapEuler ⟨atan2 om.o6 (-om.o7), Real.arccos om.o8, atan2 om.o2 om.o5⟩).a2
        = (if atan2 om.o2 om.o5 < 0 then fmod (atan2 om.o2 om.o5 + 100.0 * k_PiD) k_2PiD
          else atan2 om.o2 om.o5) := rfl
    have form := eu2ax_form (wrapEuler ⟨atan2 om.o6 (-om.o7), Real.arccos om.o8, atan2 om.o2 om.o5⟩)
    rw [ha0, ha1, ha2] at form
    generalize eu2ax (wrapEuler ⟨atan2 om.o6 (-om.o7), Real.arccos om.o8, atan2 om.o2 om.o5⟩)
      = oax at form ⊢
    generalize (if atan2 om.o6 (-om.o7) < 0 then fmod (atan2 om.o6 (-om.o7) + 100.0 * k_PiD) k_2PiD
      else atan2 om.o6 (-om.o7)) = p1 at form s1 c1
    generalize (if atan2 om.o2 om.o5 < 0 then fmod (atan2 om.o2 om.o5 + 100.0 * k_PiD) k_2PiD
      else atan2 om.o2 om.o5) = p2 at form s2 c2
    generalize Real.tan (Real.arccos om.o8 * 0.5) = t at form ht0 htt
    obtain ⟨k1, k2, k3, k4⟩ := half_angle_products s1 c1 s2 c2
    have hCle := Real.abs_cos_le_one (0.5 * (p1 + p2))
    clear s1 c1 s2 c2 ha0 ha1 ha2 hR1 hR2 ht2 h8 habs h8lo h8hi
    rw [e7, e5] at k1
    rw [e6, e2] at k2
    rw [e6, e5, e7, e2] at k3 k4
    clear e2 e5 e6 e7 e8
    generalize Real.cos (0.5 * (p1 + p2)) = C at form k1 k2 k3 k4 hCle
    generalize Real.sin (0.5 * (p1 + p2)) = S at form k3
    generalize Real.cos (0.5 * (p1 - p2)) = Cd at form k1
    generalize Real.sin (0.5 * (p1 - p2)) = Sd at form k2
    have hCC : w * w ≤ C * C := by
      rw [hρ2] at k4
      have h5 : C * C * (z * z + w * w) = w * w := by
        have h6 : 4 * (x * x + y * y) * (C * C * (z * z + w * w) - w * w) = 0 := by
          linear_combination (1 / 2) * k4
        rcases mul_eq_zero.mp h6 with h7 | h7
        · exfalso
          linarith
        · linarith
      have h9 : z * z + w * w ≤ 1 := by linarith
      have := mul_le_mul_of_nonneg_left h9 (mul_self_nonneg C)
      linarith
    have hc : 1.0e-6 ≤ |C| := by
      by_contra hlt
      push_neg at hlt
      have h0 := abs_nonneg C
      have h1 := abs_mul_abs_self C
      have h2 := mul_lt_mul'' hlt hlt h0 h0
      norm_num at h2 hw2
      linarith
    rcases form hc with ⟨-, hsmall⟩ | ⟨c, hcpos, f0, f1, f2⟩
    · exfalso
      have hnn : 0 ≤ t * t + S * S := add_nonneg (mul_self_nonneg t) (mul_self_nonneg S)
      have hsq := Real.mul_self_sqrt hnn
      have hs0 := Real.sqrt_nonneg (t * t + S * S)
      generalize Real.sqrt (t * t + S * S) = tau at hsmall hsq hs0
      have h1 : tau ≤ 1.0e-6 := by
        have := mul_le_mul_of_nonneg_left hCle (show (0 : ℝ) ≤ 1.0e-6 by norm_num)
        linarith
      have h2 := mul_le_mul h1 h1 hs0 (by norm_num)
      have h3 := mul_self_nonneg S
      norm_num at h2 htt
      linarith
    · rw [f0, f1, f2]
      exact axis_sign_core hw0.le hρ ht0 hcpos hPpos.le (by linear_combination k1)
        (by linear_combination k2) (by linear_combination k3)
  -- Near the gimbal lock at `Phi = 0`, the axis that the sign check of `om2qu` reads has zero
  -- first and second components, and its third component has the sign of `z` unless `z` is
  -- small.
  have axis_sign_gimbal : ∀ (x y z w : ℝ), (x * x + y * y + z * z + w * w = 1) → (1.0e-3 ≤ w) → (x
      * x + y * y < 5.0e-7) → 0 ≤ (eu2ax (om2eu (qu2om ⟨x, y, z, w⟩ Order.VectorScalar))).a0 * x ∧
      0 ≤ (eu2ax (om2eu (qu2om ⟨x, y, z, w⟩ Order.VectorScalar))).a1 * y ∧ (0 ≤ (eu2ax (om2eu
      (qu2om ⟨x, y, z, w⟩ Order.VectorScalar))).a2 * z ∨ |z| ≤ 4.0e-4) := by
    intro x y z w hn hw hP
    obtain ⟨e0, e1, e2, -, -, -, -, -, e8⟩ := qu2om_entries x y z w
    generalize qu2om ⟨x, y, z, w⟩ Order.VectorScalar = om at *
    have hx2 := mul_self_nonneg x
    have hy2 := mul_self_nonneg y
    have hz2 := mul_self_nonneg z
    have h8 : |om.o8 - 1| < 1.0e-6 := by
      rw [e8, abs_lt]
      constructor <;> norm_num at hP ⊢ <;> linarith
    rw [om2eu_of_close_one om h8]
    -- the first row of the matrix has length one
    have hrow : om.o0 * om.o0 + om.o1 * om.o1 = 1 - om.o2 * om.o2 := by
      rw [e0, e1, e2]
      linear_combination (x * x + y * y + z * z + w * w + 1) * hn
    have ho2 : om.o2 * om.o2 ≤ 2.0e-6 := by
      rw [e2]
      have h1 := mul_self_nonneg (x * w - y * z)
      have h2 : (x * z + w * y) * (x * z + w * y) ≤ x * x + y * y := by
        have h3 : (x * z + w * y) * (x * z + w * y) + (x * w - y * z) * (x * w - y * z)
            = (x * x + y * y) * (z * z + w * w) := by ring
        have h4 : z * z + w * w ≤ 1 := by linarith
        have h5 := mul_le_mul_of_nonneg_left h4 (add_nonneg hx2 hy2)
        linarith
      norm_num at hP ⊢
      linarith
    have hrpos : 0 < om.o0 * om.o0 + om.o1 * om.o1 := by
      rw [hrow]
      norm_num at ho2 ⊢
      linarith
    have hrle : om.o0 * om.o0 + om.o1 * om.o1 ≤ 1 := by
      rw [hrow]
      linarith [mul_self_nonneg om.o2]
    obtain ⟨s1, c1, hp0, hp2⟩ := wrap_atan2_spec om.o1 om.o0 hrpos
    have hr : 0 < Real.sqrt (om.o0 * om.o0 + om.o1 * om.o1) := Real.sqrt_pos.mpr hrpos
    have hr2 := Real.mul_self_sqrt hrpos.le
    have hr1 : Real.sqrt (om.o0 * om.o0 + om.o1 * om.o1) ≤ 1 := by
      rw [← Real.sqrt_one]
      exact Real.sqrt_le_sqrt hrle
    generalize Real.sqrt (om.o0 * om.o0 + om.o1 * om.o1) = r at s1 c1 hr hr2 hr1
    have ha0 : (wrapEuler ⟨atan2 om.o1 om.o0, 0.0, 0.0⟩).a0
        = (if atan2 om.o1 om.o0 < 0 then fmod (atan2 om.o1 om.o0 + 100.0 * k_PiD) k_2PiD
          else atan2 om.o1 om.o0) := rfl
    have ha1 : (wrapEuler ⟨atan2 om.o1 om.o0, 0.0, 0.0⟩).a1 = 0 := by
      simp only [wrapEuler]
      norm_num
    have ha2 : (wrapEuler ⟨atan2 om.o1 om.o0, 0.0, 0.0⟩).a2 = 0 := by
      simp only [wrapEuler]
      norm_num
    have form := eu2ax_form (wrapEuler ⟨atan2 om.o1 om.o0, 0.0, 0.0⟩)
    rw [ha0, ha1, ha2, zero_mul, Real.tan_zero] at form
    generalize eu2ax (wrapEuler ⟨atan2 om.o1 om.o0, 0.0, 0.0⟩) = oax at form ⊢
    generalize (if atan2 om.o1 om.o0 < 0 then fmod (atan2 om.o1 om.o0 + 100.0 * k_PiD) k_2PiD
      else atan2 om.o1 om.o0) = p at form s1 c1 hp0 hp2
    have s2 : Real.sin 0 * r = 0 := by rw [Real.sin_zero, zero_mul]
    have c2 : Real.cos 0 * r = r := by rw [Real.cos_zero, one_mul]
    obtain ⟨-, -, k3, k4⟩ := half_angle_products s1 c1 s2 c2
    have hCle := Real.abs_cos_le_one (0.5 * (p + 0))
    have hS0 : 0 ≤ Real.sin (0.5 * (p + 0)) := by
      apply Real.sin_nonneg_of_nonneg_of_le_pi <;> linarith
    clear s1 c1 s2 c2 ha0 ha1 ha2 hp0 hp2 h8 e8 e2 ho2 hrle hrpos hrow
    generalize Real.cos (0.5 * (p + 0)) = C at form k3 k4 hCle
    generalize Real.sin (0.5 * (p + 0)) = S at form k3 hS0
    generalize Real.cos (0.5 * (p - 0)) = Cd at form
    generalize Real.sin (0.5 * (p - 0)) = Sd at form
    -- `2 * S * C * r = o1` and `(2 * C * C - 1) * r = o0`
    have k3' : 2 * (S * C) * r = om.o1 := by
      have h : r * (2 * (S * C) * r - om.o1) = 0 := by linear_combination k3
      rcases mul_eq_zero.mp h with h1 | h1
      · exfalso
        linarith
      · linarith
    have k4' : (2 * (C * C) - 1) * r = om.o0 := by
      have h : r * ((2 * (C * C) - 1) * r - om.o0) = 0 := by linear_combination k4
      rcases mul_eq_zero.mp h with h1 | h1
      · exfalso
        linarith
      · linarith
    have hc := gimbal_cos_sq hn hw hP e0 e1 hr hr1 hr2 k4'
    rcases form hc with ⟨hsent, hsmall⟩ | ⟨c, hcpos, f0, f1, f2⟩
    · rw [hsent]
      refine ⟨by norm_num, by norm_num, ?_⟩
      by_cases hz : |z| ≤ 4.0e-4
      · exact Or.inr hz
      · exfalso
        push_neg at hz
        obtain ⟨hoff, -⟩ := gimbal_offdiag hn hw hP hz
        have h5 := gimbal_sentinel_small hS0 hCle hr hr1 hsmall
        rw [k3', e1, abs_mul, abs_of_pos (by norm_num : (0 : ℝ) < 2)] at h5
        norm_num at h5 hoff
        linarith
    · rw [f0, f1, f2]
      refine ⟨by norm_num, by norm_num, ?_⟩
      by_cases hz : |z| ≤ 4.0e-4
      · exact Or.inr hz
      · left
        push_neg at hz
        obtain ⟨-, hsign⟩ := gimbal_offdiag hn hw hP hz
        have g : S * C * z ≤ 0 := by
          by_contra h
          push_neg at h
          have h1 := mul_pos h hr
          have h2 : S * C * z * r = -(z * (w * z - x * y)) := by
            linear_combination (z / 2) * k3' + (z / 2) * e1
          linarith
        have : -c * (C * S) * z = c * (-(S * C * z)) := by ring
        rw [this]
        exact mul_nonneg hcpos.le (by linarith)
  intro x y z w hn hw
  by_cases hP : x * x + y * y < 5.0e-7
  · exact axis_sign_gimbal x y z w hn hw hP
  · obtain ⟨h0, h1, h2⟩ := axis_sign_generic x y z w hn hw (not_lt.mp hP)
    exact ⟨h0, h1, Or.inl h2⟩

/-! ### Claims -/

/-- C1: for every Euler triple (in particular every one in the domain
`phi1, phi2 ∈ [0, 2 pi]`, `Phi ∈ [0, pi]`) and either quaternion layout used in both
calls, the nine entries of `qu2om (eu2qu e L) L` and of `eu2om e` agree within `1e-6`. -/
theorem eu2qu_qu2om_agrees_eu2om (e : Vec3) (layout : Order) (i : Fin 9) :
    |(qu2om (eu2qu e layout) layout).get i - (eu2om e).get i| ≤ 1.0e-6 := by
  rw [qu2om_eu2qu]
  have hb : ∀ v : ℝ, |v - chop (14073749.0 / 140737488355328.0) v| ≤ 1.0e-6 := fun v =>
    le_trans (abs_sub_chop_le _ v (by norm_num)) (by norm_num)
  fin_cases i <;> exact hb _

/-- C3 as stated fails on the code: the threshold of the clean-up is the single-precision
`1.0E-7f`, which is larger than `1e-7`.  For the Euler triple `(0, arcsin v, pi / 2)` with
`v = 1.000000006e-7` entry 2 of the documented matrix is `v`, which is not below `1e-7`,
and `eu2om` returns `0` there. -/
theorem eu2om_spec_counterexample :
    (eulerMatrix ⟨0, Real.arcsin 1.000000006e-7, Real.pi / 2⟩).get 2 = 1.000000006e-7 ∧
    ¬ |(eulerMatrix ⟨0, Real.arcsin 1.000000006e-7, Real.pi / 2⟩).get 2| < 1.0e-7 ∧
    (eu2om ⟨0, Real.arcsin 1.000000006e-7, Real.pi / 2⟩).get 2 = 0 := by
  have hv : Real.sin (Real.pi / 2) * Real.sin (Real.arcsin 1.000000006e-7)
      = 1.000000006e-7 := by
    rw [Real.sin_pi_div_two, Real.sin_arcsin (by norm_num) (by norm_num), one_mul]
  have h1 : (eulerMatrix ⟨0, Real.arcsin 1.000000006e-7, Real.pi / 2⟩).get 2
      = 1.000000006e-7 := hv
  refine ⟨h1, ?_, ?_⟩
  · rw [h1]
    norm_num [abs_of_pos]
  · show chop (14073749.0 / 140737488355328.0)
      (Real.sin (Real.pi / 2) * Real.sin (Real.arcsin 1.000000006e-7)) = 0
    rw [hv]
    unfold chop
    rw [if_pos (by norm_num [abs_of_pos])]

/-- C3 as amended: `eu2om` returns the documented matrix with every entry of absolute value
below the single-precision threshold `1.0E-7f = 14073749 * 2^-47` replaced by `0` and every
other entry unchanged, and `eu2om (0, 0, 0)` is exactly the identity matrix. -/
theorem eu2om_spec (e : Vec3) :
    (∀ i : Fin 9, (eu2om e).get i =
      if |(eulerMatrix e).get i| < (14073749.0 / 140737488355328.0) then 0
      else (eulerMatrix e).get i) ∧
    eu2om ⟨0, 0, 0⟩ = ⟨1, 0, 0, 0, 1, 0, 0, 0, 1⟩ := by
  refine ⟨?_, ?_⟩
  · intro i
    fin_cases i <;> rfl
  · simp only [eu2om, chop, Real.cos_zero, Real.sin_zero]
    norm_num

/-- C9: for every Euler triple, in or out of the domain, and either layout, the
quaternion returned by `eu2qu` has squared norm exactly `1` and a scalar component
(index 0 for scalar-first, index 3 for vector-first) that is not negative. -/
theorem eu2qu_unit_nonneg (e : Vec3) (layout : Order) :
    (eu2qu e layout).normSq = 1 ∧ 0 ≤ qW layout (eu2qu e layout) := by
  have hb := Real.cos_sq_add_sin_sq (0.5 * e.a1)
  have hm := Real.cos_sq_add_sin_sq (0.5 * e.a0 - 0.5 * e.a2)
  have hp := Real.cos_sq_add_sin_sq (0.5 * e.a0 + 0.5 * e.a2)
  unfold eu2qu
  simp only []
  generalize Real.cos (0.5 * e.a1) = cb at *
  generalize Real.sin (0.5 * e.a1) = sb at *
  generalize Real.cos (0.5 * e.a0 - 0.5 * e.a2) = cm at *
  generalize Real.sin (0.5 * e.a0 - 0.5 * e.a2) = sm at *
  generalize Real.cos (0.5 * e.a0 + 0.5 * e.a2) = cp at *
  generalize Real.sin (0.5 * e.a0 + 0.5 * e.a2) = sp at *
  split_ifs with hw
  · cases layout <;> simp only [mkQuat, qW, Vec4.normSq, epsijk] <;>
      refine ⟨?_, by linarith⟩ <;>
      linear_combination cb ^ 2 * hp + sb ^ 2 * hm + hb
  · cases layout <;> simp only [mkQuat, qW, Vec4.normSq, epsijk] <;>
      refine ⟨?_, by linarith⟩ <;>
      linear_combination cb ^ 2 * hp + sb ^ 2 * hm + hb

/-- C10: for every unit quaternion, in either layout, the matrix `M` returned by `qu2om`
is a proper rotation matrix: `M * transpose M` is the identity and `det M = 1`. -/
theorem qu2om_proper_rotation (q : Vec4) (layout : Order) (hq : q.normSq = 1) :
    (qu2om q layout).mul (qu2om q layout).transpose = Mat9.one ∧
    (qu2om q layout).det = 1 := by
  obtain ⟨a, b, c, d⟩ := q
  simp only [Vec4.normSq] at hq
  have h2 : (2.0 : ℝ) = 2 := by norm_num
  constructor
  · cases layout <;>
      simp only [qu2om, qW, qX, qY, qZ, Mat9.mul, Mat9.transpose, Mat9.one, Mat9.mk.injEq, h2] <;>
      refine ⟨?_, ?_, ?_, ?_, ?_, ?_, ?_, ?_, ?_⟩ <;>
      first
        | ring1
        | linear_combination (a * a + b * b + c * c + d * d + 1) * hq
  · cases layout <;>
      simp only [qu2om, qW, qX, qY, qZ, Mat9.det, h2] <;>
      linear_combination ((a * a + b * b + c * c + d * d) ^ 2
        + (a * a + b * b + c * c + d * d) + 1) * hq

/-- C10 at the identity quaternion in vector-scalar layout. -/
theorem qu2om_proper_rotation_witness :
    (⟨0, 0, 0, 1⟩ : Vec4).normSq = 1 ∧
    ((qu2om ⟨0, 0, 0, 1⟩ Order.VectorScalar).mul
        (qu2om ⟨0, 0, 0, 1⟩ Order.VectorScalar).transpose = Mat9.one ∧
      (qu2om ⟨0, 0, 0, 1⟩ Order.VectorScalar).det = 1) :=
  ⟨by norm_num [Vec4.normSq],
   qu2om_proper_rotation ⟨0, 0, 0, 1⟩ Order.VectorScalar (by norm_num [Vec4.normSq])⟩

/-- C4: for every axis `n` (unit or not), `ax2ro` sends the axis-angle pair `(n, pi)` to
the Rodrigues vector `(n, +infinity)`, `ro2ax` sends `(n, +infinity)` to `(n, pi)`, in
particular `(0, 0, 1, +infinity)` to `(0, 0, 1, pi)`, hence `ro2ax (ax2ro (n, pi)) = (n, pi)`. -/
theorem pi_rotation_rodrigues (n0 n1 n2 : ℝ) :
    ax2ro ⟨n0, n1, n2, Real.pi⟩ = ⟨n0, n1, n2, ⊤⟩ ∧
    ro2ax ⟨n0, n1, n2, ⊤⟩ = ⟨n0, n1, n2, Real.pi⟩ ∧
    ro2ax ⟨0, 0, 1, ⊤⟩ = ⟨0, 0, 1, Real.pi⟩ ∧
    ro2ax (ax2ro ⟨n0, n1, n2, Real.pi⟩) = ⟨n0, n1, n2, Real.pi⟩ := by
  have hax : ax2ro ⟨n0, n1, n2, Real.pi⟩ = ⟨n0, n1, n2, ⊤⟩ := by
    unfold ax2ro
    simp only [k_PiD]
    rw [if_neg Real.pi_ne_zero, if_pos (by norm_num)]
  have hro : ∀ a b c : ℝ, ro2ax ⟨a, b, c, ⊤⟩ = ⟨a, b, c, Real.pi⟩ := by
    intro a b c
    unfold ro2ax
    rw [if_neg EReal.top_ne_zero, if_pos rfl]
    rfl
  exact ⟨hax, hro _ _ _, hro _ _ _, by rw [hax]; exact hro _ _ _⟩

/-- C5: the direct conversions to an axis-angle pair return exactly the identity sentinel
`(0, 0, 1, 0)` for a zero rotation: `eu2ax (0, 0, 0)`, `qu2ax` of the identity quaternion
in scalar-first layout `(1, 0, 0, 0)` and in vector-first layout `(0, 0, 0, 1)`, and
`ro2ax` of any Rodrigues vector whose fourth component is `0`. -/
theorem zero_rotation_axis_angle :
    eu2ax ⟨0, 0, 0⟩ = ⟨0, 0, 1, 0⟩ ∧
    qu2ax ⟨1, 0, 0, 0⟩ Order.ScalarVector = ⟨0, 0, 1, 0⟩ ∧
    qu2ax ⟨0, 0, 0, 1⟩ Order.VectorScalar = ⟨0, 0, 1, 0⟩ ∧
    ∀ a b c : ℝ, ro2ax ⟨a, b, c, 0⟩ = ⟨0, 0, 1, 0⟩ := by
  refine ⟨?_, ?_, ?_, ?_⟩
  · exact eu2ax_zero
  · unfold qu2ax
    norm_num [qW, epsijk]
  · unfold qu2ax
    norm_num [qW, epsijk]
  · intro a b c
    unfold ro2ax
    simp

/-- C6 fails on the code: for a zero rotation `ax2ro`, `eu2ro` and `qu2ro` do not
return `(0, 0, 1, 0)`. -/
theorem zero_rotation_rodrigues_counterexample :
    ax2ro ⟨0, 0, 1, 0⟩ ≠ ⟨0, 0, 1, 0⟩ ∧
    eu2ro ⟨0, 0, 0⟩ ≠ ⟨0, 0, 1, 0⟩ ∧
    qu2ro ⟨0, 0, 0, 1⟩ Order.VectorScalar ≠ ⟨0, 0, 1, 0⟩ := by
  refine ⟨?_, ?_, ?_⟩
  · unfold ax2ro
    simp
  · rw [eu2ro_zero]
    exact rod_zero_ne_sentinel
  · unfold qu2ro
    norm_num [qW, qX, qY, qZ, Magnitude3x1]

/-- C6 as amended: for a zero rotation the direct conversions to a Rodrigues vector
return the all-zero vector `(0, 0, 0, 0)`: `ax2ro (n, 0)` for every axis `n`,
`eu2ro (0, 0, 0)`, and `qu2ro` of the identity quaternion in either layout. -/
theorem zero_rotation_rodrigues :
    (∀ n0 n1 n2 : ℝ, ax2ro ⟨n0, n1, n2, 0⟩ = ⟨0, 0, 0, 0⟩) ∧
    eu2ro ⟨0, 0, 0⟩ = ⟨0, 0, 0, 0⟩ ∧
    qu2ro ⟨0, 0, 0, 1⟩ Order.VectorScalar = ⟨0, 0, 0, 0⟩ ∧
    qu2ro ⟨1, 0, 0, 0⟩ Order.ScalarVector = ⟨0, 0, 0, 0⟩ := by
  refine ⟨?_, ?_, ?_, ?_⟩
  · intro n0 n1 n2
    unfold ax2ro
    simp
  · exact eu2ro_zero
  · unfold qu2ro
    norm_num [qW, qX, qY, qZ, Magnitude3x1]
  · unfold qu2ro
    norm_num [qW, qX, qY, qZ, Magnitude3x1]

/-- C8: the conversions to Euler angles return angles inside the Euler domain.  For
every 3x3 input with `|o[8]| ≤ 1`, `om2eu` returns `phi1, phi2 ∈ [0, 2 pi)` and
`Phi ∈ [0, pi]`; for every quaternion and layout `qu2eu` returns `phi1, phi2 ∈ [0, 2 pi)`
and `Phi ∈ [0, pi]`.  No returned angle is negative. -/
theorem euler_outputs_in_domain (o : Mat9) (_ho : |o.o8| ≤ 1) (q : Vec4) (layout : Order) :
    (0 ≤ (om2eu o).a0 ∧ (om2eu o).a0 < 2 * Real.pi ∧
      0 ≤ (om2eu o).a1 ∧ (om2eu o).a1 ≤ Real.pi ∧
      0 ≤ (om2eu o).a2 ∧ (om2eu o).a2 < 2 * Real.pi) ∧
    (0 ≤ (qu2eu q layout).a0 ∧ (qu2eu q layout).a0 < 2 * Real.pi ∧
      0 ≤ (qu2eu q layout).a1 ∧ (qu2eu q layout).a1 ≤ Real.pi ∧
      0 ≤ (qu2eu q layout).a2 ∧ (qu2eu q layout).a2 < 2 * Real.pi) := by
  have hpi := Real.pi_pos
  have hr : ∀ y x : ℝ, -Real.pi ≤ atan2 y x ∧ atan2 y x ≤ Real.pi :=
    fun y x => ⟨(neg_pi_lt_atan2 y x).le, atan2_le_pi y x⟩
  have hn : ∀ y x : ℝ, -Real.pi ≤ -atan2 y x ∧ -atan2 y x ≤ Real.pi :=
    fun y x => ⟨by linarith [atan2_le_pi y x], by linarith [neg_pi_lt_atan2 y x]⟩
  have h0 : -Real.pi ≤ (0.0 : ℝ) ∧ (0.0 : ℝ) ≤ Real.pi := by
    constructor <;> norm_num <;> linarith
  have z0 : (0 : ℝ) ≤ (0.0 : ℝ) ∧ (0.0 : ℝ) ≤ Real.pi := ⟨by norm_num, h0.2⟩
  have zpi : (0 : ℝ) ≤ k_PiD ∧ k_PiD ≤ Real.pi := ⟨hpi.le, le_refl _⟩
  constructor
  · unfold om2eu
    apply wrapEuler_range
    · split_ifs
      · exact hr _ _
      · exact hr _ _
      · exact hn _ _
    · split_ifs
      · exact ⟨Real.arccos_nonneg _, Real.arccos_le_pi _⟩
      · exact z0
      · exact zpi
    · split_ifs
      · exact hr _ _
      · exact h0
      · exact h0
  · unfold qu2eu
    apply wrapEuler_range
    · split_ifs
      · exact hr _ _
      · exact hr _ _
      · exact hr _ _
    · split_ifs
      · exact z0
      · exact zpi
      · exact ⟨atan2_nonneg _ (mul_nonneg (by norm_num) (Real.sqrt_nonneg _)), atan2_le_pi _ _⟩
    · split_ifs
      · exact h0
      · exact h0
      · exact hr _ _

/-- C7: gimbal lock tie-break.  For all `phi1`, `phi2` (in particular in `[0, 2 pi)`),
`om2eu (eu2om (phi1, 0, phi2)) = (a, 0, 0)` where `a ∈ [0, 2 pi)` equals `phi1 + phi2`
modulo `2 pi` within `1e-6`, and `om2eu (eu2om (phi1, pi, phi2)) = (b, pi, 0)` where
`b ∈ [0, 2 pi)` equals `phi1 - phi2` modulo `2 pi` within `1e-6`: the returned `phi2` is
exactly `0` and `phi1` carries the whole in-plane rotation. -/
theorem gimbal_lock_tie_break (phi1 phi2 : ℝ) :
    ((om2eu (eu2om ⟨phi1, 0, phi2⟩)).a1 = 0 ∧ (om2eu (eu2om ⟨phi1, 0, phi2⟩)).a2 = 0 ∧
      0 ≤ (om2eu (eu2om ⟨phi1, 0, phi2⟩)).a0 ∧
      (om2eu (eu2om ⟨phi1, 0, phi2⟩)).a0 < 2 * Real.pi ∧
      ∃ k : ℤ, |(om2eu (eu2om ⟨phi1, 0, phi2⟩)).a0 - (phi1 + phi2) - 2 * Real.pi * k|
        ≤ 1.0e-6) ∧
    ((om2eu (eu2om ⟨phi1, Real.pi, phi2⟩)).a1 = Real.pi ∧
      (om2eu (eu2om ⟨phi1, Real.pi, phi2⟩)).a2 = 0 ∧
      0 ≤ (om2eu (eu2om ⟨phi1, Real.pi, phi2⟩)).a0 ∧
      (om2eu (eu2om ⟨phi1, Real.pi, phi2⟩)).a0 < 2 * Real.pi ∧
      ∃ k : ℤ, |(om2eu (eu2om ⟨phi1, Real.pi, phi2⟩)).a0 - (phi1 - phi2) - 2 * Real.pi * k|
        ≤ 1.0e-6) := by
  have hpi := Real.pi_pos
  have e8 : (eu2om ⟨phi1, 0, phi2⟩).o8 = 1 := by
    simp only [eu2om, Real.cos_zero]
    exact chop_one
  have e0 : (eu2om ⟨phi1, 0, phi2⟩).o0 = chop (14073749.0 / 140737488355328.0) (Real.cos (phi1 + phi2)) := by
    simp only [eu2om, Real.cos_zero, Real.cos_add, mul_one]
  have e1 : (eu2om ⟨phi1, 0, phi2⟩).o1 = chop (14073749.0 / 140737488355328.0) (Real.sin (phi1 + phi2)) := by
    simp only [eu2om, Real.cos_zero, Real.sin_add, mul_one]
  have p8 : (eu2om ⟨phi1, Real.pi, phi2⟩).o8 = -1 := by
    simp only [eu2om, Real.cos_pi]
    exact chop_neg_one
  have p0 : (eu2om ⟨phi1, Real.pi, phi2⟩).o0 = chop (14073749.0 / 140737488355328.0) (Real.cos (-(phi1 - phi2))) := by
    simp only [eu2om, Real.cos_pi, Real.cos_neg, Real.cos_sub]
    congr 1
    ring
  have p1 : -(eu2om ⟨phi1, Real.pi, phi2⟩).o1 = chop (14073749.0 / 140737488355328.0) (Real.sin (-(phi1 - phi2))) := by
    simp only [eu2om, Real.cos_pi, Real.sin_neg, Real.sin_sub]
    rw [← chop_neg]
    congr 1
    ring
  constructor
  · rw [om2eu_of_o8_one _ e8, e0, e1]
    obtain ⟨k, hk⟩ := wrap_atan2_chop_unit (phi1 + phi2)
    obtain ⟨a, b⟩ := wrap_two_pi_range
      (neg_pi_lt_atan2 (chop (14073749.0 / 140737488355328.0) (Real.sin (phi1 + phi2)))
        (chop (14073749.0 / 140737488355328.0) (Real.cos (phi1 + phi2)))).le (atan2_le_pi _ _)
    refine ⟨?_, ?_, a, b, k, hk⟩
    · norm_num [wrapEuler]
    · norm_num [wrapEuler]
  · rw [om2eu_of_o8_neg_one _ p8, p0, p1]
    obtain ⟨k, hk⟩ := wrap_atan2_chop_unit (-(phi1 - phi2))
    generalize hA : atan2 (chop (14073749.0 / 140737488355328.0) (Real.sin (-(phi1 - phi2))))
      (chop (14073749.0 / 140737488355328.0) (Real.cos (-(phi1 - phi2)))) = A at hk ⊢
    have hA1 : -Real.pi < A := by
      rw [← hA]
      exact neg_pi_lt_atan2 _ _
    have hA2 : A ≤ Real.pi := by
      rw [← hA]
      exact atan2_le_pi _ _
    obtain ⟨m, hm⟩ := wrap_two_pi_congr A
    obtain ⟨m', hm'⟩ := wrap_two_pi_congr (-A)
    obtain ⟨a, b⟩ := @wrap_two_pi_range (-A) (by linarith) (by linarith)
    refine ⟨?_, ?_, a, b, m' + m - k, ?_⟩
    · simp only [wrapEuler, k_PiD]
      rw [if_neg (not_lt.mpr hpi.le)]
    · norm_num [wrapEuler]
    · simp only [wrapEuler] at hk ⊢
      rw [hm] at hk
      rw [hm']
      refine le_trans (le_of_eq ?_) hk
      rw [← abs_neg]
      congr 1
      push_cast
      ring

/-- C8 at the identity matrix and the identity quaternion. -/
theorem euler_outputs_in_domain_witness :
    |Mat9.one.o8| ≤ 1 ∧
    ((0 ≤ (om2eu Mat9.one).a0 ∧ (om2eu Mat9.one).a0 < 2 * Real.pi ∧
      0 ≤ (om2eu Mat9.one).a1 ∧ (om2eu Mat9.one).a1 ≤ Real.pi ∧
      0 ≤ (om2eu Mat9.one).a2 ∧ (om2eu Mat9.one).a2 < 2 * Real.pi) ∧
    (0 ≤ (qu2eu ⟨0, 0, 0, 1⟩ Order.VectorScalar).a0 ∧
      (qu2eu ⟨0, 0, 0, 1⟩ Order.VectorScalar).a0 < 2 * Real.pi ∧
      0 ≤ (qu2eu ⟨0, 0, 0, 1⟩ Order.VectorScalar).a1 ∧
      (qu2eu ⟨0, 0, 0, 1⟩ Order.VectorScalar).a1 ≤ Real.pi ∧
      0 ≤ (qu2eu ⟨0, 0, 0, 1⟩ Order.VectorScalar).a2 ∧
      (qu2eu ⟨0, 0, 0, 1⟩ Order.VectorScalar).a2 < 2 * Real.pi)) :=
  ⟨by norm_num [Mat9.one],
   euler_outputs_in_domain Mat9.one (by norm_num [Mat9.one]) ⟨0, 0, 0, 1⟩ Order.VectorScalar⟩

/-- C2 as amended: for every Euler triple with `Phi ∈ (0, pi)` and
`|cos Phi| ≤ 1 - 1e-6` (outside the gimbal-lock band of `om2eu`), and all `phi1`, `phi2`
(in particular in `[0, 2 pi)`), `om2eu (eu2om e)` returns `Phi` within `1e-6` and returns
`phi1` and `phi2` within `2e-4` modulo `2 pi`. -/
theorem eu2om_om2eu_roundtrip (e : Vec3) (hPhi : 0 < e.a1 ∧ e.a1 < Real.pi)
    (hc : |Real.cos e.a1| ≤ 1 - 1.0e-6) :
    |(om2eu (eu2om e)).a1 - e.a1| ≤ 1.0e-6 ∧
    (∃ k : ℤ, |(om2eu (eu2om e)).a0 - e.a0 - 2 * Real.pi * k| ≤ 2.0e-4) ∧
    (∃ k : ℤ, |(om2eu (eu2om e)).a2 - e.a2 - 2 * Real.pi * k| ≤ 2.0e-4) := by
  have hpi := Real.pi_pos
  have hpi2 := Real.pi_lt_d2
  have hs : 0 < Real.sin e.a1 := Real.sin_pos_of_pos_of_lt_pi hPhi.1 hPhi.2
  have hcs := Real.cos_sq_add_sin_sq e.a1
  have hc2 : Real.cos e.a1 ^ 2 ≤ (1 - 1.0e-6) ^ 2 := by
    rw [← sq_abs (Real.cos e.a1)]
    exact pow_le_pow_left₀ (abs_nonneg _) hc 2
  have hs2 : (1.0e-3 : ℝ) ^ 2 ≤ Real.sin e.a1 ^ 2 := by
    norm_num at hc2 ⊢
    linarith
  have hs3 : (1.0e-3 : ℝ) ≤ Real.sin e.a1 := by
    have := abs_le_of_sq_le_sq' hs2 hs.le
    exact this.2
  have e8 : (eu2om e).o8 = chop (14073749.0 / 140737488355328.0) (Real.cos e.a1) := rfl
  have e6 : (eu2om e).o6 = chop (14073749.0 / 140737488355328.0) (Real.sin e.a1 * Real.sin e.a0) := by
    simp only [eu2om, mul_comm]
  have e7 : -(eu2om e).o7 = chop (14073749.0 / 140737488355328.0) (Real.sin e.a1 * Real.cos e.a0) := by
    simp only [eu2om]
    rw [← chop_neg]
    congr 1
    ring
  have e2 : (eu2om e).o2 = chop (14073749.0 / 140737488355328.0) (Real.sin e.a1 * Real.sin e.a2) := by
    simp only [eu2om, mul_comm]
  have e5 : (eu2om e).o5 = chop (14073749.0 / 140737488355328.0) (Real.sin e.a1 * Real.cos e.a2) := by
    simp only [eu2om, mul_comm]
  have h8 : |(eu2om e).o8| ≤ 1 - 1.0e-6 := by
    rw [e8]
    unfold chop
    split_ifs
    · norm_num
    · exact hc
  have hre : 2 * ((14073749.0 / 140737488355328.0) : ℝ) ^ 2 ≤ Real.sin e.a1 ^ 2 := by
    norm_num at hs2 ⊢
    linarith
  have hb : Real.pi / 2 * ((14073749.0 / 140737488355328.0) / Real.sin e.a1) ≤ 2.0e-4 := by
    rw [← mul_div_assoc, div_le_iff₀ hs]
    norm_num at hs3 ⊢
    nlinarith
  rw [om2eu_of_not_close _ h8, e6, e7, e2, e5, e8]
  refine ⟨?_, ?_, ?_⟩
  · simp only [wrapEuler]
    rw [if_neg (not_lt.mpr (Real.arccos_nonneg _))]
    unfold chop
    split_ifs with hch
    · rw [Real.arccos_zero]
      have hx : |e.a1 - Real.pi / 2| ≤ Real.pi / 2 := by
        rw [abs_le]
        constructor <;> linarith [hPhi.1, hPhi.2]
      have hj := Real.mul_abs_le_abs_sin hx
      rw [Real.sin_sub_pi_div_two, abs_neg] at hj
      have hj3 : |e.a1 - Real.pi / 2| = Real.pi / 2 * (2 / Real.pi * |e.a1 - Real.pi / 2|) := by
        field_simp
        ring
      rw [abs_sub_comm, hj3]
      have : 2 / Real.pi * |e.a1 - Real.pi / 2| ≤ (14073749.0 / 140737488355328.0) := le_trans hj hch.le
      have h9 : Real.pi / 2 * (2 / Real.pi * |e.a1 - Real.pi / 2|) ≤ Real.pi / 2 * (14073749.0 / 140737488355328.0) :=
        mul_le_mul_of_nonneg_left this (by positivity)
      norm_num at h9 ⊢
      linarith
    · rw [Real.arccos_cos hPhi.1.le hPhi.2.le, sub_self, abs_zero]
      norm_num
  · obtain ⟨k, hk⟩ := @atan2_chop_near (Real.sin e.a1) (14073749.0 / 140737488355328.0) e.a0 hs (by norm_num) hre
    obtain ⟨m, hm⟩ := wrap_two_pi_congr (atan2 (chop (14073749.0 / 140737488355328.0) (Real.sin e.a1 * Real.sin e.a0))
      (chop (14073749.0 / 140737488355328.0) (Real.sin e.a1 * Real.cos e.a0)))
    refine ⟨k + m, ?_⟩
    simp only [wrapEuler]
    rw [hm]
    refine le_trans (le_of_eq ?_) (le_trans hk hb)
    congr 1
    push_cast
    ring
  · obtain ⟨k, hk⟩ := @atan2_chop_near (Real.sin e.a1) (14073749.0 / 140737488355328.0) e.a2 hs (by norm_num) hre
    obtain ⟨m, hm⟩ := wrap_two_pi_congr (atan2 (chop (14073749.0 / 140737488355328.0) (Real.sin e.a1 * Real.sin e.a2))
      (chop (14073749.0 / 140737488355328.0) (Real.sin e.a1 * Real.cos e.a2)))
    refine ⟨k + m, ?_⟩
    simp only [wrapEuler]
    rw [hm]
    refine le_trans (le_of_eq ?_) (le_trans hk hb)
    congr 1
    push_cast
    ring

/-- C2 fails on the code at three Euler triples of its domain: close to `Phi = 0` the
gimbal-lock branch of `om2eu` returns `phi2 = 0`; at `Phi = 0.002` the clean-up loop of
`eu2om` moves `phi1 = 0.00004` to `0`; and at `phi1 = 2 pi - 5e-8` it moves `phi1` to `0`,
a full turn away. -/
theorem eu2om_om2eu_roundtrip_counterexample :
    (inRoundTripDomain ⟨0, 1.0e-4, 1⟩ ∧ ¬ roundTripWithin 1.0e-6 ⟨0, 1.0e-4, 1⟩) ∧
    (inRoundTripDomain ⟨4.0e-5, 2.0e-3, 0⟩ ∧ ¬ roundTripWithin 1.0e-6 ⟨4.0e-5, 2.0e-3, 0⟩) ∧
    (inRoundTripDomain ⟨2 * Real.pi - 5.0e-8, Real.pi / 2, 0⟩ ∧
      ¬ roundTripWithin 1.0e-6 ⟨2 * Real.pi - 5.0e-8, Real.pi / 2, 0⟩) := by
  have hpi := Real.pi_gt_three
  have hpi4 := Real.pi_le_four
  refine ⟨⟨?_, ?_⟩, ⟨?_, ?_⟩, ⟨?_, ?_⟩⟩
  · refine ⟨⟨?_, ?_⟩, ⟨?_, ?_⟩, ⟨?_, ?_⟩⟩ <;> norm_num <;> linarith
  · have hlo := @Real.one_sub_sq_div_two_le_cos 1.0e-4
    have hhi := Real.cos_le_one 1.0e-4
    have e8 : (eu2om ⟨0, 1.0e-4, 1⟩).o8 = Real.cos 1.0e-4 := by
      simp only [eu2om, chop]
      rw [if_neg]
      rw [abs_of_nonneg (by norm_num at hlo ⊢; linarith)]
      norm_num at hlo ⊢
      linarith
    have hclose : |(eu2om ⟨0, 1.0e-4, 1⟩).o8 - 1| < 1.0e-6 := by
      rw [e8, abs_lt]
      constructor <;> norm_num at hlo ⊢ <;> linarith
    intro h
    have h2 := h.2.2
    rw [om2eu_of_close_one _ hclose] at h2
    norm_num [wrapEuler] at h2
  · refine ⟨⟨?_, ?_⟩, ⟨?_, ?_⟩, ⟨?_, ?_⟩⟩ <;> norm_num <;> linarith
  · have hlo := @Real.one_sub_sq_div_two_le_cos 2.0e-3
    have hb := @Real.cos_bound 2.0e-3 (by rw [abs_of_nonneg] <;> norm_num)
    have hhi : Real.cos 2.0e-3 ≤ 1 - 1.0e-6 := by
      have h1 := (abs_le.mp hb).2
      rw [abs_of_nonneg (by norm_num)] at h1
      norm_num at h1 ⊢
      linarith
    have h8 : |chop (14073749.0 / 140737488355328.0) (Real.cos 2.0e-3)| ≤ 1 - 1.0e-6 := by
      unfold chop
      split_ifs
      · norm_num
      · rw [abs_of_nonneg (by norm_num at hlo ⊢; linarith)]
        exact hhi
    have s1lo : 0 ≤ Real.sin 4.0e-5 :=
      Real.sin_nonneg_of_nonneg_of_le_pi (by norm_num) (by norm_num; linarith)
    have s1hi : Real.sin 4.0e-5 ≤ 4.0e-5 := Real.sin_le (by norm_num)
    have shi : Real.sin 2.0e-3 ≤ 2.0e-3 := Real.sin_le (by norm_num)
    have slo : (1.0e-3 : ℝ) ≤ Real.sin 2.0e-3 := by
      have h1 := @Real.mul_le_sin 2.0e-3 (by norm_num) (by norm_num; linarith)
      have h2 : (1 / 2 : ℝ) ≤ 2 / Real.pi := by
        rw [le_div_iff₀ (by linarith)]
        linarith
      have h3 : (1 / 2 : ℝ) * 2.0e-3 ≤ 2 / Real.pi * 2.0e-3 :=
        mul_le_mul_of_nonneg_right h2 (by norm_num)
      norm_num at h1 h3 ⊢
      linarith
    have c1lo := @Real.one_sub_sq_div_two_le_cos 4.0e-5
    have h6 : |Real.sin 2.0e-3 * Real.sin 4.0e-5| < (14073749.0 / 140737488355328.0) := by
      rw [abs_of_nonneg (mul_nonneg (by linarith) s1lo)]
      have : Real.sin 2.0e-3 * Real.sin 4.0e-5 ≤ 2.0e-3 * 4.0e-5 :=
        mul_le_mul shi s1hi s1lo (by norm_num)
      norm_num at this ⊢
      linarith
    have h7 : (14073749.0 / 140737488355328.0) ≤ Real.sin 2.0e-3 * Real.cos 4.0e-5 := by
      have hc : (1 / 2 : ℝ) ≤ Real.cos 4.0e-5 := by
        norm_num at c1lo ⊢
        linarith
      have : (1.0e-3 : ℝ) * (1 / 2) ≤ Real.sin 2.0e-3 * Real.cos 4.0e-5 :=
        mul_le_mul slo hc (by norm_num) (by linarith)
      norm_num at this ⊢
      linarith
    intro h
    have h0 := h.1
    rw [roundtrip_phi1_zero ⟨4.0e-5, 2.0e-3, 0⟩ h8 h6 h7] at h0
    rw [abs_le] at h0
    have := h0.1
    norm_num at this
  · refine ⟨⟨?_, ?_⟩, ⟨?_, ?_⟩, ⟨?_, ?_⟩⟩ <;> norm_num <;> linarith
  · have h8 : |chop (14073749.0 / 140737488355328.0) (Real.cos (Real.pi / 2))| ≤ 1 - 1.0e-6 := by
      rw [Real.cos_pi_div_two]
      norm_num [chop]
    have s1lo : 0 ≤ Real.sin 5.0e-8 :=
      Real.sin_nonneg_of_nonneg_of_le_pi (by norm_num) (by norm_num; linarith)
    have s1hi : Real.sin 5.0e-8 ≤ 5.0e-8 := Real.sin_le (by norm_num)
    have c1lo := @Real.one_sub_sq_div_two_le_cos 5.0e-8
    have h6 : |Real.sin (Real.pi / 2) * Real.sin (2 * Real.pi - 5.0e-8)| < (14073749.0 / 140737488355328.0) := by
      rw [Real.sin_pi_div_two, Real.sin_two_pi_sub, one_mul, abs_neg, abs_of_nonneg s1lo]
      norm_num at s1hi ⊢
      linarith
    have h7 : (14073749.0 / 140737488355328.0) ≤ Real.sin (Real.pi / 2) * Real.cos (2 * Real.pi - 5.0e-8) := by
      rw [Real.sin_pi_div_two, Real.cos_two_pi_sub, one_mul]
      norm_num at c1lo ⊢
      linarith
    intro h
    have h0 := h.1
    rw [roundtrip_phi1_zero ⟨2 * Real.pi - 5.0e-8, Real.pi / 2, 0⟩ h8 h6 h7] at h0
    rw [abs_le] at h0
    have := h0.1
    norm_num at this
    linarith

/-- C2 as amended, at the Euler triple `(0, pi / 2, 0)`. -/
theorem eu2om_om2eu_roundtrip_witness :
    (0 < Real.pi / 2 ∧ Real.pi / 2 < Real.pi) ∧ |Real.cos (Real.pi / 2)| ≤ 1 - 1.0e-6 ∧
    (|(om2eu (eu2om ⟨0, Real.pi / 2, 0⟩)).a1 - Real.pi / 2| ≤ 1.0e-6 ∧
    (∃ k : ℤ, |(om2eu (eu2om ⟨0, Real.pi / 2, 0⟩)).a0 - 0 - 2 * Real.pi * k| ≤ 2.0e-4) ∧
    (∃ k : ℤ, |(om2eu (eu2om ⟨0, Real.pi / 2, 0⟩)).a2 - 0 - 2 * Real.pi * k| ≤ 2.0e-4)) :=
  ⟨⟨by positivity, by linarith [Real.pi_pos]⟩,
   by rw [Real.cos_pi_div_two]; norm_num,
   eu2om_om2eu_roundtrip ⟨0, Real.pi / 2, 0⟩ ⟨by positivity, by linarith [Real.pi_pos]⟩
     (by rw [Real.cos_pi_div_two]; norm_num)⟩

/-- C11: for every Euler triple with `phi1, phi2 ∈ [0, 2 pi]` and `Phi ∈ [0, pi)`, `eu2ax`
returns an axis of Euclidean norm exactly `1` and an angle in `[0, pi]`, and the pair is
the sentinel `(0, 0, 1, 0)` whenever the returned angle is below `1e-6`. -/
theorem eu2ax_unit_axis (e : Vec3) (_h0 : 0 ≤ e.a0 ∧ e.a0 ≤ 2 * Real.pi)
    (_h1 : 0 ≤ e.a1 ∧ e.a1 < Real.pi) (_h2 : 0 ≤ e.a2 ∧ e.a2 ≤ 2 * Real.pi) :
    Magnitude3x1 (eu2ax e).a0 (eu2ax e).a1 (eu2ax e).a2 = 1 ∧
    0 ≤ (eu2ax e).a3 ∧ (eu2ax e).a3 ≤ Real.pi ∧
    ((eu2ax e).a3 < 1.0e-6 → eu2ax e = ⟨0, 0, 1, 0⟩) := by
  -- Either `eu2ax` returns the identity sentinel, or it returns a unit axis with an angle in
  -- `[1e-6, pi]`.
  have eu2ax_cases : ∀ (e : Vec3), eu2ax e = ⟨0, 0, 1, 0⟩ ∨ (Magnitude3x1 (eu2ax e).a0 (eu2ax
      e).a1 (eu2ax e).a2 = 1 ∧ 1.0e-6 ≤ (eu2ax e).a3 ∧ (eu2ax e).a3 ≤ Real.pi) := by
    intro e
    have hpi := Real.pi_pos
    unfold eu2ax
    simp only []
    generalize ht : Real.tan (e.a1 * 0.5) = t
    generalize hsig : 0.5 * (e.a0 + e.a2) = sig
    generalize hdel : 0.5 * (e.a0 - e.a2) = del
    have htau0 : 0 ≤ t * t + Real.sin sig * Real.sin sig := by nlinarith [sq_nonneg t, sq_nonneg (Real.sin sig)]
    generalize halpha : (if closeEnough sig k_PiOver2D 1.0e-6 = true then k_PiD
        else 2.0 * Real.arctan (Real.sqrt (t * t + Real.sin sig * Real.sin sig) / Real.cos sig)) = alpha
    by_cases hs : |alpha| < 1.0e-6
    · left
      rw [if_pos hs]
    · right
      rw [if_neg hs]
      have hle : (1.0e-6 : ℝ) ≤ |alpha| := not_lt.mp hs
      have htau : 0 < Real.sqrt (t * t + Real.sin sig * Real.sin sig) := by
        rw [Real.sqrt_pos]
        rcases htau0.lt_or_eq with h | h
        · exact h
        · exfalso
          have hsin : Real.sin sig = 0 := by nlinarith [sq_nonneg t, sq_nonneg (Real.sin sig)]
          have hnc : ¬ closeEnough sig k_PiOver2D 1.0e-6 = true := by
            simp only [closeEnough, k_PiOver2D, decide_eq_true_eq]
            intro hc
            have h1 : Real.sin sig = Real.cos (sig - Real.pi / 2) := by
              rw [Real.cos_sub_pi_div_two]
            have h2 := @Real.one_sub_sq_div_two_le_cos (sig - Real.pi / 2)
            have h3 : (sig - Real.pi / 2) ^ 2 ≤ 1 := by
              have := abs_lt.mp hc
              norm_num at this
              nlinarith [this.1, this.2]
            rw [← h1, hsin] at h2
            linarith
          rw [if_neg hnc, ← h, Real.sqrt_zero, zero_div, Real.arctan_zero, mul_zero] at halpha
          rw [← halpha] at hle
          norm_num at hle
      have hsq : Real.sqrt (t * t + Real.sin sig * Real.sin sig) *
          Real.sqrt (t * t + Real.sin sig * Real.sin sig) = t * t + Real.sin sig * Real.sin sig :=
        Real.mul_self_sqrt htau0
      generalize Real.sqrt (t * t + Real.sin sig * Real.sin sig) = tau at *
      have hrange : -Real.pi < alpha ∧ alpha ≤ Real.pi := by
        rw [← halpha]
        split_ifs
        · simp only [k_PiD]
          exact ⟨by linarith, le_refl _⟩
        · have h1 := Real.neg_pi_div_two_lt_arctan (tau / Real.cos sig)
          have h2 := Real.arctan_lt_pi_div_two (tau / Real.cos sig)
          constructor <;> norm_num <;> linarith
      have hcs := Real.cos_sq_add_sin_sq del
      have hnorm : ∀ σ : ℝ, σ * σ = 1 →
          Magnitude3x1 (σ * (-epsijk * t * Real.cos del / tau)) (σ * (-epsijk * t * Real.sin del / tau))
            (σ * (-epsijk * Real.sin sig / tau)) = 1 := by
        intro σ hσ
        unfold Magnitude3x1
        rw [Real.sqrt_eq_one]
        simp only [epsijk]
        field_simp
        linear_combination (σ * σ * t * t) * hcs - (σ * σ) * hsq + (tau * tau) * hσ
      split_ifs with hneg
      · have := hnorm (-1) (by norm_num)
        simp only [neg_one_mul] at this
        refine ⟨this, ?_, ?_⟩
        · rw [abs_of_neg hneg] at hle
          exact hle
        · linarith [hrange.1]
      · have := hnorm 1 (by norm_num)
        simp only [one_mul] at this
        refine ⟨this, ?_, hrange.2⟩
        rw [abs_of_nonneg (not_lt.mp hneg)] at hle
        exact hle
  rcases eu2ax_cases e with h | ⟨hn, hlo, hhi⟩
  · rw [h]
    refine ⟨?_, le_refl _, Real.pi_pos.le, fun _ => rfl⟩
    norm_num [Magnitude3x1]
  · refine ⟨hn, ?_, hhi, ?_⟩
    · exact le_trans (by norm_num) hlo
    · intro hlt
      exact absurd hlt (not_lt.mpr hlo)

/-- C11 at the Euler triple `(0, 0, 0)`. -/
theorem eu2ax_unit_axis_witness :
    ((0 : ℝ) ≤ 0 ∧ (0 : ℝ) ≤ 2 * Real.pi) ∧ ((0 : ℝ) ≤ 0 ∧ (0 : ℝ) < Real.pi) ∧
    (Magnitude3x1 (eu2ax ⟨0, 0, 0⟩).a0 (eu2ax ⟨0, 0, 0⟩).a1 (eu2ax ⟨0, 0, 0⟩).a2 = 1 ∧
    0 ≤ (eu2ax ⟨0, 0, 0⟩).a3 ∧ (eu2ax ⟨0, 0, 0⟩).a3 ≤ Real.pi ∧
    ((eu2ax ⟨0, 0, 0⟩).a3 < 1.0e-6 → eu2ax ⟨0, 0, 0⟩ = ⟨0, 0, 1, 0⟩)) :=
  ⟨⟨le_refl _, by positivity⟩, ⟨le_refl _, Real.pi_pos⟩,
   eu2ax_unit_axis ⟨0, 0, 0⟩ ⟨le_refl _, by positivity⟩ ⟨le_refl _, Real.pi_pos⟩
     ⟨le_refl _, by positivity⟩⟩

/-- C12 on the code: the unit quaternion `(0.6, 0, 0, -0.8)` (vector-scalar layout) has
scalar part of magnitude `0.8`, far from `0`, yet `qu2ro` returns `+infinity` as the fourth
component, together with the unnormalised vector part. -/
theorem qu2ro_negative_scalar_infinite :
    (⟨0.6, 0, 0, -0.8⟩ : Vec4).normSq = 1 ∧
    ¬ |qW Order.VectorScalar ⟨0.6, 0, 0, -0.8⟩| < 1.0e-8 ∧
    qu2ro ⟨0.6, 0, 0, -0.8⟩ Order.VectorScalar = ⟨0.6, 0, 0, ⊤⟩ := by
  refine ⟨by norm_num [Vec4.normSq], by norm_num [qW, abs_of_pos], ?_⟩
  unfold qu2ro
  norm_num [qW, qX, qY, qZ]

/-- C13 as stated fails on the code: the threshold of `ax2ro` is the single-precision
`1.0E-7f`, which is larger than `1e-7`.  For the axis `(0, 0, 1)` and the angle
`θ = pi - 1.000000006e-7`, which has `|θ - pi| ≥ 1e-7`, `ax2ro` stores `+infinity` and
`ro2ax` returns the angle `pi`, not `θ`. -/
theorem ax2ro_ro2ax_roundtrip_counterexample :
    ((0 : ℝ) * 0 + 0 * 0 + 1 * 1 = 1 ∧
      (0 < Real.pi - 1.000000006e-7 ∧ Real.pi - 1.000000006e-7 ≤ Real.pi)) ∧
    1.0e-7 ≤ |(Real.pi - 1.000000006e-7) - Real.pi| ∧
    (ro2ax (ax2ro ⟨0, 0, 1, Real.pi - 1.000000006e-7⟩)).a3 = Real.pi ∧
    (ro2ax (ax2ro ⟨0, 0, 1, Real.pi - 1.000000006e-7⟩)).a3 ≠ Real.pi - 1.000000006e-7 := by
  have hpi := Real.pi_gt_three
  have hd : (Real.pi - 1.000000006e-7) - Real.pi = -1.000000006e-7 := by ring
  have e1 : ax2ro ⟨0, 0, 1, Real.pi - 1.000000006e-7⟩ = ⟨0, 0, 1, ⊤⟩ := by
    unfold ax2ro
    simp only [k_PiD]
    rw [if_neg (by norm_num; linarith), if_pos (by rw [hd]; norm_num [abs_of_pos])]
  have e2 : ro2ax ⟨0, 0, 1, ⊤⟩ = ⟨0, 0, 1, Real.pi⟩ := by
    unfold ro2ax
    rw [if_neg EReal.top_ne_zero, if_pos rfl]
    rfl
  refine ⟨⟨by norm_num, by norm_num; linarith, by norm_num⟩, ?_, ?_, ?_⟩
  · rw [hd]
    norm_num [abs_of_pos]
  · rw [e1, e2]
  · rw [e1, e2]
    intro h
    have h0 : (1.000000006e-7 : ℝ) = 0 := by linarith
    norm_num at h0

/-- C13 as amended: for every unit axis `n` and every angle `θ ∈ (0, pi]`,
`ro2ax (ax2ro (n, θ))` returns the axis `n` and an angle within `1e-3` of `θ`, which is
exactly `θ` when `θ = pi` or `|θ - pi|` is at least the single-precision threshold
`1.0E-7f = 14073749 * 2^-47`. -/
theorem ax2ro_ro2ax_roundtrip (n0 n1 n2 θ : ℝ) (hn : n0 * n0 + n1 * n1 + n2 * n2 = 1)
    (hθ : 0 < θ ∧ θ ≤ Real.pi) :
    (ro2ax (ax2ro ⟨n0, n1, n2, θ⟩)).a0 = n0 ∧ (ro2ax (ax2ro ⟨n0, n1, n2, θ⟩)).a1 = n1 ∧
    (ro2ax (ax2ro ⟨n0, n1, n2, θ⟩)).a2 = n2 ∧
    |(ro2ax (ax2ro ⟨n0, n1, n2, θ⟩)).a3 - θ| ≤ 1.0e-3 ∧
    ((θ = Real.pi ∨ (14073749.0 / 140737488355328.0) ≤ |θ - Real.pi|) →
      (ro2ax (ax2ro ⟨n0, n1, n2, θ⟩)).a3 = θ) := by
  have hpi := Real.pi_pos
  by_cases hc : |θ - Real.pi| < (14073749.0 / 140737488355328.0)
  · have e1 : ax2ro ⟨n0, n1, n2, θ⟩ = ⟨n0, n1, n2, ⊤⟩ := by
      unfold ax2ro
      simp only [k_PiD]
      rw [if_neg hθ.1.ne', if_pos hc]
    have e2 : ro2ax ⟨n0, n1, n2, ⊤⟩ = ⟨n0, n1, n2, Real.pi⟩ := by
      unfold ro2ax
      rw [if_neg EReal.top_ne_zero, if_pos rfl]
      rfl
    rw [e1, e2]
    refine ⟨rfl, rfl, rfl, ?_, ?_⟩
    · rw [abs_sub_comm]
      exact le_trans hc.le (by norm_num)
    · rintro (h | h)
      · exact h.symm
      · exact absurd hc (not_lt.mpr h)
  · have hlt : θ * 0.5 < Real.pi / 2 := by
      have h1 : ((14073749.0 / 140737488355328.0) : ℝ) ≤ |θ - Real.pi| := not_lt.mp hc
      rw [abs_of_nonpos (by linarith [hθ.2])] at h1
      norm_num at h1 ⊢
      linarith
    have hpos : 0 < θ * 0.5 := by
      norm_num
      exact hθ.1
    have htan : 0 < Real.tan (θ * 0.5) := Real.tan_pos_of_pos_of_lt_pi_div_two hpos hlt
    have e1 : ax2ro ⟨n0, n1, n2, θ⟩ = ⟨n0, n1, n2, ((Real.tan (θ * 0.5) : ℝ) : EReal)⟩ := by
      unfold ax2ro
      simp only [k_PiD]
      rw [if_neg hθ.1.ne', if_neg hc]
    have hat : 2.0 * Real.arctan (Real.tan (θ * 0.5)) = θ := by
      rw [Real.arctan_tan (by linarith) hlt]
      ring
    have e2 : ro2ax ⟨n0, n1, n2, ((Real.tan (θ * 0.5) : ℝ) : EReal)⟩ = ⟨n0, n1, n2, θ⟩ := by
      unfold ro2ax atanE
      simp only []
      rw [if_neg (by exact_mod_cast htan.ne'), if_neg (EReal.coe_ne_top _),
        if_neg (EReal.coe_ne_top _), if_neg (EReal.coe_ne_bot _), EReal.toReal_coe, hat, hn]
      norm_num
    rw [e1, e2]
    refine ⟨rfl, rfl, rfl, ?_, fun _ => rfl⟩
    norm_num

/-- C13 as amended, at the axis `(0, 0, 1)` and the angle `pi`. -/
theorem ax2ro_ro2ax_roundtrip_witness :
    ((0 : ℝ) * 0 + 0 * 0 + 1 * 1 = 1 ∧ (0 < Real.pi ∧ Real.pi ≤ Real.pi)) ∧
    ((ro2ax (ax2ro ⟨0, 0, 1, Real.pi⟩)).a0 = 0 ∧ (ro2ax (ax2ro ⟨0, 0, 1, Real.pi⟩)).a1 = 0 ∧
    (ro2ax (ax2ro ⟨0, 0, 1, Real.pi⟩)).a2 = 1 ∧
    |(ro2ax (ax2ro ⟨0, 0, 1, Real.pi⟩)).a3 - Real.pi| ≤ 1.0e-3 ∧
    ((Real.pi = Real.pi ∨ (14073749.0 / 140737488355328.0) ≤ |Real.pi - Real.pi|) →
      (ro2ax (ax2ro ⟨0, 0, 1, Real.pi⟩)).a3 = Real.pi)) :=
  ⟨⟨by norm_num, Real.pi_pos, le_refl _⟩,
   ax2ro_ro2ax_roundtrip 0 0 1 Real.pi (by norm_num) ⟨Real.pi_pos, le_refl _⟩⟩

set_option maxHeartbeats 800000 in
/-- C14, the counterexample: the unit quaternion `(0, 0, cos 1e-7, sin 1e-7)`, stored as
`(x, y, z, w)`, has strictly positive scalar part, is sent by `qu2om` and then `om2qu` to
`(0, 0, -1, 0)`, and so comes back with its third component wrong by more than `1e-3`. -/
theorem om2qu_qu2om_roundtrip_counterexample :
    (⟨0, 0, Real.cos 1.0e-7, Real.sin 1.0e-7⟩ : Vec4).normSq = 1 ∧
    0 < qW Order.VectorScalar ⟨0, 0, Real.cos 1.0e-7, Real.sin 1.0e-7⟩ ∧
    om2qu (qu2om ⟨0, 0, Real.cos 1.0e-7, Real.sin 1.0e-7⟩ Order.VectorScalar)
      Order.VectorScalar = ⟨0, 0, -1, 0⟩ ∧
    ¬ |(om2qu (qu2om ⟨0, 0, Real.cos 1.0e-7, Real.sin 1.0e-7⟩ Order.VectorScalar)
      Order.VectorScalar).a2 - (⟨0, 0, Real.cos 1.0e-7, Real.sin 1.0e-7⟩ : Vec4).a2|
        ≤ 1.0e-3 := by
  -- The first Euler angle found for the rotation by `pi + 2 * d` about the third axis.
  have wrap_atan2_near_pi : ∀ {d : ℝ}, (0 < d) → (d < 1) → (wrapEuler ⟨atan2 (2 * (0 * 0 -
      Real.sin d * Real.cos d)) (Real.sin d * Real.sin d - (0 * 0 + 0 * 0 + Real.cos d * Real.cos
      d) + 2 * 0 * 0), 0.0, 0.0⟩) = ⟨Real.pi + 2 * d, 0, 0⟩ := by
    intro d h0 h1
    have hpi := Real.pi_gt_three
    have h4 := Real.pi_le_four
    have e1 : 2 * (0 * 0 - Real.sin d * Real.cos d) = 1 * Real.sin (2 * d - Real.pi) := by
      rw [Real.sin_sub_pi, Real.sin_two_mul]
      ring
    have e2 : Real.sin d * Real.sin d - (0 * 0 + 0 * 0 + Real.cos d * Real.cos d) + 2 * 0 * 0
        = 1 * Real.cos (2 * d - Real.pi) := by
      rw [Real.cos_sub_pi, Real.cos_two_mul]
      have := Real.sin_sq_add_cos_sq d
      nlinarith
    have hp := @atan2_polar 1 one_pos (2 * d - Real.pi)
    have hfl : ⌊(Real.pi - (2 * d - Real.pi)) / (2 * Real.pi)⌋ = 0 := by
      rw [Int.floor_eq_iff]
      push_cast
      constructor
      · apply div_nonneg <;> linarith
      · rw [div_lt_iff₀ (by linarith)]
        linarith
    rw [hfl] at hp
    have hraw : atan2 (1 * Real.sin (2 * d - Real.pi)) (1 * Real.cos (2 * d - Real.pi))
        = 2 * d - Real.pi := by
      simp only [Int.cast_zero, mul_zero] at hp
      linarith
    rw [e1, e2, hraw]
    unfold wrapEuler
    simp only []
    have hneg : 2 * d - Real.pi < 0 := by linarith
    rw [if_pos hneg]
    have hx : (0 : ℝ) ≤ 2 * d - Real.pi + 100.0 * k_PiD := by
      simp only [k_PiD]
      norm_num
      linarith
    have hy : (0 : ℝ) < k_2PiD := by
      simp only [k_2PiD]
      linarith
    rw [fmod_of_nonneg hx hy]
    have hfl2 : ⌊(2 * d - Real.pi + 100.0 * k_PiD) / k_2PiD⌋ = 49 := by
      rw [Int.floor_eq_iff]
      simp only [k_PiD, k_2PiD]
      push_cast
      constructor
      · rw [le_div_iff₀ (by linarith)]
        norm_num
        linarith
      · rw [div_lt_iff₀ (by linarith)]
        norm_num
        linarith
    rw [hfl2]
    simp only [k_PiD, k_2PiD, Vec3.mk.injEq]
    norm_num
    ring
  -- The axis-angle pair that `eu2ax` returns just beyond a half turn about the third axis: the
  -- angle is set to `pi` and the axis is not reversed.
  have eu2ax_near_pi : ∀ {d : ℝ}, (0 < d) → (d < 1.0e-6) → eu2ax ⟨Real.pi + 2 * d, 0, 0⟩ = ⟨0, 0,
      -1, Real.pi⟩ := by
    intro d h0 h1
    have hpi := Real.pi_gt_three
    have hsig : 0.5 * (Real.pi + 2 * d + 0) = Real.pi / 2 + d := by ring
    have hcos : 0 < Real.cos d := by
      apply Real.cos_pos_of_mem_Ioo
      constructor <;> norm_num at h1 ⊢ <;> linarith
    have hsin : Real.sin (Real.pi / 2 + d) = Real.cos d := by
      rw [add_comm, Real.sin_add_pi_div_two]
    unfold eu2ax
    simp only [hsig, hsin]
    have hclose : closeEnough (Real.pi / 2 + d) k_PiOver2D 1.0e-6 = true := by
      simp only [closeEnough, k_PiOver2D, decide_eq_true_eq]
      rw [show Real.pi / 2 + d - Real.pi / 2 = d by ring, abs_of_pos h0]
      exact h1
    have htau : Real.sqrt (Real.tan (0 * 0.5) * Real.tan (0 * 0.5) + Real.cos d * Real.cos d)
        = Real.cos d := by
      rw [zero_mul, Real.tan_zero, zero_mul, zero_add]
      exact Real.sqrt_mul_self hcos.le
    rw [if_pos hclose, htau]
    have hnot : ¬ |k_PiD| < 1.0e-6 := by
      simp only [k_PiD]
      rw [abs_of_pos Real.pi_pos]
      norm_num
      linarith
    have hnn : ¬ k_PiD < 0 := by
      simp only [k_PiD]
      linarith
    rw [if_neg hnot, if_neg hnn]
    simp only [Vec4.mk.injEq, k_PiD, epsijk]
    refine ⟨?_, ?_, ?_, trivial⟩
    · simp
    · simp
    · field_simp
  -- What `om2qu` returns on the matrix of the unit quaternion `(0, 0, cos d, sin d)` with `0 <
  -- d < 1e-6`, a rotation about the third axis through just less than a half turn.
  have om2qu_qu2om_near_pi : ∀ {d : ℝ}, (0 < d) → (d < 1.0e-6) → om2qu (qu2om ⟨0, 0, Real.cos d,
      Real.sin d⟩ Order.VectorScalar) Order.VectorScalar = ⟨0, 0, -1, 0⟩ := by
    intro d h0 h1
    have hd1 : d < 1 := by
      norm_num at h1
      linarith
    have hpi := Real.pi_gt_three
    have hs : 0 < Real.sin d := Real.sin_pos_of_pos_of_lt_pi h0 (by linarith)
    have hsle : Real.sin d ≤ d := Real.sin_le h0.le
    have hc : 0 < Real.cos d := by
      apply Real.cos_pos_of_mem_Ioo
      constructor <;> linarith
    have hcs := Real.sin_sq_add_cos_sq d
    have hc1 : Real.cos d ≤ 1 := Real.cos_le_one d
    have hc2 : 1 / 2 ≤ Real.cos d * Real.cos d := by nlinarith
    have hoax : eu2ax (om2eu (qu2om ⟨0, 0, Real.cos d, Real.sin d⟩ Order.VectorScalar))
        = ⟨0, 0, -1, Real.pi⟩ := by
      obtain ⟨e0, e1, -, -, -, -, -, -, e8⟩ := qu2om_entries 0 0 (Real.cos d) (Real.sin d)
      generalize qu2om ⟨0, 0, Real.cos d, Real.sin d⟩ Order.VectorScalar = om at *
      have h8 : om.o8 = 1 := by
        rw [e8]
        nlinarith
      rw [om2eu_of_o8_one om h8, e0, e1, wrap_atan2_near_pi h0 hd1, eu2ax_near_pi h0 h1]
    have c0 : 4 * (Real.sin d * Real.sin d) < 1.0e-10 := by
      norm_num at h1 ⊢
      nlinarith
    have c3 : ¬ 4 * (Real.cos d * Real.cos d) < 1.0e-10 := by
      norm_num
      nlinarith
    have hsq : Real.sqrt ((0 : ℝ) * 0 + 0 * 0 + 0 * 0 + Real.cos d * Real.cos d) = Real.cos d := by
      rw [show (0 : ℝ) * 0 + 0 * 0 + 0 * 0 + Real.cos d * Real.cos d = Real.cos d * Real.cos d by
        ring]
      exact Real.sqrt_mul_self hc.le
    have hm : Real.sqrt ((0 : ℝ) * 0 + 0 * 0 + 0 * 0 + Real.cos d * Real.cos d) ≠ 0 := by
      rw [hsq]
      exact hc.ne'
    rw [@om2qu_qu2om_of Order.VectorScalar 0 0 (Real.cos d) (Real.sin d) 0 0 (Real.cos d) 0
      ⟨0, 0, -1, Real.pi⟩ (by nlinarith) hs (by norm_num) (by norm_num) (by rw [if_neg c3])
      (by rw [if_pos c0]) hm hoax, hsq]
    simp only [mkQuat, Vec4.mk.injEq]
    rw [div_self hc.ne']
    norm_num
  have h0 : (0 : ℝ) < 1.0e-7 := by norm_num
  have h1 : (1.0e-7 : ℝ) < 1.0e-6 := by norm_num
  have hpi := Real.pi_gt_three
  have hc : 0 < Real.cos 1.0e-7 := by
    apply Real.cos_pos_of_mem_Ioo
    constructor <;> norm_num <;> linarith
  refine ⟨?_, ?_, om2qu_qu2om_near_pi h0 h1, ?_⟩
  · have := Real.sin_sq_add_cos_sq 1.0e-7
    simp only [Vec4.normSq]
    nlinarith
  · simp only [qW]
    exact Real.sin_pos_of_pos_of_lt_pi h0 (by linarith)
  · rw [om2qu_qu2om_near_pi h0 h1]
    simp only []
    rw [abs_of_neg (by linarith)]
    norm_num
    linarith

set_option maxHeartbeats 800000 in
/-- C14 as amended: for every unit quaternion `q` whose scalar part is at least `1e-3`,
`om2qu (qu2om q)` equals `q` in each of the four components within `1e-3`, with the same
layout in both calls. -/
theorem om2qu_qu2om_roundtrip (q : Vec4) (layout : Order) (hq : q.normSq = 1)
    (hw : 1.0e-3 ≤ qW layout q) :
    |(om2qu (qu2om q layout) layout).a0 - q.a0| ≤ 1.0e-3 ∧
    |(om2qu (qu2om q layout) layout).a1 - q.a1| ≤ 1.0e-3 ∧
    |(om2qu (qu2om q layout) layout).a2 - q.a2| ≤ 1.0e-3 ∧
    |(om2qu (qu2om q layout) layout).a3 - q.a3| ≤ 1.0e-3 := by
  -- The zeroing of a small component in `om2qu` changes it by less than `5e-6` and its square
  -- by less than `2.5e-11`.
  have zeroed_component : ∀ {c cc : ℝ}, (cc = if 4 * (c * c) < 1.0e-10 then 0 else c) → (cc = 0 ∨
      cc = c) ∧ |cc - c| ≤ 5.0e-6 ∧ cc * cc ≤ c * c ∧ c * c - 2.5e-11 ≤ cc * cc := by
    intro c cc hcc
    have h0 := mul_self_nonneg c
    split_ifs at hcc with h
    · have hlt : |c| ≤ 5.0e-6 := by
        by_contra hgt
        push_neg at hgt
        have h1 := mul_lt_mul'' hgt hgt (by norm_num) (by norm_num)
        rw [abs_mul_abs_self] at h1
        norm_num at h1 h
        linarith
      rw [hcc]
      refine ⟨Or.inl rfl, ?_, ?_, ?_⟩
      · rw [zero_sub, abs_neg]
        exact hlt
      · linarith
      · norm_num at h ⊢
        linarith
    · rw [hcc]
      refine ⟨Or.inr rfl, ?_, le_refl _, ?_⟩
      · rw [sub_self, abs_zero]
        norm_num
      · linarith [show (0 : ℝ) ≤ 2.5e-11 by norm_num]
  -- One component through the division by the length and the sign check of `om2qu`: it comes
  -- back within `1e-3` when the axis component `a` does not oppose it, or when it is small.
  have sign_check_bound : ∀ {c cc m a : ℝ}, (cc = if 4 * (c * c) < 1.0e-10 then 0 else c) → (|c| ≤
      1) → (1 - 1.0e-10 ≤ m) → (m ≤ 1) → (0 ≤ a * c ∨ |c| ≤ 4.0e-4) → |(if a * (cc / m) < 0 then
      -(cc / m) else cc / m) - c| ≤ 1.0e-3 := by
    intro c cc m a hcc hc1 hm1 hm2 ha
    obtain ⟨hor, hd, -, -⟩ := zeroed_component hcc
    have hm0 : 0 < m := by
      norm_num at hm1
      linarith
    have hum : cc / m * m = cc := div_mul_cancel₀ cc hm0.ne'
    have hcc1 : |cc| ≤ 1 := by
      rcases hor with h | h
      · rw [h, abs_zero]
        norm_num
      · rw [h]
        exact hc1
    have hu2 : |cc / m| ≤ 2 := by
      rw [abs_div, abs_of_pos hm0, div_le_iff₀ hm0]
      norm_num at hm1
      linarith
    have hucc : |cc / m - cc| ≤ 2.0e-10 := by
      have h1 : cc / m - cc = cc / m * (1 - m) := by
        rw [mul_sub, mul_one, hum]
      have h2 : |1 - m| ≤ 1.0e-10 := by
        rw [abs_of_nonneg (by linarith)]
        linarith
      rw [h1, abs_mul]
      have := mul_le_mul hu2 h2 (abs_nonneg _) (by norm_num)
      norm_num at this ⊢
      linarith
    have huc : |cc / m - c| ≤ 5.1e-6 := by
      have h1 : cc / m - c = (cc / m - cc) + (cc - c) := by ring
      rw [h1]
      refine le_trans (abs_add (cc / m - cc) (cc - c)) ?_
      norm_num at hucc hd ⊢
      linarith
    split_ifs with hflip
    · have hsmall : |c| ≤ 4.0e-4 := by
        rcases ha with h | h
        · exfalso
          rcases hor with h0 | h0
          · rw [h0, zero_div, mul_zero] at hflip
            exact lt_irrefl _ hflip
          · rw [h0, ← mul_div_assoc] at hflip
            have := div_nonneg h hm0.le
            linarith
        · exact h
      have h1 : -(cc / m) - c = -(cc / m - c) + -(2 * c) := by ring
      rw [h1]
      refine le_trans (abs_add (-(cc / m - c)) (-(2 * c))) ?_
      rw [abs_neg, abs_neg, abs_mul, abs_of_pos (by norm_num : (0 : ℝ) < 2)]
      norm_num at huc hsmall ⊢
      linarith
    · norm_num at huc ⊢
      linarith
  -- The length by which `om2qu` divides is within `1e-10` of one on the matrix of a unit
  -- quaternion.
  have zeroed_length : ∀ {x y z w cx cy cz cw : ℝ}, (x * x + y * y + z * z + w * w = 1) → (cx = if
      4 * (x * x) < 1.0e-10 then 0 else x) → (cy = if 4 * (y * y) < 1.0e-10 then 0 else y) → (cz =
      if 4 * (z * z) < 1.0e-10 then 0 else z) → (cw = if 4 * (w * w) < 1.0e-10 then 0 else w) → 1
      - 1.0e-10 ≤ Real.sqrt (cw * cw + cx * cx + cy * cy + cz * cz) ∧ Real.sqrt (cw * cw + cx * cx
      + cy * cy + cz * cz) ≤ 1 := by
    intro x y z w cx cy cz cw hn hcx hcy hcz hcw
    obtain ⟨-, -, ux, lx⟩ := zeroed_component hcx
    obtain ⟨-, -, uy, ly⟩ := zeroed_component hcy
    obtain ⟨-, -, uz, lz⟩ := zeroed_component hcz
    obtain ⟨-, -, uw, lw⟩ := zeroed_component hcw
    constructor
    · apply Real.le_sqrt_of_sq_le
      norm_num at lx ly lz lw ⊢
      linarith
    · rw [← Real.sqrt_one]
      apply Real.sqrt_le_sqrt
      linarith
  -- The round trip in terms of the scalar part `w` and the vector part `(x, y, z)`.
  have om2qu_qu2om_core : ∀ (layout : Order), ∀ (x y z w : ℝ), (x * x + y * y + z * z + w * w = 1)
      → (1.0e-3 ≤ w) → ∃ w1 x1 y1 z1 : ℝ, om2qu (qu2om ⟨x, y, z, w⟩ Order.VectorScalar) layout =
      mkQuat layout w1 x1 y1 z1 ∧ |w1 - w| ≤ 1.0e-3 ∧ |x1 - x| ≤ 1.0e-3 ∧ |y1 - y| ≤ 1.0e-3 ∧ |z1
      - z| ≤ 1.0e-3 := by
    intro layout x y z w hn hw
    have hw0 : 0 < w := by
      norm_num at hw
      linarith
    have hx2 := mul_self_nonneg x
    have hy2 := mul_self_nonneg y
    have hz2 := mul_self_nonneg z
    have hw2 := mul_self_nonneg w
    have le1 : ∀ c : ℝ, c * c ≤ 1 → |c| ≤ 1 := by
      intro c hc
      by_contra hgt
      push_neg at hgt
      have h1 := mul_lt_mul'' hgt hgt (by norm_num) (by norm_num)
      rw [abs_mul_abs_self] at h1
      linarith
    obtain ⟨g0, g1, g2⟩ := axis_sign x y z w hn hw
    obtain ⟨hm1, hm2⟩ := @zeroed_length x y z w _ _ _ _ hn rfl rfl rfl rfl
    have hm : Real.sqrt
        ((if 4 * (w * w) < 1.0e-10 then 0 else w) * (if 4 * (w * w) < 1.0e-10 then 0 else w)
        + (if 4 * (x * x) < 1.0e-10 then 0 else x) * (if 4 * (x * x) < 1.0e-10 then 0 else x)
        + (if 4 * (y * y) < 1.0e-10 then 0 else y) * (if 4 * (y * y) < 1.0e-10 then 0 else y)
        + (if 4 * (z * z) < 1.0e-10 then 0 else z) * (if 4 * (z * z) < 1.0e-10 then 0 else z))
        ≠ 0 := by
      intro h0
      rw [h0] at hm1
      norm_num at hm1
    refine ⟨_, _, _, _, om2qu_qu2om_of layout hn hw0 rfl rfl rfl rfl hm rfl, ?_, ?_, ?_, ?_⟩
    · have := @sign_check_bound w _ _ 0 rfl (le1 w (by linarith)) hm1 hm2
        (Or.inl (by rw [zero_mul]))
      rw [zero_mul, if_neg (lt_irrefl _)] at this
      exact this
    · exact sign_check_bound rfl (le1 x (by linarith)) hm1 hm2 (Or.inl g0)
    · exact sign_check_bound rfl (le1 y (by linarith)) hm1 hm2 (Or.inl g1)
    · exact sign_check_bound rfl (le1 z (by linarith)) hm1 hm2 g2
  have hn : qX layout q * qX layout q + qY layout q * qY layout q
      + qZ layout q * qZ layout q + qW layout q * qW layout q = 1 := by
    rw [← hq]
    cases layout
    · simp only [qX, qY, qZ, qW, Vec4.normSq]
      ring
    · simp only [qX, qY, qZ, qW, Vec4.normSq]
  obtain ⟨w1, x1, y1, z1, he, bw, bx, by1, bz⟩ :=
    om2qu_qu2om_core layout (qX layout q) (qY layout q) (qZ layout q) (qW layout q) hn hw
  have hl : qu2om q layout
      = qu2om ⟨qX layout q, qY layout q, qZ layout q, qW layout q⟩ Order.VectorScalar := by
    cases layout <;> rfl
  rw [hl, he]
  cases layout
  · exact ⟨bw, bx, by1, bz⟩
  · exact ⟨bx, by1, bz, bw⟩

/-- C14 as amended, at the identity quaternion in vector-scalar layout. -/
theorem om2qu_qu2om_roundtrip_witness :
    (⟨0, 0, 0, 1⟩ : Vec4).normSq = 1 ∧
    (1.0e-3 : ℝ) ≤ qW Order.VectorScalar ⟨0, 0, 0, 1⟩ ∧
    |(om2qu (qu2om ⟨0, 0, 0, 1⟩ Order.VectorScalar) Order.VectorScalar).a0 - 0| ≤ 1.0e-3 ∧
    |(om2qu (qu2om ⟨0, 0, 0, 1⟩ Order.VectorScalar) Order.VectorScalar).a1 - 0| ≤ 1.0e-3 ∧
    |(om2qu (qu2om ⟨0, 0, 0, 1⟩ Order.VectorScalar) Order.VectorScalar).a2 - 0| ≤ 1.0e-3 ∧
    |(om2qu (qu2om ⟨0, 0, 0, 1⟩ Order.VectorScalar) Order.VectorScalar).a3 - 1| ≤ 1.0e-3 :=
  ⟨by norm_num [Vec4.normSq], by norm_num [qW],
    om2qu_qu2om_roundtrip ⟨0, 0, 0, 1⟩ Order.VectorScalar (by norm_num [Vec4.normSq])
      (by norm_num [qW])⟩

/-- C25 on the code: the inner loop of `om_check` tests and increments the real `r`
instead of `rIndex`, so the only entry of `|I - |M * transpose M||` it compares with the
threshold is entry `(0, 0)`: for every matrix the result is `-1` when the determinant is
negative, else `-2` when it is not within `1e-5` of `1`, else `-3` when entry `(0, 0)`
exceeds `1e-5`, else `1`.  At `diag(1, 2, 0.5)`, of determinant `1`, entry `(1, 1)` is `3`
and `om_check` returns `1`. -/
theorem om_check_reads_one_entry :
    (∀ om : Mat9, om_check om =
      if om.det < 0 then -1
      else if ¬ |om.det - 1| < 1.0e-5 then -2
      else if |1 - abs (om.mul om.transpose).o0| > 1.0e-5 then -3 else 1) ∧
    (Mat9.det ⟨1, 0, 0, 0, 2, 0, 0, 0, 0.5⟩ = 1 ∧
      |Mat9.one.o4 - abs (Mat9.mul ⟨1, 0, 0, 0, 2, 0, 0, 0, 0.5⟩
        (Mat9.transpose ⟨1, 0, 0, 0, 2, 0, 0, 0, 0.5⟩)).o4| = 3 ∧
      om_check ⟨1, 0, 0, 0, 2, 0, 0, 0, 0.5⟩ = 1) := by
  have h0 : (0.0 : ℝ) = 0 := by norm_num
  have h1 : (1.0 : ℝ) = 1 := by norm_num
  have h3 : (3.0 : ℝ) = 3 := by norm_num
  -- a loop entered with `3 ≤ r` makes no pass
  have stop : ∀ (x t : ℝ) (n : Nat) (s : ℝ × Int), 3 ≤ s.1 → om_check_loop x t n s = s := by
    intro x t n s hs
    cases n with
    | zero => rfl
    | succ n =>
      show (if s.1 < 3.0 then _ else s) = s
      rw [if_neg (by rw [h3]; exact not_lt.mpr hs)]
  -- a loop entered with `0 ≤ r < 1` makes three passes
  have run : ∀ (x t r : ℝ), 0 ≤ r → r < 1 →
      om_check_loop x t 3 (r, 1) = (r + 1 + 1 + 1, if x > t then -3 else 1) := by
    intro x t r hr0 hr1
    show (if r < 3.0 then (if r + 1.0 < 3.0 then (if r + 1.0 + 1.0 < 3.0 then
      ((r + 1.0 + 1.0 + 1.0, if x > t then -3 else (if x > t then -3 else
        (if x > t then (-3 : Int) else 1))) : ℝ × Int) else _) else _) else _) = _
    rw [h3, h1, if_pos (by linarith), if_pos (by linarith), if_pos (by linarith)]
    by_cases hx : x > t
    · simp only [if_pos hx]
    · simp only [if_neg hx]
  have tail : ∀ (x1 x2 t r : ℝ) (v : Int), 3 ≤ r →
      (om_check_loop x2 t ⌈3.0 - (om_check_loop x1 t ⌈3.0 - (r, v).1⌉₊ (r, v)).1⌉₊
        (om_check_loop x1 t ⌈3.0 - (r, v).1⌉₊ (r, v))).2 = v := by
    intro x1 x2 t r v hr
    rw [stop x1 t _ (r, v) hr, stop x2 t _ (r, v) hr]
  have main : ∀ om : Mat9, om_check om =
      if om.det < 0 then -1
      else if ¬ |om.det - 1| < 1.0e-5 then -2
      else if |1 - abs (om.mul om.transpose).o0| > 1.0e-5 then -3 else 1 := by
    intro om
    unfold om_check closeEnough
    simp only [h0, h1, sub_zero, abs_abs, Bool.not_eq_true', decide_eq_false_iff_not]
    by_cases hd : om.det < 0
    · rw [if_pos hd, if_pos hd]
    · rw [if_neg hd, if_neg hd]
      by_cases hc : |om.det - 1| < 1.0e-5
      · rw [if_neg (not_not.mpr hc), if_neg (not_not.mpr hc)]
        have hr0 : 0 ≤ |om.det - 1| := abs_nonneg _
        have hceil : ⌈3.0 - |om.det - 1|⌉₊ = 3 := by
          rw [Nat.ceil_eq_iff (by norm_num), h3]
          norm_num at hc
          refine ⟨?_, ?_⟩
          · norm_num
            linarith
          · norm_num
        rw [hceil, run _ _ _ hr0 (by norm_num at hc ⊢; linarith)]
        rw [tail _ _ _ _ _ (by linarith)]
        rfl
      · rw [if_pos hc, if_pos hc]
  refine ⟨main, ?_, ?_, ?_⟩
  · norm_num [Mat9.det]
  · norm_num [Mat9.mul, Mat9.transpose, Mat9.one]
  · rw [main]
    norm_num [Mat9.det, Mat9.mul, Mat9.transpose]

/-- C26: `qu_check(q, layout)` is total and classifies by the scalar component `s` that the
layout selects (index 0 for scalar-vector, index 3 for vector-scalar): the result is `-1`
exactly when `s < 0`; otherwise it is `-2` exactly when `| ‖q‖ - 1 |` exceeds the machine
epsilon; otherwise it is `1`.  So the result for the scalar-vector quaternion
`(w, x, y, z)` is the result for the vector-scalar quaternion `(x, y, z, w)`. -/
theorem qu_check_classifies (q : Vec4) (layout : Order) :
    (qu_check q layout = -1 ↔ qW layout q < 0) ∧
    (qu_check q layout = -2 ↔ ¬ qW layout q < 0 ∧ |Real.sqrt q.normSq - 1| > epsilonD) ∧
    (qu_check q layout = 1 ↔ ¬ qW layout q < 0 ∧ ¬ |Real.sqrt q.normSq - 1| > epsilonD) ∧
    qW Order.ScalarVector q = q.a0 ∧ qW Order.VectorScalar q = q.a3 ∧
    (∀ w x y z : ℝ,
      qu_check ⟨w, x, y, z⟩ Order.ScalarVector = qu_check ⟨x, y, z, w⟩ Order.VectorScalar) := by
  have hn : qX layout q * qX layout q + qY layout q * qY layout q + qZ layout q * qZ layout q
      + qW layout q * qW layout q = q.normSq := by
    unfold Vec4.normSq
    cases layout
    · show q.a1 * q.a1 + q.a2 * q.a2 + q.a3 * q.a3 + q.a0 * q.a0 = _
      ring
    · show q.a0 * q.a0 + q.a1 * q.a1 + q.a2 * q.a2 + q.a3 * q.a3 = _
      ring
  have h0 : (0.0 : ℝ) = 0 := by norm_num
  have h1 : (1.0 : ℝ) = 1 := by norm_num
  refine ⟨?_, ?_, ?_, rfl, rfl, fun _ _ _ _ => rfl⟩ <;> unfold qu_check <;> simp only [hn, h0, h1] <;>
    by_cases hw : qW layout q < 0 <;>
    by_cases he : |Real.sqrt q.normSq - 1| > epsilonD <;>
    simp only [hw, he, if_true, if_false, not_true_eq_false, not_false_eq_true, and_self,
      and_true, and_false, false_and, true_and, iff_true, iff_false] <;> decide

/-- C31: every conversion without a direct formula is the composition of the master table,
for every input: `X2cu` is `ho2cu` after `X2ho` and `cu2X` is `ho2X` after `cu2ho` for `X`
among `eu`, `om`, `ax`, `ro`; `qu2cu` is `ho2cu` after `qu2ho` with the same layout;
`ho2eu`, `ho2om`, `ho2ro`, `ho2qu` are `ax2eu`, `ax2om`, `ax2ro`, `ax2qu` after `ho2ax`;
`eu2ho` and `om2ho` are `ax2ho` after `eu2ax` and `om2ax`; `ax2eu` and `ro2eu` are `om2eu`
after `ax2om` and `ro2om`; `ro2om` and `ro2qu` are `ax2om` and `ax2qu` after `ro2ax`; and
`om2ro` is `eu2ro` after `om2eu`. -/
theorem derived_conversions_are_compositions (ball cube : Vec3 → Vec3) (tfit : Nat → ℝ) :
    ((∀ e : Vec3, eu2cu ball e = ho2cu ball (eu2ho e)) ∧
     (∀ o : Mat9, om2cu ball o = ho2cu ball (om2ho o)) ∧
     (∀ a : Vec4, ax2cu ball a = ho2cu ball (ax2ho a)) ∧
     (∀ r : Rod, ro2cu ball r = ho2cu ball (ro2ho r)) ∧
     (∀ (q : Vec4) (L : Order), qu2cu ball q L = ho2cu ball (qu2ho q L))) ∧
    ((∀ c : Vec3, cu2eu cube tfit c = ho2eu tfit (cu2ho cube c)) ∧
     (∀ c : Vec3, cu2om cube tfit c = ho2om tfit (cu2ho cube c)) ∧
     (∀ c : Vec3, cu2ax cube tfit c = ho2ax tfit (cu2ho cube c)) ∧
     (∀ c : Vec3, cu2ro cube tfit c = ho2ro tfit (cu2ho cube c))) ∧
    ((∀ h : Vec3, ho2eu tfit h = ax2eu (ho2ax tfit h)) ∧
     (∀ h : Vec3, ho2om tfit h = ax2om (ho2ax tfit h)) ∧
     (∀ h : Vec3, ho2ro tfit h = ax2ro (ho2ax tfit h)) ∧
     (∀ (h : Vec3) (L : Order), ho2qu tfit h L = ax2qu (ho2ax tfit h) L)) ∧
    ((∀ e : Vec3, eu2ho e = ax2ho (eu2ax e)) ∧
     (∀ o : Mat9, om2ho o = ax2ho (om2ax o))) ∧
    ((∀ a : Vec4, ax2eu a = om2eu (ax2om a)) ∧
     (∀ r : Rod, ro2eu r = om2eu (ro2om r)) ∧
     (∀ r : Rod, ro2om r = ax2om (ro2ax r)) ∧
     (∀ (r : Rod) (L : Order), ro2qu r L = ax2qu (ro2ax r) L) ∧
     (∀ o : Mat9, om2ro o = eu2ro (om2eu o))) :=
  ⟨⟨fun _ => rfl, fun _ => rfl, fun _ => rfl, fun _ => rfl, fun _ _ => rfl⟩,
   ⟨fun _ => rfl, fun _ => rfl, fun _ => rfl, fun _ => rfl⟩,
   ⟨fun _ => rfl, fun _ => rfl, fun _ => rfl, fun _ _ => rfl⟩,
   ⟨fun _ => rfl, fun _ => rfl⟩,
   ⟨fun _ => rfl, fun _ => rfl, fun _ => rfl, fun _ _ => rfl, fun _ => rfl⟩⟩

/-- C32 on the code: `cu2qu` does not pass its layout selector on.  For every cubochoric
triple and either selector the result is `ho2qu` of `cu2ho` in the vector-scalar layout, so
with the scalar-vector selector the scalar part of `ho2qu (cu2ho c)` is found at index 3,
not at index 0, and the two selectors give the same array.  At a triple that `cu2ho` sends
to the centre of the ball the result is `(0, 0, 0, 1)`, where the scalar-vector form of the
identity rotation is `(1, 0, 0, 0)`. -/
theorem cu2qu_drops_layout (cube : Vec3 → Vec3) (tfit : Nat → ℝ) (c : Vec3) :
    (∀ L : Order, cu2qu cube tfit c L = ho2qu tfit (cu2ho cube c) Order.VectorScalar) ∧
    cu2qu cube tfit c Order.ScalarVector = cu2qu cube tfit c Order.VectorScalar ∧
    (cu2qu cube tfit c Order.ScalarVector).a3
      = (ho2qu tfit (cu2ho cube c) Order.ScalarVector).a0 ∧
    (cu2qu cube tfit c Order.ScalarVector).a0
      = (ho2qu tfit (cu2ho cube c) Order.ScalarVector).a1 ∧
    (cube c = ⟨0, 0, 0⟩ →
      cu2qu cube tfit c Order.ScalarVector = ⟨0, 0, 0, 1⟩ ∧
      ho2qu tfit (cu2ho cube c) Order.ScalarVector = ⟨1, 0, 0, 0⟩) := by
  have hq : ∀ (a : Vec4) (L : Order),
      ax2qu a L = mkQuat L (qW Order.VectorScalar (ax2qu a Order.VectorScalar))
        (qX Order.VectorScalar (ax2qu a Order.VectorScalar))
        (qY Order.VectorScalar (ax2qu a Order.VectorScalar))
        (qZ Order.VectorScalar (ax2qu a Order.VectorScalar)) := by
    intro a L
    unfold ax2qu
    by_cases h : a.a3 = 0.0
    · rw [if_pos h, if_pos h]; cases L <;> rfl
    · rw [if_neg h, if_neg h]; cases L <;> rfl
  have h0 : ho2ax tfit ⟨0, 0, 0⟩ = ⟨0, 0, 1, 0⟩ := by
    unfold ho2ax
    norm_num
  refine ⟨fun _ => rfl, rfl, ?_, ?_, ?_⟩
  · show (ax2qu _ Order.VectorScalar).a3 = (ax2qu _ Order.ScalarVector).a0
    rw [hq _ Order.ScalarVector]
    rfl
  · show (ax2qu _ Order.VectorScalar).a0 = (ax2qu _ Order.ScalarVector).a1
    rw [hq _ Order.ScalarVector]
    rfl
  · intro hc
    have e1 : cu2qu cube tfit c Order.ScalarVector = ax2qu (ho2ax tfit (cube c)) Order.VectorScalar :=
      rfl
    have e2 : ho2qu tfit (cu2ho cube c) Order.ScalarVector
        = ax2qu (ho2ax tfit (cube c)) Order.ScalarVector := rfl
    rw [e1, e2, hc, h0]
    unfold ax2qu
    norm_num [mkQuat]

/-- The hypothesis of `cu2qu_drops_layout` is met by a map that fixes the centre. -/
theorem cu2qu_drops_layout_witness :
    cu2qu (fun v => v) (fun _ => 0) ⟨0, 0, 0⟩ Order.ScalarVector = ⟨0, 0, 0, 1⟩ ∧
    ho2qu (fun _ => 0) (cu2ho (fun v => v) ⟨0, 0, 0⟩) Order.ScalarVector = ⟨1, 0, 0, 0⟩ :=
  (cu2qu_drops_layout (fun v => v) (fun _ => 0) ⟨0, 0, 0⟩).2.2.2.2 rfl

/-- C33: for every unit axis `n` and every angle `θ` in `[0, pi]` the homochoric vector
`ax2ho (n, θ)` has Euclidean norm `(3/4 * (θ - sin θ))^(1/3)`; this is at most the ball
radius `(3 * pi / 4)^(1/3)`, with equality exactly at `θ = pi`; and `ro2ho` of the
Rodrigues vector with the same axis and infinite length is `ax2ho (n, pi)`, whose norm is
that radius. -/
theorem ax2ho_norm (n0 n1 n2 θ : ℝ) (hn : n0 * n0 + n1 * n1 + n2 * n2 = 1)
    (h0 : 0 ≤ θ) (hpi : θ ≤ Real.pi) :
    Real.sqrt ((ax2ho ⟨n0, n1, n2, θ⟩).a0 * (ax2ho ⟨n0, n1, n2, θ⟩).a0
        + (ax2ho ⟨n0, n1, n2, θ⟩).a1 * (ax2ho ⟨n0, n1, n2, θ⟩).a1
        + (ax2ho ⟨n0, n1, n2, θ⟩).a2 * (ax2ho ⟨n0, n1, n2, θ⟩).a2)
      = (3 / 4 * (θ - Real.sin θ)) ^ ((1 : ℝ) / 3) ∧
    (3 / 4 * (θ - Real.sin θ)) ^ ((1 : ℝ) / 3) ≤ (3 * Real.pi / 4) ^ ((1 : ℝ) / 3) ∧
    ((3 / 4 * (θ - Real.sin θ)) ^ ((1 : ℝ) / 3) = (3 * Real.pi / 4) ^ ((1 : ℝ) / 3)
      ↔ θ = Real.pi) ∧
    ro2ho ⟨n0, n1, n2, ⊤⟩ = ax2ho ⟨n0, n1, n2, Real.pi⟩ ∧
    Real.sqrt ((ro2ho ⟨n0, n1, n2, ⊤⟩).a0 * (ro2ho ⟨n0, n1, n2, ⊤⟩).a0
        + (ro2ho ⟨n0, n1, n2, ⊤⟩).a1 * (ro2ho ⟨n0, n1, n2, ⊤⟩).a1
        + (ro2ho ⟨n0, n1, n2, ⊤⟩).a2 * (ro2ho ⟨n0, n1, n2, ⊤⟩).a2)
      = (3 * Real.pi / 4) ^ ((1 : ℝ) / 3) := by
  have hnorm : ∀ f : ℝ, 0 ≤ f →
      Real.sqrt (n0 * f * (n0 * f) + n1 * f * (n1 * f) + n2 * f * (n2 * f)) = f := by
    intro f hf
    have : n0 * f * (n0 * f) + n1 * f * (n1 * f) + n2 * f * (n2 * f) = f * f := by
      linear_combination (f * f) * hn
    rw [this, Real.sqrt_mul_self hf]
  have hsin : Real.sin θ ≤ θ := Real.sin_le h0
  have hsin0 : 0 ≤ Real.sin θ := Real.sin_nonneg_of_nonneg_of_le_pi h0 hpi
  have hb : (0 : ℝ) ≤ 3 / 4 * (θ - Real.sin θ) := by nlinarith
  have hle : 3 / 4 * (θ - Real.sin θ) ≤ 3 * Real.pi / 4 := by linarith
  have e34 : (0.75 : ℝ) = 3 / 4 := by norm_num
  have e13 : (1.0 : ℝ) / 3.0 = 1 / 3 := by norm_num
  have hax : ∀ t : ℝ, ax2ho ⟨n0, n1, n2, t⟩
      = ⟨n0 * (3 / 4 * (t - Real.sin t)) ^ ((1 : ℝ) / 3),
         n1 * (3 / 4 * (t - Real.sin t)) ^ ((1 : ℝ) / 3),
         n2 * (3 / 4 * (t - Real.sin t)) ^ ((1 : ℝ) / 3)⟩ := by
    intro t
    unfold ax2ho
    simp only [e34, e13]
  have hro : ro2ho ⟨n0, n1, n2, ⊤⟩ = ax2ho ⟨n0, n1, n2, Real.pi⟩ := by
    rw [hax]
    unfold ro2ho
    have hne : ¬ (((n0 * n0 + n1 * n1 + n2 * n2 : ℝ) : EReal) + (⊤ : EReal) * ⊤ = 0) := by
      rw [EReal.top_mul_top, EReal.coe_add_top]
      exact EReal.top_ne_zero
    simp only [hne, if_false, if_true, k_PiD, e34, e13, Real.sin_pi, sub_zero]
  refine ⟨?_, ?_, ?_, hro, ?_⟩
  · rw [hax]
    exact hnorm _ (Real.rpow_nonneg hb _)
  · exact Real.rpow_le_rpow hb hle (by norm_num)
  · constructor
    · intro h
      by_contra hne
      have hlt : θ < Real.pi := lt_of_le_of_ne hpi hne
      have : (3 / 4 * (θ - Real.sin θ)) ^ ((1 : ℝ) / 3) < (3 * Real.pi / 4) ^ ((1 : ℝ) / 3) :=
        Real.rpow_lt_rpow hb (by linarith) (by norm_num)
      linarith
    · intro h
      rw [h, Real.sin_pi]
      norm_num
      ring_nf
  · rw [hro, hax, Real.sin_pi, sub_zero]
    have : (3 / 4 * Real.pi : ℝ) = 3 * Real.pi / 4 := by ring
    rw [this]
    exact hnorm _ (Real.rpow_nonneg (by positivity) _)

/-- The hypotheses of `ax2ho_norm` are met by the axis `(0, 0, 1)` and the angle `pi`. -/
theorem ax2ho_norm_witness :
    ((0 : ℝ) * 0 + 0 * 0 + 1 * 1 = 1 ∧ (0 : ℝ) ≤ Real.pi ∧ Real.pi ≤ Real.pi) ∧
    ro2ho ⟨0, 0, 1, ⊤⟩ = ax2ho ⟨0, 0, 1, Real.pi⟩ :=
  ⟨⟨by norm_num, Real.pi_pos.le, le_rfl⟩,
   (ax2ho_norm 0 0 1 Real.pi (by norm_num) Real.pi_pos.le le_rfl).2.2.2.1⟩

/-- C34: the two routes from an axis-angle pair to the orientation matrix coincide: for
every unit axis `n`, every real angle `θ` and either layout, `ax2om (n, θ)` is
`qu2om (ax2qu (n, θ))`, entry by entry. -/
theorem ax2om_eq_qu2om_ax2qu (n0 n1 n2 θ : ℝ) (layout : Order)
    (hn : n0 * n0 + n1 * n1 + n2 * n2 = 1) :
    ax2om ⟨n0, n1, n2, θ⟩ = qu2om (ax2qu ⟨n0, n1, n2, θ⟩ layout) layout := by
  have hcs := Real.cos_sq_add_sin_sq (θ * 0.5)
  have hθ : θ = 2 * (θ * 0.5) := by ring
  have hc : Real.cos θ = 1 - 2 * Real.sin (θ * 0.5) ^ 2 := by
    conv_lhs => rw [hθ]
    rw [Real.cos_two_mul]
    linear_combination 2 * hcs
  have hs : Real.sin θ = 2 * Real.sin (θ * 0.5) * Real.cos (θ * 0.5) := by
    conv_lhs => rw [hθ]
    rw [Real.sin_two_mul]
  unfold ax2qu
  by_cases h0 : θ = 0
  · rw [if_pos (by rw [h0]; norm_num), qu2om_mkQuat]
    unfold ax2om
    simp only [h0, Real.cos_zero, Real.sin_zero, Mat9.mk.injEq]
    norm_num
  · rw [if_neg (by norm_num; exact h0), qu2om_mkQuat]
    unfold ax2om
    simp only [Mat9.mk.injEq, hc, hs]
    generalize Real.sin (θ * 0.5) = s at *
    generalize Real.cos (θ * 0.5) = c at *
    refine ⟨?_, ?_, ?_, ?_, ?_, ?_, ?_, ?_, ?_⟩
    · linear_combination (s ^ 2) * hn - hcs
    · ring
    · ring
    · ring
    · linear_combination (s ^ 2) * hn - hcs
    · ring
    · ring
    · ring
    · linear_combination (s ^ 2) * hn - hcs

/-- The hypothesis of `ax2om_eq_qu2om_ax2qu` is met by the axis `(0, 0, 1)`. -/
theorem ax2om_eq_qu2om_ax2qu_witness :
    ax2om ⟨0, 0, 1, Real.pi⟩ = qu2om (ax2qu ⟨0, 0, 1, Real.pi⟩ Order.ScalarVector)
      Order.ScalarVector :=
  ax2om_eq_qu2om_ax2qu 0 0 1 Real.pi Order.ScalarVector (by norm_num)

/-- C35 on the code: `qu2ax` takes the angle from the sign-normalised scalar part but the
axis from the quaternion as given.  For the unit quaternion `q = (0.6, 0, 0, -0.8)`
(vector-scalar layout) it returns the axis `(1, 0, 0)` with the angle `2 * arccos 0.8`, and
for `-q` the axis `(-1, 0, 0)` with the same angle, so the two results differ; and entry 5
of `ax2om (qu2ax q)` is `-0.96` where entry 5 of `qu2om q` is `0.96`. -/
theorem qu2ax_negative_scalar_axis :
    (⟨0.6, 0, 0, -0.8⟩ : Vec4).normSq = 1 ∧
    qu2ax ⟨0.6, 0, 0, -0.8⟩ Order.VectorScalar = ⟨1, 0, 0, 2 * Real.arccos 0.8⟩ ∧
    qu2ax ⟨-0.6, 0, 0, 0.8⟩ Order.VectorScalar = ⟨-1, 0, 0, 2 * Real.arccos 0.8⟩ ∧
    qu2ax ⟨-0.6, 0, 0, 0.8⟩ Order.VectorScalar ≠ qu2ax ⟨0.6, 0, 0, -0.8⟩ Order.VectorScalar ∧
    (ax2om (qu2ax ⟨0.6, 0, 0, -0.8⟩ Order.VectorScalar)).o5 = -0.96 ∧
    (qu2om ⟨0.6, 0, 0, -0.8⟩ Order.VectorScalar).o5 = 0.96 := by
  have hs : Real.sqrt (0.6 * 0.6) = 0.6 := Real.sqrt_mul_self (by norm_num)
  have hs' : Real.sqrt ((-0.6) * (-0.6)) = 0.6 := by
    rw [neg_mul_neg]; exact hs
  have hω : ¬ (2.0 * Real.arccos 0.8 < 1.0e-12) := by
    intro h
    have h1 : Real.arccos 0.8 < 1.0e-12 := by
      have := Real.arccos_nonneg 0.8
      norm_num at h ⊢
      linarith
    have h2 : Real.cos (1.0e-12) ≤ Real.cos (Real.arccos 0.8) :=
      Real.cos_le_cos_of_nonneg_of_le_pi (Real.arccos_nonneg _)
        (by have := Real.pi_gt_three; norm_num; linarith) h1.le
    rw [Real.cos_arccos (by norm_num) (by norm_num)] at h2
    have h3 := Real.one_sub_sq_div_two_le_cos (x := 1.0e-12)
    norm_num at h2 h3
    linarith
  have e1 : qu2ax ⟨0.6, 0, 0, -0.8⟩ Order.VectorScalar = ⟨1, 0, 0, 2 * Real.arccos 0.8⟩ := by
    unfold qu2ax
    simp only [qW, qX, qY, qZ]
    rw [if_pos (by norm_num : (-0.8 : ℝ) < 0)]
    have hq : (-1.0 : ℝ) * -0.8 = 0.8 := by norm_num
    rw [hq, if_neg hω]
    simp only [mul_zero, add_zero, hs, Vec4.mk.injEq]
    norm_num
  have e2 : qu2ax ⟨-0.6, 0, 0, 0.8⟩ Order.VectorScalar = ⟨-1, 0, 0, 2 * Real.arccos 0.8⟩ := by
    unfold qu2ax
    simp only [qW, qX, qY, qZ]
    rw [if_neg (by norm_num : ¬ (0.8 : ℝ) < 0)]
    have hq : (1.0 : ℝ) * 0.8 = 0.8 := by norm_num
    rw [hq, if_neg hω]
    simp only [mul_zero, add_zero, hs', Vec4.mk.injEq]
    norm_num
  have hsin : Real.sin (2 * Real.arccos 0.8) = 0.96 := by
    rw [Real.sin_two_mul, Real.sin_arccos, Real.cos_arccos (by norm_num) (by norm_num)]
    have : (1 : ℝ) - 0.8 ^ 2 = 0.6 * 0.6 := by norm_num
    rw [this, hs]
    norm_num
  refine ⟨by norm_num [Vec4.normSq], e1, e2, ?_, ?_, ?_⟩
  · rw [e1, e2]
    intro h
    have := congrArg Vec4.a0 h
    norm_num at this
  · rw [e1]
    unfold ax2om
    simp only [hsin]
    norm_num
  · unfold qu2om
    norm_num [qW, qX, qY, qZ]

end OrientationTransformation

namespace CrystalSymmetry

open OrientationTransformation

/-! ## Theorems on the crystal symmetry classes -/

/-- The constant `k_1OverRoot2D` is positive, its square is one half, and dividing by
`k_Sqrt2D` is multiplying by it. -/
theorem k_1OverRoot2D_facts :
    0 < k_1OverRoot2D ∧ k_1OverRoot2D * k_1OverRoot2D = 1 / 2 ∧
    (∀ x : ℝ, x / k_Sqrt2D = k_1OverRoot2D * x) ∧ k_1OverRoot2D = Real.sqrt 2 / 2 := by
  have h2 : (2.0 : ℝ) = 2 := by norm_num
  have hs : Real.sqrt 2 * Real.sqrt 2 = 2 := Real.mul_self_sqrt (by norm_num)
  have hp : (0 : ℝ) < Real.sqrt 2 := Real.sqrt_pos.mpr (by norm_num)
  unfold k_1OverRoot2D k_Sqrt2D
  rw [h2]
  refine ⟨by positivity, ?_, ?_, ?_⟩
  · rw [div_mul_div_comm, hs]
    norm_num
  · intro x
    ring
  · rw [div_eq_div_iff hp.ne' two_ne_zero]
    linarith

/-! ### The comparison tree of the cubic misorientation -/

/-- The comparison tree returns the four components in non-decreasing order, and what it
returns is one of the 24 rearrangements of its input. -/
theorem sortedQco_perm (p : Vec4) :
    ((CubicOps.sortedQco p).a0 ≤ (CubicOps.sortedQco p).a1 ∧
      (CubicOps.sortedQco p).a1 ≤ (CubicOps.sortedQco p).a2 ∧
      (CubicOps.sortedQco p).a2 ≤ (CubicOps.sortedQco p).a3) ∧
    (CubicOps.sortedQco p = ⟨p.a0, p.a1, p.a2, p.a3⟩ ∨
     CubicOps.sortedQco p = ⟨p.a0, p.a1, p.a3, p.a2⟩ ∨
     CubicOps.sortedQco p = ⟨p.a0, p.a2, p.a1, p.a3⟩ ∨
     CubicOps.sortedQco p = ⟨p.a0, p.a2, p.a3, p.a1⟩ ∨
     CubicOps.sortedQco p = ⟨p.a0, p.a3, p.a1, p.a2⟩ ∨
     CubicOps.sortedQco p = ⟨p.a0, p.a3, p.a2, p.a1⟩ ∨
     CubicOps.sortedQco p = ⟨p.a1, p.a0, p.a2, p.a3⟩ ∨
     CubicOps.sortedQco p = ⟨p.a1, p.a0, p.a3, p.a2⟩ ∨
     CubicOps.sortedQco p = ⟨p.a1, p.a2, p.a0, p.a3⟩ ∨
     CubicOps.sortedQco p = ⟨p.a1, p.a2, p.a3, p.a0⟩ ∨
     CubicOps.sortedQco p = ⟨p.a1, p.a3, p.a0, p.a2⟩ ∨
     CubicOps.sortedQco p = ⟨p.a1, p.a3, p.a2, p.a0⟩ ∨
     CubicOps.sortedQco p = ⟨p.a2, p.a0, p.a1, p.a3⟩ ∨
     CubicOps.sortedQco p = ⟨p.a2, p.a0, p.a3, p.a1⟩ ∨
     CubicOps.sortedQco p = ⟨p.a2, p.a1, p.a0, p.a3⟩ ∨
     CubicOps.sortedQco p = ⟨p.a2, p.a1, p.a3, p.a0⟩ ∨
     CubicOps.sortedQco p = ⟨p.a2, p.a3, p.a0, p.a1⟩ ∨
     CubicOps.sortedQco p = ⟨p.a2, p.a3, p.a1, p.a0⟩ ∨
     CubicOps.sortedQco p = ⟨p.a3, p.a0, p.a1, p.a2⟩ ∨
     CubicOps.sortedQco p = ⟨p.a3, p.a0, p.a2, p.a1⟩ ∨
     CubicOps.sortedQco p = ⟨p.a3, p.a1, p.a0, p.a2⟩ ∨
     CubicOps.sortedQco p = ⟨p.a3, p.a1, p.a2, p.a0⟩ ∨
     CubicOps.sortedQco p = ⟨p.a3, p.a2, p.a0, p.a1⟩ ∨
     CubicOps.sortedQco p = ⟨p.a3, p.a2, p.a1, p.a0⟩) := by
  have sortedQco_eq_sortRest : ∀ (p : Vec4), CubicOps.sortedQco p = if p.a0 ≤ p.a1 ∧ p.a0 ≤ p.a2 ∧
      p.a0 ≤ p.a3 then ⟨p.a0, (sortRest p.a1 p.a2 p.a3).1, (sortRest p.a1 p.a2 p.a3).2.1,
      (sortRest p.a1 p.a2 p.a3).2.2⟩ else if p.a1 ≤ p.a0 ∧ p.a1 ≤ p.a2 ∧ p.a1 ≤ p.a3 then ⟨p.a1,
      (sortRest p.a0 p.a2 p.a3).1, (sortRest p.a0 p.a2 p.a3).2.1, (sortRest p.a0 p.a2 p.a3).2.2⟩
      else if p.a2 ≤ p.a0 ∧ p.a2 ≤ p.a1 ∧ p.a2 ≤ p.a3 then ⟨p.a2, (sortRest p.a0 p.a1 p.a3).1,
      (sortRest p.a0 p.a1 p.a3).2.1, (sortRest p.a0 p.a1 p.a3).2.2⟩ else ⟨p.a3, (sortRest p.a0
      p.a1 p.a2).1, (sortRest p.a0 p.a1 p.a2).2.1, (sortRest p.a0 p.a1 p.a2).2.2⟩ := by
    intro p
    unfold CubicOps.sortedQco sortRest
    split_ifs <;> rfl
  have sortRest_spec : ∀ (u v t : ℝ), ((sortRest u v t).1 ≤ (sortRest u v t).2.1 ∧ (sortRest u v
      t).2.1 ≤ (sortRest u v t).2.2) ∧ ((sortRest u v t).1 = u ∧ (sortRest u v t).2.1 = v ∧
      (sortRest u v t).2.2 = t ∨ (sortRest u v t).1 = u ∧ (sortRest u v t).2.1 = t ∧ (sortRest u v
      t).2.2 = v ∨ (sortRest u v t).1 = v ∧ (sortRest u v t).2.1 = u ∧ (sortRest u v t).2.2 = t ∨
      (sortRest u v t).1 = v ∧ (sortRest u v t).2.1 = t ∧ (sortRest u v t).2.2 = u ∨ (sortRest u v
      t).1 = t ∧ (sortRest u v t).2.1 = u ∧ (sortRest u v t).2.2 = v ∨ (sortRest u v t).1 = t ∧
      (sortRest u v t).2.1 = v ∧ (sortRest u v t).2.2 = u) := by
    intro u v t
    unfold sortRest
    split_ifs <;> simp only [not_and_or, not_le] at * <;> casesm* _ ∧ _, _ ∨ _ <;>
      refine ⟨⟨by linarith, by linarith⟩, ?_⟩ <;> simp
  -- When none of the first three components is the smallest, the fourth is.
  have fourth_smallest : ∀ {x y z w : ℝ}, (¬(x ≤ y ∧ x ≤ z ∧ x ≤ w)) → (¬(y ≤ x ∧ y ≤ z ∧ y ≤ w))
      → (¬(z ≤ x ∧ z ≤ y ∧ z ≤ w)) → w ≤ x ∧ w ≤ y ∧ w ≤ z := by
    intro x y z w h1 h2 h3
    simp only [not_and_or, not_le] at h1 h2 h3
    rcases h1 with h1 | h1 | h1 <;> rcases h2 with h2 | h2 | h2 <;>
      rcases h3 with h3 | h3 | h3 <;> refine ⟨?_, ?_, ?_⟩ <;> linarith
  rw [sortedQco_eq_sortRest]
  by_cases h1 : p.a0 ≤ p.a1 ∧ p.a0 ≤ p.a2 ∧ p.a0 ≤ p.a3
  · rw [if_pos h1]
    obtain ⟨⟨s1, s2⟩, hp⟩ := sortRest_spec p.a1 p.a2 p.a3
    obtain ⟨m1, m2, m3⟩ := h1
    rcases hp with ⟨e1, e2, e3⟩ | ⟨e1, e2, e3⟩ | ⟨e1, e2, e3⟩ | ⟨e1, e2, e3⟩ | ⟨e1, e2, e3⟩ |
      ⟨e1, e2, e3⟩ <;> simp only [e1, e2, e3] at s1 s2 ⊢ <;>
      refine ⟨⟨by linarith, s1, s2⟩, ?_⟩ <;> simp
  · rw [if_neg h1]
    by_cases h2 : p.a1 ≤ p.a0 ∧ p.a1 ≤ p.a2 ∧ p.a1 ≤ p.a3
    · rw [if_pos h2]
      obtain ⟨⟨s1, s2⟩, hp⟩ := sortRest_spec p.a0 p.a2 p.a3
      obtain ⟨m1, m2, m3⟩ := h2
      rcases hp with ⟨e1, e2, e3⟩ | ⟨e1, e2, e3⟩ | ⟨e1, e2, e3⟩ | ⟨e1, e2, e3⟩ | ⟨e1, e2, e3⟩ |
        ⟨e1, e2, e3⟩ <;> simp only [e1, e2, e3] at s1 s2 ⊢ <;>
        refine ⟨⟨by linarith, s1, s2⟩, ?_⟩ <;> simp
    · rw [if_neg h2]
      by_cases h3 : p.a2 ≤ p.a0 ∧ p.a2 ≤ p.a1 ∧ p.a2 ≤ p.a3
      · rw [if_pos h3]
        obtain ⟨⟨s1, s2⟩, hp⟩ := sortRest_spec p.a0 p.a1 p.a3
        obtain ⟨m1, m2, m3⟩ := h3
        rcases hp with ⟨e1, e2, e3⟩ | ⟨e1, e2, e3⟩ | ⟨e1, e2, e3⟩ | ⟨e1, e2, e3⟩ |
          ⟨e1, e2, e3⟩ | ⟨e1, e2, e3⟩ <;> simp only [e1, e2, e3] at s1 s2 ⊢ <;>
          refine ⟨⟨by linarith, s1, s2⟩, ?_⟩ <;> simp
      · rw [if_neg h3]
        obtain ⟨⟨s1, s2⟩, hp⟩ := sortRest_spec p.a0 p.a1 p.a2
        obtain ⟨m1, m2, m3⟩ := fourth_smallest h1 h2 h3
        rcases hp with ⟨e1, e2, e3⟩ | ⟨e1, e2, e3⟩ | ⟨e1, e2, e3⟩ | ⟨e1, e2, e3⟩ |
          ⟨e1, e2, e3⟩ | ⟨e1, e2, e3⟩ <;> simp only [e1, e2, e3] at s1 s2 ⊢ <;>
          refine ⟨⟨by linarith, s1, s2⟩, ?_⟩ <;> simp

/-! ### The closed form of the cubic misorientation against the operator table -/

set_option maxHeartbeats 1600000 in
/-- The closed form of the cubic misorientation is the largest size of the scalar part of
`s * q` over the operators `s` of the Cubic m3m table: no operator exceeds it and some
operator attains it. -/
theorem closed_form_is_maximum (q : Vec4) :
    (∀ s ∈ CubicHigh.QuatSym, |(QuatD.mul s q).a3|
      ≤ (CubicOps.wminAndType (CubicOps.sortedQco (QuatD.elementWiseAbs q))).1) ∧
    ∃ s ∈ CubicHigh.QuatSym, |(QuatD.mul s q).a3|
      = (CubicOps.wminAndType (CubicOps.sortedQco (QuatD.elementWiseAbs q))).1 := by
  have k_1OverRoot2D_pos := k_1OverRoot2D_facts.1
  -- What the cubic misorientation needs of the sorted components: the last is the largest
  -- input, the last two carry the largest sum of two inputs, and the total is kept.
  have sortedQco_facts : ∀ (p : Vec4), (p.a0 ≤ (CubicOps.sortedQco p).a3 ∧ p.a1 ≤
      (CubicOps.sortedQco p).a3 ∧ p.a2 ≤ (CubicOps.sortedQco p).a3 ∧ p.a3 ≤ (CubicOps.sortedQco
      p).a3) ∧ (p.a0 + p.a1 ≤ (CubicOps.sortedQco p).a2 + (CubicOps.sortedQco p).a3 ∧ p.a0 + p.a2
      ≤ (CubicOps.sortedQco p).a2 + (CubicOps.sortedQco p).a3 ∧ p.a0 + p.a3 ≤ (CubicOps.sortedQco
      p).a2 + (CubicOps.sortedQco p).a3 ∧ p.a1 + p.a2 ≤ (CubicOps.sortedQco p).a2 +
      (CubicOps.sortedQco p).a3 ∧ p.a1 + p.a3 ≤ (CubicOps.sortedQco p).a2 + (CubicOps.sortedQco
      p).a3 ∧ p.a2 + p.a3 ≤ (CubicOps.sortedQco p).a2 + (CubicOps.sortedQco p).a3) ∧
      ((CubicOps.sortedQco p).a0 + (CubicOps.sortedQco p).a1 + (CubicOps.sortedQco p).a2 +
      (CubicOps.sortedQco p).a3 = p.a0 + p.a1 + p.a2 + p.a3) ∧ ((CubicOps.sortedQco p).a3 = p.a0 ∨
      (CubicOps.sortedQco p).a3 = p.a1 ∨ (CubicOps.sortedQco p).a3 = p.a2 ∨ (CubicOps.sortedQco
      p).a3 = p.a3) ∧ ((CubicOps.sortedQco p).a2 + (CubicOps.sortedQco p).a3 = p.a0 + p.a1 ∨
      (CubicOps.sortedQco p).a2 + (CubicOps.sortedQco p).a3 = p.a0 + p.a2 ∨ (CubicOps.sortedQco
      p).a2 + (CubicOps.sortedQco p).a3 = p.a0 + p.a3 ∨ (CubicOps.sortedQco p).a2 +
      (CubicOps.sortedQco p).a3 = p.a1 + p.a2 ∨ (CubicOps.sortedQco p).a2 + (CubicOps.sortedQco
      p).a3 = p.a1 + p.a3 ∨ (CubicOps.sortedQco p).a2 + (CubicOps.sortedQco p).a3 = p.a2 + p.a3)
      := by
    intro p
    obtain ⟨⟨s1, s2, s3⟩, hp⟩ := sortedQco_perm p
    rcases hp with h | h | h | h | h | h | h | h | h | h | h | h | h | h | h | h | h | h | h | h | h | h | h | h <;> rw [h] at s1 s2 s3 ⊢ <;> simp only [] at s1 s2 s3 ⊢ <;>
      refine ⟨⟨by linarith, by linarith, by linarith, by linarith⟩,
        ⟨by linarith, by linarith, by linarith, by linarith, by linarith, by linarith⟩,
        by first | trivial | ring1, ?_, ?_⟩ <;>
      first
        | (left; first | trivial | ring1)
        | (right; left; first | trivial | ring1)
        | (right; right; left; first | trivial | ring1)
        | (right; right; right; left; first | trivial | ring1)
        | (right; right; right; right; left; first | trivial | ring1)
        | (right; right; right; first | trivial | ring1)
        | (right; right; right; right; right; first | trivial | ring1)
  -- The pair of updates returns the largest of the three candidate values.
  have wminCos_spec : ∀ (o : Vec4), o.a3 ≤ (CubicOps.wminAndType o).1 ∧ k_1OverRoot2D * (o.a2 +
      o.a3) ≤ (CubicOps.wminAndType o).1 ∧ (o.a0 + o.a1 + o.a2 + o.a3) / 2 ≤ (CubicOps.wminAndType
      o).1 ∧ ((CubicOps.wminAndType o).1 = o.a3 ∨ (CubicOps.wminAndType o).1 = k_1OverRoot2D *
      (o.a2 + o.a3) ∨ (CubicOps.wminAndType o).1 = (o.a0 + o.a1 + o.a2 + o.a3) / 2) := by
    intro o
    have hk := k_1OverRoot2D_facts.2.2.1
    have h2 : (2.0 : ℝ) = 2 := by norm_num
    unfold CubicOps.wminAndType
    simp only [hk, h2, gt_iff_lt]
    by_cases h1 : o.a3 < k_1OverRoot2D * (o.a2 + o.a3)
    · rw [if_pos h1]
      by_cases h3 : k_1OverRoot2D * (o.a2 + o.a3) < (o.a0 + o.a1 + o.a2 + o.a3) / 2
      · rw [if_pos h3]
        dsimp only
        exact ⟨by linarith, by linarith, le_refl _, Or.inr (Or.inr rfl)⟩
      · rw [if_neg h3]
        dsimp only
        exact ⟨by linarith, le_refl _, by linarith, Or.inr (Or.inl rfl)⟩
    · rw [if_neg h1]
      by_cases h3 : o.a3 < (o.a0 + o.a1 + o.a2 + o.a3) / 2
      · rw [if_pos h3]
        dsimp only
        exact ⟨by linarith, by linarith, le_refl _, Or.inr (Or.inr rfl)⟩
      · rw [if_neg h3]
        dsimp only
        exact ⟨le_refl _, by linarith, by linarith, Or.inl rfl⟩
  -- No operator of the Cubic m3m table gives a scalar part larger in size than the closed form.
  have abs_scalarOfMul_le : ∀ (q s : Vec4), (s ∈ CubicHigh.QuatSym) → |(QuatD.mul s q).a3| ≤
      (CubicOps.wminAndType (CubicOps.sortedQco (QuatD.elementWiseAbs q))).1 := by
    intro q s hs
    obtain ⟨⟨f0, f1, f2, f3⟩, ⟨g01, g02, g03, g12, g13, g23⟩, hsum, -, -⟩ :=
      sortedQco_facts (QuatD.elementWiseAbs q)
    obtain ⟨w1, w2, w3, -⟩ := wminCos_spec (CubicOps.sortedQco (QuatD.elementWiseAbs q))
    generalize CubicOps.sortedQco (QuatD.elementWiseAbs q) = o at *
    unfold QuatD.elementWiseAbs at f0 f1 f2 f3 g01 g02 g03 g12 g13 g23 hsum
    have hk := k_1OverRoot2D_pos
    have a0 := le_abs_self q.a0
    have a1 := le_abs_self q.a1
    have a2 := le_abs_self q.a2
    have a3 := le_abs_self q.a3
    have b0 := neg_abs_le q.a0
    have b1 := neg_abs_le q.a1
    have b2 := neg_abs_le q.a2
    have b3 := neg_abs_le q.a3
    have ka0 := mul_le_mul_of_nonneg_left a0 hk.le
    have ka1 := mul_le_mul_of_nonneg_left a1 hk.le
    have ka2 := mul_le_mul_of_nonneg_left a2 hk.le
    have ka3 := mul_le_mul_of_nonneg_left a3 hk.le
    have kb0 := mul_le_mul_of_nonneg_left b0 hk.le
    have kb1 := mul_le_mul_of_nonneg_left b1 hk.le
    have kb2 := mul_le_mul_of_nonneg_left b2 hk.le
    have kb3 := mul_le_mul_of_nonneg_left b3 hk.le
    have kg01 := mul_le_mul_of_nonneg_left g01 hk.le
    have kg02 := mul_le_mul_of_nonneg_left g02 hk.le
    have kg03 := mul_le_mul_of_nonneg_left g03 hk.le
    have kg12 := mul_le_mul_of_nonneg_left g12 hk.le
    have kg13 := mul_le_mul_of_nonneg_left g13 hk.le
    have kg23 := mul_le_mul_of_nonneg_left g23 hk.le
    unfold CubicHigh.QuatSym at hs
    simp only [List.mem_cons, List.mem_singleton, List.not_mem_nil, or_false] at hs
    rcases hs with rfl | rfl | rfl | rfl | rfl | rfl | rfl | rfl | rfl | rfl | rfl | rfl | rfl | rfl | rfl | rfl | rfl | rfl | rfl | rfl | rfl | rfl | rfl | rfl <;>
      simp only [QuatD.mul] <;> rw [abs_le] <;> constructor <;> linarith
  -- Each component of a quaternion is, up to sign, the scalar part of its product with an
  -- operator of the Cubic m3m table.
  have exists_op_single : ∀ (q : Vec4), (∃ s ∈ CubicHigh.QuatSym, |(QuatD.mul s q).a3| = |q.a0|) ∧
      (∃ s ∈ CubicHigh.QuatSym, |(QuatD.mul s q).a3| = |q.a1|) ∧ (∃ s ∈ CubicHigh.QuatSym,
      |(QuatD.mul s q).a3| = |q.a2|) ∧ (∃ s ∈ CubicHigh.QuatSym, |(QuatD.mul s q).a3| = |q.a3|) :=
      by
    intro q
    refine ⟨?_, ?_, ?_, ?_⟩
    · exact ⟨⟨1, 0, 0, 0⟩, by
          unfold CubicHigh.QuatSym
          exact List.Mem.tail _ (List.Mem.head _), by simp [QuatD.mul]⟩
    · exact ⟨⟨0, 1, 0, 0⟩, by
          unfold CubicHigh.QuatSym
          exact List.Mem.tail _ (List.Mem.tail _ (List.Mem.head _)), by simp [QuatD.mul]⟩
    · exact ⟨⟨0, 0, 1, 0⟩, by
          unfold CubicHigh.QuatSym
          exact List.Mem.tail _ (List.Mem.tail _ (List.Mem.tail _ (List.Mem.head _))), by simp [QuatD.mul]⟩
    · exact ⟨⟨0, 0, 0, 1⟩, by
          unfold CubicHigh.QuatSym
          exact List.Mem.head _, by simp [QuatD.mul]⟩
  -- For any two components there is an operator of the Cubic m3m table whose product has scalar
  -- part of size the sum of their sizes over the square root of two.
  have exists_op_pair : ∀ (q : Vec4), (∃ s ∈ CubicHigh.QuatSym, |(QuatD.mul s q).a3| =
      k_1OverRoot2D * (|q.a0| + |q.a1|)) ∧ (∃ s ∈ CubicHigh.QuatSym, |(QuatD.mul s q).a3| =
      k_1OverRoot2D * (|q.a0| + |q.a2|)) ∧ (∃ s ∈ CubicHigh.QuatSym, |(QuatD.mul s q).a3| =
      k_1OverRoot2D * (|q.a0| + |q.a3|)) ∧ (∃ s ∈ CubicHigh.QuatSym, |(QuatD.mul s q).a3| =
      k_1OverRoot2D * (|q.a1| + |q.a2|)) ∧ (∃ s ∈ CubicHigh.QuatSym, |(QuatD.mul s q).a3| =
      k_1OverRoot2D * (|q.a1| + |q.a3|)) ∧ (∃ s ∈ CubicHigh.QuatSym, |(QuatD.mul s q).a3| =
      k_1OverRoot2D * (|q.a2| + |q.a3|)) := by
    intro q
    have hk := k_1OverRoot2D_pos
    refine ⟨?_, ?_, ?_, ?_, ?_, ?_⟩
    · rcases abs_cases q.a0 with ⟨h0, -⟩ | ⟨h0, -⟩ <;> rcases abs_cases q.a1 with ⟨h1, -⟩ | ⟨h1, -⟩
      · exact ⟨⟨k_1OverRoot2D, k_1OverRoot2D, 0, 0⟩, by
          unfold CubicHigh.QuatSym
          exact List.Mem.tail _ (List.Mem.tail _ (List.Mem.tail _ (List.Mem.tail _ (List.Mem.tail _ (List.Mem.tail _ (List.Mem.tail _ (List.Mem.tail _ (List.Mem.tail _ (List.Mem.tail _ (List.Mem.head _)))))))))), by
          rw [abs_eq (mul_nonneg hk.le (by positivity)), h0, h1]
          simp only [QuatD.mul]
          right
          ring1⟩
      · exact ⟨⟨-k_1OverRoot2D, k_1OverRoot2D, 0, 0⟩, by
          unfold CubicHigh.QuatSym
          exact List.Mem.tail _ (List.Mem.tail _ (List.Mem.tail _ (List.Mem.tail _ (List.Mem.tail _ (List.Mem.tail _ (List.Mem.tail _ (List.Mem.tail _ (List.Mem.tail _ (List.Mem.tail _ (List.Mem.tail _ (List.Mem.head _))))))))))), by
          rw [abs_eq (mul_nonneg hk.le (by positivity)), h0, h1]
          simp only [QuatD.mul]
          left
          ring1⟩
      · exact ⟨⟨-k_1OverRoot2D, k_1OverRoot2D, 0, 0⟩, by
          unfold CubicHigh.QuatSym
          exact List.Mem.tail _ (List.Mem.tail _ (List.Mem.tail _ (List.Mem.tail _ (List.Mem.tail _ (List.Mem.tail _ (List.Mem.tail _ (List.Mem.tail _ (List.Mem.tail _ (List.Mem.tail _ (List.Mem.tail _ (List.Mem.head _))))))))))), by
          rw [abs_eq (mul_nonneg hk.le (by positivity)), h0, h1]
          simp only [QuatD.mul]
          right
          ring1⟩
      · exact ⟨⟨k_1OverRoot2D, k_1OverRoot2D, 0, 0⟩, by
          unfold CubicHigh.QuatSym
          exact List.Mem.tail _ (List.Mem.tail _ (List.Mem.tail _ (List.Mem.tail _ (List.Mem.tail _ (List.Mem.tail _ (List.Mem.tail _ (List.Mem.tail _ (List.Mem.tail _ (List.Mem.tail _ (List.Mem.head _)))))))))), by
          rw [abs_eq (mul_nonneg hk.le (by positivity)), h0, h1]
          simp only [QuatD.mul]
          left
          ring1⟩
    · rcases abs_cases q.a0 with ⟨h0, -⟩ | ⟨h0, -⟩ <;> rcases abs_cases q.a2 with ⟨h2, -⟩ | ⟨h2, -⟩
      · exact ⟨⟨k_1OverRoot2D, 0, k_1OverRoot2D, 0⟩, by
          unfold CubicHigh.QuatSym
          exact List.Mem.tail _ (List.Mem.tail _ (List.Mem.tail _ (List.Mem.tail _ (List.Mem.tail _ (List.Mem.tail _ (List.Mem.tail _ (List.Mem.tail _ (List.Mem.tail _ (List.Mem.tail _ (List.Mem.tail _ (List.Mem.tail _ (List.Mem.tail _ (List.Mem.tail _ (List.Mem.head _)))))))))))))), by
          rw [abs_eq (mul_nonneg hk.le (by positivity)), h0, h2]
          simp only [QuatD.mul]
          right
          ring1⟩
      · exact ⟨⟨-k_1OverRoot2D, 0, k_1OverRoot2D, 0⟩, by
          unfold CubicHigh.QuatSym
          exact List.Mem.tail _ (List.Mem.tail _ (List.Mem.tail _ (List.Mem.tail _ (List.Mem.tail _ (List.Mem.tail _ (List.Mem.tail _ (List.Mem.tail _ (List.Mem.tail _ (List.Mem.tail _ (List.Mem.tail _ (List.Mem.tail _ (List.Mem.tail _ (List.Mem.tail _ (List.Mem.tail _ (List.Mem.head _))))))))))))))), by
          rw [abs_eq (mul_nonneg hk.le (by positivity)), h0, h2]
          simp only [QuatD.mul]
          left
          ring1⟩
      · exact ⟨⟨-k_1OverRoot2D, 0, k_1OverRoot2D, 0⟩, by
          unfold CubicHigh.QuatSym
          exact List.Mem.tail _ (List.Mem.tail _ (List.Mem.tail _ (List.Mem.tail _ (List.Mem.tail _ (List.Mem.tail _ (List.Mem.tail _ (List.Mem.tail _ (List.Mem.tail _ (List.Mem.tail _ (List.Mem.tail _ (List.Mem.tail _ (List.Mem.tail _ (List.Mem.tail _ (List.Mem.tail _ (List.Mem.head _))))))))))))))), by
          rw [abs_eq (mul_nonneg hk.le (by positivity)), h0, h2]
          simp only [QuatD.mul]
          right
          ring1⟩
      · exact ⟨⟨k_1OverRoot2D, 0, k_1OverRoot2D, 0⟩, by
          unfold CubicHigh.QuatSym
          exact List.Mem.tail _ (List.Mem.tail _ (List.Mem.tail _ (List.Mem.tail _ (List.Mem.tail _ (List.Mem.tail _ (List.Mem.tail _ (List.Mem.tail _ (List.Mem.tail _ (List.Mem.tail _ (List.Mem.tail _ (List.Mem.tail _ (List.Mem.tail _ (List.Mem.tail _ (List.Mem.head _)))))))))))))), by
          rw [abs_eq (mul_nonneg hk.le (by positivity)), h0, h2]
          simp only [QuatD.mul]
          left
          ring1⟩
    · rcases abs_cases q.a0 with ⟨h0, -⟩ | ⟨h0, -⟩ <;> rcases abs_cases q.a3 with ⟨h3, -⟩ | ⟨h3, -⟩
      · exact ⟨⟨-k_1OverRoot2D, 0, 0, k_1OverRoot2D⟩, by
          unfold CubicHigh.QuatSym
          exact List.Mem.tail _ (List.Mem.tail _ (List.Mem.tail _ (List.Mem.tail _ (List.Mem.tail _ (List.Mem.tail _ (List.Mem.tail _ (List.Mem.head _))))))), by
          rw [abs_eq (mul_nonneg hk.le (by positivity)), h0, h3]
          simp only [QuatD.mul]
          left
          ring1⟩
      · exact ⟨⟨k_1OverRoot2D, 0, 0, k_1OverRoot2D⟩, by
          unfold CubicHigh.QuatSym
          exact List.Mem.tail _ (List.Mem.tail _ (List.Mem.tail _ (List.Mem.tail _ (List.Mem.head _)))), by
          rw [abs_eq (mul_nonneg hk.le (by positivity)), h0, h3]
          simp only [QuatD.mul]
          right
          ring1⟩
      · exact ⟨⟨k_1OverRoot2D, 0, 0, k_1OverRoot2D⟩, by
          unfold CubicHigh.QuatSym
          exact List.Mem.tail _ (List.Mem.tail _ (List.Mem.tail _ (List.Mem.tail _ (List.Mem.head _)))), by
          rw [abs_eq (mul_nonneg hk.le (by positivity)), h0, h3]
          simp only [QuatD.mul]
          left
          ring1⟩
      · exact ⟨⟨-k_1OverRoot2D, 0, 0, k_1OverRoot2D⟩, by
          unfold CubicHigh.QuatSym
          exact List.Mem.tail _ (List.Mem.tail _ (List.Mem.tail _ (List.Mem.tail _ (List.Mem.tail _ (List.Mem.tail _ (List.Mem.tail _ (List.Mem.head _))))))), by
          rw [abs_eq (mul_nonneg hk.le (by positivity)), h0, h3]
          simp only [QuatD.mul]
          right
          ring1⟩
    · rcases abs_cases q.a1 with ⟨h1, -⟩ | ⟨h1, -⟩ <;> rcases abs_cases q.a2 with ⟨h2, -⟩ | ⟨h2, -⟩
      · exact ⟨⟨0, k_1OverRoot2D, k_1OverRoot2D, 0⟩, by
          unfold CubicHigh.QuatSym
          exact List.Mem.tail _ (List.Mem.tail _ (List.Mem.tail _ (List.Mem.tail _ (List.Mem.tail _ (List.Mem.tail _ (List.Mem.tail _ (List.Mem.tail _ (List.Mem.tail _ (List.Mem.tail _ (List.Mem.tail _ (List.Mem.tail _ (List.Mem.head _)))))))))))), by
          rw [abs_eq (mul_nonneg hk.le (by positivity)), h1, h2]
          simp only [QuatD.mul]
          right
          ring1⟩
      · exact ⟨⟨0, -k_1OverRoot2D, k_1OverRoot2D, 0⟩, by
          unfold CubicHigh.QuatSym
          exact List.Mem.tail _ (List.Mem.tail _ (List.Mem.tail _ (List.Mem.tail _ (List.Mem.tail _ (List.Mem.tail _ (List.Mem.tail _ (List.Mem.tail _ (List.Mem.tail _ (List.Mem.tail _ (List.Mem.tail _ (List.Mem.tail _ (List.Mem.tail _ (List.Mem.head _))))))))))))), by
          rw [abs_eq (mul_nonneg hk.le (by positivity)), h1, h2]
          simp only [QuatD.mul]
          left
          ring1⟩
      · exact ⟨⟨0, -k_1OverRoot2D, k_1OverRoot2D, 0⟩, by
          unfold CubicHigh.QuatSym
          exact List.Mem.tail _ (List.Mem.tail _ (List.Mem.tail _ (List.Mem.tail _ (List.Mem.tail _ (List.Mem.tail _ (List.Mem.tail _ (List.Mem.tail _ (List.Mem.tail _ (List.Mem.tail _ (List.Mem.tail _ (List.Mem.tail _ (List.Mem.tail _ (List.Mem.head _))))))))))))), by
          rw [abs_eq (mul_nonneg hk.le (by positivity)), h1, h2]
          simp only [QuatD.mul]
          right
          ring1⟩
      · exact ⟨⟨0, k_1OverRoot2D, k_1OverRoot2D, 0⟩, by
          unfold CubicHigh.QuatSym
          exact List.Mem.tail _ (List.Mem.tail _ (List.Mem.tail _ (List.Mem.tail _ (List.Mem.tail _ (List.Mem.tail _ (List.Mem.tail _ (List.Mem.tail _ (List.Mem.tail _ (List.Mem.tail _ (List.Mem.tail _ (List.Mem.tail _ (List.Mem.head _)))))))))))), by
          rw [abs_eq (mul_nonneg hk.le (by positivity)), h1, h2]
          simp only [QuatD.mul]
          left
          ring1⟩
    · rcases abs_cases q.a1 with ⟨h1, -⟩ | ⟨h1, -⟩ <;> rcases abs_cases q.a3 with ⟨h3, -⟩ | ⟨h3, -⟩
      · exact ⟨⟨0, -k_1OverRoot2D, 0, k_1OverRoot2D⟩, by
          unfold CubicHigh.QuatSym
          exact List.Mem.tail _ (List.Mem.tail _ (List.Mem.tail _ (List.Mem.tail _ (List.Mem.tail _ (List.Mem.tail _ (List.Mem.tail _ (List.Mem.tail _ (List.Mem.head _)))))))), by
          rw [abs_eq (mul_nonneg hk.le (by positivity)), h1, h3]
          simp only [QuatD.mul]
          left
          ring1⟩
      · exact ⟨⟨0, k_1OverRoot2D, 0, k_1OverRoot2D⟩, by
          unfold CubicHigh.QuatSym
          exact List.Mem.tail _ (List.Mem.tail _ (List.Mem.tail _ (List.Mem.tail _ (List.Mem.tail _ (List.Mem.head _))))), by
          rw [abs_eq (mul_nonneg hk.le (by positivity)), h1, h3]
          simp only [QuatD.mul]
          right
          ring1⟩
      · exact ⟨⟨0, k_1OverRoot2D, 0, k_1OverRoot2D⟩, by
          unfold CubicHigh.QuatSym
          exact List.Mem.tail _ (List.Mem.tail _ (List.Mem.tail _ (List.Mem.tail _ (List.Mem.tail _ (List.Mem.head _))))), by
          rw [abs_eq (mul_nonneg hk.le (by positivity)), h1, h3]
          simp only [QuatD.mul]
          left
          ring1⟩
      · exact ⟨⟨0, -k_1OverRoot2D, 0, k_1OverRoot2D⟩, by
          unfold CubicHigh.QuatSym
          exact List.Mem.tail _ (List.Mem.tail _ (List.Mem.tail _ (List.Mem.tail _ (List.Mem.tail _ (List.Mem.tail _ (List.Mem.tail _ (List.Mem.tail _ (List.Mem.head _)))))))), by
          rw [abs_eq (mul_nonneg hk.le (by positivity)), h1, h3]
          simp only [QuatD.mul]
          right
          ring1⟩
    · rcases abs_cases q.a2 with ⟨h2, -⟩ | ⟨h2, -⟩ <;> rcases abs_cases q.a3 with ⟨h3, -⟩ | ⟨h3, -⟩
      · exact ⟨⟨0, 0, -k_1OverRoot2D, k_1OverRoot2D⟩, by
          unfold CubicHigh.QuatSym
          exact List.Mem.tail _ (List.Mem.tail _ (List.Mem.tail _ (List.Mem.tail _ (List.Mem.tail _ (List.Mem.tail _ (List.Mem.tail _ (List.Mem.tail _ (List.Mem.tail _ (List.Mem.head _))))))))), by
          rw [abs_eq (mul_nonneg hk.le (by positivity)), h2, h3]
          simp only [QuatD.mul]
          left
          ring1⟩
      · exact ⟨⟨0, 0, k_1OverRoot2D, k_1OverRoot2D⟩, by
          unfold CubicHigh.QuatSym
          exact List.Mem.tail _ (List.Mem.tail _ (List.Mem.tail _ (List.Mem.tail _ (List.Mem.tail _ (List.Mem.tail _ (List.Mem.head _)))))), by
          rw [abs_eq (mul_nonneg hk.le (by positivity)), h2, h3]
          simp only [QuatD.mul]
          right
          ring1⟩
      · exact ⟨⟨0, 0, k_1OverRoot2D, k_1OverRoot2D⟩, by
          unfold CubicHigh.QuatSym
          exact List.Mem.tail _ (List.Mem.tail _ (List.Mem.tail _ (List.Mem.tail _ (List.Mem.tail _ (List.Mem.tail _ (List.Mem.head _)))))), by
          rw [abs_eq (mul_nonneg hk.le (by positivity)), h2, h3]
          simp only [QuatD.mul]
          left
          ring1⟩
      · exact ⟨⟨0, 0, -k_1OverRoot2D, k_1OverRoot2D⟩, by
          unfold CubicHigh.QuatSym
          exact List.Mem.tail _ (List.Mem.tail _ (List.Mem.tail _ (List.Mem.tail _ (List.Mem.tail _ (List.Mem.tail _ (List.Mem.tail _ (List.Mem.tail _ (List.Mem.tail _ (List.Mem.head _))))))))), by
          rw [abs_eq (mul_nonneg hk.le (by positivity)), h2, h3]
          simp only [QuatD.mul]
          right
          ring1⟩
  -- Some operator of the Cubic m3m table gives a product whose scalar part has size half the
  -- sum of the sizes of the four components.
  have exists_op_quad : ∀ (q : Vec4), ∃ s ∈ CubicHigh.QuatSym, |(QuatD.mul s q).a3| = (|q.a0| +
      |q.a1| + |q.a2| + |q.a3|) / 2 := by
    intro q
    rcases abs_cases q.a0 with ⟨h0, -⟩ | ⟨h0, -⟩ <;> rcases abs_cases q.a1 with ⟨h1, -⟩ | ⟨h1, -⟩ <;>
      rcases abs_cases q.a2 with ⟨h2, -⟩ | ⟨h2, -⟩ <;> rcases abs_cases q.a3 with ⟨h3, -⟩ | ⟨h3, -⟩
    · exact ⟨⟨-0.5, -0.5, -0.5, 0.5⟩, by
          unfold CubicHigh.QuatSym
          exact List.Mem.tail _ (List.Mem.tail _ (List.Mem.tail _ (List.Mem.tail _ (List.Mem.tail _ (List.Mem.tail _ (List.Mem.tail _ (List.Mem.tail _ (List.Mem.tail _ (List.Mem.tail _ (List.Mem.tail _ (List.Mem.tail _ (List.Mem.tail _ (List.Mem.tail _ (List.Mem.tail _ (List.Mem.tail _ (List.Mem.tail _ (List.Mem.head _))))))))))))))))), by
          rw [abs_eq (by positivity), h0, h1, h2, h3]
          simp only [QuatD.mul]
          left
          ring1⟩
    · exact ⟨⟨0.5, 0.5, 0.5, 0.5⟩, by
          unfold CubicHigh.QuatSym
          exact List.Mem.tail _ (List.Mem.tail _ (List.Mem.tail _ (List.Mem.tail _ (List.Mem.tail _ (List.Mem.tail _ (List.Mem.tail _ (List.Mem.tail _ (List.Mem.tail _ (List.Mem.tail _ (List.Mem.tail _ (List.Mem.tail _ (List.Mem.tail _ (List.Mem.tail _ (List.Mem.tail _ (List.Mem.tail _ (List.Mem.head _)))))))))))))))), by
          rw [abs_eq (by positivity), h0, h1, h2, h3]
          simp only [QuatD.mul]
          right
          ring1⟩
    · exact ⟨⟨-0.5, -0.5, 0.5, 0.5⟩, by
          unfold CubicHigh.QuatSym
          exact List.Mem.tail _ (List.Mem.tail _ (List.Mem.tail _ (List.Mem.tail _ (List.Mem.tail _ (List.Mem.tail _ (List.Mem.tail _ (List.Mem.tail _ (List.Mem.tail _ (List.Mem.tail _ (List.Mem.tail _ (List.Mem.tail _ (List.Mem.tail _ (List.Mem.tail _ (List.Mem.tail _ (List.Mem.tail _ (List.Mem.tail _ (List.Mem.tail _ (List.Mem.tail _ (List.Mem.tail _ (List.Mem.tail _ (List.Mem.tail _ (List.Mem.head _)))))))))))))))))))))), by
          rw [abs_eq (by positivity), h0, h1, h2, h3]
          simp only [QuatD.mul]
          left
          ring1⟩
    · exact ⟨⟨0.5, 0.5, -0.5, 0.5⟩, by
          unfold CubicHigh.QuatSym
          exact List.Mem.tail _ (List.Mem.tail _ (List.Mem.tail _ (List.Mem.tail _ (List.Mem.tail _ (List.Mem.tail _ (List.Mem.tail _ (List.Mem.tail _ (List.Mem.tail _ (List.Mem.tail _ (List.Mem.tail _ (List.Mem.tail _ (List.Mem.tail _ (List.Mem.tail _ (List.Mem.tail _ (List.Mem.tail _ (List.Mem.tail _ (List.Mem.tail _ (List.Mem.tail _ (List.Mem.tail _ (List.Mem.tail _ (List.Mem.tail _ (List.Mem.tail _ (List.Mem.head _))))))))))))))))))))))), by
          rw [abs_eq (by positivity), h0, h1, h2, h3]
          simp only [QuatD.mul]
          right
          ring1⟩
    · exact ⟨⟨-0.5, 0.5, -0.5, 0.5⟩, by
          unfold CubicHigh.QuatSym
          exact List.Mem.tail _ (List.Mem.tail _ (List.Mem.tail _ (List.Mem.tail _ (List.Mem.tail _ (List.Mem.tail _ (List.Mem.tail _ (List.Mem.tail _ (List.Mem.tail _ (List.Mem.tail _ (List.Mem.tail _ (List.Mem.tail _ (List.Mem.tail _ (List.Mem.tail _ (List.Mem.tail _ (List.Mem.tail _ (List.Mem.tail _ (List.Mem.tail _ (List.Mem.tail _ (List.Mem.head _))))))))))))))))))), by
          rw [abs_eq (by positivity), h0, h1, h2, h3]
          simp only [QuatD.mul]
          left
          ring1⟩
    · exact ⟨⟨0.5, -0.5, 0.5, 0.5⟩, by
          unfold CubicHigh.QuatSym
          exact List.Mem.tail _ (List.Mem.tail _ (List.Mem.tail _ (List.Mem.tail _ (List.Mem.tail _ (List.Mem.tail _ (List.Mem.tail _ (List.Mem.tail _ (List.Mem.tail _ (List.Mem.tail _ (List.Mem.tail _ (List.Mem.tail _ (List.Mem.tail _ (List.Mem.tail _ (List.Mem.tail _ (List.Mem.tail _ (List.Mem.tail _ (List.Mem.tail _ (List.Mem.head _)))))))))))))))))), by
          rw [abs_eq (by positivity), h0, h1, h2, h3]
          simp only [QuatD.mul]
          right
          ring1⟩
    · exact ⟨⟨-0.5, 0.5, 0.5, 0.5⟩, by
          unfold CubicHigh.QuatSym
          exact List.Mem.tail _ (List.Mem.tail _ (List.Mem.tail _ (List.Mem.tail _ (List.Mem.tail _ (List.Mem.tail _ (List.Mem.tail _ (List.Mem.tail _ (List.Mem.tail _ (List.Mem.tail _ (List.Mem.tail _ (List.Mem.tail _ (List.Mem.tail _ (List.Mem.tail _ (List.Mem.tail _ (List.Mem.tail _ (List.Mem.tail _ (List.Mem.tail _ (List.Mem.tail _ (List.Mem.tail _ (List.Mem.head _)))))))))))))))))))), by
          rw [abs_eq (by positivity), h0, h1, h2, h3]
          simp only [QuatD.mul]
          left
          ring1⟩
    · exact ⟨⟨0.5, -0.5, -0.5, 0.5⟩, by
          unfold CubicHigh.QuatSym
          exact List.Mem.tail _ (List.Mem.tail _ (List.Mem.tail _ (List.Mem.tail _ (List.Mem.tail _ (List.Mem.tail _ (List.Mem.tail _ (List.Mem.tail _ (List.Mem.tail _ (List.Mem.tail _ (List.Mem.tail _ (List.Mem.tail _ (List.Mem.tail _ (List.Mem.tail _ (List.Mem.tail _ (List.Mem.tail _ (List.Mem.tail _ (List.Mem.tail _ (List.Mem.tail _ (List.Mem.tail _ (List.Mem.tail _ (List.Mem.head _))))))))))))))))))))), by
          rw [abs_eq (by positivity), h0, h1, h2, h3]
          simp only [QuatD.mul]
          right
          ring1⟩
    · exact ⟨⟨0.5, -0.5, -0.5, 0.5⟩, by
          unfold CubicHigh.QuatSym
          exact List.Mem.tail _ (List.Mem.tail _ (List.Mem.tail _ (List.Mem.tail _ (List.Mem.tail _ (List.Mem.tail _ (List.Mem.tail _ (List.Mem.tail _ (List.Mem.tail _ (List.Mem.tail _ (List.Mem.tail _ (List.Mem.tail _ (List.Mem.tail _ (List.Mem.tail _ (List.Mem.tail _ (List.Mem.tail _ (List.Mem.tail _ (List.Mem.tail _ (List.Mem.tail _ (List.Mem.tail _ (List.Mem.tail _ (List.Mem.head _))))))))))))))))))))), by
          rw [abs_eq (by positivity), h0, h1, h2, h3]
          simp only [QuatD.mul]
          left
          ring1⟩
    · exact ⟨⟨-0.5, 0.5, 0.5, 0.5⟩, by
          unfold CubicHigh.QuatSym
          exact List.Mem.tail _ (List.Mem.tail _ (List.Mem.tail _ (List.Mem.tail _ (List.Mem.tail _ (List.Mem.tail _ (List.Mem.tail _ (List.Mem.tail _ (List.Mem.tail _ (List.Mem.tail _ (List.Mem.tail _ (List.Mem.tail _ (List.Mem.tail _ (List.Mem.tail _ (List.Mem.tail _ (List.Mem.tail _ (List.Mem.tail _ (List.Mem.tail _ (List.Mem.tail _ (List.Mem.tail _ (List.Mem.head _)))))))))))))))))))), by
          rw [abs_eq (by positivity), h0, h1, h2, h3]
          simp only [QuatD.mul]
          right
          ring1⟩
    · exact ⟨⟨0.5, -0.5, 0.5, 0.5⟩, by
          unfold CubicHigh.QuatSym
          exact List.Mem.tail _ (List.Mem.tail _ (List.Mem.tail _ (List.Mem.tail _ (List.Mem.tail _ (List.Mem.tail _ (List.Mem.tail _ (List.Mem.tail _ (List.Mem.tail _ (List.Mem.tail _ (List.Mem.tail _ (List.Mem.tail _ (List.Mem.tail _ (List.Mem.tail _ (List.Mem.tail _ (List.Mem.tail _ (List.Mem.tail _ (List.Mem.tail _ (List.Mem.head _)))))))))))))))))), by
          rw [abs_eq (by positivity), h0, h1, h2, h3]
          simp only [QuatD.mul]
          left
          ring1⟩
    · exact ⟨⟨-0.5, 0.5, -0.5, 0.5⟩, by
          unfold CubicHigh.QuatSym
          exact List.Mem.tail _ (List.Mem.tail _ (List.Mem.tail _ (List.Mem.tail _ (List.Mem.tail _ (List.Mem.tail _ (List.Mem.tail _ (List.Mem.tail _ (List.Mem.tail _ (List.Mem.tail _ (List.Mem.tail _ (List.Mem.tail _ (List.Mem.tail _ (List.Mem.tail _ (List.Mem.tail _ (List.Mem.tail _ (List.Mem.tail _ (List.Mem.tail _ (List.Mem.tail _ (List.Mem.head _))))))))))))))))))), by
          rw [abs_eq (by positivity), h0, h1, h2, h3]
          simp only [QuatD.mul]
          right
          ring1⟩
    · exact ⟨⟨0.5, 0.5, -0.5, 0.5⟩, by
          unfold CubicHigh.QuatSym
          exact List.Mem.tail _ (List.Mem.tail _ (List.Mem.tail _ (List.Mem.tail _ (List.Mem.tail _ (List.Mem.tail _ (List.Mem.tail _ (List.Mem.tail _ (List.Mem.tail _ (List.Mem.tail _ (List.Mem.tail _ (List.Mem.tail _ (List.Mem.tail _ (List.Mem.tail _ (List.Mem.tail _ (List.Mem.tail _ (List.Mem.tail _ (List.Mem.tail _ (List.Mem.tail _ (List.Mem.tail _ (List.Mem.tail _ (List.Mem.tail _ (List.Mem.tail _ (List.Mem.head _))))))))))))))))))))))), by
          rw [abs_eq (by positivity), h0, h1, h2, h3]
          simp only [QuatD.mul]
          left
          ring1⟩
    · exact ⟨⟨-0.5, -0.5, 0.5, 0.5⟩, by
          unfold CubicHigh.QuatSym
          exact List.Mem.tail _ (List.Mem.tail _ (List.Mem.tail _ (List.Mem.tail _ (List.Mem.tail _ (List.Mem.tail _ (List.Mem.tail _ (List.Mem.tail _ (List.Mem.tail _ (List.Mem.tail _ (List.Mem.tail _ (List.Mem.tail _ (List.Mem.tail _ (List.Mem.tail _ (List.Mem.tail _ (List.Mem.tail _ (List.Mem.tail _ (List.Mem.tail _ (List.Mem.tail _ (List.Mem.tail _ (List.Mem.tail _ (List.Mem.tail _ (List.Mem.head _)))))))))))))))))))))), by
          rw [abs_eq (by positivity), h0, h1, h2, h3]
          simp only [QuatD.mul]
          right
          ring1⟩
    · exact ⟨⟨0.5, 0.5, 0.5, 0.5⟩, by
          unfold CubicHigh.QuatSym
          exact List.Mem.tail _ (List.Mem.tail _ (List.Mem.tail _ (List.Mem.tail _ (List.Mem.tail _ (List.Mem.tail _ (List.Mem.tail _ (List.Mem.tail _ (List.Mem.tail _ (List.Mem.tail _ (List.Mem.tail _ (List.Mem.tail _ (List.Mem.tail _ (List.Mem.tail _ (List.Mem.tail _ (List.Mem.tail _ (List.Mem.head _)))))))))))))))), by
          rw [abs_eq (by positivity), h0, h1, h2, h3]
          simp only [QuatD.mul]
          left
          ring1⟩
    · exact ⟨⟨-0.5, -0.5, -0.5, 0.5⟩, by
          unfold CubicHigh.QuatSym
          exact List.Mem.tail _ (List.Mem.tail _ (List.Mem.tail _ (List.Mem.tail _ (List.Mem.tail _ (List.Mem.tail _ (List.Mem.tail _ (List.Mem.tail _ (List.Mem.tail _ (List.Mem.tail _ (List.Mem.tail _ (List.Mem.tail _ (List.Mem.tail _ (List.Mem.tail _ (List.Mem.tail _ (List.Mem.tail _ (List.Mem.tail _ (List.Mem.head _))))))))))))))))), by
          rw [abs_eq (by positivity), h0, h1, h2, h3]
          simp only [QuatD.mul]
          right
          ring1⟩
  -- Some operator of the Cubic m3m table attains the closed form.
  have exists_abs_scalarOfMul_eq : ∀ (q : Vec4), ∃ s ∈ CubicHigh.QuatSym, |(QuatD.mul s q).a3| =
      (CubicOps.wminAndType (CubicOps.sortedQco (QuatD.elementWiseAbs q))).1 := by
    intro q
    obtain ⟨-, -, hsum, G1, G2⟩ := sortedQco_facts (QuatD.elementWiseAbs q)
    obtain ⟨-, -, -, hW⟩ := wminCos_spec (CubicOps.sortedQco (QuatD.elementWiseAbs q))
    generalize CubicOps.sortedQco (QuatD.elementWiseAbs q) = o at *
    unfold QuatD.elementWiseAbs at hsum G1 G2
    rcases hW with hW | hW | hW
    · rw [hW]
      obtain ⟨e0, e1, e2, e3⟩ := exists_op_single q
      rcases G1 with h | h | h | h <;> rw [h] <;> assumption
    · rw [hW]
      obtain ⟨e01, e02, e03, e12, e13, e23⟩ := exists_op_pair q
      rcases G2 with h | h | h | h | h | h <;> rw [h] <;> assumption
    · rw [hW, hsum]
      exact exists_op_quad q
  exact ⟨fun s hs => abs_scalarOfMul_le q s hs, exists_abs_scalarOfMul_eq q⟩

/-- The angle returned by the cubic misorientation is twice the arc cosine of the closed
form: the two clamping branches agree with the arc cosine outside `[-1, 1]`. -/
theorem calculateMisorientation_angle (q1 q2 : Vec4) :
    (CubicOps.calculateMisorientation q1 q2).a3 =
      2 * Real.arccos ((CubicOps.wminAndType (CubicOps.sortedQco (QuatD.elementWiseAbs (QuatD.mul q1 (QuatD.conjugate q2))))).1) := by
  unfold CubicOps.calculateMisorientation CubicOps.calculateMisorientationInternal
  simp only []
  generalize (CubicOps.wminAndType (CubicOps.sortedQco (QuatD.elementWiseAbs (QuatD.mul q1 (QuatD.conjugate q2))))).1 = W
  have h2 : (2.0 : ℝ) = 2 := by norm_num
  rw [h2]
  congr 1
  split_ifs with h1 h3
  · unfold k_ACosNeg1D
    rw [eq_comm, Real.arccos_eq_pi]
    norm_num at h1
    linarith
  · unfold k_ACos1D
    rw [eq_comm, Real.arccos_eq_zero]
    norm_num at h3
    linarith
  · rfl
/-! ### Products of the operators of a table -/

set_option maxHeartbeats 800000 in
/-- A list of doubled quaternions with entries in `ℤ[√2]` that is closed, up to sign, under
the integer product and under conjugation, and whose entries have doubled norm `2`, halves
to a list of unit quaternions that is closed, up to sign, under the Hamilton product and
under conjugation; right multiplication by an entry then reaches every entry up to sign. -/
theorem quatZ_group (L : List QuatZ)
    (hcl : ∀ s ∈ L, ∀ u ∈ L, ∃ v ∈ L, QuatZ.mul u s = v + v ∨ QuatZ.mul u s = -(v + v))
    (hcj : ∀ s ∈ L, ∃ t ∈ L,
      ((-s.1, -s.2.1, -s.2.2.1, s.2.2.2) : QuatZ) = t ∨ (-s.1, -s.2.1, -s.2.2.1, s.2.2.2) = -t)
    (hun : ∀ s ∈ L, QuatZ.mul (-s.1, -s.2.1, -s.2.2.1, s.2.2.2) s = ((0, 0), (0, 0), (0, 0), (4, 0))) :
    (∀ s ∈ L.map QuatZ.toVec4, ∀ u ∈ L.map QuatZ.toVec4, ∃ v ∈ L.map QuatZ.toVec4,
      QuatD.mul u s = v ∨ QuatD.mul u s = ⟨-v.a0, -v.a1, -v.a2, -v.a3⟩) ∧
    (∀ s ∈ L.map QuatZ.toVec4, ∃ t ∈ L.map QuatZ.toVec4,
      QuatD.conjugate s = t ∨ QuatD.conjugate s = ⟨-t.a0, -t.a1, -t.a2, -t.a3⟩) ∧
    (∀ s ∈ L.map QuatZ.toVec4, s.normSq = 1) ∧
    (∀ s ∈ L.map QuatZ.toVec4, ∀ v ∈ L.map QuatZ.toVec4, ∃ u ∈ L.map QuatZ.toVec4,
      QuatD.mul u s = v ∨ QuatD.mul u s = ⟨-v.a0, -v.a1, -v.a2, -v.a3⟩) := by
  have h2 : Real.sqrt 2 * Real.sqrt 2 = 2 := Real.mul_self_sqrt (by norm_num)
  have h20 : (2.0 : ℝ) = 2 := by norm_num
  -- the integer product computes the real product
  have hmul : ∀ p q : QuatZ, QuatD.mul (QuatZ.toVec4 p) (QuatZ.toVec4 q)
      = ⟨(QuatZ.toVec4 (QuatZ.mul p q)).a0 / 2, (QuatZ.toVec4 (QuatZ.mul p q)).a1 / 2,
        (QuatZ.toVec4 (QuatZ.mul p q)).a2 / 2, (QuatZ.toVec4 (QuatZ.mul p q)).a3 / 2⟩ := by
    intro p q
    obtain ⟨⟨p0, p0'⟩, ⟨p1, p1'⟩, ⟨p2, p2'⟩, ⟨p3, p3'⟩⟩ := p
    obtain ⟨⟨q0, q0'⟩, ⟨q1, q1'⟩, ⟨q2, q2'⟩, ⟨q3, q3'⟩⟩ := q
    simp only [QuatD.mul, QuatZ.mul, QuatZ.toVec4, Prod.mk_add_mk, Prod.mk_sub_mk, h20,
      Vec4.mk.injEq]
    push_cast
    refine ⟨?_, ?_, ?_, ?_⟩
    · linear_combination ((q0' * p3' + q3' * p0' + q2' * p1' - q1' * p2' : ℝ) / 4) * h2
    · linear_combination ((q1' * p3' + q3' * p1' + q0' * p2' - q2' * p0' : ℝ) / 4) * h2
    · linear_combination ((q2' * p3' + q3' * p2' + q1' * p0' - q0' * p1' : ℝ) / 4) * h2
    · linear_combination ((q3' * p3' - q0' * p0' - q1' * p1' - q2' * p2' : ℝ) / 4) * h2
  have hdbl : ∀ v : QuatZ, (⟨(QuatZ.toVec4 (v + v)).a0 / 2, (QuatZ.toVec4 (v + v)).a1 / 2,
      (QuatZ.toVec4 (v + v)).a2 / 2, (QuatZ.toVec4 (v + v)).a3 / 2⟩ : Vec4) = QuatZ.toVec4 v := by
    intro v
    obtain ⟨⟨v0, v0'⟩, ⟨v1, v1'⟩, ⟨v2, v2'⟩, ⟨v3, v3'⟩⟩ := v
    simp only [QuatZ.toVec4, Prod.mk_add_mk, h20, Vec4.mk.injEq]
    push_cast
    refine ⟨by ring, by ring, by ring, by ring⟩
  have hneg : ∀ v : QuatZ, QuatZ.toVec4 (-v) = ⟨-(QuatZ.toVec4 v).a0, -(QuatZ.toVec4 v).a1,
      -(QuatZ.toVec4 v).a2, -(QuatZ.toVec4 v).a3⟩ := by
    intro v
    obtain ⟨⟨v0, v0'⟩, ⟨v1, v1'⟩, ⟨v2, v2'⟩, ⟨v3, v3'⟩⟩ := v
    simp only [QuatZ.toVec4, Prod.neg_mk, h20, Vec4.mk.injEq]
    push_cast
    refine ⟨by ring, by ring, by ring, by ring⟩
  have hconj : ∀ v : QuatZ, QuatD.conjugate (QuatZ.toVec4 v)
      = QuatZ.toVec4 (-v.1, -v.2.1, -v.2.2.1, v.2.2.2) := by
    intro v
    obtain ⟨⟨v0, v0'⟩, ⟨v1, v1'⟩, ⟨v2, v2'⟩, ⟨v3, v3'⟩⟩ := v
    simp only [QuatD.conjugate, QuatZ.toVec4, Prod.neg_mk, h20, Vec4.mk.injEq]
    push_cast
    refine ⟨by ring, by ring, by ring, trivial⟩
  -- the real facts
  have swap : ∀ a b : Vec4, a = ⟨-b.a0, -b.a1, -b.a2, -b.a3⟩ →
      b = ⟨-a.a0, -a.a1, -a.a2, -a.a3⟩ := by
    intro a b h
    rw [h]
    simp only [neg_neg]
  have key : ∀ v s : Vec4, s.normSq = 1 →
      QuatD.mul (QuatD.mul v (QuatD.conjugate s)) s = v := by
    intro v s h
    unfold Vec4.normSq at h
    obtain ⟨v0, v1, v2, v3⟩ := v
    simp only [QuatD.mul, QuatD.conjugate, Vec4.mk.injEq]
    refine ⟨?_, ?_, ?_, ?_⟩
    · linear_combination v0 * h
    · linear_combination v1 * h
    · linear_combination v2 * h
    · linear_combination v3 * h
  have closed : ∀ s ∈ L.map QuatZ.toVec4, ∀ u ∈ L.map QuatZ.toVec4,
      ∃ v ∈ L.map QuatZ.toVec4,
        QuatD.mul u s = v ∨ QuatD.mul u s = ⟨-v.a0, -v.a1, -v.a2, -v.a3⟩ := by
    intro s hs u hu
    obtain ⟨sz, hsz, rfl⟩ := List.mem_map.mp hs
    obtain ⟨uz, huz, rfl⟩ := List.mem_map.mp hu
    obtain ⟨vz, hvz, h⟩ := hcl sz hsz uz huz
    refine ⟨QuatZ.toVec4 vz, List.mem_map.mpr ⟨vz, hvz, rfl⟩, ?_⟩
    rw [hmul]
    rcases h with h | h
    · left
      rw [h, hdbl]
    · right
      rw [h, hneg, ← hdbl vz]
      simp only [neg_div]
  have conj : ∀ s ∈ L.map QuatZ.toVec4, ∃ t ∈ L.map QuatZ.toVec4,
      QuatD.conjugate s = t ∨ QuatD.conjugate s = ⟨-t.a0, -t.a1, -t.a2, -t.a3⟩ := by
    intro s hs
    obtain ⟨sz, hsz, rfl⟩ := List.mem_map.mp hs
    obtain ⟨tz, htz, h⟩ := hcj sz hsz
    refine ⟨QuatZ.toVec4 tz, List.mem_map.mpr ⟨tz, htz, rfl⟩, ?_⟩
    rw [hconj, ← hneg]
    rcases h with h | h
    · exact Or.inl (by rw [h])
    · exact Or.inr (by rw [h])
  have unit : ∀ s ∈ L.map QuatZ.toVec4, s.normSq = 1 := by
    intro s hs
    obtain ⟨sz, hsz, rfl⟩ := List.mem_map.mp hs
    have h := hmul (-sz.1, -sz.2.1, -sz.2.2.1, sz.2.2.2) sz
    rw [hun sz hsz, ← hconj] at h
    have h3 := congrArg Vec4.a3 h
    have hr : (QuatZ.toVec4 ((0, 0), (0, 0), (0, 0), (4, 0))).a3 / 2 = 1 := by
      simp only [QuatZ.toVec4, h20]
      norm_num
    simp only [QuatD.mul, QuatD.conjugate, hr] at h3
    unfold Vec4.normSq
    linear_combination h3
  refine ⟨closed, conj, unit, ?_⟩
  intro s hs v hv
  obtain ⟨t, ht, hc⟩ := conj s hs
  obtain ⟨u, hu, hu2⟩ := closed t ht v hv
  have hk := key v s (unit s hs)
  refine ⟨u, hu, ?_⟩
  have negl : ∀ a b : Vec4, QuatD.mul ⟨-a.a0, -a.a1, -a.a2, -a.a3⟩ b
      = ⟨-(QuatD.mul a b).a0, -(QuatD.mul a b).a1, -(QuatD.mul a b).a2,
        -(QuatD.mul a b).a3⟩ := by
    intro a b
    simp only [QuatD.mul, Vec4.mk.injEq]
    refine ⟨by ring, by ring, by ring, by ring⟩
  have negr : ∀ a b : Vec4, QuatD.mul a ⟨-b.a0, -b.a1, -b.a2, -b.a3⟩
      = ⟨-(QuatD.mul a b).a0, -(QuatD.mul a b).a1, -(QuatD.mul a b).a2,
        -(QuatD.mul a b).a3⟩ := by
    intro a b
    simp only [QuatD.mul, Vec4.mk.injEq]
    refine ⟨by ring, by ring, by ring, by ring⟩
  rcases hc with hc | hc <;> rcases hu2 with hu2 | hu2
  · left
    rw [← hu2, ← hc, hk]
  · right
    rw [swap _ _ hu2, ← hc, negl, hk]
  · right
    rw [← hu2, swap _ _ hc, negr, negl, hk]
  · left
    rw [swap _ _ hu2, swap _ _ hc, negr, negl, negl, hk]
    simp only [neg_neg]

set_option maxRecDepth 100000 in
/-- The operators of the Cubic m3m table are unit quaternions, and the table is closed, up
to sign, under the Hamilton product and under conjugation. -/
theorem cubicHigh_quatSym_group :
    (∀ s ∈ CubicHigh.QuatSym, ∀ u ∈ CubicHigh.QuatSym, ∃ v ∈ CubicHigh.QuatSym,
      QuatD.mul u s = v ∨ QuatD.mul u s = ⟨-v.a0, -v.a1, -v.a2, -v.a3⟩) ∧
    (∀ s ∈ CubicHigh.QuatSym, ∃ t ∈ CubicHigh.QuatSym,
      QuatD.conjugate s = t ∨ QuatD.conjugate s = ⟨-t.a0, -t.a1, -t.a2, -t.a3⟩) ∧
    (∀ s ∈ CubicHigh.QuatSym, s.normSq = 1) ∧
    (∀ s ∈ CubicHigh.QuatSym, ∀ v ∈ CubicHigh.QuatSym, ∃ u ∈ CubicHigh.QuatSym,
      QuatD.mul u s = v ∨ QuatD.mul u s = ⟨-v.a0, -v.a1, -v.a2, -v.a3⟩) := by
  have he : CubicHigh.QuatSym = CubicHigh.QuatSymZ.map QuatZ.toVec4 := by
    have hk := k_1OverRoot2D_facts.2.2.2
    have h20 : (2.0 : ℝ) = 2 := by norm_num
    unfold CubicHigh.QuatSym CubicHigh.QuatSymZ
    simp only [List.map, QuatZ.toVec4, hk, h20]
    norm_num [neg_div]
  rw [he]
  exact quatZ_group CubicHigh.QuatSymZ (by decide!) (by decide) (by decide)

/-! ### Claims -/

/-- C15: for unit quaternions `q1`, `q2` the angle returned by
`CubicOps::calculateMisorientation` is the minimum, over the 24 operators `s` of the Cubic
m3m quaternion table, of `2 * arccos |scalar part of s * (q1 * conjugate q2)|`. -/
theorem cubic_closed_form_is_brute_force_minimum (q1 q2 : Vec4)
    (_h1 : q1.normSq = 1) (_h2 : q2.normSq = 1) :
    (specBruteForceAngles CubicHigh.QuatSym q1 q2).minimum =
      ((CubicOps.calculateMisorientation q1 q2).a3 : WithTop ℝ) := by
  have arccos_le : ∀ {x y : ℝ}, x ≤ y → Real.arccos y ≤ Real.arccos x := by
    intro x y h
    rw [Real.arccos_eq_pi_div_two_sub_arcsin, Real.arccos_eq_pi_div_two_sub_arcsin]
    linarith [Real.monotone_arcsin h]
  have h20 : (2.0 : ℝ) = 2 := by norm_num
  obtain ⟨hle, s, hs, he⟩ := closed_form_is_maximum (QuatD.mul q1 (QuatD.conjugate q2))
  unfold specBruteForceAngles
  rw [List.minimum_eq_coe_iff, calculateMisorientation_angle, h20]
  constructor
  · exact List.mem_map.mpr ⟨s, hs, by rw [he]⟩
  · intro a ha
    obtain ⟨t, ht, rfl⟩ := List.mem_map.mp ha
    have := arccos_le (hle t ht)
    linarith

/-- C15 at the identity quaternion for both arguments. -/
theorem cubic_closed_form_is_brute_force_minimum_witness :
    (⟨0, 0, 0, 1⟩ : Vec4).normSq = 1 ∧
    (specBruteForceAngles CubicHigh.QuatSym ⟨0, 0, 0, 1⟩ ⟨0, 0, 0, 1⟩).minimum =
      ((CubicOps.calculateMisorientation ⟨0, 0, 0, 1⟩ ⟨0, 0, 0, 1⟩).a3 : WithTop ℝ) :=
  ⟨by norm_num [Vec4.normSq],
    cubic_closed_form_is_brute_force_minimum ⟨0, 0, 0, 1⟩ ⟨0, 0, 0, 1⟩
      (by norm_num [Vec4.normSq]) (by norm_num [Vec4.normSq])⟩

/-- C16: for unit quaternions `q1`, `q2` and every operator `s` of the Cubic m3m quaternion
table, `CubicOps::calculateMisorientation(s * q1, q2)` and
`CubicOps::calculateMisorientation(q1, q2)` return the same misorientation angle. -/
theorem cubic_misorientation_angle_invariant (q1 q2 s : Vec4)
    (_h1 : q1.normSq = 1) (_h2 : q2.normSq = 1) (hs : s ∈ CubicHigh.QuatSym) :
    (CubicOps.calculateMisorientation (QuatD.mul s q1) q2).a3 =
      (CubicOps.calculateMisorientation q1 q2).a3 := by
  have assoc : ∀ a b c : Vec4,
      QuatD.mul (QuatD.mul a b) c = QuatD.mul a (QuatD.mul b c) := by
    intro a b c
    simp only [QuatD.mul, Vec4.mk.injEq]
    refine ⟨by ring, by ring, by ring, by ring⟩
  -- the size of the scalar part of `u * (s * q)` is that of `v * q` when `u * s = ± v`
  have habs : ∀ u v q : Vec4,
      (QuatD.mul u s = v ∨ QuatD.mul u s = ⟨-v.a0, -v.a1, -v.a2, -v.a3⟩) →
      |(QuatD.mul u (QuatD.mul s q)).a3| = |(QuatD.mul v q).a3| := by
    intro u v q h
    rw [← assoc]
    rcases h with h | h
    · rw [h]
    · rw [h, ← abs_neg]
      congr 1
      simp only [QuatD.mul]
      ring
  obtain ⟨hclosed, -, -, hreach⟩ := cubicHigh_quatSym_group
  -- the closed form does not change under left multiplication by `s`
  have hinv : ∀ q : Vec4,
      (CubicOps.wminAndType (CubicOps.sortedQco (QuatD.elementWiseAbs (QuatD.mul s q)))).1
        = (CubicOps.wminAndType (CubicOps.sortedQco (QuatD.elementWiseAbs q))).1 := by
    intro q
    apply le_antisymm
    · obtain ⟨-, t, ht, he⟩ := closed_form_is_maximum (QuatD.mul s q)
      obtain ⟨v, hv, h⟩ := hclosed s hs t ht
      rw [← he, habs t v q h]
      exact (closed_form_is_maximum q).1 v hv
    · obtain ⟨-, v, hv, he⟩ := closed_form_is_maximum q
      obtain ⟨u, hu, h⟩ := hreach s hs v hv
      rw [← he, ← habs u v q h]
      exact (closed_form_is_maximum (QuatD.mul s q)).1 u hu
  rw [calculateMisorientation_angle, calculateMisorientation_angle, assoc, hinv]

/-- C16 at `q1 = (0.6, 0, 0, 0.8)`, `q2` the identity and the half turn about `x`. -/
theorem cubic_misorientation_angle_invariant_witness :
    (⟨0.6, 0, 0, 0.8⟩ : Vec4).normSq = 1 ∧ (⟨0, 0, 0, 1⟩ : Vec4).normSq = 1 ∧
    (⟨1, 0, 0, 0⟩ : Vec4) ∈ CubicHigh.QuatSym ∧
    (CubicOps.calculateMisorientation (QuatD.mul ⟨1, 0, 0, 0⟩ ⟨0.6, 0, 0, 0.8⟩) ⟨0, 0, 0, 1⟩).a3 =
      (CubicOps.calculateMisorientation ⟨0.6, 0, 0, 0.8⟩ ⟨0, 0, 0, 1⟩).a3 :=
  have hs : (⟨1, 0, 0, 0⟩ : Vec4) ∈ CubicHigh.QuatSym := by
    unfold CubicHigh.QuatSym
    exact List.Mem.tail _ (List.Mem.head _)
  ⟨by norm_num [Vec4.normSq], by norm_num [Vec4.normSq], hs,
    cubic_misorientation_angle_invariant ⟨0.6, 0, 0, 0.8⟩ ⟨0, 0, 0, 1⟩ ⟨1, 0, 0, 0⟩
      (by norm_num [Vec4.normSq]) (by norm_num [Vec4.normSq]) hs⟩

/-- C17: for every unit quaternion `q`, `CubicOps::calculateMisorientation(q, q)` returns
the sentinel axis `(0, 0, 1)` with misorientation angle exactly `0`. -/
theorem cubic_self_misorientation (q : Vec4) (h : q.normSq = 1) :
    CubicOps.calculateMisorientation q q = ⟨0, 0, 1, 0⟩ := by
  have hmul : QuatD.mul q (QuatD.conjugate q) = ⟨0, 0, 0, q.normSq⟩ := by
    simp only [QuatD.mul, QuatD.conjugate, Vec4.normSq, Vec4.mk.injEq]
    refine ⟨by ring, by ring, by ring, by ring⟩
  have hs : CubicOps.sortedQco (QuatD.elementWiseAbs ⟨0, 0, 0, 1⟩) = ⟨0, 0, 0, 1⟩ := by
    unfold CubicOps.sortedQco QuatD.elementWiseAbs
    norm_num
  have hW : CubicOps.wminAndType ⟨0, 0, 0, 1⟩ = (1, 1) := by
    obtain ⟨hp, hsq, hd, -⟩ := k_1OverRoot2D_facts
    have hk : ¬ (1 : ℝ) < k_1OverRoot2D * 1 := by nlinarith
    unfold CubicOps.wminAndType
    simp only [hd, gt_iff_lt, zero_add, if_neg hk]
    norm_num
  unfold CubicOps.calculateMisorientation CubicOps.calculateMisorientationInternal
  simp only [hmul, h, hs, hW]
  norm_num [Real.arccos_one]

/-- C17 at the identity quaternion. -/
theorem cubic_self_misorientation_witness :
    (⟨0, 0, 0, 1⟩ : Vec4).normSq = 1 ∧
    CubicOps.calculateMisorientation ⟨0, 0, 0, 1⟩ ⟨0, 0, 0, 1⟩ = ⟨0, 0, 1, 0⟩ :=
  ⟨by norm_num [Vec4.normSq], cubic_self_misorientation ⟨0, 0, 0, 1⟩ (by norm_num [Vec4.normSq])⟩

/-- C18 on the code: in the Cubic m3m class `getMatSymOp(1)` is the quarter turn about `x`
while `getQuatSymOp(1)` is the half turn about `x`, and in the Cubic m3 class
`getMatSymOp(4)` and `getQuatSymOp(4)` are different threefold rotations; in the
Tetragonal 4/mmm and OrthoRhombic mmm classes `MatSym[i] = qu2om (QuatSym[i])` holds at
every index. -/
theorem matSym_index_alignment :
    (LaueOps.CubicOps.getMatSymOp 1 = some ⟨1, 0, 0, 0, 0, -1, 0, 1, 0⟩ ∧
      (LaueOps.CubicOps.getQuatSymOp 1).map (fun q => qu2om q Order.VectorScalar)
        = some ⟨1, 0, 0, 0, -1, 0, 0, 0, -1⟩) ∧
    (LaueOps.CubicLowOps.getMatSymOp 4 = some ⟨0, -1, 0, 0, 0, 1, -1, 0, 0⟩ ∧
      (LaueOps.CubicLowOps.getQuatSymOp 4).map (fun q => qu2om q Order.VectorScalar)
        = some ⟨0, 0, 1, 1, 0, 0, 0, 1, 0⟩) ∧
    (∀ i : Nat, LaueOps.TetragonalOps.getMatSymOp i
      = (LaueOps.TetragonalOps.getQuatSymOp i).map (fun q => qu2om q Order.VectorScalar)) ∧
    (∀ i : Nat, LaueOps.OrthoRhombicOps.getMatSymOp i
      = (LaueOps.OrthoRhombicOps.getQuatSymOp i).map (fun q => qu2om q Order.VectorScalar)) := by
  have hk := k_1OverRoot2D_facts.2.1
  have qv : ∀ x y z w : ℝ, qu2om ⟨x, y, z, w⟩ Order.VectorScalar =
      ⟨w * w - (x * x + y * y + z * z) + 2 * x * x, 2 * (x * y - w * z), 2 * (x * z + w * y),
       2 * (y * x + w * z), w * w - (x * x + y * y + z * z) + 2 * y * y, 2 * (y * z - w * x),
       2 * (z * x - w * y), 2 * (z * y + w * x),
       w * w - (x * x + y * y + z * z) + 2 * z * z⟩ := by
    intro x y z w
    simp only [qu2om, qW, qX, qY, qZ, Mat9.mk.injEq]
    norm_num
  have ht : TetragonalHigh.MatSym
      = TetragonalHigh.QuatSym.map (fun q => qu2om q Order.VectorScalar) := by
    unfold TetragonalHigh.MatSym TetragonalHigh.QuatSym
    simp only [List.map_cons, List.map_nil, qv, List.cons.injEq, Mat9.mk.injEq, and_true]
    norm_num
    repeat' apply And.intro
    all_goals linarith
  have ho : OrthoRhombic.MatSym
      = OrthoRhombic.QuatSym.map (fun q => qu2om q Order.VectorScalar) := by
    unfold OrthoRhombic.MatSym OrthoRhombic.QuatSym
    simp only [List.map_cons, List.map_nil, qv, List.cons.injEq, Mat9.mk.injEq, and_true]
    norm_num
  refine ⟨⟨rfl, ?_⟩, ⟨rfl, ?_⟩, ?_, ?_⟩
  · show (CubicHigh.QuatSym[1]?).map _ = _
    unfold CubicHigh.QuatSym
    simp only [List.getElem?_cons_succ, List.getElem?_cons_zero, Option.map_some', qv,
      Option.some.injEq, Mat9.mk.injEq]
    norm_num
  · show (CubicLow.QuatSym[4]?).map _ = _
    unfold CubicLow.QuatSym
    simp only [List.getElem?_cons_succ, List.getElem?_cons_zero, Option.map_some', qv,
      Option.some.injEq, Mat9.mk.injEq]
    norm_num
  · intro i
    show TetragonalHigh.MatSym[i]? = (TetragonalHigh.QuatSym[i]?).map _
    rw [ht, List.getElem?_map]
  · intro i
    show OrthoRhombic.MatSym[i]? = (OrthoRhombic.QuatSym[i]?).map _
    rw [ho, List.getElem?_map]

/-- C19: for every crystal class the Rodrigues table is, index by index, the Rodrigues
form of the quaternion table: for `QuatSym[i] = (x, y, z, w)`, `RodSym[i]` is
`(x / w, y / w, z / w)` when `w ≠ 0` and `10^10 * (sign x, sign y, sign z)` when `w = 0`. -/
theorem rodSym_matches_quatSym (c : LaueOps) (i : Nat) :
    c.getRodSymOp i = (c.getQuatSymOp i).map specRodOfQuat := by
  have hk := k_1OverRoot2D_facts.1
  have hk0 : k_1OverRoot2D ≠ 0 := hk.ne'
  have hkn : -k_1OverRoot2D ≠ 0 := neg_ne_zero.mpr hk0
  have hs : Real.sign k_1OverRoot2D = 1 := Real.sign_of_pos hk
  have hsn : Real.sign (-k_1OverRoot2D) = -1 := Real.sign_of_neg (by linarith)
  have h5 : (0.5 : ℝ) ≠ 0 := by norm_num
  have hne : ∀ x y z w : ℝ, w ≠ 0 → specRodOfQuat ⟨x, y, z, w⟩ = ⟨x / w, y / w, z / w⟩ := by
    intro x y z w hw
    unfold specRodOfQuat
    rw [if_pos hw]
  have hz : ∀ x y z : ℝ, specRodOfQuat ⟨x, y, z, 0⟩
      = ⟨10000000000.0 * Real.sign x, 10000000000.0 * Real.sign y,
        10000000000.0 * Real.sign z⟩ := by
    intro x y z
    unfold specRodOfQuat
    simp
  have hall : CubicHigh.RodSym = CubicHigh.QuatSym.map specRodOfQuat ∧
      CubicLow.RodSym = CubicLow.QuatSym.map specRodOfQuat ∧
      TetragonalHigh.RodSym = TetragonalHigh.QuatSym.map specRodOfQuat ∧
      OrthoRhombic.RodSym = OrthoRhombic.QuatSym.map specRodOfQuat := by
    refine ⟨?_, ?_, ?_, ?_⟩ <;>
    (try unfold CubicHigh.RodSym CubicHigh.QuatSym) <;>
    (try unfold CubicLow.RodSym CubicLow.QuatSym) <;>
    (try unfold TetragonalHigh.RodSym TetragonalHigh.QuatSym) <;>
    (try unfold OrthoRhombic.RodSym OrthoRhombic.QuatSym) <;>
    simp only [List.map_cons, List.map_nil, hz, hne _ _ _ _ hk0, hne _ _ _ _ hkn,
      hne _ _ _ _ h5, hne _ _ _ _ one_ne_zero, hs, hsn, Real.sign_zero, Real.sign_one,
      div_self hk0, div_self h5, neg_div, zero_div, div_one, neg_zero, mul_zero, mul_one,
      mul_neg, div_neg]
  obtain ⟨e1, e2, e3, e4⟩ := hall
  cases c
  · show CubicHigh.RodSym[i]? = (CubicHigh.QuatSym[i]?).map _
    rw [e1, List.getElem?_map]
  · show CubicLow.RodSym[i]? = (CubicLow.QuatSym[i]?).map _
    rw [e2, List.getElem?_map]
  · show TetragonalHigh.RodSym[i]? = (TetragonalHigh.QuatSym[i]?).map _
    rw [e3, List.getElem?_map]
  · show OrthoRhombic.RodSym[i]? = (OrthoRhombic.QuatSym[i]?).map _
    rw [e4, List.getElem?_map]

/-- C20: for each crystal class, `getNumSymOps` is the number of entries of each of the
tables `QuatSym`, `RodSym` and `MatSym` (24, 12, 8 and 4 for Cubic m3m, Cubic m3,
Tetragonal 4/mmm and OrthoRhombic mmm): an index is in bounds for `getQuatSymOp`,
`getRodSymOp` and `getMatSymOp` exactly when it is below `getNumSymOps`, and index 0 is the
identity operator in all three tables. -/
theorem numSymOps_matches_tables (c : LaueOps) :
    (LaueOps.CubicOps.getNumSymOps = 24 ∧ LaueOps.CubicLowOps.getNumSymOps = 12 ∧
      LaueOps.TetragonalOps.getNumSymOps = 8 ∧ LaueOps.OrthoRhombicOps.getNumSymOps = 4) ∧
    (∀ i : Nat, ((c.getQuatSymOp i).isSome ↔ i < c.getNumSymOps) ∧
      ((c.getRodSymOp i).isSome ↔ i < c.getNumSymOps) ∧
      ((c.getMatSymOp i).isSome ↔ i < c.getNumSymOps)) ∧
    (c.getQuatSymOp 0 = some ⟨0, 0, 0, 1⟩ ∧ c.getRodSymOp 0 = some ⟨0, 0, 0⟩ ∧
      c.getMatSymOp 0 = some ⟨1, 0, 0, 0, 1, 0, 0, 0, 1⟩) := by
  have hsome : ∀ (α : Type) (l : List α) (i k : Nat), l.length = k →
      ((l[i]?).isSome ↔ i < k) := by
    intro α l i k hl
    subst hl
    constructor
    · intro h
      by_contra hc
      rw [List.getElem?_eq_none (not_lt.mp hc)] at h
      exact Bool.noConfusion h
    · intro h
      rw [List.getElem?_eq_getElem h]
      rfl
  refine ⟨⟨rfl, rfl, rfl, rfl⟩, ?_, ?_⟩
  · intro i
    cases c
    · exact ⟨hsome Vec4 CubicHigh.QuatSym i 24 rfl, hsome Vec3 CubicHigh.RodSym i 24 rfl,
        hsome Mat9 CubicHigh.MatSym i 24 rfl⟩
    · exact ⟨hsome Vec4 CubicLow.QuatSym i 12 rfl, hsome Vec3 CubicLow.RodSym i 12 rfl,
        hsome Mat9 CubicLow.MatSym i 12 rfl⟩
    · exact ⟨hsome Vec4 TetragonalHigh.QuatSym i 8 rfl,
        hsome Vec3 TetragonalHigh.RodSym i 8 rfl, hsome Mat9 TetragonalHigh.MatSym i 8 rfl⟩
    · exact ⟨hsome Vec4 OrthoRhombic.QuatSym i 4 rfl, hsome Vec3 OrthoRhombic.RodSym i 4 rfl,
        hsome Mat9 OrthoRhombic.MatSym i 4 rfl⟩
  · cases c <;> exact ⟨rfl, rfl, rfl⟩

/-! ### Claims on the fundamental zone of misorientations and the histogram bins -/

/-- C21: for the cubic classes `getMDFFZRod` returns `ax2ro (m1, m2, m3, w)`, where
`(n1, n2, n3, w)` is `ro2ax` of the nearest-origin equivalent of the input and
`(m1, m2, m3)` is a rearrangement of `(|n1|, |n2|, |n3|)` with `m1 ≥ m2 ≥ m3`; the angle `w`
is passed through.  It holds whatever `_calcRodNearestOrigin` returns. -/
theorem cubic_getMDFFZRod_sorts_axis (near : List Vec3 → Rod → Rod) (inRod : Rod) :
    (∃ m1 m2 m3 : ℝ,
      CubicOps.getMDFFZRod near inRod
        = ax2ro ⟨m1, m2, m3, (ro2ax (near CubicHigh.RodSym inRod)).a3⟩ ∧
      m1 ≥ m2 ∧ m2 ≥ m3 ∧
      List.Perm [m1, m2, m3] [|(ro2ax (near CubicHigh.RodSym inRod)).a0|,
        |(ro2ax (near CubicHigh.RodSym inRod)).a1|,
        |(ro2ax (near CubicHigh.RodSym inRod)).a2|]) ∧
    (∃ m1 m2 m3 : ℝ,
      CubicLowOps.getMDFFZRod near inRod
        = ax2ro ⟨m1, m2, m3, (ro2ax (near CubicLow.RodSym inRod)).a3⟩ ∧
      m1 ≥ m2 ∧ m2 ≥ m3 ∧
      List.Perm [m1, m2, m3] [|(ro2ax (near CubicLow.RodSym inRod)).a0|,
        |(ro2ax (near CubicLow.RodSym inRod)).a1|,
        |(ro2ax (near CubicLow.RodSym inRod)).a2|]) := by
  -- the comparison tree shared by the two methods
  have tree : ∀ (a b c w : ℝ), ∃ m1 m2 m3 : ℝ,
      ax2ro ⟨(if a > b then (if a > c then (if b > c then (⟨a, b, c⟩ : Vec3) else ⟨a, c, b⟩)
          else ⟨c, a, b⟩)
          else (if b > c then (if a > c then ⟨b, a, c⟩ else ⟨b, c, a⟩) else ⟨c, b, a⟩)).a0,
        (if a > b then (if a > c then (if b > c then (⟨a, b, c⟩ : Vec3) else ⟨a, c, b⟩)
          else ⟨c, a, b⟩)
          else (if b > c then (if a > c then ⟨b, a, c⟩ else ⟨b, c, a⟩) else ⟨c, b, a⟩)).a1,
        (if a > b then (if a > c then (if b > c then (⟨a, b, c⟩ : Vec3) else ⟨a, c, b⟩)
          else ⟨c, a, b⟩)
          else (if b > c then (if a > c then ⟨b, a, c⟩ else ⟨b, c, a⟩) else ⟨c, b, a⟩)).a2,
        w⟩ = ax2ro ⟨m1, m2, m3, w⟩ ∧
      m1 ≥ m2 ∧ m2 ≥ m3 ∧ List.Perm [m1, m2, m3] [a, b, c] := by
    intro a b c w
    by_cases h1 : a > b
    · by_cases h2 : a > c
      · by_cases h3 : b > c
        · exact ⟨a, b, c, by rw [if_pos h1, if_pos h2, if_pos h3], h1.le, h3.le,
            List.Perm.refl _⟩
        · exact ⟨a, c, b, by rw [if_pos h1, if_pos h2, if_neg h3], h2.le, not_lt.mp h3,
            (List.Perm.swap b c []).cons a⟩
      · exact ⟨c, a, b, by rw [if_pos h1, if_neg h2], not_lt.mp h2, h1.le,
          (List.Perm.swap a c [b]).trans ((List.Perm.swap b c []).cons a)⟩
    · by_cases h2 : b > c
      · by_cases h3 : a > c
        · exact ⟨b, a, c, by rw [if_neg h1, if_pos h2, if_pos h3], not_lt.mp h1, h3.le,
            List.Perm.swap a b [c]⟩
        · exact ⟨b, c, a, by rw [if_neg h1, if_pos h2, if_neg h3], h2.le, not_lt.mp h3,
            ((List.Perm.swap a c []).cons b).trans (List.Perm.swap a b [c])⟩
      · exact ⟨c, b, a, by rw [if_neg h1, if_neg h2], not_lt.mp h2, not_lt.mp h1,
          (List.Perm.swap b c [a]).trans
            (((List.Perm.swap a c []).cons b).trans (List.Perm.swap a b [c]))⟩
  exact ⟨tree _ _ _ _, tree _ _ _ _⟩

/-- C22: for the tetragonal class `getMDFFZRod` returns `ax2ro (|n1|, |n2|, |n3|, w)`,
where `(n1, n2, n3, w)` is `ro2ax` of the nearest-origin equivalent of the input: the axis
components keep their positions and the angle is unchanged, so every axis component of
the result is non-negative.  It holds whatever `_calcRodNearestOrigin` returns. -/
theorem tetragonal_getMDFFZRod_abs_axis (near : List Vec3 → Rod → Rod) (inRod : Rod) :
    TetragonalOps.getMDFFZRod near inRod
      = ax2ro ⟨|(ro2ax (near TetragonalHigh.RodSym inRod)).a0|,
        |(ro2ax (near TetragonalHigh.RodSym inRod)).a1|,
        |(ro2ax (near TetragonalHigh.RodSym inRod)).a2|,
        (ro2ax (near TetragonalHigh.RodSym inRod)).a3⟩ ∧
    0 ≤ (TetragonalOps.getMDFFZRod near inRod).r0 ∧
    0 ≤ (TetragonalOps.getMDFFZRod near inRod).r1 ∧
    0 ≤ (TetragonalOps.getMDFFZRod near inRod).r2 := by
  have key : ∀ a b c w : ℝ, 0 ≤ (ax2ro ⟨|a|, |b|, |c|, w⟩).r0 ∧
      0 ≤ (ax2ro ⟨|a|, |b|, |c|, w⟩).r1 ∧ 0 ≤ (ax2ro ⟨|a|, |b|, |c|, w⟩).r2 := by
    intro a b c w
    unfold ax2ro
    simp only []
    split_ifs
    · exact ⟨le_refl _, le_refl _, le_refl _⟩
    · exact ⟨abs_nonneg _, abs_nonneg _, abs_nonneg _⟩
    · exact ⟨abs_nonneg _, abs_nonneg _, abs_nonneg _⟩
  exact ⟨rfl, key _ _ _ _⟩

/-- C23: `OrthoRhombicOps::getMDFFZRod` fails with `method_not_implemented` for every
input and returns no value, and so does `OrthoRhombicOps::determineRodriguesVector`, which
calls it, whatever its arguments and the helpers it is given. -/
theorem orthoRhombic_getMDFFZRod_not_implemented :
    (∀ inRod : Rod,
      OrthoRhombicOps.getMDFFZRod inRod = Except.error "method_not_implemented") ∧
    (∀ (tfit : Nat → ℝ)
      (homochoric : ℝ × ℝ × ℝ → ℝ × ℝ × ℝ → ℝ × ℝ × ℝ → Nat × Nat × Nat → Vec3)
      (random : ℝ × ℝ × ℝ) (choose : Nat),
      OrthoRhombicOps.determineRodriguesVector tfit homochoric random choose
        = Except.error "method_not_implemented") :=
  ⟨fun _ => rfl, fun _ _ _ _ => rfl⟩

/-- C24: for each class, with `(Nx, Ny, Nz) = OdfNumBins`, the half-widths
`OdfDimInitValue` and the steps `OdfDimStepValue`, the bin index
`ix + iy * Nx + iz * Nx * Ny` of every homochoric triple lies in `[0, getODFSize())`, and
`getODFSize() = getMDFSize() = Nx * Ny * Nz`, which is 5832, 46656, 23328 and 46656. -/
theorem odf_bin_in_range (c : LaueOps) (h : Vec3) :
    (0 ≤ calcODFBin c.OdfDimInitValue c.getOdfNumBins c.OdfDimStepValue h ∧
      calcODFBin c.OdfDimInitValue c.getOdfNumBins c.OdfDimStepValue h < c.getODFSize) ∧
    (c.getODFSize = c.getMDFSize ∧
      c.getODFSize = (c.getOdfNumBins.1 * c.getOdfNumBins.2.1 * c.getOdfNumBins.2.2 : Nat)) ∧
    (LaueOps.CubicOps.getODFSize = 5832 ∧ LaueOps.CubicLowOps.getODFSize = 46656 ∧
      LaueOps.TetragonalOps.getODFSize = 23328 ∧
      LaueOps.OrthoRhombicOps.getODFSize = 46656) := by
  have key : ∀ (nx ny nz : Nat) (fx fy fz : Int), 0 < nx → 0 < ny → 0 < nz →
      0 ≤ max 0 (min ((nx : Int) - 1) fx) + max 0 (min ((ny : Int) - 1) fy) * nx
        + max 0 (min ((nz : Int) - 1) fz) * nx * ny ∧
      max 0 (min ((nx : Int) - 1) fx) + max 0 (min ((ny : Int) - 1) fy) * nx
        + max 0 (min ((nz : Int) - 1) fz) * nx * ny < ((nx * ny * nz : Nat) : Int) := by
    intro nx ny nz fx fy fz hx hy hz
    have hx' : (0 : Int) < nx := by exact_mod_cast hx
    have hy' : (0 : Int) < ny := by exact_mod_cast hy
    have hz' : (0 : Int) < nz := by exact_mod_cast hz
    have ix0 : (0 : Int) ≤ max 0 (min ((nx : Int) - 1) fx) := le_max_left _ _
    have iy0 : (0 : Int) ≤ max 0 (min ((ny : Int) - 1) fy) := le_max_left _ _
    have iz0 : (0 : Int) ≤ max 0 (min ((nz : Int) - 1) fz) := le_max_left _ _
    have ix1 : max 0 (min ((nx : Int) - 1) fx) ≤ nx - 1 :=
      max_le (by omega) (min_le_left _ _)
    have iy1 : max 0 (min ((ny : Int) - 1) fy) ≤ ny - 1 :=
      max_le (by omega) (min_le_left _ _)
    have iz1 : max 0 (min ((nz : Int) - 1) fz) ≤ nz - 1 :=
      max_le (by omega) (min_le_left _ _)
    generalize max 0 (min ((nx : Int) - 1) fx) = ix at *
    generalize max 0 (min ((ny : Int) - 1) fy) = iy at *
    generalize max 0 (min ((nz : Int) - 1) fz) = iz at *
    push_cast
    constructor
    · positivity
    · have e1 : iy * nx ≤ (ny - 1) * nx := mul_le_mul_of_nonneg_right iy1 hx'.le
      have e2 : iz * nx * ny ≤ (nz - 1) * nx * ny := by
        have := mul_le_mul_of_nonneg_right iz1 (mul_nonneg hx'.le hy'.le)
        linarith
      nlinarith
  refine ⟨?_, ?_, ⟨rfl, rfl, rfl, rfl⟩⟩
  · unfold calcODFBin
    cases c
    · exact key 18 18 18 _ _ _ (by decide) (by decide) (by decide)
    · exact key 36 36 36 _ _ _ (by decide) (by decide) (by decide)
    · exact key 36 36 18 _ _ _ (by decide) (by decide) (by decide)
    · exact key 36 36 36 _ _ _ (by decide) (by decide) (by decide)
  · cases c <;> exact ⟨rfl, rfl⟩

set_option maxHeartbeats 1600000 in
/-- C36: for all unit quaternions `q1`, `q2` the misorientation angle returned by
`CubicOps::calculateMisorientation` lies in `[0, 2 * arccos ((2 + √2) / 4)]`, because the
value `max (d, (c + d) / √2, (a + b + c + d) / 2)` computed from the sorted absolute
components `a ≤ b ≤ c ≤ d` of the unit quaternion `q1 * conjugate q2` is at least
`(2 + √2) / 4`. -/
theorem cubic_misorientation_angle_bound (q1 q2 : Vec4) (h1 : q1.normSq = 1)
    (h2 : q2.normSq = 1) :
    (0 ≤ (CubicOps.calculateMisorientation q1 q2).a3 ∧
      (CubicOps.calculateMisorientation q1 q2).a3 ≤ 2 * Real.arccos ((2 + Real.sqrt 2) / 4)) ∧
    (2 + Real.sqrt 2) / 4 ≤ (CubicOps.wminAndType (CubicOps.sortedQco
      (QuatD.elementWiseAbs (QuatD.mul q1 (QuatD.conjugate q2))))).1 := by
  have hk2 : Real.sqrt 2 * Real.sqrt 2 = 2 := Real.mul_self_sqrt (by norm_num)
  have hk0 : (0 : ℝ) < Real.sqrt 2 := Real.sqrt_pos.mpr (by norm_num)
  have hk1 : (1 : ℝ) < Real.sqrt 2 := by nlinarith
  have hk3 : Real.sqrt 2 < 3 / 2 := by nlinarith
  -- Cauchy-Schwarz for four components
  have cs : ∀ a b c d v0 v1 v2 v3 : ℝ, (a * v0 + b * v1 + c * v2 + d * v3) ^ 2
      ≤ (a * a + b * b + c * c + d * d) * (v0 * v0 + v1 * v1 + v2 * v2 + v3 * v3) := by
    intro a b c d v0 v1 v2 v3
    nlinarith [sq_nonneg (a * v1 - b * v0), sq_nonneg (a * v2 - c * v0),
      sq_nonneg (a * v3 - d * v0), sq_nonneg (b * v2 - c * v1), sq_nonneg (b * v3 - d * v1),
      sq_nonneg (c * v3 - d * v2)]
  -- a value below `1 / m` whose product with `W` is at least one forces `m ≤ W`
  have fin : ∀ W ip : ℝ, 0 ≤ W → 1 ≤ W * ip → ip ^ 2 ≤ 24 - 16 * Real.sqrt 2 →
      (2 + Real.sqrt 2) / 4 ≤ W := by
    intro W ip hW hip hsq
    have hm : ((2 + Real.sqrt 2) / 4 * ip) ^ 2 ≤ 1 := by
      have e : ((2 + Real.sqrt 2) / 4) ^ 2 * (24 - 16 * Real.sqrt 2) = 1 := by
        linear_combination (-(5 / 2) - Real.sqrt 2) * hk2
      have hm0 : (0 : ℝ) ≤ ((2 + Real.sqrt 2) / 4) ^ 2 := sq_nonneg _
      calc ((2 + Real.sqrt 2) / 4 * ip) ^ 2 = ((2 + Real.sqrt 2) / 4) ^ 2 * ip ^ 2 := by ring
        _ ≤ ((2 + Real.sqrt 2) / 4) ^ 2 * (24 - 16 * Real.sqrt 2) :=
            mul_le_mul_of_nonneg_left hsq hm0
        _ = 1 := e
    have hm1 : (2 + Real.sqrt 2) / 4 * ip ≤ 1 := by
      by_contra hc
      push_neg at hc
      nlinarith
    have hmp : (0 : ℝ) < (2 + Real.sqrt 2) / 4 := by positivity
    nlinarith [mul_le_mul_of_nonneg_left hm1 hW, mul_le_mul_of_nonneg_left hip hmp.le]
  -- the bound on sorted non-negative components of a unit vector
  have key : ∀ a b c d W : ℝ, 0 ≤ a → a ≤ b → b ≤ c → c ≤ d →
      a * a + b * b + c * c + d * d = 1 → d ≤ W → c + d ≤ Real.sqrt 2 * W →
      a + b + c + d ≤ 2 * W → (2 + Real.sqrt 2) / 4 ≤ W := by
    intro a b c d W ha hab hbc hcd hu hW1 hW2 hW3
    have hW : 0 ≤ W := by linarith
    rcases le_total (b + c) (a + d) with hcase | hcase
    · refine fin W ((3 - 2 * Real.sqrt 2) * a + (Real.sqrt 2 - 1) * b
        + (Real.sqrt 2 - 1) * c + d) hW ?_ ?_
      · nlinarith [mul_nonneg (sub_nonneg.2 hab) (sub_nonneg.2 hbc),
          mul_nonneg (sub_nonneg.2 hcase) (sub_nonneg.2 hW1),
          mul_nonneg (by linarith : (0 : ℝ) ≤ b + c - 2 * a) (sub_nonneg.2 hW2),
          mul_nonneg ha (sub_nonneg.2 hW3)]
      · have := cs a b c d (3 - 2 * Real.sqrt 2) (Real.sqrt 2 - 1) (Real.sqrt 2 - 1) 1
        rw [hu, one_mul] at this
        have e : (3 - 2 * Real.sqrt 2) * (3 - 2 * Real.sqrt 2)
            + (Real.sqrt 2 - 1) * (Real.sqrt 2 - 1) + (Real.sqrt 2 - 1) * (Real.sqrt 2 - 1)
            + 1 * 1 = 24 - 16 * Real.sqrt 2 := by
          linear_combination (6 : ℝ) * hk2
        rw [e] at this
        calc _ = (a * (3 - 2 * Real.sqrt 2) + b * (Real.sqrt 2 - 1) + c * (Real.sqrt 2 - 1)
            + d * 1) ^ 2 := by ring
          _ ≤ _ := this
    · refine fin W ((2 - Real.sqrt 2) * b + (2 - Real.sqrt 2) * c
        + (2 * Real.sqrt 2 - 2) * d) hW ?_ ?_
      · nlinarith [mul_nonneg (sub_nonneg.2 hcase) ha,
          mul_nonneg (sub_nonneg.2 hcd) (sub_nonneg.2 hbc),
          mul_nonneg (by linarith : (0 : ℝ) ≤ 2 * d - b - c) (sub_nonneg.2 hW2),
          mul_nonneg (by linarith : (0 : ℝ) ≤ b + c - d) (sub_nonneg.2 hW3)]
      · have := cs a b c d 0 (2 - Real.sqrt 2) (2 - Real.sqrt 2) (2 * Real.sqrt 2 - 2)
        rw [hu, one_mul] at this
        have e : (0 : ℝ) * 0 + (2 - Real.sqrt 2) * (2 - Real.sqrt 2)
            + (2 - Real.sqrt 2) * (2 - Real.sqrt 2)
            + (2 * Real.sqrt 2 - 2) * (2 * Real.sqrt 2 - 2) = 24 - 16 * Real.sqrt 2 := by
          linear_combination (6 : ℝ) * hk2
        rw [e] at this
        calc _ = (a * 0 + b * (2 - Real.sqrt 2) + c * (2 - Real.sqrt 2)
            + d * (2 * Real.sqrt 2 - 2)) ^ 2 := by ring
          _ ≤ _ := this
  -- the product of unit quaternions is a unit quaternion
  have hq : (QuatD.mul q1 (QuatD.conjugate q2)).normSq = 1 := by
    have : (QuatD.mul q1 (QuatD.conjugate q2)).normSq = q1.normSq * q2.normSq := by
      simp only [QuatD.mul, QuatD.conjugate, Vec4.normSq]
      ring
    rw [this, h1, h2, one_mul]
  -- the sorted absolute components
  have hWq : ∀ q : Vec4, q.normSq = 1 → (2 + Real.sqrt 2) / 4
      ≤ (CubicOps.wminAndType (CubicOps.sortedQco (QuatD.elementWiseAbs q))).1 := by
    intro q hq
    obtain ⟨⟨s1, s2, s3⟩, hp⟩ := sortedQco_perm (QuatD.elementWiseAbs q)
    have e0 : (QuatD.elementWiseAbs q).a0 = |q.a0| := rfl
    have e1 : (QuatD.elementWiseAbs q).a1 = |q.a1| := rfl
    have e2 : (QuatD.elementWiseAbs q).a2 = |q.a2| := rfl
    have e3 : (QuatD.elementWiseAbs q).a3 = |q.a3| := rfl
    have hsum : |q.a0| * |q.a0| + |q.a1| * |q.a1| + |q.a2| * |q.a2| + |q.a3| * |q.a3| = 1 := by
      simp only [abs_mul_abs_self]
      exact hq
    have hfacts : 0 ≤ (CubicOps.sortedQco (QuatD.elementWiseAbs q)).a0 ∧
        (CubicOps.sortedQco (QuatD.elementWiseAbs q)).a0
            * (CubicOps.sortedQco (QuatD.elementWiseAbs q)).a0
          + (CubicOps.sortedQco (QuatD.elementWiseAbs q)).a1
            * (CubicOps.sortedQco (QuatD.elementWiseAbs q)).a1
          + (CubicOps.sortedQco (QuatD.elementWiseAbs q)).a2
            * (CubicOps.sortedQco (QuatD.elementWiseAbs q)).a2
          + (CubicOps.sortedQco (QuatD.elementWiseAbs q)).a3
            * (CubicOps.sortedQco (QuatD.elementWiseAbs q)).a3 = 1 := by
      rcases hp with h | h | h | h | h | h | h | h | h | h | h | h | h | h | h | h | h | h | h
        | h | h | h | h | h <;>
      · rw [h, e0, e1, e2, e3]
        exact ⟨abs_nonneg _, by linarith⟩
    generalize CubicOps.sortedQco (QuatD.elementWiseAbs q) = o at s1 s2 s3 hfacts ⊢
    obtain ⟨k0, _, hdiv, _⟩ := k_1OverRoot2D_facts
    have hd : ∀ x : ℝ, x / k_Sqrt2D * Real.sqrt 2 = x := by
      intro x
      unfold k_Sqrt2D
      have h20 : (2.0 : ℝ) = 2 := by norm_num
      rw [h20]
      field_simp
    have hmax : o.a3 ≤ (CubicOps.wminAndType o).1 ∧
        (o.a2 + o.a3) / k_Sqrt2D ≤ (CubicOps.wminAndType o).1 ∧
        (o.a0 + o.a1 + o.a2 + o.a3) / 2 ≤ (CubicOps.wminAndType o).1 := by
      unfold CubicOps.wminAndType
      have h20 : (2.0 : ℝ) = 2 := by norm_num
      simp only [h20]
      split_ifs with g1 g2 g2 <;> dsimp only at * <;> refine ⟨?_, ?_, ?_⟩ <;> linarith
    refine key o.a0 o.a1 o.a2 o.a3 _ hfacts.1 s1 s2 s3 hfacts.2 hmax.1 ?_ (by linarith [hmax.2.2])
    have := mul_le_mul_of_nonneg_right hmax.2.1 hk0.le
    rw [hd] at this
    linarith
  have hW := hWq _ hq
  refine ⟨⟨?_, ?_⟩, hW⟩
  · rw [calculateMisorientation_angle]
    have := Real.arccos_nonneg ((CubicOps.wminAndType (CubicOps.sortedQco
      (QuatD.elementWiseAbs (QuatD.mul q1 (QuatD.conjugate q2))))).1)
    linarith
  · rw [calculateMisorientation_angle]
    have := Real.monotone_arcsin hW
    rw [Real.arccos_eq_pi_div_two_sub_arcsin, Real.arccos_eq_pi_div_two_sub_arcsin]
    linarith

/-- The hypotheses of `cubic_misorientation_angle_bound` are met by the identity
quaternion taken twice. -/
theorem cubic_misorientation_angle_bound_witness :
    ((⟨0, 0, 0, 1⟩ : Vec4).normSq = 1 ∧ (⟨0, 0, 0, 1⟩ : Vec4).normSq = 1) ∧
    (CubicOps.calculateMisorientation ⟨0, 0, 0, 1⟩ ⟨0, 0, 0, 1⟩).a3
      ≤ 2 * Real.arccos ((2 + Real.sqrt 2) / 4) :=
  ⟨⟨by norm_num [Vec4.normSq], by norm_num [Vec4.normSq]⟩,
   (cubic_misorientation_angle_bound ⟨0, 0, 0, 1⟩ ⟨0, 0, 0, 1⟩ (by norm_num [Vec4.normSq])
      (by norm_num [Vec4.normSq])).1.2⟩

/-- C37: for each crystal class, with `(Nx, Ny, Nz)` its `OdfNumBins`, and every `choose`
with `0 ≤ choose < getODFSize`, the indices `phi0 = choose mod Nx`,
`phi1 = (choose div Nx) mod Ny`, `phi2 = choose div (Nx * Ny)` computed by
`determineEulerAngles` and `determineRodriguesVector` satisfy `0 ≤ phi0 < Nx`,
`0 ≤ phi1 < Ny`, `0 ≤ phi2 < Nz` and `phi0 + phi1 * Nx + phi2 * Nx * Ny = choose`; and the
indices of a combined bin number `ix + iy * Nx + iz * Nx * Ny` with `ix`, `iy`, `iz` in
range are `ix`, `iy`, `iz`. -/
theorem determineEulerAngles_phi_decomposition (c : LaueOps) (choose : Int)
    (h0 : 0 ≤ choose) (h1 : choose < c.getODFSize) :
    (0 ≤ (c.determineEulerAnglesPhi choose).1 ∧
      (c.determineEulerAnglesPhi choose).1 < (c.getOdfNumBins.1 : Int)) ∧
    (0 ≤ (c.determineEulerAnglesPhi choose).2.1 ∧
      (c.determineEulerAnglesPhi choose).2.1 < (c.getOdfNumBins.2.1 : Int)) ∧
    (0 ≤ (c.determineEulerAnglesPhi choose).2.2 ∧
      (c.determineEulerAnglesPhi choose).2.2 < (c.getOdfNumBins.2.2 : Int)) ∧
    (c.determineEulerAnglesPhi choose).1
      + (c.determineEulerAnglesPhi choose).2.1 * (c.getOdfNumBins.1 : Int)
      + (c.determineEulerAnglesPhi choose).2.2 * (c.getOdfNumBins.1 : Int)
        * (c.getOdfNumBins.2.1 : Int) = choose ∧
    (∀ ix iy iz : Int, 0 ≤ ix → ix < (c.getOdfNumBins.1 : Int) →
      0 ≤ iy → iy < (c.getOdfNumBins.2.1 : Int) → 0 ≤ iz → iz < (c.getOdfNumBins.2.2 : Int) →
      c.determineEulerAnglesPhi
          (ix + iy * (c.getOdfNumBins.1 : Int)
            + iz * (c.getOdfNumBins.1 : Int) * (c.getOdfNumBins.2.1 : Int))
        = (ix, iy, iz)) := by
  -- on a bin number in `[0, 2^31)` the two conversions change nothing
  have hphi : ∀ (N M : Nat) (ch : Int), 0 < N → 0 < M → 0 ≤ ch → ch < 2147483648 →
      Int.bmod ((((ch % 18446744073709551616).toNat % N : Nat)) : Int) 4294967296 = ch % N ∧
      Int.bmod (((((ch % 18446744073709551616).toNat / N) % M : Nat)) : Int) 4294967296
        = (ch / N) % M ∧
      Int.bmod ((((ch % 18446744073709551616).toNat / (N * M) : Nat)) : Int) 4294967296
        = ch / ((N : Int) * M) := by
    intro N M ch hN hM hc0 hc1
    have hb : ∀ x : Int, 0 ≤ x → x < 2147483648 → Int.bmod x 4294967296 = x := by
      intro x hx0 hx1
      rw [Int.bmod_def, Int.emod_eq_of_lt hx0 (by omega), if_pos (by omega)]
    have hmod : ∀ a b : Int, 0 ≤ a → 0 < b → a % b ≤ a := by
      intro a b ha hb'
      have := Int.mul_nonneg hb'.le (Int.ediv_nonneg ha hb'.le)
      rw [Int.emod_def]
      linarith
    have hu : (((ch % 18446744073709551616).toNat : Nat) : Int) = ch := by
      rw [Int.emod_eq_of_lt hc0 (by omega)]
      exact Int.toNat_of_nonneg hc0
    have hN' : (0 : Int) < N := by exact_mod_cast hN
    have hM' : (0 : Int) < M := by exact_mod_cast hM
    have hNM : (0 : Int) < (N : Int) * M := Int.mul_pos hN' hM'
    push_cast
    rw [hu]
    refine ⟨hb _ (Int.emod_nonneg _ hN'.ne') ?_, hb _ (Int.emod_nonneg _ hM'.ne') ?_,
      hb _ (Int.ediv_nonneg hc0 hNM.le) ?_⟩
    · exact lt_of_le_of_lt (hmod _ _ hc0 hN') hc1
    · have h3 : ch / (N : Int) ≤ ch := Int.ediv_le_self _ hc0
      exact lt_of_le_of_lt (hmod _ _ (Int.ediv_nonneg hc0 hN'.le) hM') (lt_of_le_of_lt h3 hc1)
    · exact lt_of_le_of_lt (Int.ediv_le_self _ hc0) hc1
  cases c
  all_goals
    simp only [LaueOps.determineEulerAnglesPhi, LaueOps.getOdfNumBins, LaueOps.getODFSize,
      Nat.cast_ofNat] at h1 ⊢
    have hp18 := hphi 18 18 choose (by norm_num) (by norm_num) h0 (by omega)
    have hp36 := hphi 36 36 choose (by norm_num) (by norm_num) h0 (by omega)
    simp only [Nat.cast_ofNat, Nat.reduceMul] at hp18 hp36
    first
      | rw [hp18.1, hp18.2.1, hp18.2.2]
      | rw [hp36.1, hp36.2.1, hp36.2.2]
    refine ⟨by omega, by omega, by omega, by omega, ?_⟩
    intro ix iy iz hx0 hx1 hy0 hy1 hz0 hz1
    have hc : 0 ≤ ix + iy * 36 + iz * 36 * 36 ∧ 0 ≤ ix + iy * 18 + iz * 18 * 18 := by
      constructor <;> nlinarith
    have hq18 := hphi 18 18 (ix + iy * 18 + iz * 18 * 18) (by norm_num) (by norm_num) hc.2
    have hq36 := hphi 36 36 (ix + iy * 36 + iz * 36 * 36) (by norm_num) (by norm_num) hc.1
    simp only [Nat.cast_ofNat, Nat.reduceMul] at hq18 hq36
    first
      | rw [(hq18 (by omega)).1, (hq18 (by omega)).2.1, (hq18 (by omega)).2.2]
      | rw [(hq36 (by omega)).1, (hq36 (by omega)).2.1, (hq36 (by omega)).2.2]
    simp only [Prod.mk.injEq]
    omega

/-- The hypotheses of `determineEulerAngles_phi_decomposition` are met by the last bin of
the Tetragonal 4/mmm class. -/
theorem determineEulerAngles_phi_decomposition_witness :
    ((0 : Int) ≤ 23327 ∧ (23327 : Int) < LaueOps.TetragonalOps.getODFSize) ∧
    (LaueOps.TetragonalOps.determineEulerAnglesPhi 23327).1
      + (LaueOps.TetragonalOps.determineEulerAnglesPhi 23327).2.1
        * (LaueOps.TetragonalOps.getOdfNumBins.1 : Int)
      + (LaueOps.TetragonalOps.determineEulerAnglesPhi 23327).2.2
        * (LaueOps.TetragonalOps.getOdfNumBins.1 : Int)
        * (LaueOps.TetragonalOps.getOdfNumBins.2.1 : Int) = 23327 :=
  ⟨⟨by decide, by decide⟩,
   (determineEulerAngles_phi_decomposition LaueOps.TetragonalOps 23327 (by decide)
      (by decide)).2.2.2.1⟩

/-- C38: each quaternion operator table is a group up to sign: in each of the four classes
every entry of `QuatSym` has unit norm, and for all entries `s`, `t` the Hamilton product
`s * t` and the conjugate of `s` are each `u` or `-u` for an entry `u` of the same table. -/
theorem quatSym_tables_closed_up_to_sign :
    ∀ L ∈ [CubicHigh.QuatSym, CubicLow.QuatSym, TetragonalHigh.QuatSym, OrthoRhombic.QuatSym],
      (∀ s ∈ L, s.normSq = 1) ∧
      (∀ s ∈ L, ∀ t ∈ L, ∃ u ∈ L,
        QuatD.mul s t = u ∨ QuatD.mul s t = ⟨-u.a0, -u.a1, -u.a2, -u.a3⟩) ∧
      (∀ s ∈ L, ∃ u ∈ L,
        QuatD.conjugate s = u ∨ QuatD.conjugate s = ⟨-u.a0, -u.a1, -u.a2, -u.a3⟩) := by
  have hk := k_1OverRoot2D_facts.2.2.2
  have h20 : (2.0 : ℝ) = 2 := by norm_num
  have key : ∀ Z : List QuatZ,
      (∀ s ∈ Z, ∀ u ∈ Z, ∃ v ∈ Z, QuatZ.mul u s = v + v ∨ QuatZ.mul u s = -(v + v)) →
      (∀ s ∈ Z, ∃ t ∈ Z, ((-s.1, -s.2.1, -s.2.2.1, s.2.2.2) : QuatZ) = t
        ∨ (-s.1, -s.2.1, -s.2.2.1, s.2.2.2) = -t) →
      (∀ s ∈ Z, QuatZ.mul (-s.1, -s.2.1, -s.2.2.1, s.2.2.2) s
        = ((0, 0), (0, 0), (0, 0), (4, 0))) →
      (∀ s ∈ Z.map QuatZ.toVec4, s.normSq = 1) ∧
      (∀ s ∈ Z.map QuatZ.toVec4, ∀ t ∈ Z.map QuatZ.toVec4, ∃ u ∈ Z.map QuatZ.toVec4,
        QuatD.mul s t = u ∨ QuatD.mul s t = ⟨-u.a0, -u.a1, -u.a2, -u.a3⟩) ∧
      (∀ s ∈ Z.map QuatZ.toVec4, ∃ u ∈ Z.map QuatZ.toVec4,
        QuatD.conjugate s = u ∨ QuatD.conjugate s = ⟨-u.a0, -u.a1, -u.a2, -u.a3⟩) := by
    intro Z h1 h2 h3
    obtain ⟨g1, g2, g3, _⟩ := quatZ_group Z h1 h2 h3
    exact ⟨g3, fun s hs t ht => g1 t ht s hs, g2⟩
  intro L hL
  simp only [List.mem_cons, List.mem_singleton, List.not_mem_nil, or_false] at hL
  rcases hL with rfl | rfl | rfl | rfl
  · obtain ⟨g1, g2, g3, _⟩ := cubicHigh_quatSym_group
    exact ⟨g3, fun s hs t ht => g1 t ht s hs, g2⟩
  · have he : CubicLow.QuatSym = List.map QuatZ.toVec4
        [((0, 0), (0, 0), (0, 0), (2, 0)),
         ((2, 0), (0, 0), (0, 0), (0, 0)),
         ((0, 0), (2, 0), (0, 0), (0, 0)),
         ((0, 0), (0, 0), (2, 0), (0, 0)),
         ((1, 0), (1, 0), (1, 0), (1, 0)),
         ((-1, 0), (-1, 0), (-1, 0), (1, 0)),
         ((1, 0), (-1, 0), (1, 0), (1, 0)),
         ((-1, 0), (1, 0), (-1, 0), (1, 0)),
         ((-1, 0), (1, 0), (1, 0), (1, 0)),
         ((1, 0), (-1, 0), (-1, 0), (1, 0)),
         ((-1, 0), (-1, 0), (1, 0), (1, 0)),
         ((1, 0), (1, 0), (-1, 0), (1, 0))] := by
      unfold CubicLow.QuatSym
      simp only [List.map, QuatZ.toVec4, hk, h20]
      norm_num [neg_div]
    rw [he]
    exact key _ (by decide) (by decide) (by decide)
  · have he : TetragonalHigh.QuatSym = List.map QuatZ.toVec4
        [((0, 0), (0, 0), (0, 0), (2, 0)),
         ((2, 0), (0, 0), (0, 0), (0, 0)),
         ((0, 0), (2, 0), (0, 0), (0, 0)),
         ((0, 0), (0, 0), (2, 0), (0, 0)),
         ((0, 0), (0, 0), (0, 1), (0, -1)),
         ((0, 0), (0, 0), (0, 1), (0, 1)),
         ((0, 1), (0, 1), (0, 0), (0, 0)),
         ((0, -1), (0, 1), (0, 0), (0, 0))] := by
      unfold TetragonalHigh.QuatSym
      simp only [List.map, QuatZ.toVec4, hk, h20]
      norm_num [neg_div]
    rw [he]
    exact key _ (by decide) (by decide) (by decide)
  · have he : OrthoRhombic.QuatSym = List.map QuatZ.toVec4
        [((0, 0), (0, 0), (0, 0), (2, 0)),
         ((2, 0), (0, 0), (0, 0), (0, 0)),
         ((0, 0), (2, 0), (0, 0), (0, 0)),
         ((0, 0), (0, 0), (2, 0), (0, 0))] := by
      unfold OrthoRhombic.QuatSym
      simp only [List.map, QuatZ.toVec4, hk, h20]
      norm_num [neg_div]
    rw [he]
    exact key _ (by decide) (by decide) (by decide)

/-- The table of the OrthoRhombic mmm class is one of the four tables of
`quatSym_tables_closed_up_to_sign`. -/
theorem quatSym_tables_closed_up_to_sign_witness :
    (∀ s ∈ OrthoRhombic.QuatSym, s.normSq = 1) ∧
    (∀ s ∈ OrthoRhombic.QuatSym, ∀ t ∈ OrthoRhombic.QuatSym, ∃ u ∈ OrthoRhombic.QuatSym,
      QuatD.mul s t = u ∨ QuatD.mul s t = ⟨-u.a0, -u.a1, -u.a2, -u.a3⟩) ∧
    (∀ s ∈ OrthoRhombic.QuatSym, ∃ u ∈ OrthoRhombic.QuatSym,
      QuatD.conjugate s = u ∨ QuatD.conjugate s = ⟨-u.a0, -u.a1, -u.a2, -u.a3⟩) :=
  quatSym_tables_closed_up_to_sign OrthoRhombic.QuatSym
    (List.mem_cons_of_mem _ (List.mem_cons_of_mem _ (List.mem_cons_of_mem _
      (List.mem_cons_self _ _))))

set_option maxHeartbeats 1600000 in
set_option maxRecDepth 100000 in
/-- C39: in each of the four classes the matrix table and the quaternion table list the
same rotations, whatever the index order: every `MatSym` entry is a proper rotation (its
product with its transpose is the identity and its determinant is `1`), the entries of
`MatSym` are pairwise distinct, and a matrix is an entry of `MatSym` exactly when it is
`qu2om` of an entry of `QuatSym`. -/
theorem matSym_same_rotations_as_quatSym :
    ∀ p ∈ [(CubicHigh.MatSym, CubicHigh.QuatSym), (CubicLow.MatSym, CubicLow.QuatSym),
        (TetragonalHigh.MatSym, TetragonalHigh.QuatSym), (OrthoRhombic.MatSym, OrthoRhombic.QuatSym)],
      (∀ m ∈ p.1, m.mul m.transpose = Mat9.one ∧ m.det = 1) ∧
      p.1.Nodup ∧
      (∀ m : Mat9, m ∈ p.1 ↔ m ∈ p.2.map (fun q => qu2om q Order.VectorScalar)) := by
  have hk := k_1OverRoot2D_facts.2.1
  have qv : ∀ x y z w : ℝ, qu2om ⟨x, y, z, w⟩ Order.VectorScalar =
      ⟨w * w - (x * x + y * y + z * z) + 2 * x * x, 2 * (x * y - w * z), 2 * (x * z + w * y),
       2 * (y * x + w * z), w * w - (x * x + y * y + z * z) + 2 * y * y, 2 * (y * z - w * x),
       2 * (z * x - w * y), 2 * (z * y + w * x),
       w * w - (x * x + y * y + z * z) + 2 * z * z⟩ := by
    intro x y z w
    simp only [qu2om, qW, qX, qY, qZ, Mat9.mk.injEq]
    norm_num
  intro p hp
  simp only [List.mem_cons, List.mem_singleton, List.not_mem_nil, or_false] at hp
  rcases hp with rfl | rfl | rfl | rfl
  · have hq : CubicHigh.QuatSym.map (fun q => qu2om q Order.VectorScalar)
        = [⟨1, 0, 0, 0, 1, 0, 0, 0, 1⟩,
         ⟨1, 0, 0, 0, -1, 0, 0, 0, -1⟩,
         ⟨-1, 0, 0, 0, 1, 0, 0, 0, -1⟩,
         ⟨-1, 0, 0, 0, -1, 0, 0, 0, 1⟩,
         ⟨1, 0, 0, 0, 0, -1, 0, 1, 0⟩,
         ⟨0, 0, 1, 0, 1, 0, -1, 0, 0⟩,
         ⟨0, -1, 0, 1, 0, 0, 0, 0, 1⟩,
         ⟨1, 0, 0, 0, 0, 1, 0, -1, 0⟩,
         ⟨0, 0, -1, 0, 1, 0, 1, 0, 0⟩,
         ⟨0, 1, 0, -1, 0, 0, 0, 0, 1⟩,
         ⟨0, 1, 0, 1, 0, 0, 0, 0, -1⟩,
         ⟨0, -1, 0, -1, 0, 0, 0, 0, -1⟩,
         ⟨-1, 0, 0, 0, 0, 1, 0, 1, 0⟩,
         ⟨-1, 0, 0, 0, 0, -1, 0, -1, 0⟩,
         ⟨0, 0, 1, 0, -1, 0, 1, 0, 0⟩,
         ⟨0, 0, -1, 0, -1, 0, -1, 0, 0⟩,
         ⟨0, 0, 1, 1, 0, 0, 0, 1, 0⟩,
         ⟨0, 1, 0, 0, 0, 1, 1, 0, 0⟩,
         ⟨0, -1, 0, 0, 0, -1, 1, 0, 0⟩,
         ⟨0, 0, 1, -1, 0, 0, 0, -1, 0⟩,
         ⟨0, -1, 0, 0, 0, 1, -1, 0, 0⟩,
         ⟨0, 0, -1, -1, 0, 0, 0, 1, 0⟩,
         ⟨0, 0, -1, 1, 0, 0, 0, -1, 0⟩,
         ⟨0, 1, 0, 0, 0, -1, -1, 0, 0⟩] := by
      unfold CubicHigh.QuatSym
      simp only [List.map_cons, List.map_nil, qv, List.cons.injEq, Mat9.mk.injEq, and_true]
      norm_num
      repeat' apply And.intro
      all_goals linarith
    refine ⟨?_, ?_, ?_⟩
    · show ∀ m ∈ CubicHigh.MatSym, _
      unfold CubicHigh.MatSym
      simp only [List.forall_mem_cons, Mat9.mul, Mat9.transpose, Mat9.det, Mat9.one,
        Mat9.mk.injEq]
      norm_num
    · show CubicHigh.MatSym.Nodup
      unfold CubicHigh.MatSym
      simp only [List.nodup_cons, List.mem_cons, List.mem_singleton, Mat9.mk.injEq,
        List.not_mem_nil, List.nodup_nil]
      norm_num
    · intro m
      show m ∈ CubicHigh.MatSym ↔ m ∈ CubicHigh.QuatSym.map _
      rw [hq]
      refine List.Perm.mem_iff (Multiset.coe_eq_coe.mp ?_)
      unfold CubicHigh.MatSym
      simp only [← Multiset.cons_coe, Multiset.coe_nil, ← Multiset.singleton_add, add_zero]
      abel
  · have hq : CubicLow.QuatSym.map (fun q => qu2om q Order.VectorScalar)
        = [⟨1, 0, 0, 0, 1, 0, 0, 0, 1⟩,
         ⟨1, 0, 0, 0, -1, 0, 0, 0, -1⟩,
         ⟨-1, 0, 0, 0, 1, 0, 0, 0, -1⟩,
         ⟨-1, 0, 0, 0, -1, 0, 0, 0, 1⟩,
         ⟨0, 0, 1, 1, 0, 0, 0, 1, 0⟩,
         ⟨0, 1, 0, 0, 0, 1, 1, 0, 0⟩,
         ⟨0, -1, 0, 0, 0, -1, 1, 0, 0⟩,
         ⟨0, 0, 1, -1, 0, 0, 0, -1, 0⟩,
         ⟨0, -1, 0, 0, 0, 1, -1, 0, 0⟩,
         ⟨0, 0, -1, -1, 0, 0, 0, 1, 0⟩,
         ⟨0, 0, -1, 1, 0, 0, 0, -1, 0⟩,
         ⟨0, 1, 0, 0, 0, -1, -1, 0, 0⟩] := by
      unfold CubicLow.QuatSym
      simp only [List.map_cons, List.map_nil, qv, List.cons.injEq, Mat9.mk.injEq, and_true]
      norm_num
    refine ⟨?_, ?_, ?_⟩
    · show ∀ m ∈ CubicLow.MatSym, _
      unfold CubicLow.MatSym
      simp only [List.forall_mem_cons, Mat9.mul, Mat9.transpose, Mat9.det, Mat9.one,
        Mat9.mk.injEq]
      norm_num
    · show CubicLow.MatSym.Nodup
      unfold CubicLow.MatSym
      simp only [List.nodup_cons, List.mem_cons, List.mem_singleton, Mat9.mk.injEq,
        List.not_mem_nil, List.nodup_nil]
      norm_num
    · intro m
      show m ∈ CubicLow.MatSym ↔ m ∈ CubicLow.QuatSym.map _
      rw [hq]
      refine List.Perm.mem_iff (Multiset.coe_eq_coe.mp ?_)
      unfold CubicLow.MatSym
      simp only [← Multiset.cons_coe, Multiset.coe_nil, ← Multiset.singleton_add, add_zero]
      abel
  · have hq : TetragonalHigh.QuatSym.map (fun q => qu2om q Order.VectorScalar)
        = [⟨1, 0, 0, 0, 1, 0, 0, 0, 1⟩,
         ⟨1, 0, 0, 0, -1, 0, 0, 0, -1⟩,
         ⟨-1, 0, 0, 0, 1, 0, 0, 0, -1⟩,
         ⟨-1, 0, 0, 0, -1, 0, 0, 0, 1⟩,
         ⟨0, 1, 0, -1, 0, 0, 0, 0, 1⟩,
         ⟨0, -1, 0, 1, 0, 0, 0, 0, 1⟩,
         ⟨0, 1, 0, 1, 0, 0, 0, 0, -1⟩,
         ⟨0, -1, 0, -1, 0, 0, 0, 0, -1⟩] := by
      unfold TetragonalHigh.QuatSym
      simp only [List.map_cons, List.map_nil, qv, List.cons.injEq, Mat9.mk.injEq, and_true]
      norm_num
      repeat' apply And.intro
      all_goals linarith
    refine ⟨?_, ?_, ?_⟩
    · show ∀ m ∈ TetragonalHigh.MatSym, _
      unfold TetragonalHigh.MatSym
      simp only [List.forall_mem_cons, Mat9.mul, Mat9.transpose, Mat9.det, Mat9.one,
        Mat9.mk.injEq]
      norm_num
    · show TetragonalHigh.MatSym.Nodup
      unfold TetragonalHigh.MatSym
      simp only [List.nodup_cons, List.mem_cons, List.mem_singleton, Mat9.mk.injEq,
        List.not_mem_nil, List.nodup_nil]
      norm_num
    · intro m
      show m ∈ TetragonalHigh.MatSym ↔ m ∈ TetragonalHigh.QuatSym.map _
      rw [hq]
      rfl
  · have hq : OrthoRhombic.QuatSym.map (fun q => qu2om q Order.VectorScalar)
        = [⟨1, 0, 0, 0, 1, 0, 0, 0, 1⟩,
         ⟨1, 0, 0, 0, -1, 0, 0, 0, -1⟩,
         ⟨-1, 0, 0, 0, 1, 0, 0, 0, -1⟩,
         ⟨-1, 0, 0, 0, -1, 0, 0, 0, 1⟩] := by
      unfold OrthoRhombic.QuatSym
      simp only [List.map_cons, List.map_nil, qv, List.cons.injEq, Mat9.mk.injEq, and_true]
      norm_num
    refine ⟨?_, ?_, ?_⟩
    · show ∀ m ∈ OrthoRhombic.MatSym, _
      unfold OrthoRhombic.MatSym
      simp only [List.forall_mem_cons, Mat9.mul, Mat9.transpose, Mat9.det, Mat9.one,
        Mat9.mk.injEq]
      norm_num
    · show OrthoRhombic.MatSym.Nodup
      unfold OrthoRhombic.MatSym
      simp only [List.nodup_cons, List.mem_cons, List.mem_singleton, Mat9.mk.injEq,
        List.not_mem_nil, List.nodup_nil]
      norm_num
    · intro m
      show m ∈ OrthoRhombic.MatSym ↔ m ∈ OrthoRhombic.QuatSym.map _
      rw [hq]
      rfl

/-- The pair of tables of the Cubic m3m class is one of the four pairs of
`matSym_same_rotations_as_quatSym`. -/
theorem matSym_same_rotations_as_quatSym_witness :
    (∀ m ∈ CubicHigh.MatSym, m.mul m.transpose = Mat9.one ∧ m.det = 1) ∧
    CubicHigh.MatSym.Nodup ∧
    (∀ m : Mat9, m ∈ CubicHigh.MatSym
      ↔ m ∈ CubicHigh.QuatSym.map (fun q => qu2om q Order.VectorScalar)) :=
  matSym_same_rotations_as_quatSym (CubicHigh.MatSym, CubicHigh.QuatSym)
    (List.mem_cons_self _ _)

/-- C40: the comparison tree of `CubicOps::calculateMisorientationInternal` sorts the four
absolute components: for every quaternion `qc` the computed `qco` satisfies
`qco.x ≤ qco.y ≤ qco.z ≤ qco.w`, and `(qco.x, qco.y, qco.z, qco.w)` is a permutation of
`(|qc.x|, |qc.y|, |qc.z|, |qc.w|)`, ties included. -/
theorem sortedQco_sorts_abs (qc : Vec4) :
    (CubicOps.sortedQco (QuatD.elementWiseAbs qc)).a0
        ≤ (CubicOps.sortedQco (QuatD.elementWiseAbs qc)).a1 ∧
    (CubicOps.sortedQco (QuatD.elementWiseAbs qc)).a1
        ≤ (CubicOps.sortedQco (QuatD.elementWiseAbs qc)).a2 ∧
    (CubicOps.sortedQco (QuatD.elementWiseAbs qc)).a2
        ≤ (CubicOps.sortedQco (QuatD.elementWiseAbs qc)).a3 ∧
    List.Perm
      [(CubicOps.sortedQco (QuatD.elementWiseAbs qc)).a0,
       (CubicOps.sortedQco (QuatD.elementWiseAbs qc)).a1,
       (CubicOps.sortedQco (QuatD.elementWiseAbs qc)).a2,
       (CubicOps.sortedQco (QuatD.elementWiseAbs qc)).a3]
      [|qc.a0|, |qc.a1|, |qc.a2|, |qc.a3|] := by
  obtain ⟨⟨h1, h2, h3⟩, hp⟩ := sortedQco_perm (QuatD.elementWiseAbs qc)
  refine ⟨h1, h2, h3, ?_⟩
  have hm : ∀ a b c d : ℝ, (([a, b, c, d] : List ℝ) : Multiset ℝ) = {a} + {b} + {c} + {d} := by
    intro a b c d
    rfl
  rw [← Multiset.coe_eq_coe, hm, hm]
  have e0 : (QuatD.elementWiseAbs qc).a0 = |qc.a0| := rfl
  have e1 : (QuatD.elementWiseAbs qc).a1 = |qc.a1| := rfl
  have e2 : (QuatD.elementWiseAbs qc).a2 = |qc.a2| := rfl
  have e3 : (QuatD.elementWiseAbs qc).a3 = |qc.a3| := rfl
  rcases hp with h | h | h | h | h | h | h | h | h | h | h | h | h | h | h | h | h | h | h | h
    | h | h | h | h <;>
  · rw [h, e0, e1, e2, e3] <;> dsimp only <;> abel

end CrystalSymmetry

namespace BatchConversion

open OrientationTransformation

/-! ## Theorems on the batch conversion -/

/-- What the loop of `ConvertRepresentation::convert` writes when the functor and the
output array have the same stride `O`: pass `k` writes the conversion of the values at
`input + k * S` to the `O` values at `output + k * O`, and nothing else changes. -/
theorem convert_loop_spec (I O S : Nat) (method : List ℝ → List ℝ) (inMem : Nat → ℝ) :
    ∀ (n input output : Nat) (outMem : Nat → ℝ),
      (∀ k j : Nat, k < n → j < O →
        ConvertRepresentation.loop (OC_CONVERTOR_FUNCTOR I O method) inMem S O n input output
            outMem (output + k * O + j)
          = (method ((List.range I).map fun t => inMem (input + k * S + t))).getD j 0) ∧
      (∀ p : Nat, p < output ∨ output + n * O ≤ p →
        ConvertRepresentation.loop (OC_CONVERTOR_FUNCTOR I O method) inMem S O n input output
            outMem p = outMem p) := by
  intro n
  induction n with
  | zero =>
    intro input output outMem
    exact ⟨fun k j hk _ => absurd hk (Nat.not_lt_zero k), fun p _ => rfl⟩
  | succ n ih =>
    intro input output outMem
    obtain ⟨ih1, ih2⟩ := ih (input + S) (output + O)
      (OC_CONVERTOR_FUNCTOR I O method inMem input outMem output)
    constructor
    · intro k j hk hj
      show ConvertRepresentation.loop (OC_CONVERTOR_FUNCTOR I O method) inMem S O n
        (input + S) (output + O) (OC_CONVERTOR_FUNCTOR I O method inMem input outMem output)
        (output + k * O + j) = _
      cases k with
      | zero =>
        rw [ih2 _ (Or.inl (by omega))]
        unfold OC_CONVERTOR_FUNCTOR
        rw [if_pos ⟨by omega, by omega⟩]
        simp only [Nat.zero_mul, Nat.add_zero, Nat.add_sub_cancel_left]
      | succ k =>
        have e1 : output + (k + 1) * O + j = output + O + k * O + j := by
          rw [Nat.succ_mul]
          omega
        have e2 : ∀ t : Nat, input + (k + 1) * S + t = input + S + k * S + t := by
          intro t
          rw [Nat.succ_mul]
          omega
        rw [e1, ih1 k j (by omega) hj]
        simp only [e2]
    · intro p hp
      show ConvertRepresentation.loop (OC_CONVERTOR_FUNCTOR I O method) inMem S O n
        (input + S) (output + O) (OC_CONVERTOR_FUNCTOR I O method inMem input outMem output)
        p = _
      have e : output + (n + 1) * O = output + O + n * O := by
        rw [Nat.succ_mul]
        omega
      rw [e] at hp
      rw [ih2 p (by omega)]
      unfold OC_CONVERTOR_FUNCTOR
      rw [if_neg (by omega)]

/-- What the loop of `EulerSanityCheck::sanityCheck` writes on an array of stride `3`: each
of the three values of a tuple in range is replaced by its remainder modulo `2 pi`, `pi` and
`2 pi`, negated when negative, and nothing else changes. -/
theorem sanityCheck_loop_spec :
    ∀ (n inPtr : Nat) (mem : Nat → ℝ),
      (∀ k : Nat, k < n →
        EulerSanityCheck.loop 3 n inPtr mem (inPtr + k * 3)
          = (if fmod (mem (inPtr + k * 3)) k_2PiD < 0
              then fmod (mem (inPtr + k * 3)) k_2PiD * -1
              else fmod (mem (inPtr + k * 3)) k_2PiD) ∧
        EulerSanityCheck.loop 3 n inPtr mem (inPtr + k * 3 + 1)
          = (if fmod (mem (inPtr + k * 3 + 1)) k_PiD < 0
              then fmod (mem (inPtr + k * 3 + 1)) k_PiD * -1
              else fmod (mem (inPtr + k * 3 + 1)) k_PiD) ∧
        EulerSanityCheck.loop 3 n inPtr mem (inPtr + k * 3 + 2)
          = (if fmod (mem (inPtr + k * 3 + 2)) k_2PiD < 0
              then fmod (mem (inPtr + k * 3 + 2)) k_2PiD * -1
              else fmod (mem (inPtr + k * 3 + 2)) k_2PiD)) ∧
      (∀ p : Nat, p < inPtr ∨ inPtr + n * 3 ≤ p →
        EulerSanityCheck.loop 3 n inPtr mem p = mem p) := by
  have h0 : (0.0 : ℝ) = 0 := by norm_num
  have h1 : (1.0 : ℝ) = 1 := by norm_num
  -- one pass of the loop
  have body : ∀ (q : Nat) (m : Nat → ℝ), ∃ m6 : Nat → ℝ,
      (∀ (n : Nat), EulerSanityCheck.loop 3 (n + 1) q m
        = EulerSanityCheck.loop 3 n (q + 3) m6) ∧
      m6 q = (if fmod (m q) k_2PiD < 0 then fmod (m q) k_2PiD * -1 else fmod (m q) k_2PiD) ∧
      m6 (q + 1) = (if fmod (m (q + 1)) k_PiD < 0 then fmod (m (q + 1)) k_PiD * -1
        else fmod (m (q + 1)) k_PiD) ∧
      m6 (q + 2) = (if fmod (m (q + 2)) k_2PiD < 0 then fmod (m (q + 2)) k_2PiD * -1
        else fmod (m (q + 2)) k_2PiD) ∧
      (∀ p : Nat, p < q ∨ q + 3 ≤ p → m6 p = m p) := by
    intro q m
    have n1 : ¬ q + 1 = q := by omega
    have n2 : ¬ q + 2 = q := by omega
    have n3 : ¬ q + 2 = q + 1 := by omega
    have n4 : ¬ q = q + 1 := by omega
    have n5 : ¬ q = q + 2 := by omega
    have n6 : ¬ q + 1 = q + 2 := by omega
    refine ⟨_, fun n => rfl, ?_, ?_, ?_, ?_⟩
    · simp only [h0, h1, ite_apply, Function.update_apply, n1, n2, n3, n4, n5, n6, if_true,
        if_false, ite_self]
    · simp only [h0, h1, ite_apply, Function.update_apply, n1, n2, n3, n4, n5, n6, if_true,
        if_false, ite_self]
    · simp only [h0, h1, ite_apply, Function.update_apply, n1, n2, n3, n4, n5, n6, if_true,
        if_false, ite_self]
    · intro p hp
      have p1 : ¬ p = q := by omega
      have p2 : ¬ p = q + 1 := by omega
      have p3 : ¬ p = q + 2 := by omega
      simp only [ite_apply, Function.update_apply, p1, p2, p3, if_false, ite_self]
  intro n
  induction n with
  | zero =>
    intro inPtr mem
    exact ⟨fun k hk => absurd hk (Nat.not_lt_zero k), fun p _ => rfl⟩
  | succ n ih =>
    intro inPtr mem
    obtain ⟨m6, hstep, b0, b1, b2, bo⟩ := body inPtr mem
    obtain ⟨ih1, ih2⟩ := ih (inPtr + 3) m6
    rw [hstep]
    constructor
    · intro k hk
      cases k with
      | zero =>
        simp only [Nat.zero_mul, Nat.add_zero]
        rw [ih2 _ (Or.inl (by omega)), ih2 _ (Or.inl (by omega)), ih2 _ (Or.inl (by omega))]
        exact ⟨b0, b1, b2⟩
      | succ k =>
        have e : inPtr + (k + 1) * 3 = inPtr + 3 + k * 3 := by omega
        rw [e]
        obtain ⟨c0, c1, c2⟩ := ih1 k (by omega)
        rw [c0, c1, c2, bo _ (Or.inr (by omega)), bo _ (Or.inr (by omega)),
          bo _ (Or.inr (by omega))]
        exact ⟨rfl, rfl, rfl⟩
    · intro p hp
      rw [ih2 p (by omega), bo p (by omega)]

/-- The value the sanity check leaves in place of an angle `x` with `0 ≤ x ≤ P`, for the
period `P`: `x` itself below `P`, and `0` at `P`. -/
theorem sanityCheck_value {P x : ℝ} (hP : 0 < P) (hx : 0 ≤ x) :
    (x < P → (if fmod x P < 0 then fmod x P * -1 else fmod x P) = x) ∧
    (x = P → (if fmod x P < 0 then fmod x P * -1 else fmod x P) = 0) := by
  have hn : ¬ fmod x P < 0 := not_lt.mpr (fmod_nonneg hx hP)
  rw [if_neg hn, fmod_of_nonneg hx hP]
  constructor
  · intro h
    have : ⌊x / P⌋ = 0 := by
      rw [Int.floor_eq_iff]
      constructor
      · simpa using div_nonneg hx hP.le
      · simpa using (div_lt_one hP).mpr h
    rw [this]
    simp
  · intro h
    rw [h, div_self hP.ne', Int.floor_one]
    simp

/-- The memory the method `EulerConverter::toOrientationMatrix` leaves and returns for an
array of `n` Euler triples: each input value is replaced by what the sanity check makes of
it, and output tuple `i` holds the nine entries of `eu2om` of the rewritten input tuple. -/
theorem toOrientationMatrix_spec (n : Nat) (mem : Nat → ℝ) :
    (EulerConverter.toOrientationMatrix (n, 3, mem)).1.1 = n ∧
    (EulerConverter.toOrientationMatrix (n, 3, mem)).1.2.1 = 3 ∧
    (EulerConverter.toOrientationMatrix (n, 3, mem)).1.2.2
      = EulerSanityCheck.loop 3 n 0 mem ∧
    (EulerConverter.toOrientationMatrix (n, 3, mem)).2.1 = n ∧
    (EulerConverter.toOrientationMatrix (n, 3, mem)).2.2.1 = 9 ∧
    ∀ i : Nat, i < n → ∀ j : Fin 9,
      (EulerConverter.toOrientationMatrix (n, 3, mem)).2.2.2 (i * 9 + j)
        = (eu2om ⟨EulerSanityCheck.loop 3 n 0 mem (i * 3),
            EulerSanityCheck.loop 3 n 0 mem (i * 3 + 1),
            EulerSanityCheck.loop 3 n 0 mem (i * 3 + 2)⟩).get j := by
  have hin : (EulerConverter.toOrientationMatrix (n, 3, mem)).1.2.2
      = EulerSanityCheck.loop 3 n 0 mem := by
    show EulerSanityCheck.loop 3 (n - 0) (0 * 3) mem = _
    rw [Nat.sub_zero, Nat.zero_mul]
  refine ⟨rfl, rfl, hin, rfl, rfl, ?_⟩
  intro i hi j
  have h := (convert_loop_spec 3 9 3
    (fun e => (List.finRange 9).map (eu2om ⟨e.getD 0 0, e.getD 1 0, e.getD 2 0⟩).get)
    (EulerSanityCheck.loop 3 n 0 mem) n 0 0 (fun _ => 0.0)).1 i j hi j.isLt
  have e : (EulerConverter.toOrientationMatrix (n, 3, mem)).2.2.2
      = ConvertRepresentation.loop (OC_CONVERTOR_FUNCTOR 3 9
          (fun e => (List.finRange 9).map (eu2om ⟨e.getD 0 0, e.getD 1 0, e.getD 2 0⟩).get))
          (EulerSanityCheck.loop 3 n 0 mem) 3 9 n 0 0 (fun _ => 0.0) := rfl
  rw [e]
  rw [Nat.zero_add] at h
  rw [h]
  simp only [Nat.zero_add, List.range, List.range.loop, List.map, List.getD_cons_zero,
    List.getD_cons_succ, Nat.add_zero]
  fin_cases j <;> rfl

/-! ### Claims on the batch conversion -/

/-- C27 on the code: the one-tuple array `(0, pi, 0)` is valid for `eu_check`, whose
range for `Phi` is `[0, pi]`; the sanity check that `toOrientationMatrix` runs first
rewrites `Phi = pi` to `fmod(pi, pi) = 0`, and entry 4 of the output tuple is `1`, while
entry 4 of `eu2om` of the input tuple is `-1`: the half turn is returned as the identity. -/
theorem toOrientationMatrix_half_turn_lost :
    ((0 : ℝ) ≤ 0 ∧ (0 : ℝ) ≤ 2 * Real.pi) ∧ ((0 : ℝ) ≤ Real.pi ∧ Real.pi ≤ Real.pi) ∧
    (EulerConverter.toOrientationMatrix
      (1, 3, fun p => if p = 1 then Real.pi else 0)).2.2.2 4 = 1 ∧
    (eu2om ⟨0, Real.pi, 0⟩).get 4 = -1 ∧
    (EulerConverter.toOrientationMatrix
      (1, 3, fun p => if p = 1 then Real.pi else 0)).2.2.2 4
        ≠ (eu2om ⟨0, Real.pi, 0⟩).get 4 := by
  have hpi := Real.pi_pos
  suffices hs : (EulerConverter.toOrientationMatrix
      (1, 3, fun p => if p = 1 then Real.pi else 0)).2.2.2 4 = 1 ∧
      (eu2om ⟨0, Real.pi, 0⟩).get 4 = -1 by
    refine ⟨⟨le_refl _, by positivity⟩, ⟨hpi.le, le_refl _⟩, hs.1, hs.2, ?_⟩
    rw [hs.1, hs.2]
    norm_num
  refine ⟨?_, ?_⟩
  · have h := (toOrientationMatrix_spec 1 (fun p => if p = 1 then Real.pi else 0)).2.2.2.2.2
      0 (by decide) 4
    obtain ⟨s0, s1, s2⟩ := (sanityCheck_loop_spec 1 0
      (fun p => if p = 1 then Real.pi else 0)).1 0 (by decide)
    have v0 := (sanityCheck_value (by unfold k_2PiD; positivity : (0 : ℝ) < k_2PiD)
      (le_refl (0 : ℝ))).1 (by unfold k_2PiD; positivity)
    have v1 := (sanityCheck_value (by unfold k_PiD; exact hpi : (0 : ℝ) < k_PiD)
      (by unfold k_PiD; exact hpi.le : (0 : ℝ) ≤ k_PiD)).2 rfl
    simp only [Nat.zero_mul, Nat.zero_add, Nat.add_zero, if_true, if_false,
      show ¬ (0 = 1) by decide, show ¬ (2 = 1) by decide] at s0 s1 s2
    rw [v0] at s0 s2
    unfold k_PiD at v1
    unfold k_PiD at s1
    rw [v1] at s1
    simp only [Nat.zero_mul, Nat.zero_add] at h
    rw [s0, s1, s2] at h
    rw [show (4 : Nat) = ((4 : Fin 9) : Nat) from rfl, h]
    show chop (14073749.0 / 140737488355328.0) (-Real.sin 0 * Real.sin 0 + Real.cos 0 * Real.cos 0 * Real.cos 0) = 1
    unfold chop
    norm_num
  · show chop (14073749.0 / 140737488355328.0) (-Real.sin 0 * Real.sin 0 + Real.cos 0 * Real.cos 0 * Real.cos Real.pi)
      = -1
    unfold chop
    norm_num

/-- Away from `Phi = pi` the batch conversion is the conversion of each tuple: for every
array of Euler triples with `phi1, phi2 ∈ [0, 2 pi]` and `Phi ∈ [0, pi)`, the output of
`EulerConverter::toOrientationMatrix` has as many tuples as the input and 9 components per
tuple, and its tuple `i` is `eu2om` of input tuple `i`. -/
theorem toOrientationMatrix_per_tuple (n : Nat) (mem : Nat → ℝ)
    (h : ∀ i : Nat, i < n → (0 ≤ mem (i * 3) ∧ mem (i * 3) ≤ 2 * Real.pi) ∧
      (0 ≤ mem (i * 3 + 1) ∧ mem (i * 3 + 1) < Real.pi) ∧
      (0 ≤ mem (i * 3 + 2) ∧ mem (i * 3 + 2) ≤ 2 * Real.pi)) :
    (EulerConverter.toOrientationMatrix (n, 3, mem)).2.1 = n ∧
    (EulerConverter.toOrientationMatrix (n, 3, mem)).2.2.1 = 9 ∧
    ∀ i : Nat, i < n → ∀ j : Fin 9,
      (EulerConverter.toOrientationMatrix (n, 3, mem)).2.2.2 (i * 9 + j)
        = (eu2om ⟨mem (i * 3), mem (i * 3 + 1), mem (i * 3 + 2)⟩).get j := by
  obtain ⟨-, -, -, e1, e2, e3⟩ := toOrientationMatrix_spec n mem
  refine ⟨e1, e2, ?_⟩
  intro i hi j
  rw [e3 i hi j]
  obtain ⟨⟨a0, a1⟩, ⟨b0, b1⟩, ⟨c0, c1⟩⟩ := h i hi
  obtain ⟨s0, s1, s2⟩ := (sanityCheck_loop_spec n 0 mem).1 i hi
  simp only [Nat.zero_add] at s0 s1 s2
  have h2 : (0 : ℝ) < k_2PiD := by
    unfold k_2PiD
    positivity
  -- an angle in `[0, 2 pi]` keeps its sine and cosine
  have trig : ∀ x : ℝ, 0 ≤ x → x ≤ 2 * Real.pi →
      Real.cos (if fmod x k_2PiD < 0 then fmod x k_2PiD * -1 else fmod x k_2PiD) = Real.cos x ∧
      Real.sin (if fmod x k_2PiD < 0 then fmod x k_2PiD * -1 else fmod x k_2PiD)
        = Real.sin x := by
    intro x hx0 hx1
    rcases lt_or_eq_of_le hx1 with hlt | heq
    · rw [(sanityCheck_value h2 hx0).1 (by unfold k_2PiD; exact hlt)]
      exact ⟨rfl, rfl⟩
    · rw [(sanityCheck_value h2 hx0).2 (by unfold k_2PiD; exact heq), heq]
      simp
  obtain ⟨ta, tb⟩ := trig _ a0 a1
  obtain ⟨tc, td⟩ := trig _ c0 c1
  have hb := (sanityCheck_value (by unfold k_PiD; exact Real.pi_pos : (0 : ℝ) < k_PiD) b0).1
    (by unfold k_PiD; exact b1)
  rw [s0, s1, s2, hb]
  unfold eu2om
  simp only [ta, tb, tc, td]

/-- C28 as stated fails on the code: the sanity check that every conversion method of
`EulerConverter` runs first rewrites its input in place.  In the one-tuple array
`(-1, 0, 0)` the first value becomes `1`, and in the one-tuple array `(0, pi, 0)`, valid
for `eu_check`, the second value becomes `0`. -/
theorem batch_conversion_input_unchanged_counterexample :
    (EulerConverter.toOrientationMatrix (1, 3, fun p => if p = 0 then -1 else 0)).1.2.2 0
      ≠ (fun p : Nat => if p = 0 then (-1 : ℝ) else 0) 0 ∧
    (EulerConverter.toOrientationMatrix (1, 3, fun p => if p = 1 then Real.pi else 0)).1.2.2 1
      ≠ (fun p : Nat => if p = 1 then Real.pi else 0) 1 := by
  have hpi := Real.pi_pos
  constructor
  · rw [(toOrientationMatrix_spec 1 _).2.2.1]
    obtain ⟨s0, -, -⟩ := (sanityCheck_loop_spec 1 0
      (fun p => if p = 0 then (-1 : ℝ) else 0)).1 0 (by decide)
    simp only [Nat.zero_mul, Nat.zero_add, if_true] at s0
    have hf : fmod (-1) k_2PiD = -1 := by
      unfold fmod k_2PiD
      have h1 : ¬ (0 : ℝ) ≤ -1 / (2 * Real.pi) := by
        rw [not_le]
        exact div_neg_of_neg_of_pos (by norm_num) (by positivity)
      have h2 : ⌈(-1 : ℝ) / (2 * Real.pi)⌉ = 0 := by
        rw [Int.ceil_eq_iff]
        constructor
        · have : (1 : ℝ) / (2 * Real.pi) < 1 := by
            rw [div_lt_one (by positivity)]
            linarith [Real.pi_gt_three]
          simp only [Int.cast_zero, zero_sub]
          rw [neg_div]
          linarith
        · simp only [Int.cast_zero]
          exact (div_neg_of_neg_of_pos (by norm_num) (by positivity)).le
      rw [if_neg h1, h2]
      simp
    rw [hf] at s0
    rw [s0]
    norm_num
  · rw [(toOrientationMatrix_spec 1 _).2.2.1]
    obtain ⟨-, s1, -⟩ := (sanityCheck_loop_spec 1 0
      (fun p => if p = 1 then Real.pi else 0)).1 0 (by decide)
    simp only [Nat.zero_mul, Nat.zero_add, if_true] at s1
    have v1 := (sanityCheck_value (by unfold k_PiD; exact hpi : (0 : ℝ) < k_PiD)
      (by unfold k_PiD; exact hpi.le : (0 : ℝ) ≤ k_PiD)).2 rfl
    unfold k_PiD at v1
    unfold k_PiD at s1
    rw [v1] at s1
    rw [s1]
    simp only [if_true]
    exact hpi.ne

/-- C28 as amended: for every array of Euler triples with `phi1, phi2 ∈ [0, 2 pi)` and
`Phi ∈ [0, pi)`, a conversion method of `EulerConverter`, whatever its functor and output
stride, leaves the input array as it was: the same number of tuples and of components, and
every value unchanged. -/
theorem batch_conversion_input_unchanged (O : Nat)
    (F : (Nat → ℝ) → Nat → (Nat → ℝ) → Nat → (Nat → ℝ)) (n : Nat) (mem : Nat → ℝ)
    (h : ∀ i : Nat, i < n → (0 ≤ mem (i * 3) ∧ mem (i * 3) < 2 * Real.pi) ∧
      (0 ≤ mem (i * 3 + 1) ∧ mem (i * 3 + 1) < Real.pi) ∧
      (0 ≤ mem (i * 3 + 2) ∧ mem (i * 3 + 2) < 2 * Real.pi)) :
    (EulerConverter.OC_CONVERT_BODY O F (n, 3, mem)).1 = (n, 3, mem) := by
  have hin : (EulerConverter.OC_CONVERT_BODY O F (n, 3, mem)).1
      = (n, 3, EulerSanityCheck.loop 3 n 0 mem) := by
    show (n, 3, EulerSanityCheck.loop 3 (n - 0) (0 * 3) mem) = _
    rw [Nat.sub_zero, Nat.zero_mul]
  rw [hin]
  have h2 : (0 : ℝ) < k_2PiD := by
    unfold k_2PiD
    positivity
  have h1 : (0 : ℝ) < k_PiD := by
    unfold k_PiD
    exact Real.pi_pos
  have hm : EulerSanityCheck.loop 3 n 0 mem = mem := by
    funext p
    by_cases hp : p < n * 3
    · obtain ⟨⟨a0, a1⟩, ⟨b0, b1⟩, ⟨c0, c1⟩⟩ := h (p / 3) (by omega)
      obtain ⟨s0, s1, s2⟩ := (sanityCheck_loop_spec n 0 mem).1 (p / 3) (by omega)
      simp only [Nat.zero_add] at s0 s1 s2
      rw [(sanityCheck_value h2 a0).1 (by unfold k_2PiD; exact a1)] at s0
      rw [(sanityCheck_value h1 b0).1 (by unfold k_PiD; exact b1)] at s1
      rw [(sanityCheck_value h2 c0).1 (by unfold k_2PiD; exact c1)] at s2
      have hcase : p = p / 3 * 3 ∨ p = p / 3 * 3 + 1 ∨ p = p / 3 * 3 + 2 := by omega
      rcases hcase with e | e | e
      · rw [e]
        exact s0
      · rw [e]
        exact s1
      · rw [e]
        exact s2
    · exact (sanityCheck_loop_spec n 0 mem).2 p (Or.inr (by omega))
  rw [hm]

/-- C28 as amended, for `toOrientationMatrix` at the array that holds the single triple
`(0, 0, 0)`. -/
theorem batch_conversion_input_unchanged_witness :
    (EulerConverter.OC_CONVERT_BODY 9 Convertors.Eu2Om (1, 3, fun _ => 0)).1
      = (1, 3, fun _ => 0) :=
  batch_conversion_input_unchanged 9 Convertors.Eu2Om 1 (fun _ => 0) (fun _ _ =>
    ⟨⟨le_refl _, by positivity⟩, ⟨le_refl _, Real.pi_pos⟩, ⟨le_refl _, by positivity⟩⟩)

/-- C29: when the functor and the output array have the same stride `O`,
`ConvertRepresentation::convert(start, end)` writes exactly the output tuples `i` with
`start ≤ i < end`, each the conversion of input tuple `i` alone, and leaves every other
output value as it was; so running `convert` on a family of chunks that covers `[0, n)`
and stays inside it, in the order of any list, gives the output of `convert(0, n)`.  Every
partition of `[0, n)` into contiguous chunks is such a family, in each of its orders. -/
theorem convert_writes_own_tuples (I O S : Nat) (method : List ℝ → List ℝ)
    (inMem outMem : Nat → ℝ) :
    (∀ start stop : Nat,
      (∀ i j : Nat, start ≤ i → i < stop → j < O →
        ConvertRepresentation.convert (OC_CONVERTOR_FUNCTOR I O method) inMem S O start stop
            outMem (i * O + j)
          = (method ((List.range I).map fun t => inMem (i * S + t))).getD j 0) ∧
      (∀ p : Nat, p < start * O ∨ stop * O ≤ p →
        ConvertRepresentation.convert (OC_CONVERTOR_FUNCTOR I O method) inMem S O start stop
            outMem p = outMem p)) ∧
    (∀ (chunks : List (Nat × Nat)) (n : Nat),
      (∀ i : Nat, i < n → ∃ c ∈ chunks, c.1 ≤ i ∧ i < c.2) → (∀ c ∈ chunks, c.2 ≤ n) →
      chunks.foldl (fun out c => ConvertRepresentation.convert
          (OC_CONVERTOR_FUNCTOR I O method) inMem S O c.1 c.2 out) outMem
        = ConvertRepresentation.convert (OC_CONVERTOR_FUNCTOR I O method) inMem S O 0 n
            outMem) := by
  -- the two facts about one call, for every output memory
  have one : ∀ (out : Nat → ℝ) (start stop : Nat),
      (∀ i j : Nat, start ≤ i → i < stop → j < O →
        ConvertRepresentation.convert (OC_CONVERTOR_FUNCTOR I O method) inMem S O start stop
            out (i * O + j)
          = (method ((List.range I).map fun t => inMem (i * S + t))).getD j 0) ∧
      (∀ p : Nat, p < start * O ∨ stop * O ≤ p →
        ConvertRepresentation.convert (OC_CONVERTOR_FUNCTOR I O method) inMem S O start stop
            out p = out p) := by
    intro out start stop
    obtain ⟨l1, l2⟩ := convert_loop_spec I O S method inMem (stop - start) (start * S)
      (start * O) out
    constructor
    · intro i j h1 h2 hj
      have e1 : start * O + (i - start) * O = i * O := by
        rw [← Nat.add_mul, Nat.add_sub_cancel' h1]
      have e2 : start * S + (i - start) * S = i * S := by
        rw [← Nat.add_mul, Nat.add_sub_cancel' h1]
      have := l1 (i - start) j (by omega) hj
      rw [e1, e2] at this
      exact this
    · intro p hp
      apply l2
      rcases hp with hp | hp
      · exact Or.inl hp
      · by_cases hs : start ≤ stop
        · right
          rw [← Nat.add_mul, Nat.add_sub_cancel' hs]
          exact hp
        · have : stop - start = 0 := by omega
          rw [this, Nat.zero_mul, Nat.add_zero]
          exact Nat.lt_or_ge p (start * O)
  -- one call, value by value
  have single : ∀ (out : Nat → ℝ) (start stop p : Nat),
      ConvertRepresentation.convert (OC_CONVERTOR_FUNCTOR I O method) inMem S O start stop
          out p
        = if start * O ≤ p ∧ p < stop * O then
            (method ((List.range I).map fun t => inMem (p / O * S + t))).getD (p % O) 0
          else out p := by
    intro out start stop p
    obtain ⟨o1, o2⟩ := one out start stop
    by_cases h : start * O ≤ p ∧ p < stop * O
    · rw [if_pos h]
      have hO : 0 < O := by
        rcases Nat.eq_zero_or_pos O with h0 | h0
        · rw [h0, Nat.mul_zero] at h
          exact absurd h.2 (Nat.not_lt_zero p)
        · exact h0
      have := o1 (p / O) (p % O) ((Nat.le_div_iff_mul_le hO).mpr h.1)
        ((Nat.div_lt_iff_lt_mul hO).mpr h.2) (Nat.mod_lt p hO)
      rw [Nat.div_add_mod'] at this
      exact this
    · rw [if_neg h]
      apply o2
      by_cases h1 : start * O ≤ p
      · exact Or.inr (not_lt.mp fun h2 => h ⟨h1, h2⟩)
      · exact Or.inl (not_le.mp h1)
  -- a list of calls, value by value
  have many : ∀ (chunks : List (Nat × Nat)) (out : Nat → ℝ) (p : Nat),
      chunks.foldl (fun out c => ConvertRepresentation.convert
          (OC_CONVERTOR_FUNCTOR I O method) inMem S O c.1 c.2 out) out p
        = if ∃ c ∈ chunks, c.1 * O ≤ p ∧ p < c.2 * O then
            (method ((List.range I).map fun t => inMem (p / O * S + t))).getD (p % O) 0
          else out p := by
    intro chunks
    induction chunks with
    | nil =>
      intro out p
      rw [if_neg (by simp)]
      rfl
    | cons c cs ih =>
      intro out p
      rw [List.foldl_cons, ih, single]
      by_cases h1 : ∃ d ∈ cs, d.1 * O ≤ p ∧ p < d.2 * O
      · obtain ⟨d, hd, hr⟩ := h1
        rw [if_pos ⟨d, hd, hr⟩, if_pos ⟨d, List.mem_cons_of_mem c hd, hr⟩]
      · rw [if_neg h1]
        by_cases h2 : c.1 * O ≤ p ∧ p < c.2 * O
        · rw [if_pos h2, if_pos ⟨c, List.mem_cons_self c cs, h2⟩]
        · rw [if_neg h2, if_neg]
          rintro ⟨d, hd, hr⟩
          rcases List.mem_cons.mp hd with rfl | hd
          · exact h2 hr
          · exact h1 ⟨d, hd, hr⟩
  refine ⟨one outMem, ?_⟩
  intro chunks n hcover hin
  funext p
  rw [many, single]
  by_cases h : p < n * O
  · have hO : 0 < O := by
      rcases Nat.eq_zero_or_pos O with h0 | h0
      · rw [h0, Nat.mul_zero] at h
        exact absurd h (Nat.not_lt_zero p)
      · exact h0
    obtain ⟨c, hc, c1, c2⟩ := hcover (p / O) ((Nat.div_lt_iff_lt_mul hO).mpr h)
    have hp := Nat.div_add_mod' p O
    have hm := Nat.mod_lt p hO
    have g1 : c.1 * O ≤ p := by
      have := Nat.mul_le_mul_right O c1
      omega
    have g2 : p < c.2 * O := by
      have := Nat.mul_le_mul_right O (Nat.succ_le_of_lt c2)
      rw [Nat.succ_mul] at this
      omega
    rw [if_pos ⟨c, hc, g1, g2⟩, if_pos ⟨by omega, h⟩]
  · rw [if_neg, if_neg]
    · exact fun hh => h hh.2
    · rintro ⟨c, hc, -, c2⟩
      have := Nat.mul_le_mul_right O (hin c hc)
      omega

/-- C29 at the functor `Eu2Om`: the chunks `[1, 2)` and `[0, 1)` cover `[0, 2)` and stay
inside it, and run in this order on an array of two triples they give the output of
`convert(0, 2)`. -/
theorem convert_writes_own_tuples_witness :
    (∀ i : Nat, i < 2 → ∃ c ∈ ([(1, 2), (0, 1)] : List (Nat × Nat)), c.1 ≤ i ∧ i < c.2) ∧
    (∀ c ∈ ([(1, 2), (0, 1)] : List (Nat × Nat)), c.2 ≤ 2) ∧
    ([(1, 2), (0, 1)] : List (Nat × Nat)).foldl (fun out c => ConvertRepresentation.convert
        (OC_CONVERTOR_FUNCTOR 3 9 fun e =>
          (List.finRange 9).map (eu2om ⟨e.getD 0 0, e.getD 1 0, e.getD 2 0⟩).get)
        (fun _ => 0) 3 9 c.1 c.2 out) (fun _ => 0)
      = ConvertRepresentation.convert
        (OC_CONVERTOR_FUNCTOR 3 9 fun e =>
          (List.finRange 9).map (eu2om ⟨e.getD 0 0, e.getD 1 0, e.getD 2 0⟩).get)
        (fun _ => 0) 3 9 0 2 (fun _ => 0) :=
  ⟨by decide, by decide,
    (convert_writes_own_tuples 3 9 3 _ (fun _ => 0) (fun _ => 0)).2 [(1, 2), (0, 1)] 2
      (by decide) (by decide)⟩

/-- C30: `GetComponentCounts` returns `[3, 9, 4, 4, 4, 3, 3]` in the order of
`GetOrientationTypes`, that is Euler 3, OrientationMatrix 9, Quaternion 4, AxisAngle 4,
Rodrigues 4, Homochoric 3 and Cubochoric 3; there are 42 conversion functors, one for each
ordered pair of different representations, and each is declared with the count of its
source as input stride and the count of its target as output stride. -/
theorem component_counts_match_strides :
    OrientationConverter.GetComponentCounts = [3, 9, 4, 4, 4, 3, 3] ∧
    OrientationConverter.GetOrientationTypes.zip OrientationConverter.GetComponentCounts
      = [(.Euler, 3), (.OrientationMatrix, 9), (.Quaternion, 4), (.AxisAngle, 4),
         (.Rodrigues, 4), (.Homochoric, 3), (.Cubochoric, 3)] ∧
    Convertors.functors.length = 42 ∧
    (Convertors.functors.map fun f => (f.2.1, f.2.2.1)).Nodup ∧
    ∀ f ∈ Convertors.functors, f.2.1 ≠ f.2.2.1 ∧
      (OrientationConverter.GetOrientationTypes.zip
        OrientationConverter.GetComponentCounts).lookup f.2.1 = some f.2.2.2.1 ∧
      (OrientationConverter.GetOrientationTypes.zip
        OrientationConverter.GetComponentCounts).lookup f.2.2.1 = some f.2.2.2.2 := by
  decide

end BatchConversion
